import Mathlib

/-!
# Word segmentation of `Ui::Text::WordParser`

A shallow embedding of `src/ui/text/text_word_parser.cpp`: the line-break
helper, `addNextCluster`, the main loop of `WordParser::parse`, the three
`push*` members and the two predicates `isLineBreak` / `isSpaceBreak`.

Conventions of the embedding.

* C arrays reached through a pointer (`attributes`, `logClusters`, the glyph
  arrays, the characters of the text) are total functions on `Nat`.
* `QFixed` values are `Int` (the raw fixed-point value).
* The shaping engine is an external collaborator.  What the parser reads
  from it is collected in `Engine`: the item list, the character attribute
  table (absent when `e.attributes()` returns null), the cluster map, the
  shaped glyphs of every item and the glyph bearings of the font engines.
* A `uint16` parameter receives its argument modulo `2 ^ 16`.
-/

namespace Ui.Text

/-! ## Data supplied by the text and by the shaping engine -/

/-- Per-character flags of `QCharAttributes` that the parser reads. -/
structure QCharAttributes where
  graphemeBoundary : Bool
  lineBreak : Bool
  whiteSpace : Bool
deriving DecidableEq, Repr

/-- Values of `QScriptAnalysis::flags` that the parser tells apart; every
other value is ordinary text for it. -/
inductive Flags where
  | Text
  | LineOrParagraphSeparator
  | Object
deriving DecidableEq, Repr

/-- Per-glyph flags of `QGlyphAttributes` that `addNextCluster` reads. -/
structure QGlyphAttributes where
  clusterStart : Bool
  dontPrint : Bool
deriving DecidableEq, Repr

/-- Shaped glyphs of one item (`e.shapedGlyphs(&si)`). -/
structure QGlyphLayout where
  numGlyphs : Nat
  glyphs : Nat → Nat
  advances : Nat → Int
  attributes : Nat → QGlyphAttributes

/-- One shaping item as the parser meets it.  `num_glyphs` is the value
found when the loop enters the item (`0`: not shaped yet, `shapeGetBlock`
runs).  The other fields are what the engine answers once the item is
shaped: `shaped_num_glyphs` is `si.num_glyphs` from then on, `width` the
declared width of an object, `glyphs` the result of `shapedGlyphs`,
`fontEngine` the handle returned by `e.fontEngine(si)`, and
`attributesAfterShape` tells whether `e.attributes()` is still non-null
right after `shapeGetBlock(item)`. -/
structure QScriptItem where
  position : Nat
  flags : Flags
  num_glyphs : Nat
  shaped_num_glyphs : Nat
  width : Int
  glyphs : QGlyphLayout
  fontEngine : Nat
  attributesAfterShape : Bool

/-- Everything `WordParser::parse` reads: the text (`size` code units,
`text i` the unit at offset `i`), `_t->_minResizeWidth`, and the wrapped
engine.  `attributes` is the answer of the first `e.attributes()` call,
`logClusters` the array behind `layoutData->logClustersPtr`,
`blockIndex` the function `_engine.blockIndex`, and
`glyphBearing engine glyph` the right bearing that
`getGlyphBearings` reports, already converted by `QFixed::fromReal`. -/
structure Engine where
  size : Nat
  text : Nat → Nat
  minResizeWidth : Int
  attributes : Option (Nat → QCharAttributes)
  items : List QScriptItem
  logClusters : Nat → Nat
  blockIndex : Nat → Int
  glyphBearing : Nat → Nat → Int

/-- Code unit of `QChar::Nbsp`. -/
def Nbsp : Nat := 0x00a0

/-- Code unit of `'/'`. -/
def slashChar : Nat := 0x2f

/-- Code unit of `'.'`. -/
def dotChar : Nat := 0x2e

/-! ## Word records -/

/-- Modelled from the spec: the `Word` record type, whose class declaration
is outside the given sources.  The fields are those of the spec's data
model (`startPosition`, `width`, `rightBearing`, `unfinished`, `isNewline`
with the style-run index) plus the trailing padding that `add_rpadding`
accumulates.  `rbearing` keeps the value handed to the constructor. -/
structure Word where
  position : Nat
  unfinished : Bool
  width : Int
  rbearing : Int
  newline : Bool
  newlineBlockIndex : Int
  rpadding : Int
deriving DecidableEq, Repr

/-- Conversion of an `int` argument to a `uint16` parameter. -/
def toUint16 (position : Nat) : Nat := position % 65536

/-- Constructor `Word(position, unfinished, width, rbearing)`. -/
def Word.content (position : Nat) (unfinished : Bool) (width rbearing : Int) : Word :=
  { position := position, unfinished := unfinished, width := width,
    rbearing := rbearing, newline := false, newlineBlockIndex := 0, rpadding := 0 }

/-- Constructor `Word(position, newlineBlockIndex)`. -/
def Word.newlineAt (position : Nat) (newlineBlockIndex : Int) : Word :=
  { position := position, unfinished := false, width := 0,
    rbearing := 0, newline := true, newlineBlockIndex := newlineBlockIndex, rpadding := 0 }

/-- Member `Word::add_rpadding`. -/
def Word.add_rpadding (w : Word) (padding : Int) : Word :=
  { w with rpadding := w.rpadding + padding }

/-- Effect of `_tWords.back().add_rpadding(padding)` on the sequence. -/
def backAddRpadding : List Word → Int → List Word
  | [], _ => []
  | [w], padding => [w.add_rpadding padding]
  | w :: w2 :: ws, padding => w :: backAddRpadding (w2 :: ws) padding

/-- Member `WordParser::pushFinishedWord`. -/
def pushFinishedWord (tWords : List Word) (position : Nat) (width rbearing : Int) :
    List Word :=
  tWords ++ [Word.content (toUint16 position) false width rbearing]

/-- Member `WordParser::pushUnfinishedWord`. -/
def pushUnfinishedWord (tWords : List Word) (position : Nat) (width rbearing : Int) :
    List Word :=
  tWords ++ [Word.content (toUint16 position) true width rbearing]

/-- Member `WordParser::pushNewline`. -/
def pushNewline (tWords : List Word) (position : Nat) (newlineBlockIndex : Int) :
    List Word :=
  tWords ++ [Word.newlineAt (toUint16 position) newlineBlockIndex]

/-! ## The two predicates -/

/-- Member `WordParser::isLineBreak`. -/
def isLineBreak (e : Engine) (attributes : Nat → QCharAttributes) (index : Nat) : Bool :=
  (attributes index).lineBreak
    && (decide (index ≤ 0)
      || (e.text (index - 1) != slashChar && e.text (index - 1) != dotChar))

/-- Member `WordParser::isSpaceBreak`. -/
def isSpaceBreak (e : Engine) (attributes : Nat → QCharAttributes) (index : Nat) : Bool :=
  (attributes index).whiteSpace && (e.text index != Nbsp)

/-! ## Line-break helper -/

/-- Struct `ScriptLine`. -/
structure ScriptLine where
  length : Int
  textWidth : Int
deriving DecidableEq, Repr

/-- Value of a default-constructed `ScriptLine`. -/
def ScriptLine.zero : ScriptLine := { length := 0, textWidth := 0 }

/-- Struct `LineBreakHelper`; `maxGlyphs` is never read and `logClusters`
is the engine's array.  A font-engine pointer is `none` when null. -/
structure LineBreakHelper where
  tmpData : ScriptLine
  spaceData : ScriptLine
  glyphs : QGlyphLayout
  glyphCount : Nat
  currentPosition : Nat
  previousGlyph : Nat
  previousGlyphFontEngine : Option Nat
  rightBearing : Int
  fontEngine : Option Nat
  whiteSpaceOrObject : Bool

/-- Glyph layout of a default-constructed helper. -/
def QGlyphLayout.empty : QGlyphLayout :=
  { numGlyphs := 0, glyphs := fun _ => 0, advances := fun _ => 0,
    attributes := fun _ => { clusterStart := false, dontPrint := false } }

/-- Value of `LineBreakHelper lbh;`. -/
def LineBreakHelper.init : LineBreakHelper :=
  { tmpData := ScriptLine.zero, spaceData := ScriptLine.zero,
    glyphs := QGlyphLayout.empty, glyphCount := 0, currentPosition := 0,
    previousGlyph := 0, previousGlyphFontEngine := none, rightBearing := 0,
    fontEngine := none, whiteSpaceOrObject := true }

/-- Member `LineBreakHelper::currentGlyph`. -/
def LineBreakHelper.currentGlyph (e : Engine) (lbh : LineBreakHelper) : Nat :=
  lbh.glyphs.glyphs (e.logClusters (lbh.currentPosition - 1))

/-- Member `LineBreakHelper::saveCurrentGlyph`. -/
def LineBreakHelper.saveCurrentGlyph (e : Engine) (lbh : LineBreakHelper) :
    LineBreakHelper :=
  if 0 < lbh.currentPosition
      ∧ e.logClusters (lbh.currentPosition - 1) < lbh.glyphs.numGlyphs then
    { lbh with previousGlyph := lbh.currentGlyph e,
               previousGlyphFontEngine := lbh.fontEngine }
  else
    { lbh with previousGlyph := 0, previousGlyphFontEngine := none }

/-- Member `LineBreakHelper::calculateRightBearing(engine, glyph)`: the
stored bearing is `qMin(QFixed::fromReal(rb), QFixed(0))`.  A null engine
is given the bearing `0`. -/
def LineBreakHelper.calculateRightBearingOf (e : Engine) (lbh : LineBreakHelper)
    (engine : Option Nat) (glyph : Nat) : LineBreakHelper :=
  match engine with
  | some fe => { lbh with rightBearing := min (e.glyphBearing fe glyph) 0 }
  | none => { lbh with rightBearing := 0 }

/-- Member `LineBreakHelper::calculateRightBearing()`. -/
def LineBreakHelper.calculateRightBearing (e : Engine) (lbh : LineBreakHelper) :
    LineBreakHelper :=
  if 0 < lbh.currentPosition
      ∧ e.logClusters (lbh.currentPosition - 1) < lbh.glyphs.numGlyphs
      ∧ lbh.whiteSpaceOrObject = false then
    lbh.calculateRightBearingOf e lbh.fontEngine (lbh.currentGlyph e)
  else
    { lbh with rightBearing := 0 }

/-- Member `LineBreakHelper::calculateRightBearingForPreviousGlyph`. -/
def LineBreakHelper.calculateRightBearingForPreviousGlyph (e : Engine)
    (lbh : LineBreakHelper) : LineBreakHelper :=
  if 0 < lbh.previousGlyph then
    lbh.calculateRightBearingOf e lbh.previousGlyphFontEngine lbh.previousGlyph
  else
    { lbh with rightBearing := 0 }

/-- Member `LineBreakHelper::negativeRightBearing`. -/
def LineBreakHelper.negativeRightBearing (lbh : LineBreakHelper) : Int :=
  |lbh.rightBearing|

/-! ## `addNextCluster` -/

/-- The test of the first `do … while` of `addNextCluster`, iterated:
from `pos`, skip the characters below `end` that map to `glyphPosition`.
The first argument bounds the iterations by `end - pos`. -/
def skipCluster (logClusters : Nat → Nat) (glyphPosition end_ : Nat) : Nat → Nat → Nat
  | 0, pos => pos
  | fuel + 1, pos =>
    if pos < end_ ∧ logClusters pos = glyphPosition then
      skipCluster logClusters glyphPosition end_ fuel (pos + 1)
    else pos

/-- One pass of the body of the second `do … while` of `addNextCluster`.
The width is a mathematical integer: the value the `QFixed` accumulator
holds as long as the sum stays in its 32-bit range (`addGlyphFixed` is the
same pass with the 32-bit addition). -/
def addGlyph (glyphs : QGlyphLayout) (glyphPosition : Nat) (textWidth : Int) : Int :=
  if (glyphs.attributes glyphPosition).dontPrint then textWidth
  else textWidth + glyphs.advances glyphPosition

/-- The test of the second `do … while` of `addNextCluster`, iterated: add
the glyphs from `glyphPosition` up to the next cluster start or
`num_glyphs`.  The first argument bounds the iterations by
`num_glyphs - glyphPosition`. -/
def restOfCluster (glyphs : QGlyphLayout) (num_glyphs : Nat) :
    Nat → Nat → Int → Nat × Int
  | 0, glyphPosition, textWidth => (glyphPosition, textWidth)
  | fuel + 1, glyphPosition, textWidth =>
    if glyphPosition < num_glyphs
        ∧ (glyphs.attributes glyphPosition).clusterStart = false then
      restOfCluster glyphs num_glyphs fuel (glyphPosition + 1)
        (addGlyph glyphs glyphPosition textWidth)
    else (glyphPosition, textWidth)

/-- Result of `addNextCluster`: the new `pos`, the updated line, the new
`glyphCount`, and the final `glyphPosition` (read by the closing
assertion). -/
structure ClusterResult where
  pos : Nat
  line : ScriptLine
  glyphCount : Nat
  glyphPosition : Nat

/-- Function `addNextCluster`. -/
def addNextCluster (pos end_ : Nat) (line : ScriptLine) (glyphCount : Nat)
    (num_glyphs : Nat) (logClusters : Nat → Nat) (glyphs : QGlyphLayout) :
    ClusterResult :=
  let glyphPosition := logClusters pos
  let pos' := skipCluster logClusters glyphPosition end_ (end_ - (pos + 1)) (pos + 1)
  let r := restOfCluster glyphs num_glyphs (num_glyphs - (glyphPosition + 1))
    (glyphPosition + 1) (addGlyph glyphs glyphPosition line.textWidth)
  { pos := pos',
    line := { length := line.length + ((pos' : Int) - (pos : Int)), textWidth := r.2 },
    glyphCount := glyphCount + 1,
    glyphPosition := r.1 }

/-! ## State of `WordParser::parse` -/

/-- The word sequence `_tWords` and the locals of `WordParser::parse` that
live across iterations of the main loop. -/
structure ParseState where
  tWords : List Word
  lbh : LineBreakHelper
  item : Int
  newItem : Nat
  end_ : Nat
  wordStart : Nat
  addingEachGrapheme : Bool
  lastGraphemeBoundaryPosition : Int
  lastGraphemeBoundaryLine : ScriptLine

/-- Engine call `e.length(item)`: the distance from the item's position to
the next item's position, or to the end of the string for the last item. -/
def Engine.length (e : Engine) (item : Nat) (si : QScriptItem) : Int :=
  (match e.items.get? (item + 1) with
    | some next => (next.position : Int)
    | none => (e.size : Int)) - (si.position : Int)

/-- Value of `current.num_glyphs` once the item has been entered. -/
def QScriptItem.currentNumGlyphs (si : QScriptItem) : Nat :=
  if si.num_glyphs = 0 then si.shaped_num_glyphs else si.num_glyphs

/-- The three assignments that follow every flush of the loop:
`addingEachGrapheme = false; lastGraphemeBoundaryPosition = -1;
lastGraphemeBoundaryLine = ScriptLine();`. -/
def ParseState.resetGrapheme (s : ParseState) : ParseState :=
  { s with addingEachGrapheme := false,
           lastGraphemeBoundaryPosition := -1,
           lastGraphemeBoundaryLine := ScriptLine.zero }

/-- The block that the separator branch, the object branch and the ordinary
branch share word for word: compute the right bearing, push the pending
word as finished, zero `tmpData`, move `wordStart` to the cursor, reset
the grapheme tracking. -/
def ParseState.flushFinished (e : Engine) (s : ParseState) : ParseState :=
  let lbh := s.lbh.calculateRightBearing e
  ParseState.resetGrapheme
    { s with
      tWords := pushFinishedWord s.tWords s.wordStart lbh.tmpData.textWidth
        (-lbh.negativeRightBearing),
      lbh := { lbh with tmpData := ScriptLine.zero },
      wordStart := lbh.currentPosition }

/-- The `if (newItem != item)` block at the top of the loop body.  `none`
is the `return` taken when `e.attributes()` is null after
`shapeGetBlock`. -/
def enterItem (e : Engine) (s : ParseState) (si : QScriptItem) : Option ParseState :=
  if (s.newItem : Int) ≠ s.item then
    if si.num_glyphs = 0 ∧ si.attributesAfterShape = false then none
    else
      some { s with
        item := (s.newItem : Int),
        end_ := ((si.position : Int) + e.length s.newItem si).toNat,
        lbh := { s.lbh with currentPosition := si.position,
                            glyphs := si.glyphs,
                            fontEngine := some si.fontEngine } }
  else some s

/-- The lambda `atSpaceBreak`, from `index`; the first argument bounds the
iterations by `end - index`. -/
def atSpaceBreakFrom (e : Engine) (attributes : Nat → QCharAttributes) (end_ : Nat) :
    Nat → Nat → Bool
  | 0, _ => false
  | fuel + 1, index =>
    if index < end_ then
      if (attributes index).whiteSpace = false then false
      else if isSpaceBreak e attributes index then true
      else atSpaceBreakFrom e attributes end_ fuel (index + 1)
    else false

/-- The lambda `atSpaceBreak` evaluated in a state. -/
def atSpaceBreak (e : Engine) (attributes : Nat → QCharAttributes) (s : ParseState) :
    Bool :=
  atSpaceBreakFrom e attributes s.end_ (s.end_ - s.lbh.currentPosition)
    s.lbh.currentPosition

/-! ## The four branches of the loop body -/

/-- The block `if (wordStart < lbh.currentPosition) { … }` that opens the
separator branch and the object branch: flush the pending word. -/
def ParseState.flushPending (e : Engine) (s : ParseState) : ParseState :=
  if s.wordStart < s.lbh.currentPosition then s.flushFinished e else s

/-- Branch `flags == QScriptAnalysis::LineOrParagraphSeparator`. -/
def separatorBranch (e : Engine) (s : ParseState) : ParseState :=
  let s1 := s.flushPending e
  let lbh := { s1.lbh with
    whiteSpaceOrObject := true,
    tmpData := { s1.lbh.tmpData with length := s1.lbh.tmpData.length + 1 },
    glyphCount := s1.lbh.glyphCount + 1 }
  ParseState.resetGrapheme
    { s1 with
      newItem := s1.newItem + 1,
      tWords := pushNewline s1.tWords s1.wordStart (e.blockIndex s1.wordStart),
      lbh := { lbh with tmpData := ScriptLine.zero },
      wordStart := s1.end_ }

/-- Branch `flags == QScriptAnalysis::Object`. -/
def objectBranch (e : Engine) (s : ParseState) (current : QScriptItem) : ParseState :=
  let s1 := s.flushPending e
  let lbh := { s1.lbh with
    whiteSpaceOrObject := true,
    tmpData := { length := s1.lbh.tmpData.length + 1,
                 textWidth := s1.lbh.tmpData.textWidth + current.width },
    glyphCount := s1.lbh.glyphCount + 1 }
  let lbh := lbh.calculateRightBearing e
  ParseState.resetGrapheme
    { s1 with
      newItem := s1.newItem + 1,
      tWords := pushFinishedWord s1.tWords s1.wordStart lbh.tmpData.textWidth
        (-lbh.negativeRightBearing),
      lbh := { lbh with tmpData := ScriptLine.zero },
      wordStart := s1.end_ }

/-- The `while` of the space-break branch: clusters are added to
`spaceData` while the cursor is below `end` on a white-space character.
The first argument bounds the iterations by `end - currentPosition`. -/
def spaceLoop (e : Engine) (attributes : Nat → QCharAttributes) (end_ : Nat)
    (current : QScriptItem) : Nat → LineBreakHelper → LineBreakHelper
  | 0, lbh => lbh
  | fuel + 1, lbh =>
    if lbh.currentPosition < end_ ∧ (attributes lbh.currentPosition).whiteSpace = true then
      let r := addNextCluster lbh.currentPosition end_ lbh.spaceData lbh.glyphCount
        current.currentNumGlyphs e.logClusters lbh.glyphs
      spaceLoop e attributes end_ current fuel
        { lbh with currentPosition := r.pos, spaceData := r.line,
                   glyphCount := r.glyphCount }
    else lbh

/-- The block under `if (_tWords.empty())` of the space-break branch: push
the pending word as finished (`tmpData` is left as it is). -/
def ParseState.pushIfEmpty (e : Engine) (s : ParseState) : ParseState :=
  if s.tWords.isEmpty then
    let lbh := s.lbh.calculateRightBearing e
    { s with
      tWords := pushFinishedWord s.tWords s.wordStart lbh.tmpData.textWidth
        (-lbh.negativeRightBearing),
      lbh := lbh }
  else s

/-- The helper after the first two statements of the space-break branch:
`whiteSpaceOrObject = true`, then the `while` over the white space. -/
def spaceScan (e : Engine) (attributes : Nat → QCharAttributes) (s : ParseState)
    (current : QScriptItem) : LineBreakHelper :=
  spaceLoop e attributes s.end_ current (s.end_ - s.lbh.currentPosition)
    { s.lbh with whiteSpaceOrObject := true }

/-- Branch `atSpaceBreak`. -/
def spaceBranch (e : Engine) (attributes : Nat → QCharAttributes) (s : ParseState)
    (current : QScriptItem) : ParseState :=
  let s1 := ParseState.pushIfEmpty e { s with lbh := spaceScan e attributes s current }
  ParseState.resetGrapheme
    { s1 with
      tWords := backAddRpadding s1.tWords s1.lbh.spaceData.textWidth,
      lbh := { s1.lbh with spaceData := ScriptLine.zero },
      wordStart := s1.lbh.currentPosition }

/-- The retroactive cut (the block under
`if (lastGraphemeBoundaryPosition >= 0)`): push the part before the
remembered boundary as unfinished, take it off `tmpData`, restart the word
at the remembered boundary. -/
def ParseState.retroCut (e : Engine) (s : ParseState) : ParseState :=
  let lbh := s.lbh.calculateRightBearingForPreviousGlyph e
  { s with
    tWords := pushUnfinishedWord s.tWords s.wordStart
      s.lastGraphemeBoundaryLine.textWidth (-lbh.negativeRightBearing),
    lbh := { lbh with tmpData :=
      { length := lbh.tmpData.length - s.lastGraphemeBoundaryLine.length,
        textWidth := lbh.tmpData.textWidth - s.lastGraphemeBoundaryLine.textWidth } },
    wordStart := s.lastGraphemeBoundaryPosition.toNat }

/-- The assignment `addingEachGrapheme = true`. -/
def ParseState.forced (s : ParseState) : ParseState :=
  { s with addingEachGrapheme := true }

/-- The block under
`if (!addingEachGrapheme && lbh.tmpData.textWidth > _t->_minResizeWidth)`. -/
def ParseState.enterForcedSplit (e : Engine) (s : ParseState) : ParseState :=
  if s.addingEachGrapheme = false ∧ e.minResizeWidth < s.lbh.tmpData.textWidth then
    ParseState.forced (if 0 ≤ s.lastGraphemeBoundaryPosition then s.retroCut e else s)
  else s

/-- The block under `if (addingEachGrapheme)`: push the pending word as
unfinished, zero `tmpData`, restart the word at the cursor. -/
def ParseState.flushUnfinished (e : Engine) (s : ParseState) : ParseState :=
  let lbh := s.lbh.calculateRightBearing e
  { s with
    tWords := pushUnfinishedWord s.tWords s.wordStart lbh.tmpData.textWidth
      (-lbh.negativeRightBearing),
    lbh := { lbh with tmpData := ScriptLine.zero },
    wordStart := lbh.currentPosition }

/-- The `else` of `if (addingEachGrapheme)`: remember the boundary, the
line state and the current glyph. -/
def ParseState.rememberBoundary (e : Engine) (s : ParseState) : ParseState :=
  { s with
    lastGraphemeBoundaryPosition := (s.lbh.currentPosition : Int),
    lastGraphemeBoundaryLine := s.lbh.tmpData,
    lbh := s.lbh.saveCurrentGlyph e }

/-- One pass of the body of the `do … while` of the ordinary branch after
`addNextCluster` has moved the cursor; the `Bool` tells whether the pass
left through `break`. -/
def ordinaryCheck (e : Engine) (attributes : Nat → QCharAttributes) (s : ParseState) :
    ParseState × Bool :=
  if e.size ≤ s.lbh.currentPosition
      ∨ isSpaceBreak e attributes s.lbh.currentPosition = true
      ∨ isLineBreak e attributes s.lbh.currentPosition = true then
    (s.flushFinished e, true)
  else if (attributes s.lbh.currentPosition).graphemeBoundary = true then
    let s1 := s.enterForcedSplit e
    if s1.addingEachGrapheme = true then (s1.flushUnfinished e, false)
    else (s1.rememberBoundary e, false)
  else (s, false)

/-- The condition under which a pass of the ordinary branch flushes a
finished word and leaves the `do … while`. -/
def breakAt (e : Engine) (attributes : Nat → QCharAttributes) (s : ParseState) : Prop :=
  e.size ≤ s.lbh.currentPosition
    ∨ isSpaceBreak e attributes s.lbh.currentPosition = true
    ∨ isLineBreak e attributes s.lbh.currentPosition = true

/-- The six paths through `ordinaryCheck`, each with the conditions under
which it is taken and the result it gives. -/
inductive CheckCase (e : Engine) (attributes : Nat → QCharAttributes) (s : ParseState) :
    ParseState × Bool → Prop where
  | finished : breakAt e attributes s → CheckCase e attributes s (s.flushFinished e, true)
  | retro : ¬ breakAt e attributes s →
      (attributes s.lbh.currentPosition).graphemeBoundary = true →
      s.addingEachGrapheme = false → e.minResizeWidth < s.lbh.tmpData.textWidth →
      0 ≤ s.lastGraphemeBoundaryPosition →
      CheckCase e attributes s (((s.retroCut e).forced).flushUnfinished e, false)
  | forcedNow : ¬ breakAt e attributes s →
      (attributes s.lbh.currentPosition).graphemeBoundary = true →
      s.addingEachGrapheme = false → e.minResizeWidth < s.lbh.tmpData.textWidth →
      s.lastGraphemeBoundaryPosition < 0 →
      CheckCase e attributes s ((s.forced).flushUnfinished e, false)
  | forced : ¬ breakAt e attributes s →
      (attributes s.lbh.currentPosition).graphemeBoundary = true →
      s.addingEachGrapheme = true →
      CheckCase e attributes s (s.flushUnfinished e, false)
  | remember : ¬ breakAt e attributes s →
      (attributes s.lbh.currentPosition).graphemeBoundary = true →
      s.addingEachGrapheme = false → s.lbh.tmpData.textWidth ≤ e.minResizeWidth →
      CheckCase e attributes s (s.rememberBoundary e, false)
  | skip : ¬ breakAt e attributes s →
      (attributes s.lbh.currentPosition).graphemeBoundary = false →
      CheckCase e attributes s (s, false)

/-- The state after the call of `addNextCluster` that opens a pass of the
ordinary branch: cursor, `tmpData` and `glyphCount` are the ones the call
leaves. -/
def ParseState.afterCluster (e : Engine) (s : ParseState) (current : QScriptItem) :
    ParseState :=
  let r := addNextCluster s.lbh.currentPosition s.end_ s.lbh.tmpData s.lbh.glyphCount
    current.currentNumGlyphs e.logClusters s.lbh.glyphs
  { s with lbh := { s.lbh with currentPosition := r.pos, tmpData := r.line,
                               glyphCount := r.glyphCount } }

/-- One pass of the body of the `do … while` of the ordinary branch. -/
def ordinaryPass (e : Engine) (attributes : Nat → QCharAttributes) (s : ParseState)
    (current : QScriptItem) : ParseState × Bool :=
  ordinaryCheck e attributes (s.afterCluster e current)

/-- The `do … while (lbh.currentPosition < end)` of the ordinary branch.
With first argument `fuel` at most `fuel + 1` passes run; every pass moves
the cursor forward, so `end - currentPosition - 1` is never exceeded. -/
def ordinaryLoop (e : Engine) (attributes : Nat → QCharAttributes)
    (current : QScriptItem) : Nat → ParseState → ParseState
  | 0, s => (ordinaryPass e attributes s current).1
  | fuel + 1, s =>
    let r := ordinaryPass e attributes s current
    if r.2 then r.1
    else if r.1.lbh.currentPosition < r.1.end_ then
      ordinaryLoop e attributes current fuel r.1
    else r.1

/-- The final `else` branch (ordinary content). -/
def ordinaryBranch (e : Engine) (attributes : Nat → QCharAttributes) (s : ParseState)
    (current : QScriptItem) : ParseState :=
  ordinaryLoop e attributes current (s.end_ - s.lbh.currentPosition - 1)
    { s with lbh := { s.lbh with whiteSpaceOrObject := false } }

/-! ## The main loop -/

/-- The `if … else if … else if … else` chain of the loop body, on the
state left by the `if (newItem != item)` block. -/
def branch (e : Engine) (attributes : Nat → QCharAttributes) (s : ParseState)
    (current : QScriptItem) : ParseState :=
  match current.flags with
  | Flags.LineOrParagraphSeparator => separatorBranch e s
  | Flags.Object => objectBranch e s current
  | Flags.Text =>
    if atSpaceBreak e attributes s then spaceBranch e attributes s current
    else ordinaryBranch e attributes s current

/-- The closing statement of the loop body,
`if (lbh.currentPosition == end) newItem = item + 1;`. -/
def ParseState.nextItemAtEnd (s : ParseState) (item : Nat) : ParseState :=
  if s.lbh.currentPosition = s.end_ then { s with newItem := item + 1 } else s

/-- One iteration of the `while (newItem < items.size())` loop, for the
item `si = items[newItem]`; `none` is the `return` on a null attribute
table.  After the `if (newItem != item)` block `item` equals the value
`newItem` had on entry. -/
def iteration (e : Engine) (attributes : Nat → QCharAttributes) (s : ParseState)
    (si : QScriptItem) : Option ParseState :=
  match enterItem e s si with
  | none => none
  | some s0 => some ((branch e attributes s0 si).nextItemAtEnd s0.newItem)

/-- How `parse` was left.  The member function returns nothing; this is a
ghost value of the embedding, not something the caller can read. -/
inductive Exit where
  | completed
  | aborted
deriving DecidableEq, Repr

/-- What `parse` leaves: the word sequence, and the ghost exit kind. -/
structure Outcome where
  words : List Word
  exit : Exit
deriving DecidableEq, Repr

/-- The main loop, at most `fuel` iterations; `none` when the loop has not
ended by then. -/
def parseLoop (e : Engine) (attributes : Nat → QCharAttributes) :
    Nat → ParseState → Option Outcome
  | fuel, s =>
    match e.items.get? s.newItem with
    | none => some { words := s.tWords, exit := Exit.completed }
    | some si =>
      match fuel with
      | 0 => none
      | fuel + 1 =>
        match iteration e attributes s si with
        | none => some { words := s.tWords, exit := Exit.aborted }
        | some s1 => parseLoop e attributes fuel s1

/-- Number of iterations no ending run of the main loop exceeds: the items
are entered in order, and an item of `n` characters is left after at most
`max 1 n` iterations. -/
def iterationBound (size : Nat) : List QScriptItem → Nat
  | [] => 0
  | [si] => max 1 (size - si.position)
  | si :: sj :: rest => max 1 (sj.position - si.position) + iterationBound size (sj :: rest)

/-- The state before the first iteration.  `e.findItem(0)` on a non-empty
string is the index of the item holding offset 0, the first item. -/
def ParseState.init : ParseState :=
  { tWords := [], lbh := LineBreakHelper.init, item := -1, newItem := 0, end_ := 0,
    wordStart := 0, addingEachGrapheme := false, lastGraphemeBoundaryPosition := -1,
    lastGraphemeBoundaryLine := ScriptLine.zero }

/-- Member `WordParser::parse`, run on a word sequence holding `tWords`.
`none` stands for a main loop that does not end. -/
def parse (e : Engine) (tWords : List Word) : Option Outcome :=
  let cleared := tWords.drop tWords.length
  if e.size = 0 then some { words := cleared, exit := Exit.completed }
  else
    match e.attributes with
    | none => some { words := cleared, exit := Exit.aborted }
    | some attributes =>
      parseLoop e attributes (iterationBound e.size e.items)
        { ParseState.init with tWords := cleared }


/-! ## Well-formed shaping items -/

/-- Offset at which item `i` starts; the end of the string past the last
item. -/
def Engine.startOf (e : Engine) (i : Nat) : Nat :=
  match e.items.get? i with
  | some si => si.position
  | none => e.size

/-- The items are non-empty, contiguous and cover the buffer from offset 0:
the first one starts at 0 and every item starts before the next one
(before the end of the string for the last). -/
def Engine.WellFormed (e : Engine) : Prop :=
  e.startOf 0 = 0 ∧ ∀ i, i < e.items.length → e.startOf i < e.startOf (i + 1)

instance (e : Engine) : Decidable e.WellFormed := by
  unfold Engine.WellFormed; infer_instance

/-- Shaping succeeds: the attribute table is there at the first fetch and
after every `shapeGetBlock`. -/
def Engine.ShapingSucceeds (e : Engine) : Prop :=
  e.attributes.isSome = true
    ∧ ∀ si ∈ e.items, si.num_glyphs = 0 → si.attributesAfterShape = true

instance (e : Engine) : Decidable e.ShapingSucceeds := by
  unfold Engine.ShapingSucceeds; infer_instance

/-- The word sequence is in order below the pending word start `p`: every
stored position is below `p`, the positions increase strictly, the first
one is 0, and nothing has been pushed only while `p` is still 0. -/
structure WordsOk (ws : List Word) (p : Nat) : Prop where
  below : ∀ w ∈ ws, w.position < p
  sorted : (ws.map Word.position).Pairwise (· < ·)
  head0 : ∀ w, ws.head? = some w → w.position = 0
  empty0 : ws = [] → p = 0

/-- Position facts that hold inside an item, relative to the cursor: the
cursor and the item end are inside the buffer, the pending word starts at
or before the cursor, the pushed words are in order below it, and, in
normal mode, a remembered grapheme boundary lies after the word start and
not after the cursor. -/
structure Core (e : Engine) (s : ParseState) : Prop where
  cur_le : s.lbh.currentPosition ≤ e.size
  wordStart_le : s.wordStart ≤ s.lbh.currentPosition
  words : WordsOk s.tWords s.wordStart
  boundary : s.addingEachGrapheme = false → 0 ≤ s.lastGraphemeBoundaryPosition →
    (s.wordStart : Int) < s.lastGraphemeBoundaryPosition
      ∧ s.lastGraphemeBoundaryPosition ≤ (s.lbh.currentPosition : Int)

/-- Offset at which the next iteration of the main loop works: the cursor
while the loop stays in an item, the end of the item just left
otherwise. -/
def ParseState.cursor (s : ParseState) : Nat :=
  if (s.newItem : Int) = s.item then s.lbh.currentPosition else s.end_

/-- Position facts that hold between two iterations of the main loop. -/
structure PosInv (e : Engine) (s : ParseState) : Prop where
  newItem_le : s.newItem ≤ e.items.length
  same : (s.newItem : Int) = s.item →
    s.lbh.currentPosition < s.end_ ∧ s.end_ = e.startOf (s.newItem + 1)
      ∧ s.newItem < e.items.length
  other : (s.newItem : Int) ≠ s.item → s.end_ = e.startOf s.newItem
  wordStart_le : s.wordStart ≤ s.cursor
  pending_lt : s.wordStart < s.cursor → s.cursor < e.size
  words : WordsOk s.tWords s.wordStart
  boundary : s.addingEachGrapheme = false → 0 ≤ s.lastGraphemeBoundaryPosition →
    (s.wordStart : Int) < s.lastGraphemeBoundaryPosition
      ∧ s.lastGraphemeBoundaryPosition ≤ (s.cursor : Int)

/-! ## Character ranges implied by the word sequence -/

/-- The ranges `[start_i, start_{i+1})` implied by consecutive start
positions, the last one ending at `size`. -/
def rangesFrom (size : Nat) : List Nat → List (Nat × Nat)
  | [] => []
  | [p] => [(p, size)]
  | p :: q :: rest => (p, q) :: rangesFrom size (q :: rest)

/-- The character ranges of a word sequence over a buffer of `size`
characters. -/
def wordRanges (size : Nat) (ws : List Word) : List (Nat × Nat) :=
  rangesFrom size (ws.map Word.position)

/-- The character offsets of the range `[r.1, r.2)`. -/
def rangeChars (r : Nat × Nat) : List Nat :=
  List.range' r.1 (r.2 - r.1)

/-! ## Shaped width and well-formed cluster maps -/

/-- Advance a glyph adds to a measured width: its advance, or nothing when
the glyph is marked `dontPrint`. -/
def printableAdvance (glyphs : QGlyphLayout) (g : Nat) : Int :=
  if (glyphs.attributes g).dontPrint then 0 else glyphs.advances g

/-- Shaped width of the glyphs `a ≤ g < b`: the sum of the advances of the
printable ones. -/
def glyphsWidth (glyphs : QGlyphLayout) (a b : Nat) : Int :=
  ((List.range' a (b - a)).map (printableAdvance glyphs)).sum

/-- Glyph at which the character offset `q` of an item ending at `b`
starts: `logClusters[q]` inside the item, `num_glyphs` at its end. -/
def glyphAt (logClusters : Nat → Nat) (num_glyphs b q : Nat) : Nat :=
  if q < b then logClusters q else num_glyphs

/-- The cluster map of an item over `[a, b)` with `n` glyphs is well formed:
it is non-decreasing, stays below `n`, sends every character to a glyph
marked `clusterStart`, and every glyph marked `clusterStart` is the image
of a character of the item. -/
structure ClusterMapOk (logClusters : Nat → Nat) (glyphs : QGlyphLayout)
    (n a b : Nat) : Prop where
  mono : ∀ p q, a ≤ p → p ≤ q → q < b → logClusters p ≤ logClusters q
  lt : ∀ p, a ≤ p → p < b → logClusters p < n
  start : ∀ p, a ≤ p → p < b → (glyphs.attributes (logClusters p)).clusterStart = true
  onto : ∀ g, g < n → (glyphs.attributes g).clusterStart = true →
    ∃ p, a ≤ p ∧ p < b ∧ logClusters p = g

/-- The characters strictly between `p0` and `t` continue one unbroken
word that stays under the width threshold: none of these offsets is the
end of the text, a space break or an accepted line break, and at each of
them that is a grapheme boundary the width measured so far (`w0` before
`p0`, then the glyphs from the one of `p0`) is not above
`minResizeWidth`. -/
structure PlainRun (e : Engine) (attributes : Nat → QCharAttributes)
    (glyphs : QGlyphLayout) (w0 : Int) (p0 t : Nat) : Prop where
  noBreak : ∀ q, p0 < q → q < t →
    q < e.size ∧ isSpaceBreak e attributes q = false ∧ isLineBreak e attributes q = false
  under : ∀ q, p0 < q → q < t → (attributes q).graphemeBoundary = true →
    w0 + glyphsWidth glyphs (e.logClusters p0) (e.logClusters q) ≤ e.minResizeWidth

/-! ## Summaries of a state of the main loop -/

/-- What the pushed words and the pending word look like: the sequence is
`ws`, the pending word starts at `p`, its measured width is `w`, and the
scan is not in forced-split mode. -/
structure Pending (s : ParseState) (ws : List Word) (p : Nat) (w : Int) : Prop where
  tWords : s.tWords = ws
  wordStart : s.wordStart = p
  width : s.lbh.tmpData.textWidth = w
  normal : s.addingEachGrapheme = false

/-- The loop has entered item `k` (which is `si`) and its cursor is at
`c`. -/
structure Inside (e : Engine) (s : ParseState) (k : Nat) (si : QScriptItem) (c : Nat) :
    Prop where
  newItem : s.newItem = k
  item : s.item = (k : Int)
  cur : s.lbh.currentPosition = c
  end_ : s.end_ = e.startOf (k + 1)
  glyphs : s.lbh.glyphs = si.glyphs

/-- The next iteration enters item `k` afresh. -/
structure Before (s : ParseState) (k : Nat) : Prop where
  newItem : s.newItem = k
  item : s.item ≠ (k : Int)

/-- Whether the ordinary scan stops at offset `t` with a finished word:
end of the text, a space break or an accepted line break. -/
def stopsAt (e : Engine) (attributes : Nat → QCharAttributes) (t : Nat) : Prop :=
  e.size ≤ t ∨ isSpaceBreak e attributes t = true ∨ isLineBreak e attributes t = true

instance (e : Engine) (attributes : Nat → QCharAttributes) (t : Nat) :
    Decidable (stopsAt e attributes t) := by
  unfold stopsAt; infer_instance

/-! ## Concrete inputs -/

/-- Shaped glyphs of a run of `n` characters in which every character has
one printable glyph of its own, of advance `advance`. -/
def uniformGlyphs (n : Nat) (advance : Int) : QGlyphLayout :=
  { numGlyphs := n, glyphs := fun g => g + 1, advances := fun _ => advance,
    attributes := fun _ => { clusterStart := true, dontPrint := false } }

/-- An item that the parse finds unshaped and that `shapeGetBlock` shapes
to `n` glyphs of advance `advance`, the attribute table staying
available; `width` is the declared width (of an object). -/
def plainItem (position : Nat) (flags : Flags) (n : Nat) (advance width : Int) :
    QScriptItem :=
  { position := position, flags := flags, num_glyphs := 0, shaped_num_glyphs := n,
    width := width, glyphs := uniformGlyphs n advance, fontEngine := 1,
    attributesAfterShape := true }

/-- Character attributes of a buffer whose only white space is a line
separator at offset `m`, after which a line may break; every offset is a
grapheme boundary. -/
def twoLinesAttributes (m : Nat) (i : Nat) : QCharAttributes :=
  { graphemeBoundary := true, lineBreak := decide (i = m + 1),
    whiteSpace := decide (i = m) }

/-- A buffer of `m` characters, one line separator and `k` more characters,
itemized as text, separator, text.  Every character is a grapheme
boundary with a glyph of its own; the separator is white space and a line
may break after it. -/
def twoLines (text : Nat → Nat) (m k : Nat) (advance minResizeWidth : Int) : Engine :=
  { size := m + 1 + k,
    text := text,
    minResizeWidth := minResizeWidth,
    attributes := some (twoLinesAttributes m),
    items := [plainItem 0 Flags.Text m advance 0,
      plainItem m Flags.LineOrParagraphSeparator 1 advance 0,
      plainItem (m + 1) Flags.Text k advance 0],
    logClusters := fun i => if i < m then i else if i = m then 0 else i - (m + 1),
    blockIndex := fun i => if i < m then 0 else 1,
    glyphBearing := fun _ _ => 0 }

/-- Characters of `"ab\ncd"`. -/
def textAbNlCd (i : Nat) : Nat := [0x61, 0x62, 0x0a, 0x63, 0x64].getD i 0

/-- The buffer `"ab\ncd"`: glyphs of advance 512, threshold 6400. -/
def exampleAbNlCd : Engine := twoLines textAbNlCd 2 2 512 6400

/-- Characters of a buffer that opens with 65536 letters `a`, followed by a
line feed and letters `b`. -/
def longLineText (i : Nat) : Nat :=
  if i < 65536 then 0x61 else if i = 65536 then 0x0a else 0x62

/-- The buffer of 65536 letters `a`, a line feed and `k` letters `b`:
glyphs of advance 1, threshold 65536. -/
def longFirstLine (k : Nat) : Engine := twoLines longLineText 65536 k 1 65536

/-- The state after `n` whole iterations of the main loop that all ran to
their end; `none` when the loop ends or returns earlier. -/
def iterate (e : Engine) (attributes : Nat → QCharAttributes) :
    Nat → ParseState → Option ParseState
  | 0, s => some s
  | n + 1, s =>
    match e.items.get? s.newItem with
    | none => none
    | some si =>
      match iteration e attributes s si with
      | none => none
      | some s1 => iterate e attributes n s1

/-- The buffer `"ab\ncd"` shaped by an engine that loses its attribute
table while it shapes the last item. -/
def exampleAbortMidScan : Engine :=
  { exampleAbNlCd with
    items := [plainItem 0 Flags.Text 2 512 0,
      plainItem 2 Flags.LineOrParagraphSeparator 1 512 0,
      { plainItem 3 Flags.Text 2 512 0 with attributesAfterShape := false }] }

/-- The buffer `"ab\ncd"` with an engine whose first `attributes()` call
returns null. -/
def exampleNoAttributes : Engine :=
  { exampleAbNlCd with attributes := none }

/-- The empty buffer. -/
def exampleEmpty : Engine :=
  { size := 0, text := fun _ => 0, minResizeWidth := 6400, attributes := none,
    items := [], logClusters := fun _ => 0, blockIndex := fun _ => 0,
    glyphBearing := fun _ _ => 0 }

/-! ## Records of the sequence seen through their kind -/

/-- The newline records of a sequence, in order: start position and
style-run index of each. -/
def newlineRecords (ws : List Word) : List (Nat × Int) :=
  ws.filterMap (fun w => if w.newline then some (w.position, w.newlineBlockIndex) else none)

/-- The separator items, in order: offset and style-run index
`blockIndex(offset)` of each. -/
def separatorItems (e : Engine) (items : List QScriptItem) : List (Nat × Int) :=
  items.filterMap (fun si =>
    if si.flags = Flags.LineOrParagraphSeparator then
      some (si.position, e.blockIndex si.position)
    else none)

/-- A record built by the constructor `Word(position, unfinished, width,
rbearing)`: a content word, not a newline, with no trailing padding
yet. -/
def IsContent (w : Word) : Prop :=
  ∃ p u wd r, w = Word.content p u wd r

/-! ## Inputs on which a pending word meets a space-break run -/

/-- At the start of item `k + 1` a pending word would meet a space-break
run: items `k` and `k + 1` are text items, the lambda `atSpaceBreak` holds
at the start of item `k + 1`, and the ordinary scan does not stop at that
offset (it holds a non-breaking space after which no line may break). -/
def CarriesAt (e : Engine) (attributes : Nat → QCharAttributes) (k : Nat) : Prop :=
  match e.items.get? k, e.items.get? (k + 1) with
  | some sj, some si =>
    sj.flags = Flags.Text ∧ si.flags = Flags.Text
      ∧ atSpaceBreakFrom e attributes (e.startOf (k + 2))
          (e.startOf (k + 2) - si.position) si.position = true
      ∧ ¬ stopsAt e attributes si.position
  | _, _ => False

instance (e : Engine) (attributes : Nat → QCharAttributes) (k : Nat) :
    Decidable (CarriesAt e attributes k) := by
  unfold CarriesAt; split <;> infer_instance

/-- No text item that follows a text item starts, away from a stop of the
ordinary scan, with white space in which `atSpaceBreak` holds. -/
def NoCarry (e : Engine) (attributes : Nat → QCharAttributes) : Prop :=
  ∀ k, k < e.items.length → ¬ CarriesAt e attributes k

instance (e : Engine) (attributes : Nat → QCharAttributes) :
    Decidable (NoCarry e attributes) := by
  unfold NoCarry; infer_instance

/-- The item after item `j` is a text item at whose start the lambda
`atSpaceBreak` holds. -/
def SpaceRunAfter (e : Engine) (attributes : Nat → QCharAttributes) (j : Nat) : Prop :=
  match e.items.get? (j + 1) with
  | some si =>
    si.flags = Flags.Text
      ∧ atSpaceBreakFrom e attributes (e.startOf (j + 2))
          (e.startOf (j + 2) - si.position) si.position = true
  | none => False

instance (e : Engine) (attributes : Nat → QCharAttributes) (j : Nat) :
    Decidable (SpaceRunAfter e attributes j) := by
  unfold SpaceRunAfter; split <;> infer_instance

/-- Every record of `ws` is still in `ws1`, up to its trailing padding. -/
def Kept (ws ws1 : List Word) : Prop :=
  ∀ w ∈ ws, ∃ w1 ∈ ws1, w1.position = w.position ∧ w1.unfinished = w.unfinished
    ∧ w1.newline = w.newline ∧ w1.width = w.width

/-- What is known about the pending word between two iterations of the main
loop: inside an item (a text item) no word is pending; when no word is
pending `tmpData` holds no width; a word is pending only after a text item
that ended where the ordinary scan does not stop. -/
structure CarryInv (e : Engine) (attributes : Nat → QCharAttributes) (s : ParseState) :
    Prop where
  inside : (s.newItem : Int) = s.item →
    s.wordStart = s.cursor
      ∧ ∃ si, e.items.get? s.newItem = some si ∧ si.flags = Flags.Text
  empty : s.wordStart = s.cursor → s.lbh.tmpData.textWidth = 0
  pending : s.wordStart < s.cursor →
    ¬ stopsAt e attributes s.cursor
      ∧ ∃ k sj, s.newItem = k + 1 ∧ e.items.get? k = some sj ∧ sj.flags = Flags.Text

/-! ## Concrete inputs with an object -/

/-- Character attributes of a buffer without white space and without
line-break opportunity; every offset is a grapheme boundary. -/
def plainAttributes (_ : Nat) : QCharAttributes :=
  { graphemeBoundary := true, lineBreak := false, whiteSpace := false }

/-- A buffer of `m` letters `a` followed by one object replacement
character, itemized as a text item and an object item of declared width
`width`. -/
def textThenObject (m : Nat) (advance width minResizeWidth : Int) : Engine :=
  { size := m + 1,
    text := fun i => if i < m then 0x61 else 0xfffc,
    minResizeWidth := minResizeWidth,
    attributes := some plainAttributes,
    items := [plainItem 0 Flags.Text m advance 0, plainItem m Flags.Object 1 advance width],
    logClusters := fun i => if i < m then i else 0,
    blockIndex := fun _ => 0,
    glyphBearing := fun _ _ => 0 }

/-- The buffer `"a"` followed by an object of declared width 1000. -/
def exampleTextObject : Engine := textThenObject 1 512 1000 6400

/-- The buffer of 65536 letters `a` followed by an object of declared width
10: glyphs of advance 1, threshold 65536. -/
def longThenObject : Engine := textThenObject 65536 1 10 65536

/-- Character attributes of `"a<NBSP> <object>"`: the non-breaking space and
the space are white space, a line may break after the space. -/
def carryAttributes (i : Nat) : QCharAttributes :=
  { graphemeBoundary := true, lineBreak := decide (i = 3),
    whiteSpace := decide (i = 1 ∨ i = 2) }

/-- The buffer `"a<NBSP> <object>"` itemized as `"a"`, `"<NBSP> "` and an
object of declared width 1000; glyphs of advance 512. -/
def exampleCarry : Engine :=
  { size := 4,
    text := fun i => [0x61, 0xa0, 0x20, 0xfffc].getD i 0,
    minResizeWidth := 6400,
    attributes := some carryAttributes,
    items := [plainItem 0 Flags.Text 1 512 0, plainItem 1 Flags.Text 2 512 0,
      plainItem 3 Flags.Object 1 512 1000],
    logClusters := fun i => [0, 0, 1, 0].getD i 0,
    blockIndex := fun _ => 0,
    glyphBearing := fun _ _ => 0 }

/-- The records of the object items entered so far that no space-break run
follows: each has a record at its offset, the records at its offset carry
no trailing padding, and such a record is the last of the sequence only
right after its item or while a word is pending. -/
def Unpadded (e : Engine) (attributes : Nat → QCharAttributes) (s : ParseState) : Prop :=
  ∀ j sj, e.items.get? j = some sj → sj.flags = Flags.Object → j < s.newItem →
    ¬ SpaceRunAfter e attributes j →
    (∃ w ∈ s.tWords, w.position = sj.position)
      ∧ (∀ w ∈ s.tWords, w.position = sj.position → w.rpadding = 0)
      ∧ ((∀ x ∈ s.tWords, x.position ≤ sj.position) →
          (s.newItem = j + 1 ∧ (s.newItem : Int) ≠ s.item) ∨ s.wordStart < s.cursor)

/-- Character attributes of `"<object> a"`: the space is white space and a
line may break after it. -/
def objectSpaceAttributes (i : Nat) : QCharAttributes :=
  { graphemeBoundary := true, lineBreak := decide (i = 2), whiteSpace := decide (i = 1) }

/-- The buffer `"<object> a"` itemized as an object of declared width 1000
and the text item `" a"`; glyphs of advance 512. -/
def exampleObjectSpace : Engine :=
  { size := 3,
    text := fun i => [0xfffc, 0x20, 0x61].getD i 0,
    minResizeWidth := 6400,
    attributes := some objectSpaceAttributes,
    items := [plainItem 0 Flags.Object 1 512 1000, plainItem 1 Flags.Text 2 512 0],
    logClusters := fun i => [0, 0, 1].getD i 0,
    blockIndex := fun _ => 0,
    glyphBearing := fun _ _ => 0 }

/-- The buffer `"<object>a"` itemized as an object of declared width 1000
and the text item `"a"`; glyphs of advance 512. -/
def exampleObjectText : Engine :=
  { size := 2,
    text := fun i => [0xfffc, 0x61].getD i 0,
    minResizeWidth := 6400,
    attributes := some plainAttributes,
    items := [plainItem 0 Flags.Object 1 512 1000, plainItem 1 Flags.Text 1 512 0],
    logClusters := fun _ => 0,
    blockIndex := fun _ => 0,
    glyphBearing := fun _ _ => 0 }

/-! ## Concrete inputs of one text item -/

/-- Character attributes of a buffer of `a` letters, `b` spaces and more
letters: the spaces are white space, a line may break after them, every
offset is a grapheme boundary. -/
def spacedAttributes (a b : Nat) (i : Nat) : QCharAttributes :=
  { graphemeBoundary := true, lineBreak := decide (i = a + b),
    whiteSpace := decide (a ≤ i ∧ i < a + b) }

/-- A buffer of `a` characters, `b` white-space characters and `c` more
characters in one text item; every character has a glyph of its own, of
advance `advance`. -/
def spacedTokens (text : Nat → Nat) (a b c : Nat) (advance minResizeWidth : Int) : Engine :=
  { size := a + b + c,
    text := text,
    minResizeWidth := minResizeWidth,
    attributes := some (spacedAttributes a b),
    items := [plainItem 0 Flags.Text (a + b + c) advance 0],
    logClusters := fun i => i,
    blockIndex := fun _ => 0,
    glyphBearing := fun _ _ => 0 }

/-- Characters of `"ab cd"`. -/
def textAbCd (i : Nat) : Nat := [0x61, 0x62, 0x20, 0x63, 0x64].getD i 0

/-- The buffer `"ab cd"` in one text item: glyphs of advance 512, threshold
6400. -/
def exampleAbCd : Engine := spacedTokens textAbCd 2 1 2 512 6400

/-! ## Shaped width of a buffer -/

/-- Shaped width of an item: the sum of the advances of the printable
glyphs of its clusters. -/
def itemWidth (e : Engine) (si : QScriptItem) : Int :=
  glyphsWidth si.glyphs (e.logClusters si.position) si.currentNumGlyphs

/-- Shaped width of a list of items. -/
def itemsWidth (e : Engine) (items : List QScriptItem) : Int :=
  (items.map (itemWidth e)).sum

/-- Shaped width of the whole buffer. -/
def shapedWidth (e : Engine) : Int := itemsWidth e e.items

/-- Character attributes of `"a<NBSP>b"`: the non-breaking space is white
space, no line may break, every offset is a grapheme boundary. -/
def nbspAttributes (i : Nat) : QCharAttributes :=
  { graphemeBoundary := true, lineBreak := false, whiteSpace := decide (i = 1) }

/-- The buffer `"a<NBSP>b"` in one text item: glyphs of advance 512,
threshold 6400. -/
def exampleNbsp : Engine :=
  { size := 3,
    text := fun i => [0x61, 0xa0, 0x62].getD i 0,
    minResizeWidth := 6400,
    attributes := some nbspAttributes,
    items := [plainItem 0 Flags.Text 3 512 0],
    logClusters := fun i => i,
    blockIndex := fun _ => 0,
    glyphBearing := fun _ _ => 0 }

/-- Three glyphs of advances 10, 10 and -15, each the start of a cluster
and printable. -/
def negativeTailGlyphs : QGlyphLayout :=
  { numGlyphs := 3, glyphs := fun g => g + 1,
    advances := fun g => [10, 10, -15].getD g 0,
    attributes := fun _ => { clusterStart := true, dontPrint := false } }

/-- The buffer `"a<NBSP>b"` in one text item whose last glyph has a negative
advance: advances 10, 10, -15 (shaped width 5), threshold 8. -/
def exampleNegativeAdvance : Engine :=
  { exampleNbsp with
    minResizeWidth := 8,
    items := [{ plainItem 0 Flags.Text 3 0 0 with glyphs := negativeTailGlyphs }] }

/-! ## Concrete inputs for the dot and slash exception -/

/-- Character attributes of a three-character token that is
line-break-flagged before its last character; every offset is a grapheme
boundary, there is no white space. -/
def flaggedAttributes (i : Nat) : QCharAttributes :=
  { graphemeBoundary := true, lineBreak := decide (i = 2), whiteSpace := false }

/-- Three characters in one text item, line-break-flagged at offset 2;
glyphs of advance 512. -/
def threeChars (text : Nat → Nat) (minResizeWidth : Int) : Engine :=
  { size := 3,
    text := text,
    minResizeWidth := minResizeWidth,
    attributes := some flaggedAttributes,
    items := [plainItem 0 Flags.Text 3 512 0],
    logClusters := fun i => i,
    blockIndex := fun _ => 0,
    glyphBearing := fun _ _ => 0 }

/-- Characters of `"a.b"`. -/
def textDot (i : Nat) : Nat := [0x61, 0x2e, 0x62].getD i 0

/-- Characters of `"a/b"`. -/
def textSlash (i : Nat) : Nat := [0x61, 0x2f, 0x62].getD i 0

/-- Characters of `"a-b"`. -/
def textHyphen (i : Nat) : Nat := [0x61, 0x2d, 0x62].getD i 0

/-- The buffer `"a.b"`, the `b` line-break-flagged; threshold 6400. -/
def exampleDot : Engine := threeChars textDot 6400

/-- The buffer `"a/b"`, the `b` line-break-flagged; threshold 6400. -/
def exampleSlash : Engine := threeChars textSlash 6400

/-- The buffer `"a.b"`, the `b` line-break-flagged; threshold 512, the
advance of one glyph. -/
def exampleDotNarrow : Engine := threeChars textDot 512

/-! ## A word that starts beyond offset 65535 -/

/-- Characters of a buffer that opens with a letter carrying 65535 combining
acute accents, followed by a line feed and `"bcd"`. -/
def tallText (i : Nat) : Nat :=
  if i = 0 then 0x61 else if i < 65536 then 0x301 else if i = 65536 then 0x0a
  else [0x62, 0x63, 0x64].getD (i - 65537) 0

/-- Character attributes of that buffer: the grapheme boundaries are at 0
and from 65536 on, the line feed is white space, a line may break after
it. -/
def tallAttributes (i : Nat) : QCharAttributes :=
  { graphemeBoundary := decide (i = 0 ∨ 65536 ≤ i), lineBreak := decide (i = 65537),
    whiteSpace := decide (i = 65536) }

/-- The buffer of one letter with 65535 combining marks (one cluster, one
glyph of advance 1), a line feed and `"bcd"` (glyphs of advance 40000);
threshold 65536. -/
def tallSplit : Engine :=
  { size := 65540,
    text := tallText,
    minResizeWidth := 65536,
    attributes := some tallAttributes,
    items := [plainItem 0 Flags.Text 1 1 0,
      plainItem 65536 Flags.LineOrParagraphSeparator 1 1 0,
      plainItem 65537 Flags.Text 3 40000 0],
    logClusters := fun i => if i ≤ 65536 then 0 else i - 65537,
    blockIndex := fun i => if i < 65536 then 0 else 1,
    glyphBearing := fun _ _ => 0 }

/-- The state of the scan of `tallSplit` once the first item is entered. -/
def tallEntered : ParseState :=
  { tWords := [],
    lbh := { LineBreakHelper.init with
      glyphs := uniformGlyphs 1 1, currentPosition := 0, fontEngine := some 1 },
    item := 0, newItem := 0, end_ := 65536, wordStart := 0,
    addingEachGrapheme := false, lastGraphemeBoundaryPosition := -1,
    lastGraphemeBoundaryLine := ScriptLine.zero }

/-- The state in which the ordinary branch starts its `do … while` on the
first item of `tallSplit`. -/
def tallOrdinary : ParseState :=
  { tallEntered with lbh := { tallEntered.lbh with whiteSpaceOrObject := false } }

/-- The state of the scan of `tallSplit` after `addNextCluster` has taken
the first cluster: the cursor is at 65536, `tmpData` holds its 65536
characters and the width 1. -/
def tallAfterCluster : ParseState :=
  { tallOrdinary with
    lbh := { tallOrdinary.lbh with
      tmpData := ScriptLine.mk 65536 1, glyphCount := 1, currentPosition := 65536 } }

/-- The state of the scan of `tallSplit` after its first iteration. -/
def tallAfterFirst : ParseState :=
  ParseState.nextItemAtEnd (ordinaryCheck tallSplit tallAttributes tallAfterCluster).1 0

/-- The state of the scan of `"a.b"` (threshold 512) in which the check at
the grapheme boundary 2 runs: `"a."` is pending with width 1024, the
boundary 1 is remembered with width 512. -/
def exampleCutState : ParseState :=
  { tWords := [],
    lbh := { LineBreakHelper.init with
      tmpData := ScriptLine.mk 2 1024, glyphs := uniformGlyphs 3 512, glyphCount := 2,
      currentPosition := 2, previousGlyph := 1, previousGlyphFontEngine := some 1,
      fontEngine := some 1, whiteSpaceOrObject := false },
    item := 0, newItem := 0, end_ := 3, wordStart := 0,
    addingEachGrapheme := false, lastGraphemeBoundaryPosition := 1,
    lastGraphemeBoundaryLine := ScriptLine.mk 1 512 }

/-! ## Concrete inputs for the forced split -/

/-- Characters of `"aaa bb"`. -/
def textAaaBb (i : Nat) : Nat := [0x61, 0x61, 0x61, 0x20, 0x62, 0x62].getD i 0

/-- The buffer `"aaa bb"` in one text item: glyphs of advance 10, threshold
15. -/
def exampleForcedThenNormal : Engine := spacedTokens textAaaBb 3 1 2 10 15

/-- The buffer `"a.b"`, the `b` line-break-flagged; threshold 100, below the
advance of one glyph. -/
def exampleDotTiny : Engine := threeChars textDot 100

/-- The state in which the ordinary branch starts its `do … while` on the
item of `exampleDotTiny`. -/
def exampleTinyStart : ParseState :=
  { tWords := [],
    lbh := { LineBreakHelper.init with
      glyphs := uniformGlyphs 3 512, fontEngine := some 1, whiteSpaceOrObject := false },
    item := 0, newItem := 0, end_ := 3, wordStart := 0,
    addingEachGrapheme := false, lastGraphemeBoundaryPosition := -1,
    lastGraphemeBoundaryLine := ScriptLine.zero }

/-- The state of the scan of `exampleDotTiny` after the first pass of the
`do … while`: the width 512 of `"a"` exceeded the threshold at the boundary
1, forced-split mode is on. -/
def exampleForcedState : ParseState :=
  (ordinaryPass exampleDotTiny flaggedAttributes exampleTinyStart
    (plainItem 0 Flags.Text 3 512 0)).1

/-! ## Concrete inputs in which a pending word meets a space-break run -/

/-- The buffer `"a<NBSP> b"` itemized as `"a"`, `"<NBSP> "` and `"b"`;
glyphs of advance 512, threshold 6400. -/
def exampleCarryText : Engine :=
  { size := 4,
    text := fun i => [0x61, 0xa0, 0x20, 0x62].getD i 0,
    minResizeWidth := 6400,
    attributes := some carryAttributes,
    items := [plainItem 0 Flags.Text 1 512 0, plainItem 1 Flags.Text 2 512 0,
      plainItem 3 Flags.Text 1 512 0],
    logClusters := fun i => [0, 0, 1, 0].getD i 0,
    blockIndex := fun _ => 0,
    glyphBearing := fun _ _ => 0 }

/-- Character attributes of `"aaaa<NBSP> bc"`: the non-breaking space and
the space are white space, a line may break after the space, every offset
is a grapheme boundary. -/
def carrySplitAttributes (i : Nat) : QCharAttributes :=
  { graphemeBoundary := true, lineBreak := decide (i = 6),
    whiteSpace := decide (i = 4 ∨ i = 5) }

/-- The buffer `"aaaa<NBSP> bc"` itemized as `"aaaa"`, `"<NBSP> "` and
`"bc"`; glyphs of advance 512, threshold 2048. -/
def exampleCarrySplit : Engine :=
  { size := 8,
    text := fun i => [0x61, 0x61, 0x61, 0x61, 0xa0, 0x20, 0x62, 0x63].getD i 0,
    minResizeWidth := 2048,
    attributes := some carrySplitAttributes,
    items := [plainItem 0 Flags.Text 4 512 0, plainItem 4 Flags.Text 2 512 0,
      plainItem 6 Flags.Text 2 512 0],
    logClusters := fun i => [0, 1, 2, 3, 0, 1, 0, 1].getD i 0,
    blockIndex := fun _ => 0,
    glyphBearing := fun _ _ => 0 }

/-! ## Concrete inputs with leading white space -/

/-- Characters of `" a"`. -/
def textSpaceA (i : Nat) : Nat := [0x20, 0x61].getD i 0

/-- The buffer `" a"` in one text item: glyphs of advance 512, threshold
6400. -/
def exampleLeadingSpace : Engine := spacedTokens textSpaceA 0 1 1 512 6400

/-- Character attributes of `"<LF> a"`: the line feed and the space are
white space, a line may break after each of them, every offset is a
grapheme boundary. -/
def newlineSpaceAttributes (i : Nat) : QCharAttributes :=
  { graphemeBoundary := true, lineBreak := decide (i = 1 ∨ i = 2),
    whiteSpace := decide (i = 0 ∨ i = 1) }

/-- The buffer `"<LF> a"` itemized as the separator and the text item
`" a"`; glyphs of advance 512, threshold 6400. -/
def exampleNewlineSpace : Engine :=
  { size := 3,
    text := fun i => [0x0a, 0x20, 0x61].getD i 0,
    minResizeWidth := 6400,
    attributes := some newlineSpaceAttributes,
    items := [plainItem 0 Flags.LineOrParagraphSeparator 1 512 0,
      plainItem 1 Flags.Text 2 512 0],
    logClusters := fun i => [0, 0, 1].getD i 0,
    blockIndex := fun i => if i = 0 then 0 else 1,
    glyphBearing := fun _ _ => 0 }

/-- The state of the scan of `exampleLeadingSpace` once its item is
entered. -/
def exampleLeadingEntered : ParseState :=
  { tWords := [],
    lbh := { LineBreakHelper.init with
      glyphs := uniformGlyphs 2 512, currentPosition := 0, fontEngine := some 1 },
    item := 0, newItem := 0, end_ := 2, wordStart := 0,
    addingEachGrapheme := false, lastGraphemeBoundaryPosition := -1,
    lastGraphemeBoundaryLine := ScriptLine.zero }

/-! ## Bounds of the cursor -/

/-- Where the cursor is between two iterations of the main loop, whatever
the size of the buffer: `newItem` is at most the number of items; while the
loop stays in an item the cursor is inside it, from its start to below its
end, and `end` is the start of the next item; otherwise `end` is the start
of the item to enter next. -/
structure Bounds (e : Engine) (s : ParseState) : Prop where
  newItem_le : s.newItem ≤ e.items.length
  same : (s.newItem : Int) = s.item →
    e.startOf s.newItem ≤ s.lbh.currentPosition ∧ s.lbh.currentPosition < s.end_
      ∧ s.end_ = e.startOf (s.newItem + 1) ∧ s.newItem < e.items.length
  other : (s.newItem : Int) ≠ s.item → s.end_ = e.startOf s.newItem

/-! ## A buffer that is one unbroken token -/

/-- Sum of the widths of the records of a sequence. -/
def sumWidths (ws : List Word) : Int := (ws.map Word.width).sum

/-- Shaped width of the buffer up to the offset `q` of item `k` (which is
`si`): the items before `k`, and the glyphs of `si` up to the cluster of
`q`. -/
def widthAt (e : Engine) (k : Nat) (si : QScriptItem) (q : Nat) : Int :=
  itemsWidth e (e.items.take k)
    + glyphsWidth si.glyphs (e.logClusters si.position)
        (glyphAt e.logClusters si.currentNumGlyphs (e.startOf (k + 1)) q)

/-- At some grapheme boundary `0 < q ≤ c` at which a cluster starts, the
shaped width of the buffer up to `q` exceeds the threshold. -/
def Exceeded (e : Engine) (attributes : Nat → QCharAttributes) (c : Nat) : Prop :=
  ∃ k si q, e.items.get? k = some si ∧ si.position ≤ q ∧ q < e.startOf (k + 1)
    ∧ 0 < q ∧ q ≤ c ∧ (attributes q).graphemeBoundary = true
    ∧ (q = si.position ∨ e.logClusters (q - 1) ≠ e.logClusters q)
    ∧ e.minResizeWidth < widthAt e k si q

/-- What holds during the scan of a buffer that is one unbroken token, with
the cursor at `c` and the shaped width `w` measured so far: the widths
pushed and pending sum to `w`; every record pushed is unfinished and starts
at 0 or at a grapheme boundary, and so does the pending word; a remembered
boundary is a grapheme boundary; in normal mode nothing has been pushed and
the threshold has not been exceeded at any boundary up to `c`; in
forced-split mode something has been pushed and the threshold has been
exceeded at a boundary up to `c`. -/
structure TokenInv (e : Engine) (attributes : Nat → QCharAttributes) (s : ParseState)
    (c : Nat) (w : Int) : Prop where
  width : sumWidths s.tWords + s.lbh.tmpData.textWidth = w
  unfinished : ∀ x ∈ s.tWords, x.unfinished = true ∧ x.newline = false
  starts : ∀ x ∈ s.tWords, ∃ p, x.position = toUint16 p
    ∧ (p = 0 ∨ (p < e.size ∧ (attributes p).graphemeBoundary = true))
  wordStart : s.wordStart = 0
    ∨ (s.wordStart < e.size ∧ (attributes s.wordStart).graphemeBoundary = true)
  remembered : 0 ≤ s.lastGraphemeBoundaryPosition →
    s.lastGraphemeBoundaryPosition.toNat < e.size
      ∧ (attributes s.lastGraphemeBoundaryPosition.toNat).graphemeBoundary = true
  normal : s.addingEachGrapheme = false → s.tWords = [] ∧ ¬ Exceeded e attributes c
  forced : s.addingEachGrapheme = true → s.tWords ≠ [] ∧ Exceeded e attributes c

/-! ## Concrete inputs for the split of a long token -/

/-- The buffer `"ab"` in one text item: glyphs of advance 512, threshold
600. -/
def exampleTwoWide : Engine := spacedTokens textAbCd 2 0 0 512 600

/-- The buffer `"ab"` in one text item: glyphs of advance 512, threshold
100. -/
def exampleTwoTiny : Engine := spacedTokens textAbCd 2 0 0 512 100

/-- Character attributes of `"a<NBSP> bcd"`: the non-breaking space and the
space are white space, a line may break after the space, every offset is a
grapheme boundary. -/
def carryWideAttributes (i : Nat) : QCharAttributes :=
  { graphemeBoundary := true, lineBreak := decide (i = 3),
    whiteSpace := decide (i = 1 ∨ i = 2) }

/-- The buffer `"a<NBSP> bcd"` itemized as `"a"`, `"<NBSP> "` and `"bcd"`;
glyphs of advance 512, threshold 1000. -/
def exampleCarryWide : Engine :=
  { size := 6,
    text := fun i => [0x61, 0xa0, 0x20, 0x62, 0x63, 0x64].getD i 0,
    minResizeWidth := 1000,
    attributes := some carryWideAttributes,
    items := [plainItem 0 Flags.Text 1 512 0, plainItem 1 Flags.Text 2 512 0,
      plainItem 3 Flags.Text 3 512 0],
    logClusters := fun i => [0, 0, 1, 0, 1, 2].getD i 0,
    blockIndex := fun _ => 0,
    glyphBearing := fun _ _ => 0 }

/-- Characters of `"bcd"`. -/
def textBcd (i : Nat) : Nat := [0x62, 0x63, 0x64].getD i 0

/-- The buffer `"bcd"` alone in one text item: glyphs of advance 512,
threshold 1000. -/
def exampleBcd : Engine := spacedTokens textBcd 3 0 0 512 1000

/-- The state of the scan of `exampleAbortMidScan` after its first two
iterations, in which the third item is entered. -/
def exampleAbortState : ParseState :=
  (iterate exampleAbortMidScan (twoLinesAttributes 2) 2
    { ParseState.init with tWords := [] }).getD ParseState.init

/-! ## The range of `QFixed`

The widths of the development are mathematical integers.  `QFixed` keeps
its value in a 32-bit `int`: every sum that `parse` forms is the one of the
development as long as it stays in that range.  The definitions below make
the range and the 32-bit addition of `addNextCluster` explicit. -/

/-- The value fits the 32-bit `int` of a `QFixed`. -/
def FitsQFixed (x : Int) : Prop := -2147483648 ≤ x ∧ x < 2147483648

instance (x : Int) : Decidable (FitsQFixed x) := by
  unfold FitsQFixed; infer_instance

/-- The value a 32-bit `int` holds after an addition whose exact result is
`x` (two's complement wrap). -/
def wrapQFixed (x : Int) : Int := (x + 2147483648) % 4294967296 - 2147483648

/-- One pass of the body of the second `do … while` of `addNextCluster`,
with the addition `line.textWidth += glyphs.advances[glyphPosition]` done
in the 32-bit `int` of `QFixed`. -/
def addGlyphFixed (glyphs : QGlyphLayout) (glyphPosition : Nat) (textWidth : Int) : Int :=
  if (glyphs.attributes glyphPosition).dontPrint then textWidth
  else wrapQFixed (textWidth + glyphs.advances glyphPosition)

/-- The test of the second `do … while` of `addNextCluster`, iterated, with
the additions done in the 32-bit `int` of `QFixed`. -/
def restOfClusterFixed (glyphs : QGlyphLayout) (num_glyphs : Nat) :
    Nat → Nat → Int → Nat × Int
  | 0, glyphPosition, textWidth => (glyphPosition, textWidth)
  | fuel + 1, glyphPosition, textWidth =>
    if glyphPosition < num_glyphs
        ∧ (glyphs.attributes glyphPosition).clusterStart = false then
      restOfClusterFixed glyphs num_glyphs fuel (glyphPosition + 1)
        (addGlyphFixed glyphs glyphPosition textWidth)
    else (glyphPosition, textWidth)

/-- Function `addNextCluster`, with the additions to `line.textWidth` done
in the 32-bit `int` of `QFixed`. -/
def addNextClusterFixed (pos end_ : Nat) (line : ScriptLine) (glyphCount : Nat)
    (num_glyphs : Nat) (logClusters : Nat → Nat) (glyphs : QGlyphLayout) :
    ClusterResult :=
  let glyphPosition := logClusters pos
  let pos' := skipCluster logClusters glyphPosition end_ (end_ - (pos + 1)) (pos + 1)
  let r := restOfClusterFixed glyphs num_glyphs (num_glyphs - (glyphPosition + 1))
    (glyphPosition + 1) (addGlyphFixed glyphs glyphPosition line.textWidth)
  { pos := pos',
    line := { length := line.length + ((pos' : Int) - (pos : Int)), textWidth := r.2 },
    glyphCount := glyphCount + 1,
    glyphPosition := r.1 }

/-- No sum of advances that `parse` forms on the buffer leaves the range of
`QFixed`, and the threshold is a value of `QFixed`: the advances are
non-negative, the shaped width of the whole buffer fits, and so does the
threshold. -/
def Engine.WidthsFit (e : Engine) : Prop :=
  (∀ si ∈ e.items, ∀ g, 0 ≤ si.glyphs.advances g) ∧ shapedWidth e < 2147483648
    ∧ FitsQFixed e.minResizeWidth

/-! ## A word that starts at offset 65536 in one text item -/

/-- Characters of a buffer of 65535 characters without white space (a letter
with a combining acute accent, then letters), a space and one letter. -/
def markedWordText (i : Nat) : Nat :=
  if i = 1 then 0x301 else if i < 65535 then 0x61 else if i = 65535 then 0x20 else 0x62

/-- Character attributes of that buffer: the space is white space, a line
may break after it, every offset but the one of the combining mark is a
grapheme boundary. -/
def markedWordAttributes (i : Nat) : QCharAttributes :=
  { graphemeBoundary := decide (i ≠ 1), lineBreak := decide (i = 65536),
    whiteSpace := decide (i = 65535) }

/-- The buffer of 65535 characters without white space, a space and one
letter in one text item of 65536 glyphs of advance 1: the letter and its
combining mark share the glyph 0, every other character has a glyph of its
own, so the cluster indices run from 0 to 65535; threshold 65536. -/
def markedWordSpace : Engine :=
  { size := 65537,
    text := markedWordText,
    minResizeWidth := 65536,
    attributes := some markedWordAttributes,
    items := [plainItem 0 Flags.Text 65536 1 0],
    logClusters := fun i => i - 1,
    blockIndex := fun _ => 0,
    glyphBearing := fun _ _ => 0 }

/-- The state of the scan of `exampleCarryText` after its first iteration:
the word `"a"` is pending, nothing has been pushed. -/
def exampleCarryState : ParseState :=
  (iterate exampleCarryText carryAttributes 1
    { ParseState.init with tWords := [] }).getD ParseState.init

/-- The state of the scan of `exampleCarryText` once its second item is
entered. -/
def exampleCarryEntered : ParseState :=
  (enterItem exampleCarryText exampleCarryState
    (plainItem 1 Flags.Text 2 512 0)).getD ParseState.init

end Ui.Text

namespace Ui.Text

/-! ## Basic facts on `addNextCluster` -/

theorem skipCluster_ge (lc : Nat → Nat) (g end_ : Nat) :
    ∀ fuel pos, pos ≤ skipCluster lc g end_ fuel pos := by
  intro fuel
  induction fuel with
  | zero => intro pos; simp [skipCluster]
  | succ k ih =>
    intro pos
    simp only [skipCluster]
    split
    · exact Nat.le_trans (Nat.le_succ pos) (ih (pos + 1))
    · exact Nat.le_refl pos

theorem skipCluster_le (lc : Nat → Nat) (g end_ : Nat) :
    ∀ fuel pos, pos ≤ end_ → skipCluster lc g end_ fuel pos ≤ end_ := by
  intro fuel
  induction fuel with
  | zero => intro pos h; simpa [skipCluster] using h
  | succ k ih =>
    intro pos h
    simp only [skipCluster]
    split
    · rename_i hc; exact ih (pos + 1) hc.1
    · exact h

theorem addNextCluster_pos_gt (pos end_ : Nat) (line : ScriptLine) (gc n : Nat)
    (lc : Nat → Nat) (glyphs : QGlyphLayout) :
    pos < (addNextCluster pos end_ line gc n lc glyphs).pos := by
  simp only [addNextCluster]
  exact skipCluster_ge lc _ end_ _ (pos + 1)

theorem addNextCluster_pos_le (pos end_ : Nat) (line : ScriptLine) (gc n : Nat)
    (lc : Nat → Nat) (glyphs : QGlyphLayout) (h : pos < end_) :
    (addNextCluster pos end_ line gc n lc glyphs).pos ≤ end_ := by
  simp only [addNextCluster]
  exact skipCluster_le lc _ end_ _ (pos + 1) h

/-! ## Facts on the word sequence -/

theorem toUint16_of_lt {p : Nat} (h : p < 65536) : toUint16 p = p := by
  simp [toUint16, Nat.mod_eq_of_lt h]

theorem backAddRpadding_map_position (ws : List Word) (x : Int) :
    (backAddRpadding ws x).map Word.position = ws.map Word.position := by
  induction ws with
  | nil => simp [backAddRpadding]
  | cons w rest ih =>
    cases rest with
    | nil => simp [backAddRpadding, Word.add_rpadding]
    | cons w2 rest2 => simp only [backAddRpadding, List.map_cons] at ih ⊢; rw [ih]

theorem backAddRpadding_eq_nil (ws : List Word) (x : Int) :
    backAddRpadding ws x = [] ↔ ws = [] := by
  cases ws with
  | nil => simp [backAddRpadding]
  | cons w rest => cases rest <;> simp [backAddRpadding]

theorem WordsOk.nil : WordsOk [] 0 :=
  ⟨by simp, by simp, by simp, by simp⟩

theorem WordsOk.push {ws : List Word} {p q : Nat} {w : Word} (h : WordsOk ws p)
    (hw : w.position = p) (hq : p < q) : WordsOk (ws ++ [w]) q := by
  refine ⟨?_, ?_, ?_, ?_⟩
  · intro x hx
    rcases List.mem_append.1 hx with hx | hx
    · exact Nat.lt_trans (h.below x hx) hq
    · rw [List.mem_singleton.1 hx, hw]; exact hq
  · rw [List.map_append, List.pairwise_append]
    refine ⟨h.sorted, by simp, ?_⟩
    intro a ha b hb
    rcases List.mem_map.1 ha with ⟨x, hx, rfl⟩
    simp only [List.map_cons, List.map_nil, List.mem_singleton] at hb
    rw [hb, hw]; exact h.below x hx
  · intro x hx
    cases ws with
    | nil =>
      simp only [List.nil_append, List.head?_cons, Option.some.injEq] at hx
      rw [← hx, hw]; exact h.empty0 rfl
    | cons y rest =>
      simp only [List.cons_append, List.head?_cons, Option.some.injEq] at hx
      exact h.head0 x (by simp [hx])
  · intro hnil; simp at hnil

theorem WordsOk.advance {ws : List Word} {p q : Nat} (h : WordsOk ws p)
    (hne : ws ≠ []) (hq : p ≤ q) : WordsOk ws q :=
  ⟨fun w hw => Nat.lt_of_lt_of_le (h.below w hw) hq, h.sorted, h.head0,
    fun hnil => absurd hnil hne⟩

theorem WordsOk.backAdd {ws : List Word} {p : Nat} (h : WordsOk ws p) (x : Int) :
    WordsOk (backAddRpadding ws x) p := by
  have hmap := backAddRpadding_map_position ws x
  refine ⟨?_, ?_, ?_, ?_⟩
  · intro w hw
    have : w.position ∈ (backAddRpadding ws x).map Word.position :=
      List.mem_map.2 ⟨w, hw, rfl⟩
    rw [hmap] at this
    rcases List.mem_map.1 this with ⟨y, hy, hyw⟩
    rw [← hyw]; exact h.below y hy
  · rw [hmap]; exact h.sorted
  · intro w hw
    have h1 : ((backAddRpadding ws x).map Word.position).head? = some w.position := by
      rw [List.head?_map, hw]; rfl
    rw [hmap, List.head?_map] at h1
    cases hh : ws.head? with
    | none => rw [hh] at h1; simp at h1
    | some y =>
      rw [hh] at h1
      simp only [Option.map_some', Option.some.injEq] at h1
      rw [← h1]; exact h.head0 y hh
  · intro hnil
    exact h.empty0 ((backAddRpadding_eq_nil ws x).1 hnil)

/-! ## Fields the bearing helpers leave alone -/

@[simp] theorem calculateRightBearing_tmpData (e : Engine) (lbh : LineBreakHelper) :
    (lbh.calculateRightBearing e).tmpData = lbh.tmpData := by
  unfold LineBreakHelper.calculateRightBearing
  split
  · unfold LineBreakHelper.calculateRightBearingOf; split <;> rfl
  · rfl

@[simp] theorem calculateRightBearing_spaceData (e : Engine) (lbh : LineBreakHelper) :
    (lbh.calculateRightBearing e).spaceData = lbh.spaceData := by
  unfold LineBreakHelper.calculateRightBearing
  split
  · unfold LineBreakHelper.calculateRightBearingOf; split <;> rfl
  · rfl

@[simp] theorem calculateRightBearing_glyphs (e : Engine) (lbh : LineBreakHelper) :
    (lbh.calculateRightBearing e).glyphs = lbh.glyphs := by
  unfold LineBreakHelper.calculateRightBearing
  split
  · unfold LineBreakHelper.calculateRightBearingOf; split <;> rfl
  · rfl

@[simp] theorem calculateRightBearing_glyphCount (e : Engine) (lbh : LineBreakHelper) :
    (lbh.calculateRightBearing e).glyphCount = lbh.glyphCount := by
  unfold LineBreakHelper.calculateRightBearing
  split
  · unfold LineBreakHelper.calculateRightBearingOf; split <;> rfl
  · rfl

@[simp] theorem calculateRightBearing_currentPosition (e : Engine) (lbh : LineBreakHelper) :
    (lbh.calculateRightBearing e).currentPosition = lbh.currentPosition := by
  unfold LineBreakHelper.calculateRightBearing
  split
  · unfold LineBreakHelper.calculateRightBearingOf; split <;> rfl
  · rfl

@[simp] theorem calculateRightBearing_previousGlyph (e : Engine) (lbh : LineBreakHelper) :
    (lbh.calculateRightBearing e).previousGlyph = lbh.previousGlyph := by
  unfold LineBreakHelper.calculateRightBearing
  split
  · unfold LineBreakHelper.calculateRightBearingOf; split <;> rfl
  · rfl

@[simp] theorem calculateRightBearing_previousGlyphFontEngine (e : Engine) (lbh : LineBreakHelper) :
    (lbh.calculateRightBearing e).previousGlyphFontEngine = lbh.previousGlyphFontEngine := by
  unfold LineBreakHelper.calculateRightBearing
  split
  · unfold LineBreakHelper.calculateRightBearingOf; split <;> rfl
  · rfl

@[simp] theorem calculateRightBearing_fontEngine (e : Engine) (lbh : LineBreakHelper) :
    (lbh.calculateRightBearing e).fontEngine = lbh.fontEngine := by
  unfold LineBreakHelper.calculateRightBearing
  split
  · unfold LineBreakHelper.calculateRightBearingOf; split <;> rfl
  · rfl

@[simp] theorem calculateRightBearing_whiteSpaceOrObject (e : Engine) (lbh : LineBreakHelper) :
    (lbh.calculateRightBearing e).whiteSpaceOrObject = lbh.whiteSpaceOrObject := by
  unfold LineBreakHelper.calculateRightBearing
  split
  · unfold LineBreakHelper.calculateRightBearingOf; split <;> rfl
  · rfl

@[simp] theorem calculateRightBearingForPreviousGlyph_tmpData (e : Engine) (lbh : LineBreakHelper) :
    (lbh.calculateRightBearingForPreviousGlyph e).tmpData = lbh.tmpData := by
  unfold LineBreakHelper.calculateRightBearingForPreviousGlyph
  split
  · unfold LineBreakHelper.calculateRightBearingOf; split <;> rfl
  · rfl

@[simp] theorem calculateRightBearingForPreviousGlyph_spaceData (e : Engine) (lbh : LineBreakHelper) :
    (lbh.calculateRightBearingForPreviousGlyph e).spaceData = lbh.spaceData := by
  unfold LineBreakHelper.calculateRightBearingForPreviousGlyph
  split
  · unfold LineBreakHelper.calculateRightBearingOf; split <;> rfl
  · rfl

@[simp] theorem calculateRightBearingForPreviousGlyph_glyphs (e : Engine) (lbh : LineBreakHelper) :
    (lbh.calculateRightBearingForPreviousGlyph e).glyphs = lbh.glyphs := by
  unfold LineBreakHelper.calculateRightBearingForPreviousGlyph
  split
  · unfold LineBreakHelper.calculateRightBearingOf; split <;> rfl
  · rfl

@[simp] theorem calculateRightBearingForPreviousGlyph_glyphCount (e : Engine) (lbh : LineBreakHelper) :
    (lbh.calculateRightBearingForPreviousGlyph e).glyphCount = lbh.glyphCount := by
  unfold LineBreakHelper.calculateRightBearingForPreviousGlyph
  split
  · unfold LineBreakHelper.calculateRightBearingOf; split <;> rfl
  · rfl

@[simp] theorem calculateRightBearingForPreviousGlyph_currentPosition (e : Engine) (lbh : LineBreakHelper) :
    (lbh.calculateRightBearingForPreviousGlyph e).currentPosition = lbh.currentPosition := by
  unfold LineBreakHelper.calculateRightBearingForPreviousGlyph
  split
  · unfold LineBreakHelper.calculateRightBearingOf; split <;> rfl
  · rfl

@[simp] theorem calculateRightBearingForPreviousGlyph_previousGlyph (e : Engine) (lbh : LineBreakHelper) :
    (lbh.calculateRightBearingForPreviousGlyph e).previousGlyph = lbh.previousGlyph := by
  unfold LineBreakHelper.calculateRightBearingForPreviousGlyph
  split
  · unfold LineBreakHelper.calculateRightBearingOf; split <;> rfl
  · rfl

@[simp] theorem calculateRightBearingForPreviousGlyph_previousGlyphFontEngine (e : Engine) (lbh : LineBreakHelper) :
    (lbh.calculateRightBearingForPreviousGlyph e).previousGlyphFontEngine = lbh.previousGlyphFontEngine := by
  unfold LineBreakHelper.calculateRightBearingForPreviousGlyph
  split
  · unfold LineBreakHelper.calculateRightBearingOf; split <;> rfl
  · rfl

@[simp] theorem calculateRightBearingForPreviousGlyph_fontEngine (e : Engine) (lbh : LineBreakHelper) :
    (lbh.calculateRightBearingForPreviousGlyph e).fontEngine = lbh.fontEngine := by
  unfold LineBreakHelper.calculateRightBearingForPreviousGlyph
  split
  · unfold LineBreakHelper.calculateRightBearingOf; split <;> rfl
  · rfl

@[simp] theorem calculateRightBearingForPreviousGlyph_whiteSpaceOrObject (e : Engine) (lbh : LineBreakHelper) :
    (lbh.calculateRightBearingForPreviousGlyph e).whiteSpaceOrObject = lbh.whiteSpaceOrObject := by
  unfold LineBreakHelper.calculateRightBearingForPreviousGlyph
  split
  · unfold LineBreakHelper.calculateRightBearingOf; split <;> rfl
  · rfl

@[simp] theorem saveCurrentGlyph_tmpData (e : Engine) (lbh : LineBreakHelper) :
    (lbh.saveCurrentGlyph e).tmpData = lbh.tmpData := by
  unfold LineBreakHelper.saveCurrentGlyph
  split
  · rfl
  · rfl

@[simp] theorem saveCurrentGlyph_spaceData (e : Engine) (lbh : LineBreakHelper) :
    (lbh.saveCurrentGlyph e).spaceData = lbh.spaceData := by
  unfold LineBreakHelper.saveCurrentGlyph
  split
  · rfl
  · rfl

@[simp] theorem saveCurrentGlyph_glyphs (e : Engine) (lbh : LineBreakHelper) :
    (lbh.saveCurrentGlyph e).glyphs = lbh.glyphs := by
  unfold LineBreakHelper.saveCurrentGlyph
  split
  · rfl
  · rfl

@[simp] theorem saveCurrentGlyph_glyphCount (e : Engine) (lbh : LineBreakHelper) :
    (lbh.saveCurrentGlyph e).glyphCount = lbh.glyphCount := by
  unfold LineBreakHelper.saveCurrentGlyph
  split
  · rfl
  · rfl

@[simp] theorem saveCurrentGlyph_currentPosition (e : Engine) (lbh : LineBreakHelper) :
    (lbh.saveCurrentGlyph e).currentPosition = lbh.currentPosition := by
  unfold LineBreakHelper.saveCurrentGlyph
  split
  · rfl
  · rfl

@[simp] theorem saveCurrentGlyph_fontEngine (e : Engine) (lbh : LineBreakHelper) :
    (lbh.saveCurrentGlyph e).fontEngine = lbh.fontEngine := by
  unfold LineBreakHelper.saveCurrentGlyph
  split
  · rfl
  · rfl

@[simp] theorem saveCurrentGlyph_whiteSpaceOrObject (e : Engine) (lbh : LineBreakHelper) :
    (lbh.saveCurrentGlyph e).whiteSpaceOrObject = lbh.whiteSpaceOrObject := by
  unfold LineBreakHelper.saveCurrentGlyph
  split
  · rfl
  · rfl

@[simp] theorem saveCurrentGlyph_rightBearing (e : Engine) (lbh : LineBreakHelper) :
    (lbh.saveCurrentGlyph e).rightBearing = lbh.rightBearing := by
  unfold LineBreakHelper.saveCurrentGlyph
  split
  · rfl
  · rfl

/-! ## Fields of the blocks of the ordinary branch -/

@[simp] theorem flushFinished_item (e : Engine) (s : ParseState) :
    (ParseState.flushFinished e s).item = s.item := by
  simp [ParseState.flushFinished, ParseState.resetGrapheme]

@[simp] theorem flushFinished_newItem (e : Engine) (s : ParseState) :
    (ParseState.flushFinished e s).newItem = s.newItem := by
  simp [ParseState.flushFinished, ParseState.resetGrapheme]

@[simp] theorem flushFinished_end_ (e : Engine) (s : ParseState) :
    (ParseState.flushFinished e s).end_ = s.end_ := by
  simp [ParseState.flushFinished, ParseState.resetGrapheme]

@[simp] theorem flushFinished_lbh_spaceData (e : Engine) (s : ParseState) :
    (ParseState.flushFinished e s).lbh.spaceData = s.lbh.spaceData := by
  simp [ParseState.flushFinished, ParseState.resetGrapheme]

@[simp] theorem flushFinished_lbh_glyphs (e : Engine) (s : ParseState) :
    (ParseState.flushFinished e s).lbh.glyphs = s.lbh.glyphs := by
  simp [ParseState.flushFinished, ParseState.resetGrapheme]

@[simp] theorem flushFinished_lbh_glyphCount (e : Engine) (s : ParseState) :
    (ParseState.flushFinished e s).lbh.glyphCount = s.lbh.glyphCount := by
  simp [ParseState.flushFinished, ParseState.resetGrapheme]

@[simp] theorem flushFinished_lbh_currentPosition (e : Engine) (s : ParseState) :
    (ParseState.flushFinished e s).lbh.currentPosition = s.lbh.currentPosition := by
  simp [ParseState.flushFinished, ParseState.resetGrapheme]

@[simp] theorem flushFinished_lbh_previousGlyph (e : Engine) (s : ParseState) :
    (ParseState.flushFinished e s).lbh.previousGlyph = s.lbh.previousGlyph := by
  simp [ParseState.flushFinished, ParseState.resetGrapheme]

@[simp] theorem flushFinished_lbh_previousGlyphFontEngine (e : Engine) (s : ParseState) :
    (ParseState.flushFinished e s).lbh.previousGlyphFontEngine = s.lbh.previousGlyphFontEngine := by
  simp [ParseState.flushFinished, ParseState.resetGrapheme]

@[simp] theorem flushFinished_lbh_fontEngine (e : Engine) (s : ParseState) :
    (ParseState.flushFinished e s).lbh.fontEngine = s.lbh.fontEngine := by
  simp [ParseState.flushFinished, ParseState.resetGrapheme]

@[simp] theorem flushFinished_lbh_whiteSpaceOrObject (e : Engine) (s : ParseState) :
    (ParseState.flushFinished e s).lbh.whiteSpaceOrObject = s.lbh.whiteSpaceOrObject := by
  simp [ParseState.flushFinished, ParseState.resetGrapheme]

@[simp] theorem flushFinished_tWords (e : Engine) (s : ParseState) :
    (ParseState.flushFinished e s).tWords = pushFinishedWord s.tWords s.wordStart s.lbh.tmpData.textWidth
      (-(s.lbh.calculateRightBearing e).negativeRightBearing) := by
  simp [ParseState.flushFinished, ParseState.resetGrapheme]

@[simp] theorem flushFinished_wordStart (e : Engine) (s : ParseState) :
    (ParseState.flushFinished e s).wordStart = s.lbh.currentPosition := by
  simp [ParseState.flushFinished, ParseState.resetGrapheme]

@[simp] theorem flushFinished_lbh_tmpData (e : Engine) (s : ParseState) :
    (ParseState.flushFinished e s).lbh.tmpData = ScriptLine.zero := by
  simp [ParseState.flushFinished, ParseState.resetGrapheme]

@[simp] theorem flushFinished_addingEachGrapheme (e : Engine) (s : ParseState) :
    (ParseState.flushFinished e s).addingEachGrapheme = false := by
  simp [ParseState.flushFinished, ParseState.resetGrapheme]

@[simp] theorem flushFinished_lastGraphemeBoundaryPosition (e : Engine) (s : ParseState) :
    (ParseState.flushFinished e s).lastGraphemeBoundaryPosition = -1 := by
  simp [ParseState.flushFinished, ParseState.resetGrapheme]

@[simp] theorem flushFinished_lastGraphemeBoundaryLine (e : Engine) (s : ParseState) :
    (ParseState.flushFinished e s).lastGraphemeBoundaryLine = ScriptLine.zero := by
  simp [ParseState.flushFinished, ParseState.resetGrapheme]

@[simp] theorem flushUnfinished_item (e : Engine) (s : ParseState) :
    (ParseState.flushUnfinished e s).item = s.item := by
  simp [ParseState.flushUnfinished]

@[simp] theorem flushUnfinished_newItem (e : Engine) (s : ParseState) :
    (ParseState.flushUnfinished e s).newItem = s.newItem := by
  simp [ParseState.flushUnfinished]

@[simp] theorem flushUnfinished_end_ (e : Engine) (s : ParseState) :
    (ParseState.flushUnfinished e s).end_ = s.end_ := by
  simp [ParseState.flushUnfinished]

@[simp] theorem flushUnfinished_lbh_spaceData (e : Engine) (s : ParseState) :
    (ParseState.flushUnfinished e s).lbh.spaceData = s.lbh.spaceData := by
  simp [ParseState.flushUnfinished]

@[simp] theorem flushUnfinished_lbh_glyphs (e : Engine) (s : ParseState) :
    (ParseState.flushUnfinished e s).lbh.glyphs = s.lbh.glyphs := by
  simp [ParseState.flushUnfinished]

@[simp] theorem flushUnfinished_lbh_glyphCount (e : Engine) (s : ParseState) :
    (ParseState.flushUnfinished e s).lbh.glyphCount = s.lbh.glyphCount := by
  simp [ParseState.flushUnfinished]

@[simp] theorem flushUnfinished_lbh_currentPosition (e : Engine) (s : ParseState) :
    (ParseState.flushUnfinished e s).lbh.currentPosition = s.lbh.currentPosition := by
  simp [ParseState.flushUnfinished]

@[simp] theorem flushUnfinished_lbh_previousGlyph (e : Engine) (s : ParseState) :
    (ParseState.flushUnfinished e s).lbh.previousGlyph = s.lbh.previousGlyph := by
  simp [ParseState.flushUnfinished]

@[simp] theorem flushUnfinished_lbh_previousGlyphFontEngine (e : Engine) (s : ParseState) :
    (ParseState.flushUnfinished e s).lbh.previousGlyphFontEngine = s.lbh.previousGlyphFontEngine := by
  simp [ParseState.flushUnfinished]

@[simp] theorem flushUnfinished_lbh_fontEngine (e : Engine) (s : ParseState) :
    (ParseState.flushUnfinished e s).lbh.fontEngine = s.lbh.fontEngine := by
  simp [ParseState.flushUnfinished]

@[simp] theorem flushUnfinished_lbh_whiteSpaceOrObject (e : Engine) (s : ParseState) :
    (ParseState.flushUnfinished e s).lbh.whiteSpaceOrObject = s.lbh.whiteSpaceOrObject := by
  simp [ParseState.flushUnfinished]

@[simp] theorem flushUnfinished_tWords (e : Engine) (s : ParseState) :
    (ParseState.flushUnfinished e s).tWords = pushUnfinishedWord s.tWords s.wordStart s.lbh.tmpData.textWidth
      (-(s.lbh.calculateRightBearing e).negativeRightBearing) := by
  simp [ParseState.flushUnfinished]

@[simp] theorem flushUnfinished_wordStart (e : Engine) (s : ParseState) :
    (ParseState.flushUnfinished e s).wordStart = s.lbh.currentPosition := by
  simp [ParseState.flushUnfinished]

@[simp] theorem flushUnfinished_lbh_tmpData (e : Engine) (s : ParseState) :
    (ParseState.flushUnfinished e s).lbh.tmpData = ScriptLine.zero := by
  simp [ParseState.flushUnfinished]

@[simp] theorem flushUnfinished_addingEachGrapheme (e : Engine) (s : ParseState) :
    (ParseState.flushUnfinished e s).addingEachGrapheme = s.addingEachGrapheme := by
  simp [ParseState.flushUnfinished]

@[simp] theorem flushUnfinished_lastGraphemeBoundaryPosition (e : Engine) (s : ParseState) :
    (ParseState.flushUnfinished e s).lastGraphemeBoundaryPosition = s.lastGraphemeBoundaryPosition := by
  simp [ParseState.flushUnfinished]

@[simp] theorem flushUnfinished_lastGraphemeBoundaryLine (e : Engine) (s : ParseState) :
    (ParseState.flushUnfinished e s).lastGraphemeBoundaryLine = s.lastGraphemeBoundaryLine := by
  simp [ParseState.flushUnfinished]

@[simp] theorem retroCut_item (e : Engine) (s : ParseState) :
    (ParseState.retroCut e s).item = s.item := by
  simp [ParseState.retroCut]

@[simp] theorem retroCut_newItem (e : Engine) (s : ParseState) :
    (ParseState.retroCut e s).newItem = s.newItem := by
  simp [ParseState.retroCut]

@[simp] theorem retroCut_end_ (e : Engine) (s : ParseState) :
    (ParseState.retroCut e s).end_ = s.end_ := by
  simp [ParseState.retroCut]

@[simp] theorem retroCut_lbh_spaceData (e : Engine) (s : ParseState) :
    (ParseState.retroCut e s).lbh.spaceData = s.lbh.spaceData := by
  simp [ParseState.retroCut]

@[simp] theorem retroCut_lbh_glyphs (e : Engine) (s : ParseState) :
    (ParseState.retroCut e s).lbh.glyphs = s.lbh.glyphs := by
  simp [ParseState.retroCut]

@[simp] theorem retroCut_lbh_glyphCount (e : Engine) (s : ParseState) :
    (ParseState.retroCut e s).lbh.glyphCount = s.lbh.glyphCount := by
  simp [ParseState.retroCut]

@[simp] theorem retroCut_lbh_currentPosition (e : Engine) (s : ParseState) :
    (ParseState.retroCut e s).lbh.currentPosition = s.lbh.currentPosition := by
  simp [ParseState.retroCut]

@[simp] theorem retroCut_lbh_previousGlyph (e : Engine) (s : ParseState) :
    (ParseState.retroCut e s).lbh.previousGlyph = s.lbh.previousGlyph := by
  simp [ParseState.retroCut]

@[simp] theorem retroCut_lbh_previousGlyphFontEngine (e : Engine) (s : ParseState) :
    (ParseState.retroCut e s).lbh.previousGlyphFontEngine = s.lbh.previousGlyphFontEngine := by
  simp [ParseState.retroCut]

@[simp] theorem retroCut_lbh_fontEngine (e : Engine) (s : ParseState) :
    (ParseState.retroCut e s).lbh.fontEngine = s.lbh.fontEngine := by
  simp [ParseState.retroCut]

@[simp] theorem retroCut_lbh_whiteSpaceOrObject (e : Engine) (s : ParseState) :
    (ParseState.retroCut e s).lbh.whiteSpaceOrObject = s.lbh.whiteSpaceOrObject := by
  simp [ParseState.retroCut]

@[simp] theorem retroCut_tWords (e : Engine) (s : ParseState) :
    (ParseState.retroCut e s).tWords = pushUnfinishedWord s.tWords s.wordStart s.lastGraphemeBoundaryLine.textWidth
      (-(s.lbh.calculateRightBearingForPreviousGlyph e).negativeRightBearing) := by
  simp [ParseState.retroCut]

@[simp] theorem retroCut_wordStart (e : Engine) (s : ParseState) :
    (ParseState.retroCut e s).wordStart = s.lastGraphemeBoundaryPosition.toNat := by
  simp [ParseState.retroCut]

@[simp] theorem retroCut_lbh_tmpData (e : Engine) (s : ParseState) :
    (ParseState.retroCut e s).lbh.tmpData = ScriptLine.mk (s.lbh.tmpData.length - s.lastGraphemeBoundaryLine.length)
      (s.lbh.tmpData.textWidth - s.lastGraphemeBoundaryLine.textWidth) := by
  simp [ParseState.retroCut]

@[simp] theorem retroCut_addingEachGrapheme (e : Engine) (s : ParseState) :
    (ParseState.retroCut e s).addingEachGrapheme = s.addingEachGrapheme := by
  simp [ParseState.retroCut]

@[simp] theorem retroCut_lastGraphemeBoundaryPosition (e : Engine) (s : ParseState) :
    (ParseState.retroCut e s).lastGraphemeBoundaryPosition = s.lastGraphemeBoundaryPosition := by
  simp [ParseState.retroCut]

@[simp] theorem retroCut_lastGraphemeBoundaryLine (e : Engine) (s : ParseState) :
    (ParseState.retroCut e s).lastGraphemeBoundaryLine = s.lastGraphemeBoundaryLine := by
  simp [ParseState.retroCut]

@[simp] theorem forced_item (s : ParseState) :
    (ParseState.forced s).item = s.item := by
  simp [ParseState.forced]

@[simp] theorem forced_newItem (s : ParseState) :
    (ParseState.forced s).newItem = s.newItem := by
  simp [ParseState.forced]

@[simp] theorem forced_end_ (s : ParseState) :
    (ParseState.forced s).end_ = s.end_ := by
  simp [ParseState.forced]

@[simp] theorem forced_tWords (s : ParseState) :
    (ParseState.forced s).tWords = s.tWords := by
  simp [ParseState.forced]

@[simp] theorem forced_lbh (s : ParseState) :
    (ParseState.forced s).lbh = s.lbh := by
  simp [ParseState.forced]

@[simp] theorem forced_wordStart (s : ParseState) :
    (ParseState.forced s).wordStart = s.wordStart := by
  simp [ParseState.forced]

@[simp] theorem forced_lastGraphemeBoundaryPosition (s : ParseState) :
    (ParseState.forced s).lastGraphemeBoundaryPosition = s.lastGraphemeBoundaryPosition := by
  simp [ParseState.forced]

@[simp] theorem forced_lastGraphemeBoundaryLine (s : ParseState) :
    (ParseState.forced s).lastGraphemeBoundaryLine = s.lastGraphemeBoundaryLine := by
  simp [ParseState.forced]

@[simp] theorem forced_addingEachGrapheme (s : ParseState) :
    (ParseState.forced s).addingEachGrapheme = true := by
  simp [ParseState.forced]

@[simp] theorem rememberBoundary_item (e : Engine) (s : ParseState) :
    (ParseState.rememberBoundary e s).item = s.item := by
  simp [ParseState.rememberBoundary]

@[simp] theorem rememberBoundary_newItem (e : Engine) (s : ParseState) :
    (ParseState.rememberBoundary e s).newItem = s.newItem := by
  simp [ParseState.rememberBoundary]

@[simp] theorem rememberBoundary_end_ (e : Engine) (s : ParseState) :
    (ParseState.rememberBoundary e s).end_ = s.end_ := by
  simp [ParseState.rememberBoundary]

@[simp] theorem rememberBoundary_tWords (e : Engine) (s : ParseState) :
    (ParseState.rememberBoundary e s).tWords = s.tWords := by
  simp [ParseState.rememberBoundary]

@[simp] theorem rememberBoundary_wordStart (e : Engine) (s : ParseState) :
    (ParseState.rememberBoundary e s).wordStart = s.wordStart := by
  simp [ParseState.rememberBoundary]

@[simp] theorem rememberBoundary_addingEachGrapheme (e : Engine) (s : ParseState) :
    (ParseState.rememberBoundary e s).addingEachGrapheme = s.addingEachGrapheme := by
  simp [ParseState.rememberBoundary]

@[simp] theorem rememberBoundary_lbh_tmpData (e : Engine) (s : ParseState) :
    (ParseState.rememberBoundary e s).lbh.tmpData = s.lbh.tmpData := by
  simp [ParseState.rememberBoundary]

@[simp] theorem rememberBoundary_lbh_spaceData (e : Engine) (s : ParseState) :
    (ParseState.rememberBoundary e s).lbh.spaceData = s.lbh.spaceData := by
  simp [ParseState.rememberBoundary]

@[simp] theorem rememberBoundary_lbh_glyphs (e : Engine) (s : ParseState) :
    (ParseState.rememberBoundary e s).lbh.glyphs = s.lbh.glyphs := by
  simp [ParseState.rememberBoundary]

@[simp] theorem rememberBoundary_lbh_glyphCount (e : Engine) (s : ParseState) :
    (ParseState.rememberBoundary e s).lbh.glyphCount = s.lbh.glyphCount := by
  simp [ParseState.rememberBoundary]

@[simp] theorem rememberBoundary_lbh_currentPosition (e : Engine) (s : ParseState) :
    (ParseState.rememberBoundary e s).lbh.currentPosition = s.lbh.currentPosition := by
  simp [ParseState.rememberBoundary]

@[simp] theorem rememberBoundary_lbh_fontEngine (e : Engine) (s : ParseState) :
    (ParseState.rememberBoundary e s).lbh.fontEngine = s.lbh.fontEngine := by
  simp [ParseState.rememberBoundary]

@[simp] theorem rememberBoundary_lbh_whiteSpaceOrObject (e : Engine) (s : ParseState) :
    (ParseState.rememberBoundary e s).lbh.whiteSpaceOrObject = s.lbh.whiteSpaceOrObject := by
  simp [ParseState.rememberBoundary]

@[simp] theorem rememberBoundary_lbh_rightBearing (e : Engine) (s : ParseState) :
    (ParseState.rememberBoundary e s).lbh.rightBearing = s.lbh.rightBearing := by
  simp [ParseState.rememberBoundary]

@[simp] theorem rememberBoundary_lastGraphemeBoundaryPosition (e : Engine) (s : ParseState) :
    (ParseState.rememberBoundary e s).lastGraphemeBoundaryPosition = (s.lbh.currentPosition : Int) := by
  simp [ParseState.rememberBoundary]

@[simp] theorem rememberBoundary_lastGraphemeBoundaryLine (e : Engine) (s : ParseState) :
    (ParseState.rememberBoundary e s).lastGraphemeBoundaryLine = s.lbh.tmpData := by
  simp [ParseState.rememberBoundary]

theorem ordinaryCheck_case (e : Engine) (attributes : Nat → QCharAttributes)
    (s : ParseState) : CheckCase e attributes s (ordinaryCheck e attributes s) := by
  unfold ordinaryCheck
  by_cases hbrk : breakAt e attributes s
  · rw [if_pos (by unfold breakAt at hbrk; exact hbrk)]; exact CheckCase.finished hbrk
  · rw [if_neg (by unfold breakAt at hbrk; exact hbrk)]
    by_cases hgb : (attributes s.lbh.currentPosition).graphemeBoundary = true
    · rw [if_pos hgb]
      by_cases hadd : s.addingEachGrapheme = true
      · have h1 : s.enterForcedSplit e = s := by
          unfold ParseState.enterForcedSplit
          rw [if_neg]; simp [hadd]
        simp only [h1, hadd, if_true]
        exact CheckCase.forced hbrk hgb hadd
      · have hadd2 : s.addingEachGrapheme = false := by simpa using hadd
        by_cases hw : e.minResizeWidth < s.lbh.tmpData.textWidth
        · by_cases hl : 0 ≤ s.lastGraphemeBoundaryPosition
          · have h1 : s.enterForcedSplit e = (s.retroCut e).forced := by
              unfold ParseState.enterForcedSplit
              rw [if_pos ⟨hadd2, hw⟩, if_pos hl]
            simp only [h1, forced_addingEachGrapheme, if_true]
            exact CheckCase.retro hbrk hgb hadd2 hw hl
          · have h1 : s.enterForcedSplit e = s.forced := by
              unfold ParseState.enterForcedSplit
              rw [if_pos ⟨hadd2, hw⟩, if_neg hl]
            simp only [h1, forced_addingEachGrapheme, if_true]
            exact CheckCase.forcedNow hbrk hgb hadd2 hw (by omega)
        · have h1 : s.enterForcedSplit e = s := by
            unfold ParseState.enterForcedSplit
            rw [if_neg]; intro h; exact hw h.2
          simp only [h1, hadd2]
          exact CheckCase.remember hbrk hgb hadd2 (by omega)
    · rw [if_neg hgb]
      exact CheckCase.skip hbrk (by simpa using hgb)

/-! ## The ordinary branch keeps the words in order -/

@[simp] theorem Word.content_position (p : Nat) (u : Bool) (w r : Int) :
    (Word.content p u w r).position = p := rfl

@[simp] theorem Word.newlineAt_position (p : Nat) (i : Int) :
    (Word.newlineAt p i).position = p := rfl

theorem WordsOk.pushFinished {ws : List Word} {p q : Nat} (h : WordsOk ws p)
    (hq : p < q) (hq2 : q ≤ 65536) (w r : Int) : WordsOk (pushFinishedWord ws p w r) q :=
  h.push (by rw [Word.content_position]; exact toUint16_of_lt (by omega)) hq

theorem WordsOk.pushUnfinished {ws : List Word} {p q : Nat} (h : WordsOk ws p)
    (hq : p < q) (hq2 : q ≤ 65536) (w r : Int) : WordsOk (pushUnfinishedWord ws p w r) q :=
  h.push (by rw [Word.content_position]; exact toUint16_of_lt (by omega)) hq

theorem WordsOk.pushNewline {ws : List Word} {p q : Nat} (h : WordsOk ws p)
    (hq : p < q) (hq2 : q ≤ 65536) (i : Int) : WordsOk (pushNewline ws p i) q :=
  h.push (by rw [Word.newlineAt_position]; exact toUint16_of_lt (by omega)) hq

theorem ordinaryCheck_fields (e : Engine) (attributes : Nat → QCharAttributes)
    (s : ParseState) :
    (ordinaryCheck e attributes s).1.lbh.currentPosition = s.lbh.currentPosition
      ∧ (ordinaryCheck e attributes s).1.end_ = s.end_
      ∧ (ordinaryCheck e attributes s).1.newItem = s.newItem
      ∧ (ordinaryCheck e attributes s).1.item = s.item
      ∧ (ordinaryCheck e attributes s).1.lbh.glyphs = s.lbh.glyphs := by
  have h := ordinaryCheck_case e attributes s
  generalize ordinaryCheck e attributes s = r at h ⊢
  cases h <;> simp

theorem ordinaryCheck_core (e : Engine) (hsz : e.size ≤ 65536)
    (attributes : Nat → QCharAttributes) (s : ParseState)
    (hcur : s.lbh.currentPosition ≤ e.size) (hlt : s.wordStart < s.lbh.currentPosition)
    (hw : WordsOk s.tWords s.wordStart)
    (hb : s.addingEachGrapheme = false → 0 ≤ s.lastGraphemeBoundaryPosition →
      (s.wordStart : Int) < s.lastGraphemeBoundaryPosition
        ∧ s.lastGraphemeBoundaryPosition < (s.lbh.currentPosition : Int)) :
    Core e (ordinaryCheck e attributes s).1
      ∧ ((ordinaryCheck e attributes s).2 = true →
          (ordinaryCheck e attributes s).1.wordStart = s.lbh.currentPosition)
      ∧ ((ordinaryCheck e attributes s).2 = false →
          s.lbh.currentPosition < e.size) := by
  have hsize : ¬ breakAt e attributes s → s.lbh.currentPosition < e.size := by
    intro hbrk
    by_contra hc
    exact hbrk (Or.inl (by omega))
  have h := ordinaryCheck_case e attributes s
  generalize ordinaryCheck e attributes s = r at h ⊢
  cases h with
  | finished hbrk =>
    refine ⟨⟨by simpa using hcur, by simp, ?_, by simp⟩, by simp, by simp⟩
    simpa using hw.pushFinished hlt (by omega) _ _
  | retro hbrk hgb hadd hwd hl =>
    obtain ⟨h1, h2⟩ := hb hadd hl
    refine ⟨⟨by simpa using hcur, by simp, ?_, by simp⟩, by simp, fun _ => hsize hbrk⟩
    have hA := hw.pushUnfinished (q := s.lastGraphemeBoundaryPosition.toNat) (by omega)
      (by omega) s.lastGraphemeBoundaryLine.textWidth
      (-(s.lbh.calculateRightBearingForPreviousGlyph e).negativeRightBearing)
    simpa using hA.pushUnfinished (q := s.lbh.currentPosition) (by omega) (by omega) _ _
  | forcedNow hbrk hgb hadd hwd hl =>
    refine ⟨⟨by simpa using hcur, by simp, ?_, by simp⟩, by simp, fun _ => hsize hbrk⟩
    simpa using hw.pushUnfinished hlt (by omega) _ _
  | forced hbrk hgb hadd =>
    refine ⟨⟨by simpa using hcur, by simp, ?_, by simp [hadd]⟩, by simp, fun _ => hsize hbrk⟩
    simpa using hw.pushUnfinished hlt (by omega) _ _
  | remember hbrk hgb hadd hwd =>
    refine ⟨⟨by simpa using hcur, by simpa using Nat.le_of_lt hlt, by simpa using hw, ?_⟩,
      by simp, fun _ => hsize hbrk⟩
    intro _ _
    simp only [rememberBoundary_wordStart, rememberBoundary_lastGraphemeBoundaryPosition,
      rememberBoundary_lbh_currentPosition]
    exact ⟨by exact_mod_cast hlt, le_refl _⟩
  | skip hbrk hgb =>
    refine ⟨⟨hcur, Nat.le_of_lt hlt, hw, ?_⟩, by simp, fun _ => hsize hbrk⟩
    intro h1 h2
    obtain ⟨h3, h4⟩ := hb h1 h2
    exact ⟨h3, le_of_lt h4⟩

/-! ## Passes of the ordinary loop -/

theorem afterCluster_cur (e : Engine) (s : ParseState) (current : QScriptItem) :
    (s.afterCluster e current).lbh.currentPosition
      = (addNextCluster s.lbh.currentPosition s.end_ s.lbh.tmpData s.lbh.glyphCount
          current.currentNumGlyphs e.logClusters s.lbh.glyphs).pos := rfl

theorem afterCluster_tmpData (e : Engine) (s : ParseState) (current : QScriptItem) :
    (s.afterCluster e current).lbh.tmpData
      = (addNextCluster s.lbh.currentPosition s.end_ s.lbh.tmpData s.lbh.glyphCount
          current.currentNumGlyphs e.logClusters s.lbh.glyphs).line := rfl

@[simp] theorem afterCluster_tWords (e : Engine) (s : ParseState) (current : QScriptItem) :
    (s.afterCluster e current).tWords = s.tWords := rfl

@[simp] theorem afterCluster_wordStart (e : Engine) (s : ParseState)
    (current : QScriptItem) : (s.afterCluster e current).wordStart = s.wordStart := rfl

@[simp] theorem afterCluster_end (e : Engine) (s : ParseState) (current : QScriptItem) :
    (s.afterCluster e current).end_ = s.end_ := rfl

@[simp] theorem afterCluster_newItem (e : Engine) (s : ParseState)
    (current : QScriptItem) : (s.afterCluster e current).newItem = s.newItem := rfl

@[simp] theorem afterCluster_item (e : Engine) (s : ParseState) (current : QScriptItem) :
    (s.afterCluster e current).item = s.item := rfl

@[simp] theorem afterCluster_glyphs (e : Engine) (s : ParseState) (current : QScriptItem) :
    (s.afterCluster e current).lbh.glyphs = s.lbh.glyphs := rfl

@[simp] theorem afterCluster_spaceData (e : Engine) (s : ParseState)
    (current : QScriptItem) :
    (s.afterCluster e current).lbh.spaceData = s.lbh.spaceData := rfl

@[simp] theorem afterCluster_addingEachGrapheme (e : Engine) (s : ParseState)
    (current : QScriptItem) :
    (s.afterCluster e current).addingEachGrapheme = s.addingEachGrapheme := rfl

@[simp] theorem afterCluster_lastGraphemeBoundaryPosition (e : Engine) (s : ParseState)
    (current : QScriptItem) :
    (s.afterCluster e current).lastGraphemeBoundaryPosition
      = s.lastGraphemeBoundaryPosition := rfl

@[simp] theorem afterCluster_lastGraphemeBoundaryLine (e : Engine) (s : ParseState)
    (current : QScriptItem) :
    (s.afterCluster e current).lastGraphemeBoundaryLine = s.lastGraphemeBoundaryLine := rfl

theorem ordinaryPass_fields (e : Engine) (attributes : Nat → QCharAttributes)
    (s : ParseState) (current : QScriptItem) :
    (ordinaryPass e attributes s current).1.lbh.currentPosition
        = (addNextCluster s.lbh.currentPosition s.end_ s.lbh.tmpData s.lbh.glyphCount
            current.currentNumGlyphs e.logClusters s.lbh.glyphs).pos
      ∧ (ordinaryPass e attributes s current).1.end_ = s.end_
      ∧ (ordinaryPass e attributes s current).1.newItem = s.newItem
      ∧ (ordinaryPass e attributes s current).1.item = s.item
      ∧ (ordinaryPass e attributes s current).1.lbh.glyphs = s.lbh.glyphs := by
  unfold ordinaryPass
  obtain ⟨h1, h2, h3, h4, h5⟩ := ordinaryCheck_fields e attributes
    (s.afterCluster e current)
  exact ⟨h1, h2, h3, h4, h5⟩

theorem ordinaryPass_cur_gt (e : Engine) (attributes : Nat → QCharAttributes)
    (s : ParseState) (current : QScriptItem) :
    s.lbh.currentPosition < (ordinaryPass e attributes s current).1.lbh.currentPosition := by
  rw [(ordinaryPass_fields e attributes s current).1]
  exact addNextCluster_pos_gt _ _ _ _ _ _ _

theorem ordinaryPass_cur_le (e : Engine) (attributes : Nat → QCharAttributes)
    (s : ParseState) (current : QScriptItem) (h : s.lbh.currentPosition < s.end_) :
    (ordinaryPass e attributes s current).1.lbh.currentPosition ≤ s.end_ := by
  rw [(ordinaryPass_fields e attributes s current).1]
  exact addNextCluster_pos_le _ _ _ _ _ _ _ h

/-- How the `do … while` of the ordinary branch ends: after a pass from a
state `t` that the loop reached, either through `break` or with the cursor
at the end of the item.  `P` is any property of the states at the head of
a pass that the passes preserve. -/
theorem ordinaryLoop_exit (e : Engine) (attributes : Nat → QCharAttributes)
    (current : QScriptItem) (P : ParseState → Prop)
    (hP : ∀ s, P s → s.lbh.currentPosition < s.end_ →
      (ordinaryPass e attributes s current).2 = false →
      (ordinaryPass e attributes s current).1.lbh.currentPosition
        < (ordinaryPass e attributes s current).1.end_ →
      P (ordinaryPass e attributes s current).1) :
    ∀ fuel s, P s → s.lbh.currentPosition < s.end_ →
      s.end_ - s.lbh.currentPosition ≤ fuel + 1 →
      ∃ t, P t ∧ t.lbh.currentPosition < t.end_ ∧ t.end_ = s.end_
        ∧ s.lbh.currentPosition ≤ t.lbh.currentPosition
        ∧ t.newItem = s.newItem ∧ t.item = s.item ∧ t.lbh.glyphs = s.lbh.glyphs
        ∧ ordinaryLoop e attributes current fuel s = (ordinaryPass e attributes t current).1
        ∧ ((ordinaryPass e attributes t current).2 = true
          ∨ (ordinaryPass e attributes t current).1.lbh.currentPosition = t.end_) := by
  intro fuel
  induction fuel with
  | zero =>
    intro s hs hlt hfuel
    refine ⟨s, hs, hlt, rfl, le_refl _, rfl, rfl, rfl, rfl, Or.inr ?_⟩
    have h1 := ordinaryPass_cur_gt e attributes s current
    have h2 := ordinaryPass_cur_le e attributes s current hlt
    omega
  | succ k ih =>
    intro s hs hlt hfuel
    have h1 := ordinaryPass_cur_gt e attributes s current
    have h2 := ordinaryPass_cur_le e attributes s current hlt
    obtain ⟨-, hend, hni, hit, hgl⟩ := ordinaryPass_fields e attributes s current
    simp only [ordinaryLoop]
    by_cases hb : (ordinaryPass e attributes s current).2 = true
    · rw [if_pos hb]
      exact ⟨s, hs, hlt, rfl, le_refl _, rfl, rfl, rfl, rfl, Or.inl hb⟩
    · rw [if_neg hb]
      by_cases hc : (ordinaryPass e attributes s current).1.lbh.currentPosition
          < (ordinaryPass e attributes s current).1.end_
      · rw [if_pos hc]
        obtain ⟨t, ht, htlt, htend, htcur, htni, htit, htgl, hres, hex⟩ :=
          ih (ordinaryPass e attributes s current).1
            (hP s hs hlt (by simpa using hb) hc) hc (by rw [hend]; omega)
        exact ⟨t, ht, htlt, by rw [htend, hend], by omega, by rw [htni, hni],
          by rw [htit, hit], by rw [htgl, hgl], hres, hex⟩
      · rw [if_neg hc]
        refine ⟨s, hs, hlt, rfl, le_refl _, rfl, rfl, rfl, rfl, Or.inr ?_⟩
        rw [hend] at hc
        omega

theorem ordinaryPass_core (e : Engine) (hsz : e.size ≤ 65536)
    (attributes : Nat → QCharAttributes) (s : ParseState) (current : QScriptItem)
    (hc : Core e s) (hlt : s.lbh.currentPosition < s.end_) (hend : s.end_ ≤ e.size) :
    Core e (ordinaryPass e attributes s current).1
      ∧ ((ordinaryPass e attributes s current).2 = true →
          (ordinaryPass e attributes s current).1.wordStart
            = (ordinaryPass e attributes s current).1.lbh.currentPosition)
      ∧ ((ordinaryPass e attributes s current).2 = false →
          (ordinaryPass e attributes s current).1.lbh.currentPosition < e.size) := by
  have hgt := addNextCluster_pos_gt s.lbh.currentPosition s.end_ s.lbh.tmpData
    s.lbh.glyphCount current.currentNumGlyphs e.logClusters s.lbh.glyphs
  have hle := addNextCluster_pos_le s.lbh.currentPosition s.end_ s.lbh.tmpData
    s.lbh.glyphCount current.currentNumGlyphs e.logClusters s.lbh.glyphs hlt
  have hcur := (ordinaryPass_fields e attributes s current).1
  have hwle := hc.wordStart_le
  obtain ⟨h1, h2, h3⟩ := ordinaryCheck_core e hsz attributes
    (s.afterCluster e current)
    (by rw [afterCluster_cur]; omega) (by rw [afterCluster_cur]; exact Nat.lt_of_le_of_lt hwle hgt)
    hc.words
    (by
      intro ha hb
      obtain ⟨h4, h5⟩ := hc.boundary ha hb
      refine ⟨h4, ?_⟩
      rw [afterCluster_cur, afterCluster_lastGraphemeBoundaryPosition]
      omega)
  refine ⟨h1, ?_, ?_⟩
  · intro hb; rw [hcur]; exact h2 hb
  · intro hb; rw [hcur]; exact h3 hb

/-! ## Well-formed items -/

theorem Engine.startOf_of_get (e : Engine) {i : Nat} {si : QScriptItem}
    (h : e.items.get? i = some si) : e.startOf i = si.position := by
  unfold Engine.startOf; rw [h]

theorem Engine.startOf_of_length_le (e : Engine) {i : Nat} (h : e.items.length ≤ i) :
    e.startOf i = e.size := by
  have : e.items.get? i = none := List.get?_eq_none.2 h
  unfold Engine.startOf; rw [this]

theorem Engine.WellFormed.startOf_le (e : Engine) (hwf : e.WellFormed) :
    ∀ k i, e.items.length ≤ i + k → e.startOf i ≤ e.size := by
  intro k
  induction k with
  | zero => intro i h; rw [e.startOf_of_length_le (by simpa using h)]
  | succ k ih =>
    intro i h
    by_cases hi : i < e.items.length
    · have h1 := hwf.2 i hi
      have h2 := ih (i + 1) (by omega)
      omega
    · rw [e.startOf_of_length_le (by omega)]

theorem Engine.WellFormed.le_size (e : Engine) (hwf : e.WellFormed) (i : Nat) :
    e.startOf i ≤ e.size :=
  Engine.WellFormed.startOf_le e hwf e.items.length i (by omega)

theorem Engine.end_eq (e : Engine) (i : Nat) (si : QScriptItem) :
    ((si.position : Int) + e.length i si).toNat = e.startOf (i + 1) := by
  unfold Engine.length Engine.startOf
  cases e.items.get? (i + 1) with
  | none => simp
  | some next => simp

/-! ## Entering an item -/

theorem enterItem_spec (e : Engine) (hwf : e.WellFormed) (s s0 : ParseState)
    (si : QScriptItem) (hinv : PosInv e s) (hget : e.items.get? s.newItem = some si)
    (hent : enterItem e s si = some s0) :
    Core e s0 ∧ s0.lbh.currentPosition < s0.end_ ∧ s0.end_ = e.startOf (s.newItem + 1)
      ∧ s0.newItem = s.newItem ∧ s0.item = (s.newItem : Int)
      ∧ s0.lbh.currentPosition = s.cursor
      ∧ s0.tWords = s.tWords ∧ s0.wordStart = s.wordStart
      ∧ s0.lbh.tmpData = s.lbh.tmpData ∧ s0.lbh.spaceData = s.lbh.spaceData
      ∧ s0.addingEachGrapheme = s.addingEachGrapheme
      ∧ s0.lastGraphemeBoundaryPosition = s.lastGraphemeBoundaryPosition
      ∧ s0.lastGraphemeBoundaryLine = s.lastGraphemeBoundaryLine := by
  have hlen : s.newItem < e.items.length := by
    by_contra hc
    have : e.items.get? s.newItem = none := List.get?_eq_none.2 (by omega)
    rw [this] at hget; simp at hget
  have hpos := e.startOf_of_get hget
  unfold enterItem at hent
  by_cases hne : (s.newItem : Int) ≠ s.item
  · rw [if_pos hne] at hent
    split at hent
    · simp at hent
    · simp only [Option.some.injEq] at hent
      subst hent
      have hcur : s.cursor = s.end_ := by simp [ParseState.cursor, hne]
      have hother := hinv.other hne
      have hstep := hwf.2 s.newItem hlen
      have hle := Engine.WellFormed.le_size e hwf (s.newItem + 1)
      have hws := hinv.wordStart_le
      refine ⟨⟨?_, ?_, hinv.words, ?_⟩, ?_, Engine.end_eq e _ _, rfl, rfl, ?_, rfl, rfl, rfl,
        rfl, rfl, rfl, rfl⟩
      · simp only; omega
      · simp only; omega
      · intro ha hb
        obtain ⟨h1, h2⟩ := hinv.boundary ha hb
        simp only
        refine ⟨h1, ?_⟩
        rw [hcur] at h2
        omega
      · simp only [Engine.end_eq]; omega
      · simp only; omega
  · rw [if_neg hne] at hent
    simp only [Option.some.injEq] at hent
    subst hent
    have heq : (s.newItem : Int) = s.item := by simpa using hne
    have hcur : s.cursor = s.lbh.currentPosition := by simp [ParseState.cursor, heq]
    obtain ⟨h1, h2, h3⟩ := hinv.same heq
    have hle := Engine.WellFormed.le_size e hwf (s.newItem + 1)
    have hws := hinv.wordStart_le
    refine ⟨⟨by omega, by omega, hinv.words, ?_⟩, h1, h2, rfl, heq.symm, hcur.symm, rfl, rfl,
      rfl, rfl, rfl, rfl, rfl⟩
    intro ha hb
    have := hinv.boundary ha hb
    rw [hcur] at this
    exact this

/-! ## Fields of the separator and object branches -/

theorem ParseState.flushPending_fields (e : Engine) (s : ParseState) :
    (s.flushPending e).item = s.item ∧ (s.flushPending e).end_ = s.end_
      ∧ (s.flushPending e).newItem = s.newItem
      ∧ (s.flushPending e).lbh.spaceData = s.lbh.spaceData
      ∧ (s.flushPending e).lbh.glyphs = s.lbh.glyphs
      ∧ (s.flushPending e).lbh.currentPosition = s.lbh.currentPosition
      ∧ (s.flushPending e).lbh.previousGlyph = s.lbh.previousGlyph
      ∧ (s.flushPending e).lbh.previousGlyphFontEngine = s.lbh.previousGlyphFontEngine
      ∧ (s.flushPending e).lbh.fontEngine = s.lbh.fontEngine
      ∧ (s.flushPending e).lbh.glyphCount = s.lbh.glyphCount := by
  unfold ParseState.flushPending
  split <;> simp

@[simp] theorem flushPending_item (e : Engine) (s : ParseState) :
    (s.flushPending e).item = s.item := (s.flushPending_fields e).1

@[simp] theorem flushPending_end (e : Engine) (s : ParseState) :
    (s.flushPending e).end_ = s.end_ := (s.flushPending_fields e).2.1

@[simp] theorem flushPending_newItem (e : Engine) (s : ParseState) :
    (s.flushPending e).newItem = s.newItem := (s.flushPending_fields e).2.2.1

@[simp] theorem flushPending_spaceData (e : Engine) (s : ParseState) :
    (s.flushPending e).lbh.spaceData = s.lbh.spaceData := (s.flushPending_fields e).2.2.2.1

@[simp] theorem flushPending_glyphs (e : Engine) (s : ParseState) :
    (s.flushPending e).lbh.glyphs = s.lbh.glyphs := (s.flushPending_fields e).2.2.2.2.1

@[simp] theorem flushPending_currentPosition (e : Engine) (s : ParseState) :
    (s.flushPending e).lbh.currentPosition = s.lbh.currentPosition :=
  (s.flushPending_fields e).2.2.2.2.2.1

@[simp] theorem flushPending_previousGlyph (e : Engine) (s : ParseState) :
    (s.flushPending e).lbh.previousGlyph = s.lbh.previousGlyph :=
  (s.flushPending_fields e).2.2.2.2.2.2.1

@[simp] theorem flushPending_previousGlyphFontEngine (e : Engine) (s : ParseState) :
    (s.flushPending e).lbh.previousGlyphFontEngine = s.lbh.previousGlyphFontEngine :=
  (s.flushPending_fields e).2.2.2.2.2.2.2.1

@[simp] theorem flushPending_fontEngine (e : Engine) (s : ParseState) :
    (s.flushPending e).lbh.fontEngine = s.lbh.fontEngine :=
  (s.flushPending_fields e).2.2.2.2.2.2.2.2.1

@[simp] theorem flushPending_glyphCount (e : Engine) (s : ParseState) :
    (s.flushPending e).lbh.glyphCount = s.lbh.glyphCount :=
  (s.flushPending_fields e).2.2.2.2.2.2.2.2.2

theorem flushFinished_core (e : Engine) (hsz : e.size ≤ 65536) (s : ParseState)
    (hcur : s.lbh.currentPosition ≤ e.size) (hlt : s.wordStart < s.lbh.currentPosition)
    (hw : WordsOk s.tWords s.wordStart) : Core e (s.flushFinished e) := by
  refine ⟨by simpa using hcur, by simp, ?_, by simp⟩
  simpa using hw.pushFinished hlt (by omega) _ _

theorem flushPending_core (e : Engine) (hsz : e.size ≤ 65536) (s : ParseState)
    (hc : Core e s) :
    Core e (s.flushPending e) ∧ (s.flushPending e).wordStart = s.lbh.currentPosition := by
  unfold ParseState.flushPending
  split
  · rename_i hlt
    exact ⟨flushFinished_core e hsz s hc.cur_le hlt hc.words, by simp⟩
  · rename_i hlt
    have := hc.wordStart_le
    exact ⟨hc, by omega⟩

@[simp] theorem separatorBranch_item (e : Engine) (s : ParseState) :
    (separatorBranch e s).item = s.item := by
  simp [separatorBranch, ParseState.resetGrapheme, ParseState.flushPending_fields]

@[simp] theorem separatorBranch_end_ (e : Engine) (s : ParseState) :
    (separatorBranch e s).end_ = s.end_ := by
  simp [separatorBranch, ParseState.resetGrapheme, ParseState.flushPending_fields]

@[simp] theorem separatorBranch_newItem (e : Engine) (s : ParseState) :
    (separatorBranch e s).newItem = s.newItem + 1 := by
  simp [separatorBranch, ParseState.resetGrapheme, ParseState.flushPending_fields]

@[simp] theorem separatorBranch_lbh_spaceData (e : Engine) (s : ParseState) :
    (separatorBranch e s).lbh.spaceData = s.lbh.spaceData := by
  simp [separatorBranch, ParseState.resetGrapheme, ParseState.flushPending_fields]

@[simp] theorem separatorBranch_lbh_glyphs (e : Engine) (s : ParseState) :
    (separatorBranch e s).lbh.glyphs = s.lbh.glyphs := by
  simp [separatorBranch, ParseState.resetGrapheme, ParseState.flushPending_fields]

@[simp] theorem separatorBranch_lbh_currentPosition (e : Engine) (s : ParseState) :
    (separatorBranch e s).lbh.currentPosition = s.lbh.currentPosition := by
  simp [separatorBranch, ParseState.resetGrapheme, ParseState.flushPending_fields]

@[simp] theorem separatorBranch_lbh_previousGlyph (e : Engine) (s : ParseState) :
    (separatorBranch e s).lbh.previousGlyph = s.lbh.previousGlyph := by
  simp [separatorBranch, ParseState.resetGrapheme, ParseState.flushPending_fields]

@[simp] theorem separatorBranch_lbh_previousGlyphFontEngine (e : Engine) (s : ParseState) :
    (separatorBranch e s).lbh.previousGlyphFontEngine = s.lbh.previousGlyphFontEngine := by
  simp [separatorBranch, ParseState.resetGrapheme, ParseState.flushPending_fields]

@[simp] theorem separatorBranch_lbh_fontEngine (e : Engine) (s : ParseState) :
    (separatorBranch e s).lbh.fontEngine = s.lbh.fontEngine := by
  simp [separatorBranch, ParseState.resetGrapheme, ParseState.flushPending_fields]

@[simp] theorem separatorBranch_tWords (e : Engine) (s : ParseState) :
    (separatorBranch e s).tWords = pushNewline (s.flushPending e).tWords (s.flushPending e).wordStart (e.blockIndex (s.flushPending e).wordStart) := by
  simp [separatorBranch, ParseState.resetGrapheme, ParseState.flushPending_fields]

@[simp] theorem separatorBranch_wordStart (e : Engine) (s : ParseState) :
    (separatorBranch e s).wordStart = s.end_ := by
  simp [separatorBranch, ParseState.resetGrapheme, ParseState.flushPending_fields]

@[simp] theorem separatorBranch_lbh_tmpData (e : Engine) (s : ParseState) :
    (separatorBranch e s).lbh.tmpData = ScriptLine.zero := by
  simp [separatorBranch, ParseState.resetGrapheme, ParseState.flushPending_fields]

@[simp] theorem separatorBranch_lbh_whiteSpaceOrObject (e : Engine) (s : ParseState) :
    (separatorBranch e s).lbh.whiteSpaceOrObject = true := by
  simp [separatorBranch, ParseState.resetGrapheme, ParseState.flushPending_fields]

@[simp] theorem separatorBranch_addingEachGrapheme (e : Engine) (s : ParseState) :
    (separatorBranch e s).addingEachGrapheme = false := by
  simp [separatorBranch, ParseState.resetGrapheme, ParseState.flushPending_fields]

@[simp] theorem separatorBranch_lastGraphemeBoundaryPosition (e : Engine) (s : ParseState) :
    (separatorBranch e s).lastGraphemeBoundaryPosition = -1 := by
  simp [separatorBranch, ParseState.resetGrapheme, ParseState.flushPending_fields]

@[simp] theorem separatorBranch_lastGraphemeBoundaryLine (e : Engine) (s : ParseState) :
    (separatorBranch e s).lastGraphemeBoundaryLine = ScriptLine.zero := by
  simp [separatorBranch, ParseState.resetGrapheme, ParseState.flushPending_fields]

@[simp] theorem objectBranch_item (e : Engine) (s : ParseState) (current : QScriptItem) :
    (objectBranch e s current).item = s.item := by
  simp [objectBranch, ParseState.resetGrapheme, ParseState.flushPending_fields]

@[simp] theorem objectBranch_end_ (e : Engine) (s : ParseState) (current : QScriptItem) :
    (objectBranch e s current).end_ = s.end_ := by
  simp [objectBranch, ParseState.resetGrapheme, ParseState.flushPending_fields]

@[simp] theorem objectBranch_newItem (e : Engine) (s : ParseState) (current : QScriptItem) :
    (objectBranch e s current).newItem = s.newItem + 1 := by
  simp [objectBranch, ParseState.resetGrapheme, ParseState.flushPending_fields]

@[simp] theorem objectBranch_lbh_spaceData (e : Engine) (s : ParseState) (current : QScriptItem) :
    (objectBranch e s current).lbh.spaceData = s.lbh.spaceData := by
  simp [objectBranch, ParseState.resetGrapheme, ParseState.flushPending_fields]

@[simp] theorem objectBranch_lbh_glyphs (e : Engine) (s : ParseState) (current : QScriptItem) :
    (objectBranch e s current).lbh.glyphs = s.lbh.glyphs := by
  simp [objectBranch, ParseState.resetGrapheme, ParseState.flushPending_fields]

@[simp] theorem objectBranch_lbh_currentPosition (e : Engine) (s : ParseState) (current : QScriptItem) :
    (objectBranch e s current).lbh.currentPosition = s.lbh.currentPosition := by
  simp [objectBranch, ParseState.resetGrapheme, ParseState.flushPending_fields]

@[simp] theorem objectBranch_lbh_previousGlyph (e : Engine) (s : ParseState) (current : QScriptItem) :
    (objectBranch e s current).lbh.previousGlyph = s.lbh.previousGlyph := by
  simp [objectBranch, ParseState.resetGrapheme, ParseState.flushPending_fields]

@[simp] theorem objectBranch_lbh_previousGlyphFontEngine (e : Engine) (s : ParseState) (current : QScriptItem) :
    (objectBranch e s current).lbh.previousGlyphFontEngine = s.lbh.previousGlyphFontEngine := by
  simp [objectBranch, ParseState.resetGrapheme, ParseState.flushPending_fields]

@[simp] theorem objectBranch_lbh_fontEngine (e : Engine) (s : ParseState) (current : QScriptItem) :
    (objectBranch e s current).lbh.fontEngine = s.lbh.fontEngine := by
  simp [objectBranch, ParseState.resetGrapheme, ParseState.flushPending_fields]

@[simp] theorem objectBranch_wordStart (e : Engine) (s : ParseState) (current : QScriptItem) :
    (objectBranch e s current).wordStart = s.end_ := by
  simp [objectBranch, ParseState.resetGrapheme, ParseState.flushPending_fields]

@[simp] theorem objectBranch_lbh_tmpData (e : Engine) (s : ParseState) (current : QScriptItem) :
    (objectBranch e s current).lbh.tmpData = ScriptLine.zero := by
  simp [objectBranch, ParseState.resetGrapheme, ParseState.flushPending_fields]

@[simp] theorem objectBranch_lbh_whiteSpaceOrObject (e : Engine) (s : ParseState) (current : QScriptItem) :
    (objectBranch e s current).lbh.whiteSpaceOrObject = true := by
  simp [objectBranch, ParseState.resetGrapheme, ParseState.flushPending_fields]

@[simp] theorem objectBranch_addingEachGrapheme (e : Engine) (s : ParseState) (current : QScriptItem) :
    (objectBranch e s current).addingEachGrapheme = false := by
  simp [objectBranch, ParseState.resetGrapheme, ParseState.flushPending_fields]

@[simp] theorem objectBranch_lastGraphemeBoundaryPosition (e : Engine) (s : ParseState) (current : QScriptItem) :
    (objectBranch e s current).lastGraphemeBoundaryPosition = -1 := by
  simp [objectBranch, ParseState.resetGrapheme, ParseState.flushPending_fields]

@[simp] theorem objectBranch_lastGraphemeBoundaryLine (e : Engine) (s : ParseState) (current : QScriptItem) :
    (objectBranch e s current).lastGraphemeBoundaryLine = ScriptLine.zero := by
  simp [objectBranch, ParseState.resetGrapheme, ParseState.flushPending_fields]

theorem objectBranch_tWords (e : Engine) (s : ParseState) (current : QScriptItem) :
    ∃ r, (objectBranch e s current).tWords
      = pushFinishedWord (s.flushPending e).tWords (s.flushPending e).wordStart
          ((s.flushPending e).lbh.tmpData.textWidth + current.width) r := by
  refine Exists.intro ?r ?h
  case h =>
    simp only [objectBranch, ParseState.resetGrapheme, calculateRightBearing_tmpData]
    exact rfl

/-! ## The space-break branch -/

theorem atSpaceBreakFrom_true (e : Engine) (attributes : Nat → QCharAttributes)
    (end_ : Nat) : ∀ fuel index, atSpaceBreakFrom e attributes end_ fuel index = true →
      index < end_ ∧ (attributes index).whiteSpace = true := by
  intro fuel
  cases fuel with
  | zero => intro index h; simp [atSpaceBreakFrom] at h
  | succ k =>
    intro index h
    simp only [atSpaceBreakFrom] at h
    split at h
    · rename_i hlt
      split at h
      · simp at h
      · rename_i hws
        exact ⟨hlt, by simpa using hws⟩
    · simp at h

theorem spaceLoop_spec (e : Engine) (attributes : Nat → QCharAttributes) (end_ : Nat)
    (current : QScriptItem) :
    ∀ fuel (lbh : LineBreakHelper), lbh.currentPosition ≤ end_ →
      lbh.currentPosition ≤ (spaceLoop e attributes end_ current fuel lbh).currentPosition
      ∧ (spaceLoop e attributes end_ current fuel lbh).currentPosition ≤ end_
      ∧ (spaceLoop e attributes end_ current fuel lbh).tmpData = lbh.tmpData
      ∧ (spaceLoop e attributes end_ current fuel lbh).glyphs = lbh.glyphs
      ∧ (spaceLoop e attributes end_ current fuel lbh).whiteSpaceOrObject
          = lbh.whiteSpaceOrObject
      ∧ (spaceLoop e attributes end_ current fuel lbh).fontEngine = lbh.fontEngine
      ∧ (spaceLoop e attributes end_ current fuel lbh).previousGlyph = lbh.previousGlyph
      ∧ (spaceLoop e attributes end_ current fuel lbh).previousGlyphFontEngine
          = lbh.previousGlyphFontEngine
      ∧ (end_ - lbh.currentPosition ≤ fuel →
          ¬ ((spaceLoop e attributes end_ current fuel lbh).currentPosition < end_
            ∧ (attributes (spaceLoop e attributes end_ current fuel
                lbh).currentPosition).whiteSpace = true))
      ∧ (0 < fuel → lbh.currentPosition < end_ →
          (attributes lbh.currentPosition).whiteSpace = true →
          lbh.currentPosition
            < (spaceLoop e attributes end_ current fuel lbh).currentPosition) := by
  intro fuel
  induction fuel with
  | zero =>
    intro lbh hle
    simp only [spaceLoop]
    refine ⟨le_refl _, hle, ?_, ?_, ?_, ?_, ?_, ?_, ?_, ?_⟩ <;> try trivial
    · intro h hc; omega
    · intro h; omega
  | succ k ih =>
    intro lbh hle
    simp only [spaceLoop]
    split
    · rename_i hc
      have hgt := addNextCluster_pos_gt lbh.currentPosition end_ lbh.spaceData
        lbh.glyphCount current.currentNumGlyphs e.logClusters lbh.glyphs
      have hle2 := addNextCluster_pos_le lbh.currentPosition end_ lbh.spaceData
        lbh.glyphCount current.currentNumGlyphs e.logClusters lbh.glyphs hc.1
      obtain ⟨h1, h2, h3, h4, h5, h6, h7, h8, h9, -⟩ := ih
        { lbh with
          currentPosition := (addNextCluster lbh.currentPosition end_ lbh.spaceData
            lbh.glyphCount current.currentNumGlyphs e.logClusters lbh.glyphs).pos,
          spaceData := (addNextCluster lbh.currentPosition end_ lbh.spaceData
            lbh.glyphCount current.currentNumGlyphs e.logClusters lbh.glyphs).line,
          glyphCount := (addNextCluster lbh.currentPosition end_ lbh.spaceData
            lbh.glyphCount current.currentNumGlyphs e.logClusters lbh.glyphs).glyphCount }
        hle2
      simp only at h1 h9
      refine ⟨by omega, h2, h3, h4, h5, h6, h7, h8, ?_, ?_⟩
      · intro hf; exact h9 (by omega)
      · intro _ _ _; omega
    · rename_i hc
      refine ⟨le_refl _, hle, ?_, ?_, ?_, ?_, ?_, ?_, ?_, ?_⟩ <;> try trivial
      · intro _; exact hc
      · intro _ h1 h2; exact absurd ⟨h1, h2⟩ hc

/-! ## One iteration keeps the position facts -/

theorem posInv_of_text (e : Engine) (n : Nat) (s1 : ParseState)
    (hn : n < e.items.length) (hc : Core e s1) (hni : s1.newItem = n)
    (hit : s1.item = (n : Int)) (hend : s1.end_ = e.startOf (n + 1))
    (hle : s1.lbh.currentPosition ≤ s1.end_)
    (hpend : s1.wordStart < s1.lbh.currentPosition → s1.lbh.currentPosition < e.size) :
    PosInv e (s1.nextItemAtEnd n) ∧ (s1.nextItemAtEnd n).cursor = s1.lbh.currentPosition := by
  unfold ParseState.nextItemAtEnd
  by_cases hceq : s1.lbh.currentPosition = s1.end_
  · rw [if_pos hceq]
    have hne : ((n + 1 : Nat) : Int) ≠ s1.item := by rw [hit]; omega
    have hcur : ({ s1 with newItem := n + 1 } : ParseState).cursor = s1.lbh.currentPosition := by
      simp only [ParseState.cursor]
      rw [if_neg hne, hceq]
    refine ⟨⟨by simpa using hn, ?_, ?_, ?_, ?_, hc.words, ?_⟩, hcur⟩
    · intro h; exact absurd h hne
    · intro _; exact hend
    · rw [hcur]; exact hc.wordStart_le
    · rw [hcur]; exact hpend
    · rw [hcur]; exact hc.boundary
  · rw [if_neg hceq]
    have heq : (s1.newItem : Int) = s1.item := by rw [hit, hni]
    have hcur : s1.cursor = s1.lbh.currentPosition := by
      simp only [ParseState.cursor]
      rw [if_pos heq]
    refine ⟨⟨by omega, ?_, ?_, ?_, ?_, hc.words, ?_⟩, hcur⟩
    · intro _; exact ⟨by omega, by rw [hni]; exact hend, by omega⟩
    · intro h; exact absurd heq h
    · rw [hcur]; exact hc.wordStart_le
    · rw [hcur]; exact hpend
    · rw [hcur]; exact hc.boundary

theorem posInv_of_item (e : Engine) (n : Nat) (s1 : ParseState)
    (hn : n < e.items.length) (hw : WordsOk s1.tWords s1.wordStart)
    (hws : s1.wordStart = s1.end_) (hni : s1.newItem = n + 1)
    (hit : s1.item = (n : Int)) (hend : s1.end_ = e.startOf (n + 1))
    (hlt : s1.lbh.currentPosition < s1.end_)
    (hgb : s1.lastGraphemeBoundaryPosition = -1) :
    PosInv e (s1.nextItemAtEnd n) ∧ (s1.nextItemAtEnd n).cursor = s1.end_ := by
  unfold ParseState.nextItemAtEnd
  rw [if_neg (by omega)]
  have hne : (s1.newItem : Int) ≠ s1.item := by rw [hit, hni]; omega
  have hcur : s1.cursor = s1.end_ := by
    simp only [ParseState.cursor]
    rw [if_neg hne]
  refine ⟨⟨by omega, ?_, ?_, ?_, ?_, hw, ?_⟩, hcur⟩
  · intro h; exact absurd h hne
  · intro _; rw [hni]; exact hend
  · rw [hcur, hws]
  · rw [hcur, hws]; intro h; omega
  · intro _ h; rw [hgb] at h; omega

theorem separatorBranch_posInv (e : Engine) (hwf : e.WellFormed) (hsz : e.size ≤ 65536)
    (n : Nat) (s0 : ParseState) (hn : n < e.items.length) (hc : Core e s0)
    (hni : s0.newItem = n) (hit : s0.item = (n : Int))
    (hend : s0.end_ = e.startOf (n + 1)) (hlt : s0.lbh.currentPosition < s0.end_) :
    PosInv e ((separatorBranch e s0).nextItemAtEnd n)
    ∧ ((separatorBranch e s0).nextItemAtEnd n).cursor = s0.end_ := by
  obtain ⟨hfc, hfw⟩ := flushPending_core e hsz s0 hc
  have hle := Engine.WellFormed.le_size e hwf (n + 1)
  have := posInv_of_item e n (separatorBranch e s0) hn
    (by
      rw [separatorBranch_tWords, separatorBranch_wordStart]
      exact hfc.words.pushNewline (by rw [hfw]; exact hlt) (by omega) _)
    (by simp) (by simp [hni]) (by simpa using hit) (by simpa using hend)
    (by simpa using hlt) (by simp)
  simpa using this

theorem objectBranch_posInv (e : Engine) (hwf : e.WellFormed) (hsz : e.size ≤ 65536)
    (n : Nat) (s0 : ParseState) (current : QScriptItem) (hn : n < e.items.length)
    (hc : Core e s0) (hni : s0.newItem = n) (hit : s0.item = (n : Int))
    (hend : s0.end_ = e.startOf (n + 1)) (hlt : s0.lbh.currentPosition < s0.end_) :
    PosInv e ((objectBranch e s0 current).nextItemAtEnd n)
    ∧ ((objectBranch e s0 current).nextItemAtEnd n).cursor = s0.end_ := by
  obtain ⟨hfc, hfw⟩ := flushPending_core e hsz s0 hc
  obtain ⟨r, hr⟩ := objectBranch_tWords e s0 current
  have hle := Engine.WellFormed.le_size e hwf (n + 1)
  have := posInv_of_item e n (objectBranch e s0 current) hn
    (by
      rw [hr, objectBranch_wordStart]
      exact hfc.words.pushFinished (by rw [hfw]; exact hlt) (by omega) _ _)
    (by simp) (by simp [hni]) (by simpa using hit) (by simpa using hend)
    (by simpa using hlt) (by simp)
  simpa using this

theorem pushIfEmpty_fields (e : Engine) (s : ParseState) :
    (s.pushIfEmpty e).item = s.item ∧ (s.pushIfEmpty e).end_ = s.end_
      ∧ (s.pushIfEmpty e).newItem = s.newItem
      ∧ (s.pushIfEmpty e).wordStart = s.wordStart
      ∧ (s.pushIfEmpty e).lbh.currentPosition = s.lbh.currentPosition
      ∧ (s.pushIfEmpty e).lbh.tmpData = s.lbh.tmpData
      ∧ (s.pushIfEmpty e).lbh.spaceData = s.lbh.spaceData
      ∧ (s.pushIfEmpty e).lbh.glyphs = s.lbh.glyphs
      ∧ (s.pushIfEmpty e).lbh.fontEngine = s.lbh.fontEngine
      ∧ (s.pushIfEmpty e).lbh.whiteSpaceOrObject = s.lbh.whiteSpaceOrObject
      ∧ (s.pushIfEmpty e).lbh.glyphCount = s.lbh.glyphCount
      ∧ (s.pushIfEmpty e).lbh.previousGlyph = s.lbh.previousGlyph
      ∧ (s.pushIfEmpty e).lbh.previousGlyphFontEngine = s.lbh.previousGlyphFontEngine := by
  unfold ParseState.pushIfEmpty
  split <;> simp

theorem pushIfEmpty_tWords (e : Engine) (s : ParseState) :
    (s.tWords = [] ∧ ∃ r, (s.pushIfEmpty e).tWords
        = pushFinishedWord [] s.wordStart s.lbh.tmpData.textWidth r)
      ∨ (s.tWords ≠ [] ∧ (s.pushIfEmpty e).tWords = s.tWords) := by
  unfold ParseState.pushIfEmpty
  cases h : s.tWords with
  | nil =>
    left
    exact ⟨rfl, -(s.lbh.calculateRightBearing e).negativeRightBearing, by simp [h]⟩
  | cons w ws => right; exact ⟨by simp, by simp [h]⟩

/-- The fields of the state after the space-break branch, in terms of the
helper that the scan of the white space leaves. -/
theorem spaceBranch_fields (e : Engine) (attributes : Nat → QCharAttributes)
    (s : ParseState) (current : QScriptItem) :
    (spaceBranch e attributes s current).item = s.item
      ∧ (spaceBranch e attributes s current).end_ = s.end_
      ∧ (spaceBranch e attributes s current).newItem = s.newItem
      ∧ (spaceBranch e attributes s current).lbh.currentPosition
          = (spaceScan e attributes s current).currentPosition
      ∧ (spaceBranch e attributes s current).wordStart
          = (spaceScan e attributes s current).currentPosition
      ∧ (spaceBranch e attributes s current).lbh.tmpData = s.lbh.tmpData
      ∧ (spaceBranch e attributes s current).lbh.spaceData = ScriptLine.zero
      ∧ (spaceBranch e attributes s current).lbh.glyphs = s.lbh.glyphs
      ∧ (spaceBranch e attributes s current).addingEachGrapheme = false
      ∧ (spaceBranch e attributes s current).lastGraphemeBoundaryPosition = -1
      ∧ (spaceBranch e attributes s current).lastGraphemeBoundaryLine = ScriptLine.zero
      ∧ (spaceBranch e attributes s current).tWords
          = backAddRpadding
              (ParseState.pushIfEmpty e
                (ParseState.mk s.tWords (spaceScan e attributes s current) s.item s.newItem
                  s.end_ s.wordStart s.addingEachGrapheme s.lastGraphemeBoundaryPosition
                  s.lastGraphemeBoundaryLine)).tWords
              (spaceScan e attributes s current).spaceData.textWidth := by
  obtain ⟨h1, h2, h3, h4, h5, h6, h7, h8, -⟩ := pushIfEmpty_fields e
    (ParseState.mk s.tWords (spaceScan e attributes s current) s.item s.newItem
      s.end_ s.wordStart s.addingEachGrapheme s.lastGraphemeBoundaryPosition
      s.lastGraphemeBoundaryLine)
  have hs := spaceLoop_spec e attributes s.end_ current (s.end_ - s.lbh.currentPosition)
  have htmp : (spaceScan e attributes s current).tmpData = s.lbh.tmpData := by
    unfold spaceScan
    by_cases hle : s.lbh.currentPosition ≤ s.end_
    · exact (hs { s.lbh with whiteSpaceOrObject := true } hle).2.2.1
    · have : s.end_ - s.lbh.currentPosition = 0 := by omega
      rw [this]; rfl
  have hgl : (spaceScan e attributes s current).glyphs = s.lbh.glyphs := by
    unfold spaceScan
    by_cases hle : s.lbh.currentPosition ≤ s.end_
    · exact (hs { s.lbh with whiteSpaceOrObject := true } hle).2.2.2.1
    · have : s.end_ - s.lbh.currentPosition = 0 := by omega
      rw [this]; rfl
  refine ⟨h1, h2, h3, h5, h5, ?_, rfl, ?_, rfl, rfl, rfl, ?_⟩
  · exact h6.trans htmp
  · exact h8.trans hgl
  · show backAddRpadding _ _ = backAddRpadding _ _
    rw [h7]

theorem spaceScan_cur (e : Engine) (attributes : Nat → QCharAttributes) (s : ParseState)
    (current : QScriptItem) (hlt : s.lbh.currentPosition < s.end_)
    (hws : (attributes s.lbh.currentPosition).whiteSpace = true) :
    s.lbh.currentPosition < (spaceScan e attributes s current).currentPosition
      ∧ (spaceScan e attributes s current).currentPosition ≤ s.end_
      ∧ ¬ ((spaceScan e attributes s current).currentPosition < s.end_
          ∧ (attributes (spaceScan e attributes s current).currentPosition).whiteSpace
              = true) := by
  have hs := spaceLoop_spec e attributes s.end_ current (s.end_ - s.lbh.currentPosition)
    { s.lbh with whiteSpaceOrObject := true } (Nat.le_of_lt hlt)
  obtain ⟨-, h2, -, -, -, -, -, -, h9, h10⟩ := hs
  exact ⟨h10 (by omega) hlt hws, h2, h9 (le_refl _)⟩

theorem spaceBranch_core (e : Engine) (hsz : e.size ≤ 65536)
    (attributes : Nat → QCharAttributes) (s : ParseState) (current : QScriptItem)
    (hc : Core e s) (hlt : s.lbh.currentPosition < s.end_) (hend : s.end_ ≤ e.size)
    (hws : (attributes s.lbh.currentPosition).whiteSpace = true) :
    Core e (spaceBranch e attributes s current)
      ∧ s.lbh.currentPosition < (spaceBranch e attributes s current).lbh.currentPosition
      ∧ (spaceBranch e attributes s current).lbh.currentPosition ≤ s.end_
      ∧ (spaceBranch e attributes s current).wordStart
          = (spaceBranch e attributes s current).lbh.currentPosition := by
  obtain ⟨h1, h2, h3, h4, h5, h6, h7, h8, h9, h10, h11, h12⟩ :=
    spaceBranch_fields e attributes s current
  obtain ⟨hgt, hle, -⟩ := spaceScan_cur e attributes s current hlt hws
  have hwle := hc.wordStart_le
  refine ⟨⟨by rw [h4]; omega, by rw [h4, h5], ?_, ?_⟩, by rw [h4]; exact hgt,
    by rw [h4]; exact hle, by rw [h4, h5]⟩
  · rw [h12, h5]
    apply WordsOk.backAdd
    rcases pushIfEmpty_tWords e
      (ParseState.mk s.tWords (spaceScan e attributes s current) s.item s.newItem
        s.end_ s.wordStart s.addingEachGrapheme s.lastGraphemeBoundaryPosition
        s.lastGraphemeBoundaryLine) with ⟨hnil, r, hr⟩ | ⟨hne, hr⟩
    · rw [hr]
      simp only at hnil
      have hw := hc.words
      rw [hnil] at hw
      exact hw.pushFinished (by omega) (by omega) _ _
    · rw [hr]
      exact hc.words.advance hne (by omega)
  · intro _ h; rw [h10] at h; omega

theorem spaceBranch_posInv (e : Engine) (hwf : e.WellFormed) (hsz : e.size ≤ 65536)
    (attributes : Nat → QCharAttributes) (n : Nat) (s0 : ParseState)
    (current : QScriptItem) (hn : n < e.items.length) (hc : Core e s0)
    (hni : s0.newItem = n) (hit : s0.item = (n : Int))
    (hend : s0.end_ = e.startOf (n + 1)) (hlt : s0.lbh.currentPosition < s0.end_)
    (hws : (attributes s0.lbh.currentPosition).whiteSpace = true) :
    PosInv e ((spaceBranch e attributes s0 current).nextItemAtEnd n)
    ∧ s0.lbh.currentPosition
      < ((spaceBranch e attributes s0 current).nextItemAtEnd n).cursor := by
  have hle := Engine.WellFormed.le_size e hwf (n + 1)
  obtain ⟨h1, h2, h3, -⟩ := spaceBranch_fields e attributes s0 current
  obtain ⟨hcore, hgt, hle2, hws2⟩ :=
    spaceBranch_core e hsz attributes s0 current hc hlt (by omega) hws
  obtain ⟨hp, hcur⟩ := posInv_of_text e n (spaceBranch e attributes s0 current) hn hcore
    (by rw [h3, hni]) (by rw [h1, hit]) (by rw [h2, hend]) (by rw [h2]; exact hle2)
    (by intro h; omega)
  exact ⟨hp, by rw [hcur]; exact hgt⟩

theorem ordinaryBranch_posInv (e : Engine) (hwf : e.WellFormed) (hsz : e.size ≤ 65536)
    (attributes : Nat → QCharAttributes) (n : Nat) (s0 : ParseState)
    (current : QScriptItem) (hn : n < e.items.length) (hc : Core e s0)
    (hni : s0.newItem = n) (hit : s0.item = (n : Int))
    (hend : s0.end_ = e.startOf (n + 1)) (hlt : s0.lbh.currentPosition < s0.end_) :
    PosInv e ((ordinaryBranch e attributes s0 current).nextItemAtEnd n)
    ∧ s0.lbh.currentPosition
      < ((ordinaryBranch e attributes s0 current).nextItemAtEnd n).cursor := by
  have hle := Engine.WellFormed.le_size e hwf (n + 1)
  have hc0 : Core e { s0 with lbh := { s0.lbh with whiteSpaceOrObject := false } } :=
    ⟨hc.cur_le, hc.wordStart_le, hc.words, hc.boundary⟩
  obtain ⟨t, ⟨htc, hte⟩, htlt, htend, htcur, htni, htit, -, hres, hex⟩ :=
    ordinaryLoop_exit e attributes current (fun t => Core e t ∧ t.end_ ≤ e.size)
      (by
        intro t ht htlt _ _
        refine ⟨(ordinaryPass_core e hsz attributes t current ht.1 htlt ht.2).1, ?_⟩
        rw [(ordinaryPass_fields e attributes t current).2.1]; exact ht.2)
      (s0.end_ - s0.lbh.currentPosition - 1)
      { s0 with lbh := { s0.lbh with whiteSpaceOrObject := false } }
      ⟨hc0, by simp only; omega⟩ hlt (by simp only; omega)
  have hres2 : ordinaryBranch e attributes s0 current
      = (ordinaryPass e attributes t current).1 := hres
  obtain ⟨hpc, hpb, hpn⟩ := ordinaryPass_core e hsz attributes t current htc htlt hte
  obtain ⟨-, hf2, hf3, hf4, -⟩ := ordinaryPass_fields e attributes t current
  have hgt := ordinaryPass_cur_gt e attributes t current
  have hle3 := ordinaryPass_cur_le e attributes t current htlt
  simp only at htend htcur htni htit
  rw [hres2]
  obtain ⟨hp, hcur⟩ := posInv_of_text e n (ordinaryPass e attributes t current).1 hn hpc
    (by rw [hf3, htni, hni]) (by rw [hf4, htit, hit]) (by rw [hf2, htend, hend])
    (by rw [hf2]; exact hle3)
    (by
      intro h
      rcases hex with hb | he
      · rw [hpb hb] at h; omega
      · by_cases hb : (ordinaryPass e attributes t current).2 = true
        · rw [hpb hb] at h; omega
        · exact hpn (by simpa using hb))
  exact ⟨hp, by rw [hcur]; omega⟩

theorem PosInv.cursor_le (e : Engine) (hwf : e.WellFormed) (s : ParseState)
    (h : PosInv e s) : s.cursor ≤ e.size := by
  unfold ParseState.cursor
  split
  · rename_i heq
    obtain ⟨h1, h2, -⟩ := h.same heq
    have := Engine.WellFormed.le_size e hwf (s.newItem + 1)
    omega
  · rename_i hne
    rw [h.other hne]
    exact Engine.WellFormed.le_size e hwf s.newItem

theorem branch_separator (e : Engine) (attributes : Nat → QCharAttributes)
    (s : ParseState) (si : QScriptItem) (h : si.flags = Flags.LineOrParagraphSeparator) :
    branch e attributes s si = separatorBranch e s := by
  unfold branch; rw [h]

theorem branch_object (e : Engine) (attributes : Nat → QCharAttributes)
    (s : ParseState) (si : QScriptItem) (h : si.flags = Flags.Object) :
    branch e attributes s si = objectBranch e s si := by
  unfold branch; rw [h]

theorem branch_space (e : Engine) (attributes : Nat → QCharAttributes)
    (s : ParseState) (si : QScriptItem) (h : si.flags = Flags.Text)
    (hsp : atSpaceBreak e attributes s = true) :
    branch e attributes s si = spaceBranch e attributes s si := by
  unfold branch; rw [h]; simp only; rw [if_pos hsp]

theorem branch_ordinary (e : Engine) (attributes : Nat → QCharAttributes)
    (s : ParseState) (si : QScriptItem) (h : si.flags = Flags.Text)
    (hsp : ¬ atSpaceBreak e attributes s = true) :
    branch e attributes s si = ordinaryBranch e attributes s si := by
  unfold branch; rw [h]; simp only; rw [if_neg hsp]

theorem iteration_posInv (e : Engine) (hwf : e.WellFormed) (hsz : e.size ≤ 65536)
    (attributes : Nat → QCharAttributes) (s s1 : ParseState) (si : QScriptItem)
    (hinv : PosInv e s) (hget : e.items.get? s.newItem = some si)
    (hit : iteration e attributes s si = some s1) :
    PosInv e s1 ∧ s.cursor < s1.cursor := by
  have hlen : s.newItem < e.items.length := by
    by_contra hc
    have : e.items.get? s.newItem = none := List.get?_eq_none.2 (by omega)
    rw [this] at hget; simp at hget
  unfold iteration at hit
  cases hent : enterItem e s si with
  | none => rw [hent] at hit; simp at hit
  | some s0 =>
    rw [hent] at hit
    simp only [Option.some.injEq] at hit
    obtain ⟨hc, hlt, hend, hni, hitem, hcur, -⟩ := enterItem_spec e hwf s s0 si hinv hget hent
    rw [← hit, hni]
    cases hfl : si.flags with
    | LineOrParagraphSeparator =>
      rw [branch_separator e attributes s0 si hfl]
      obtain ⟨h1, h2⟩ := separatorBranch_posInv e hwf hsz s.newItem s0 hlen hc hni hitem
        hend hlt
      exact ⟨h1, by rw [h2, ← hcur]; exact hlt⟩
    | Object =>
      rw [branch_object e attributes s0 si hfl]
      obtain ⟨h1, h2⟩ := objectBranch_posInv e hwf hsz s.newItem s0 si hlen hc hni hitem
        hend hlt
      exact ⟨h1, by rw [h2, ← hcur]; exact hlt⟩
    | Text =>
      by_cases hsp : atSpaceBreak e attributes s0 = true
      · rw [branch_space e attributes s0 si hfl hsp]
        obtain ⟨-, hws⟩ := atSpaceBreakFrom_true e attributes s0.end_ _ _ hsp
        obtain ⟨h1, h2⟩ := spaceBranch_posInv e hwf hsz attributes s.newItem s0 si hlen hc
          hni hitem hend hlt hws
        exact ⟨h1, by rw [← hcur]; exact h2⟩
      · rw [branch_ordinary e attributes s0 si hfl hsp]
        obtain ⟨h1, h2⟩ := ordinaryBranch_posInv e hwf hsz attributes s.newItem s0 si hlen
          hc hni hitem hend hlt
        exact ⟨h1, by rw [← hcur]; exact h2⟩

/-- With well-formed items the main loop ends within `size - cursor`
iterations, and the state it leaves the loop in keeps the position
facts. -/
theorem parseLoop_posInv (e : Engine) (hwf : e.WellFormed) (hsz : e.size ≤ 65536)
    (attributes : Nat → QCharAttributes) :
    ∀ fuel s, PosInv e s → e.size - s.cursor ≤ fuel →
      ∃ o s1, parseLoop e attributes fuel s = some o ∧ PosInv e s1 ∧ o.words = s1.tWords
        ∧ (o.exit = Exit.completed → s1.newItem = e.items.length)
        ∧ (o.exit = Exit.aborted →
            ∃ si, e.items.get? s1.newItem = some si ∧ enterItem e s1 si = none) := by
  intro fuel
  induction fuel with
  | zero =>
    intro s hinv hfuel
    unfold parseLoop
    cases hget : e.items.get? s.newItem with
    | none =>
      refine ⟨_, s, rfl, hinv, rfl, ?_, ?_⟩
      · intro _
        have := List.get?_eq_none.1 hget
        have := hinv.newItem_le
        omega
      · intro h; simp at h
    | some si =>
      exfalso
      have hlen : s.newItem < e.items.length := by
        by_contra hc
        have : e.items.get? s.newItem = none := List.get?_eq_none.2 (by omega)
        rw [this] at hget; simp at hget
      have hle1 := Engine.WellFormed.le_size e hwf (s.newItem + 1)
      have hstep := hwf.2 s.newItem hlen
      by_cases heq : (s.newItem : Int) = s.item
      · obtain ⟨h1, h2, -⟩ := hinv.same heq
        have : s.cursor = s.lbh.currentPosition := by simp [ParseState.cursor, heq]
        omega
      · have h2 := hinv.other heq
        have : s.cursor = s.end_ := by simp [ParseState.cursor, heq]
        omega
  | succ k ih =>
    intro s hinv hfuel
    unfold parseLoop
    cases hget : e.items.get? s.newItem with
    | none =>
      refine ⟨_, s, rfl, hinv, rfl, ?_, ?_⟩
      · intro _
        have := List.get?_eq_none.1 hget
        have := hinv.newItem_le
        omega
      · intro h; simp at h
    | some si =>
      simp only
      cases hit : iteration e attributes s si with
      | none =>
        refine ⟨_, s, rfl, hinv, rfl, ?_, ?_⟩
        · intro h; simp at h
        · intro _
          refine ⟨si, hget, ?_⟩
          unfold iteration at hit
          cases hent : enterItem e s si with
          | none => rfl
          | some s0 => rw [hent] at hit; simp at hit
      | some s1 =>
        obtain ⟨h1, h2⟩ := iteration_posInv e hwf hsz attributes s s1 si hinv hget hit
        exact ih s1 h1 (by omega)

/-! ## From the loop to `parse` -/

theorem iterationBound_ge (size : Nat) :
    ∀ (rest : List QScriptItem) (si : QScriptItem),
      size - si.position ≤ iterationBound size (si :: rest) := by
  intro rest
  induction rest with
  | nil => intro si; simp only [iterationBound]; omega
  | cons sj rest ih =>
    intro si
    simp only [iterationBound]
    have := ih sj
    omega

theorem iterationBound_ge_size (e : Engine) (hwf : e.WellFormed) :
    e.size ≤ iterationBound e.size e.items := by
  have h0 := hwf.1
  unfold Engine.startOf at h0
  cases hitems : e.items with
  | nil => rw [hitems] at h0; simp at h0; omega
  | cons si rest =>
    rw [hitems] at h0
    simp at h0
    have := iterationBound_ge e.size rest si
    omega

theorem posInv_init (e : Engine) (hwf : e.WellFormed) :
    PosInv e { ParseState.init with tWords := [] } := by
  have h0 := hwf.1
  have hne : ((0 : Nat) : Int) ≠ (-1 : Int) := by omega
  refine ⟨Nat.zero_le _, ?_, ?_, ?_, ?_, WordsOk.nil, ?_⟩
  · intro h; exact absurd h hne
  · intro _; exact h0.symm
  · simp [ParseState.cursor, ParseState.init]
  · simp [ParseState.cursor, ParseState.init]
  · intro _ h; simp [ParseState.init] at h

theorem enterItem_ne_none (e : Engine) (hshape : e.ShapingSucceeds) (s : ParseState)
    (si : QScriptItem) (hmem : si ∈ e.items) : enterItem e s si ≠ none := by
  unfold enterItem
  split
  · split
    · rename_i h
      have := hshape.2 si hmem h.1
      rw [h.2] at this
      simp at this
    · simp
  · simp

/-- With well-formed items and a buffer of at most 65536 characters,
`parse` returns, and the state in which the main loop was left keeps the
position facts. -/
theorem parse_posInv (e : Engine) (tWords : List Word) (hwf : e.WellFormed)
    (hsz : e.size ≤ 65536) (attributes : Nat → QCharAttributes)
    (hattr : e.attributes = some attributes) (hsize : e.size ≠ 0) :
    ∃ o s1, parse e tWords = some o ∧ PosInv e s1 ∧ o.words = s1.tWords
      ∧ (o.exit = Exit.completed → s1.newItem = e.items.length)
      ∧ (o.exit = Exit.aborted →
          ∃ si, e.items.get? s1.newItem = some si ∧ enterItem e s1 si = none) := by
  unfold parse
  simp only [List.drop_length, if_neg hsize, hattr]
  have hb := iterationBound_ge_size e hwf
  exact parseLoop_posInv e hwf hsz attributes _ _ (posInv_init e hwf) (by omega)

theorem PosInv.final (e : Engine) (hsize : e.size ≠ 0) (s : ParseState)
    (h : PosInv e s) (hni : s.newItem = e.items.length) :
    s.tWords ≠ [] ∧ s.wordStart = e.size := by
  have hne : (s.newItem : Int) ≠ s.item := by
    intro heq
    have := (h.same heq).2.2
    omega
  have hend := h.other hne
  rw [hni, e.startOf_of_length_le (le_refl _)] at hend
  have hcur : s.cursor = e.size := by simp [ParseState.cursor, hne, hend]
  have h1 := h.wordStart_le
  have h2 := h.pending_lt
  rw [hcur] at h1 h2
  have hws : s.wordStart = e.size := by
    by_contra hc
    have := h2 (by omega)
    omega
  refine ⟨?_, hws⟩
  intro hnil
  have := h.words.empty0 hnil
  omega

theorem rangesFrom_cover (size : Nat) :
    ∀ (ps : List Nat) (a : Nat), (a :: ps).Pairwise (· < ·) → (∀ p ∈ a :: ps, p < size) →
      (rangesFrom size (a :: ps)).flatMap rangeChars = List.range' a (size - a)
        ∧ ∀ r ∈ rangesFrom size (a :: ps), r.1 < r.2 := by
  intro ps
  induction ps with
  | nil =>
    intro a _ hlt
    have := hlt a (by simp)
    simp [rangesFrom, rangeChars, this]
  | cons b rest ih =>
    intro a hs hlt
    have hab : a < b := (List.pairwise_cons.1 hs).1 b (by simp)
    obtain ⟨h1, h2⟩ := ih b (List.pairwise_cons.1 hs).2 (fun p hp => hlt p (by simp [hp]))
    have hb : b < size := hlt b (by simp)
    constructor
    · simp only [rangesFrom, List.flatMap_cons, h1, rangeChars]
      have := List.range'_append a (b - a) (size - b) 1
      rw [show a + 1 * (b - a) = b by omega, show size - b + (b - a) = size - a by omega]
        at this
      exact this
    · intro r hr
      simp only [rangesFrom, List.mem_cons] at hr
      rcases hr with hr | hr
      · rw [hr]; exact hab
      · exact h2 r hr

/-! ## What `addNextCluster` measures -/

theorem glyphsWidth_self (G : QGlyphLayout) (a : Nat) : glyphsWidth G a a = 0 := by
  simp [glyphsWidth]

theorem glyphsWidth_succ (G : QGlyphLayout) (a b : Nat) (h : a ≤ b) :
    glyphsWidth G a (b + 1) = glyphsWidth G a b + printableAdvance G b := by
  unfold glyphsWidth
  rw [show b + 1 - a = (b - a) + 1 by omega, List.range'_concat]
  simp only [List.map_append, List.sum_append, List.map_cons, List.map_nil, List.sum_cons,
    List.sum_nil, add_zero]
  rw [show a + 1 * (b - a) = b by omega]

theorem glyphsWidth_add (G : QGlyphLayout) (a b : Nat) (hab : a ≤ b) :
    ∀ c, b ≤ c → glyphsWidth G a b + glyphsWidth G b c = glyphsWidth G a c := by
  intro c hbc
  induction c, hbc using Nat.le_induction with
  | base => rw [glyphsWidth_self, add_zero]
  | succ c hbc ih =>
    rw [glyphsWidth_succ G b c hbc, glyphsWidth_succ G a c (by omega), ← ih, add_assoc]

theorem addGlyph_eq (G : QGlyphLayout) (g : Nat) (w : Int) :
    addGlyph G g w = w + printableAdvance G g := by
  unfold addGlyph printableAdvance
  split <;> simp

theorem skipCluster_spec (lc : Nat → Nat) (g end_ : Nat) :
    ∀ fuel pos, end_ - pos ≤ fuel →
      (∀ q, pos ≤ q → q < skipCluster lc g end_ fuel pos → q < end_ ∧ lc q = g)
      ∧ ¬ (skipCluster lc g end_ fuel pos < end_
          ∧ lc (skipCluster lc g end_ fuel pos) = g) := by
  intro fuel
  induction fuel with
  | zero =>
    intro pos hf
    simp only [skipCluster]
    exact ⟨fun q h1 h2 => by omega, fun h => by omega⟩
  | succ k ih =>
    intro pos hf
    simp only [skipCluster]
    split
    · rename_i hc
      obtain ⟨h1, h2⟩ := ih (pos + 1) (by omega)
      refine ⟨?_, h2⟩
      intro q hq1 hq2
      by_cases hq : q = pos
      · rw [hq]; exact hc
      · exact h1 q (by omega) hq2
    · rename_i hc
      exact ⟨fun q h1 h2 => by omega, hc⟩

theorem restOfCluster_spec (G : QGlyphLayout) (n : Nat) :
    ∀ fuel g w, n - g ≤ fuel →
      g ≤ (restOfCluster G n fuel g w).1
      ∧ (restOfCluster G n fuel g w).2 = w + glyphsWidth G g (restOfCluster G n fuel g w).1
      ∧ (∀ h, g ≤ h → h < (restOfCluster G n fuel g w).1 →
          h < n ∧ (G.attributes h).clusterStart = false)
      ∧ ¬ ((restOfCluster G n fuel g w).1 < n
          ∧ (G.attributes (restOfCluster G n fuel g w).1).clusterStart = false) := by
  intro fuel
  induction fuel with
  | zero =>
    intro g w hf
    simp only [restOfCluster]
    exact ⟨le_refl _, by rw [glyphsWidth_self, add_zero], fun h h1 h2 => by omega,
      fun h => by omega⟩
  | succ k ih =>
    intro g w hf
    simp only [restOfCluster]
    split
    · rename_i hc
      obtain ⟨h1, h2, h3, h4⟩ := ih (g + 1) (addGlyph G g w) (by omega)
      refine ⟨by omega, ?_, ?_, h4⟩
      · have e1 := addGlyph_eq G g w
        have e2 := glyphsWidth_add G g (g + 1) (by omega) _ h1
        have e3 : glyphsWidth G g (g + 1) = printableAdvance G g := by
          rw [glyphsWidth_succ G g g (le_refl _), glyphsWidth_self, zero_add]
        linarith
      · intro h hh1 hh2
        by_cases hq : h = g
        · rw [hq]; exact hc
        · exact h3 h (by omega) hh2
    · rename_i hc
      exact ⟨le_refl _, by rw [glyphsWidth_self, add_zero], fun h h1 h2 => by omega, hc⟩

/-- What `addNextCluster` does on an item with a well-formed cluster map:
from `p` it moves to the next cluster boundary `pos` (or the end of the
item), counts the characters skipped, and adds the shaped width of the
glyphs from `logClusters[p]` up to the glyph at which `pos` starts. -/
theorem addNextCluster_spec (lc : Nat → Nat) (G : QGlyphLayout) (n a b : Nat)
    (hok : ClusterMapOk lc G n a b) (p : Nat) (hap : a ≤ p) (hpb : p < b)
    (line : ScriptLine) (gc : Nat) :
    p < (addNextCluster p b line gc n lc G).pos
      ∧ (addNextCluster p b line gc n lc G).pos ≤ b
      ∧ (∀ q, p ≤ q → q < (addNextCluster p b line gc n lc G).pos → lc q = lc p)
      ∧ ((addNextCluster p b line gc n lc G).pos < b →
          lc (addNextCluster p b line gc n lc G).pos ≠ lc p)
      ∧ (addNextCluster p b line gc n lc G).glyphPosition
          = glyphAt lc n b (addNextCluster p b line gc n lc G).pos
      ∧ (addNextCluster p b line gc n lc G).line.textWidth
          = line.textWidth
            + glyphsWidth G (lc p) (glyphAt lc n b (addNextCluster p b line gc n lc G).pos)
      ∧ (addNextCluster p b line gc n lc G).line.length
          = line.length + (((addNextCluster p b line gc n lc G).pos : Int) - (p : Int))
      ∧ (addNextCluster p b line gc n lc G).glyphCount = gc + 1 := by
  have hgt := addNextCluster_pos_gt p b line gc n lc G
  have hle := addNextCluster_pos_le p b line gc n lc G hpb
  obtain ⟨hs1, hs2⟩ := skipCluster_spec lc (lc p) b (b - (p + 1)) (p + 1) (le_refl _)
  obtain ⟨hr1, hr2, hr3, hr4⟩ := restOfCluster_spec G n (n - (lc p + 1)) (lc p + 1)
    (addGlyph G (lc p) line.textWidth) (le_refl _)
  have hpos : (addNextCluster p b line gc n lc G).pos
      = skipCluster lc (lc p) b (b - (p + 1)) (p + 1) := rfl
  have hgp : (addNextCluster p b line gc n lc G).glyphPosition
      = (restOfCluster G n (n - (lc p + 1)) (lc p + 1)
          (addGlyph G (lc p) line.textWidth)).1 := rfl
  have hwd : (addNextCluster p b line gc n lc G).line.textWidth
      = (restOfCluster G n (n - (lc p + 1)) (lc p + 1)
          (addGlyph G (lc p) line.textWidth)).2 := rfl
  rw [← hpos] at hs1 hs2
  rw [← hgp] at hr1 hr2 hr3 hr4
  rw [← hwd] at hr2
  have hsame : ∀ q, p ≤ q → q < (addNextCluster p b line gc n lc G).pos → lc q = lc p := by
    intro q h1 h2
    by_cases hq : q = p
    · rw [hq]
    · exact (hs1 q (by omega) h2).2
  have hlcp := hok.lt p hap hpb
  have hglyph : (addNextCluster p b line gc n lc G).glyphPosition
      = glyphAt lc n b (addNextCluster p b line gc n lc G).pos := by
    unfold glyphAt
    by_cases hend : (addNextCluster p b line gc n lc G).pos < b
    · rw [if_pos hend]
      have hne : lc (addNextCluster p b line gc n lc G).pos ≠ lc p :=
        fun h => hs2 ⟨hend, h⟩
      have hmono := hok.mono p _ hap (Nat.le_of_lt hgt) hend
      have hst := hok.start _ (by omega) hend
      have hlt := hok.lt _ (by omega) hend
      have hge : (addNextCluster p b line gc n lc G).glyphPosition
          ≤ lc (addNextCluster p b line gc n lc G).pos := by
        by_contra hc
        have := (hr3 (lc (addNextCluster p b line gc n lc G).pos) (by omega) (by omega)).2
        rw [hst] at this
        simp at this
      have hcs : (G.attributes (addNextCluster p b line gc n lc G).glyphPosition).clusterStart
          = true := by
        by_contra hc
        exact hr4 ⟨by omega, by simpa using hc⟩
      obtain ⟨q, hq1, hq2, hq3⟩ := hok.onto _ (by omega) hcs
      have hqp : p < q := by
        by_contra hc
        have := hok.mono q p hq1 (by omega) hpb
        omega
      have hqpos : (addNextCluster p b line gc n lc G).pos ≤ q := by
        by_contra hc
        have := hsame q (by omega) (by omega)
        omega
      have := hok.mono _ q (by omega) hqpos hq2
      omega
    · rw [if_neg hend]
      have hle2 : (addNextCluster p b line gc n lc G).glyphPosition ≤ n := by
        by_contra hc
        have := (hr3 n (by omega) (by omega)).1
        omega
      by_contra hc
      have hlt : (addNextCluster p b line gc n lc G).glyphPosition < n := by omega
      have hcs : (G.attributes (addNextCluster p b line gc n lc G).glyphPosition).clusterStart
          = true := by
        by_contra hc2
        exact hr4 ⟨hlt, by simpa using hc2⟩
      obtain ⟨q, hq1, hq2, hq3⟩ := hok.onto _ hlt hcs
      have hqp : p < q := by
        by_contra hc3
        have := hok.mono q p hq1 (by omega) hpb
        omega
      have := hsame q (by omega) (by omega)
      omega
  refine ⟨hgt, hle, hsame, fun h hc => hs2 ⟨h, hc⟩, hglyph, ?_, rfl, rfl⟩
  have e1 := addGlyph_eq G (lc p) line.textWidth
  have e2 := glyphsWidth_add G (lc p) (lc p + 1) (by omega) _ hr1
  have e3 : glyphsWidth G (lc p) (lc p + 1) = printableAdvance G (lc p) := by
    rw [glyphsWidth_succ G (lc p) (lc p) (le_refl _), glyphsWidth_self, zero_add]
  rw [← hglyph]
  linarith

/-! ## Scanning an unbroken run of ordinary content -/

theorem ordinaryCheck_break (e : Engine) (attributes : Nat → QCharAttributes)
    (s : ParseState) (h : breakAt e attributes s) :
    ordinaryCheck e attributes s = (s.flushFinished e, true) := by
  unfold ordinaryCheck
  rw [if_pos (by unfold breakAt at h; exact h)]

theorem ordinaryCheck_quiet (e : Engine) (attributes : Nat → QCharAttributes)
    (s : ParseState) (hbrk : ¬ breakAt e attributes s)
    (hadd : s.addingEachGrapheme = false)
    (hthr : (attributes s.lbh.currentPosition).graphemeBoundary = true →
      s.lbh.tmpData.textWidth ≤ e.minResizeWidth) :
    (ordinaryCheck e attributes s).2 = false
      ∧ (ordinaryCheck e attributes s).1.tWords = s.tWords
      ∧ (ordinaryCheck e attributes s).1.wordStart = s.wordStart
      ∧ (ordinaryCheck e attributes s).1.addingEachGrapheme = false
      ∧ (ordinaryCheck e attributes s).1.lbh.tmpData = s.lbh.tmpData
      ∧ (ordinaryCheck e attributes s).1.lbh.spaceData = s.lbh.spaceData := by
  have h := ordinaryCheck_case e attributes s
  generalize ordinaryCheck e attributes s = r at h ⊢
  cases h with
  | finished hb => exact absurd hb hbrk
  | retro _ hgb _ hw _ => have := hthr hgb; omega
  | forcedNow _ hgb _ hw _ => have := hthr hgb; omega
  | forced _ _ ha => rw [hadd] at ha; simp at ha
  | remember _ _ _ _ => simp [hadd]
  | skip _ _ => simp [hadd]

/-- The `do … while` of the ordinary branch over an unbroken run
`[p0, t)` of an item with a well-formed cluster map, `t` a cluster
boundary at which the loop stops (a break position, or the end of the
item): the cursor ends at `t`; at a break position the pending word is
pushed as finished with the shaped width of the run added to what was
pending, otherwise the word stays pending with that width. -/
theorem ordinaryLoop_scan (e : Engine) (attributes : Nat → QCharAttributes)
    (current : QScriptItem) (G : QGlyphLayout) (a b p0 t : Nat) (s : ParseState)
    (hok : ClusterMapOk e.logClusters G current.currentNumGlyphs a b)
    (hG : s.lbh.glyphs = G) (hb : s.end_ = b) (hp0 : s.lbh.currentPosition = p0)
    (hap : a ≤ p0) (hpt : p0 < t) (htb : t ≤ b)
    (hbound : t = b ∨ e.logClusters (t - 1) ≠ e.logClusters t)
    (hadd : s.addingEachGrapheme = false)
    (hrun : PlainRun e attributes G s.lbh.tmpData.textWidth p0 t)
    (hstop : t = b ∨ e.size ≤ t ∨ isSpaceBreak e attributes t = true
      ∨ isLineBreak e attributes t = true)
    (hunder : (attributes t).graphemeBoundary = true →
      (e.size ≤ t ∨ isSpaceBreak e attributes t = true ∨ isLineBreak e attributes t = true)
      ∨ s.lbh.tmpData.textWidth + glyphsWidth G (e.logClusters p0)
          (glyphAt e.logClusters current.currentNumGlyphs b t) ≤ e.minResizeWidth)
    (fuel : Nat) (hfuel : b - p0 ≤ fuel + 1) :
    (ordinaryLoop e attributes current fuel s).lbh.currentPosition = t
      ∧ (ordinaryLoop e attributes current fuel s).end_ = s.end_
      ∧ (ordinaryLoop e attributes current fuel s).newItem = s.newItem
      ∧ (ordinaryLoop e attributes current fuel s).item = s.item
      ∧ (ordinaryLoop e attributes current fuel s).lbh.glyphs = s.lbh.glyphs
      ∧ (ordinaryLoop e attributes current fuel s).lbh.spaceData = s.lbh.spaceData
      ∧ (ordinaryLoop e attributes current fuel s).addingEachGrapheme = false
      ∧ ((e.size ≤ t ∨ isSpaceBreak e attributes t = true
            ∨ isLineBreak e attributes t = true) →
          (∃ r, (ordinaryLoop e attributes current fuel s).tWords
              = pushFinishedWord s.tWords s.wordStart
                  (s.lbh.tmpData.textWidth + glyphsWidth G (e.logClusters p0)
                    (glyphAt e.logClusters current.currentNumGlyphs b t)) r)
            ∧ (ordinaryLoop e attributes current fuel s).wordStart = t
            ∧ (ordinaryLoop e attributes current fuel s).lbh.tmpData = ScriptLine.zero
            ∧ (ordinaryLoop e attributes current fuel s).lastGraphemeBoundaryPosition = -1)
      ∧ (¬ (e.size ≤ t ∨ isSpaceBreak e attributes t = true
            ∨ isLineBreak e attributes t = true) →
          (ordinaryLoop e attributes current fuel s).tWords = s.tWords
            ∧ (ordinaryLoop e attributes current fuel s).wordStart = s.wordStart
            ∧ (ordinaryLoop e attributes current fuel s).lbh.tmpData.textWidth
                = s.lbh.tmpData.textWidth + glyphsWidth G (e.logClusters p0)
                    (glyphAt e.logClusters current.currentNumGlyphs b t)) := by
  -- facts on one cluster step from a state `x` of the scan
  have hstep : ∀ x : ParseState, x.end_ = b → x.lbh.glyphs = G →
      p0 ≤ x.lbh.currentPosition → x.lbh.currentPosition < t →
      x.lbh.tmpData.textWidth = s.lbh.tmpData.textWidth
        + glyphsWidth G (e.logClusters p0) (e.logClusters x.lbh.currentPosition) →
      x.lbh.currentPosition < (x.afterCluster e current).lbh.currentPosition
        ∧ (x.afterCluster e current).lbh.currentPosition ≤ t
        ∧ (x.afterCluster e current).lbh.tmpData.textWidth = s.lbh.tmpData.textWidth
            + glyphsWidth G (e.logClusters p0)
                (glyphAt e.logClusters current.currentNumGlyphs b
                  (x.afterCluster e current).lbh.currentPosition) := by
    intro x hxb hxG hx1 hx2 hxw
    obtain ⟨h1, h2, h3, h4, h5, h6, -⟩ := addNextCluster_spec e.logClusters G
      current.currentNumGlyphs a b hok x.lbh.currentPosition (by omega) (by omega)
      x.lbh.tmpData x.lbh.glyphCount
    rw [afterCluster_cur, afterCluster_tmpData, hxb, hxG]
    refine ⟨h1, ?_, ?_⟩
    · by_contra hc
      rcases hbound with hbd | hbd
      · omega
      · have e1 := h3 t (by omega) (by omega)
        have e2 := h3 (t - 1) (by omega) (by omega)
        rw [e1, e2] at hbd
        exact hbd rfl
    · rw [h6, hxw, add_assoc]
      congr 1
      apply glyphsWidth_add
      · exact hok.mono p0 _ hap hx1 (by omega)
      · unfold glyphAt
        split
        · rename_i hlt
          exact hok.mono _ _ (by omega) (Nat.le_of_lt h1) hlt
        · exact Nat.le_of_lt (hok.lt _ (by omega) (by omega))
  -- a pass that stops before `t` changes neither the words nor the mode
  have hquiet : ∀ x : ParseState, x.end_ = b → x.lbh.glyphs = G →
      p0 ≤ x.lbh.currentPosition → x.lbh.currentPosition < t →
      x.addingEachGrapheme = false →
      x.lbh.tmpData.textWidth = s.lbh.tmpData.textWidth
        + glyphsWidth G (e.logClusters p0) (e.logClusters x.lbh.currentPosition) →
      (x.afterCluster e current).lbh.currentPosition < t →
      (ordinaryPass e attributes x current).2 = false
        ∧ (ordinaryPass e attributes x current).1.tWords = x.tWords
        ∧ (ordinaryPass e attributes x current).1.wordStart = x.wordStart
        ∧ (ordinaryPass e attributes x current).1.addingEachGrapheme = false
        ∧ (ordinaryPass e attributes x current).1.lbh.tmpData.textWidth
            = s.lbh.tmpData.textWidth + glyphsWidth G (e.logClusters p0)
                (e.logClusters (ordinaryPass e attributes x current).1.lbh.currentPosition)
        ∧ (ordinaryPass e attributes x current).1.lbh.spaceData = x.lbh.spaceData := by
    intro x hxb hxG hx1 hx2 hxadd hxw hlt
    obtain ⟨h1, h2, h3⟩ := hstep x hxb hxG hx1 hx2 hxw
    obtain ⟨hn1, hn2, hn3⟩ := hrun.noBreak _ (by omega) hlt
    have hga : glyphAt e.logClusters current.currentNumGlyphs b
        (x.afterCluster e current).lbh.currentPosition
          = e.logClusters (x.afterCluster e current).lbh.currentPosition := by
      unfold glyphAt
      rw [if_pos (by omega)]
    rw [hga] at h3
    obtain ⟨q1, q2, q3, q4, q5, q6⟩ := ordinaryCheck_quiet e attributes
      (x.afterCluster e current)
      (by
        unfold breakAt
        rw [hn2, hn3]
        simp only [Bool.false_eq_true, or_false, not_le]
        exact hn1)
      hxadd
      (by
        intro hgb
        rw [h3]
        exact hrun.under _ (by omega) hlt hgb)
    have hcur := (ordinaryCheck_fields e attributes (x.afterCluster e current)).1
    refine ⟨q1, q2, q3, q4, ?_, q6⟩
    show (ordinaryCheck e attributes (x.afterCluster e current)).1.lbh.tmpData.textWidth
      = s.lbh.tmpData.textWidth + glyphsWidth G (e.logClusters p0)
          (e.logClusters (ordinaryCheck e attributes
            (x.afterCluster e current)).1.lbh.currentPosition)
    rw [q5, hcur, h3]
  -- the property kept at the head of every pass
  obtain ⟨x, ⟨hx1, hx2, hx3, hx4, hx5, hx6, hx7, hx8, hx9⟩, hxlt, hxend, -, hxni, hxit,
      hxgl, hres, hex⟩ :=
    ordinaryLoop_exit e attributes current
      (fun x => x.tWords = s.tWords ∧ x.wordStart = s.wordStart
        ∧ x.addingEachGrapheme = false ∧ x.lbh.glyphs = G
        ∧ p0 ≤ x.lbh.currentPosition ∧ x.lbh.currentPosition < t
        ∧ x.lbh.tmpData.textWidth = s.lbh.tmpData.textWidth
            + glyphsWidth G (e.logClusters p0) (e.logClusters x.lbh.currentPosition)
        ∧ x.lbh.spaceData = s.lbh.spaceData ∧ x.end_ = b)
      (by
        intro x ⟨hx1, hx2, hx3, hx4, hx5, hx6, hx7, hx8, hx9⟩ hxlt hnb hlt2
        obtain ⟨hf1, hf2, hf3, hf4, hf5⟩ := ordinaryCheck_fields e attributes
          (x.afterCluster e current)
        obtain ⟨h1, h2, h3⟩ := hstep x hx9 hx4 hx5 hx6 hx7
        have hlt : (x.afterCluster e current).lbh.currentPosition < t := by
          by_contra hc
          have heq : (x.afterCluster e current).lbh.currentPosition = t := by omega
          have hbrk : breakAt e attributes (x.afterCluster e current) := by
            unfold breakAt
            rw [heq]
            rcases hstop with h | h
            · exfalso
              have e1 : (ordinaryPass e attributes x current).1.lbh.currentPosition = t := by
                show (ordinaryCheck e attributes
                  (x.afterCluster e current)).1.lbh.currentPosition = t
                rw [hf1, heq]
              have e2 : (ordinaryPass e attributes x current).1.end_ = b := by
                show (ordinaryCheck e attributes (x.afterCluster e current)).1.end_ = b
                rw [hf2, afterCluster_end, hx9]
              omega
            · exact h
          have := ordinaryCheck_break e attributes (x.afterCluster e current) hbrk
          have h2' : (ordinaryPass e attributes x current).2 = true := by
            show (ordinaryCheck e attributes (x.afterCluster e current)).2 = true
            rw [this]
          rw [h2'] at hnb
          simp at hnb
        obtain ⟨q1, q2, q3, q4, q5, q6⟩ := hquiet x hx9 hx4 hx5 hx6 hx3 hx7 hlt
        have hcur : (ordinaryPass e attributes x current).1.lbh.currentPosition
            = (x.afterCluster e current).lbh.currentPosition := hf1
        refine ⟨q2.trans hx1, q3.trans hx2, q4, hf5.trans ((afterCluster_glyphs e x
          current).trans hx4), ?_, ?_, q5, q6.trans hx8, ?_⟩
        · rw [hcur]; omega
        · rw [hcur]; exact hlt
        · exact hf2.trans ((afterCluster_end e x current).trans hx9))
      fuel s ⟨rfl, rfl, hadd, hG, by omega, by omega, by
        rw [hp0, glyphsWidth_self, add_zero], rfl, hb⟩ (by omega) (by omega)
  rw [hres]
  obtain ⟨hf1, hf2, hf3, hf4, hf5⟩ := ordinaryCheck_fields e attributes
    (x.afterCluster e current)
  obtain ⟨h1, h2, h3⟩ := hstep x hx9 hx4 hx5 hx6 hx7
  have hcurt : (x.afterCluster e current).lbh.currentPosition = t := by
    by_contra hc
    have hlt : (x.afterCluster e current).lbh.currentPosition < t := by omega
    obtain ⟨q1, -⟩ := hquiet x hx9 hx4 hx5 hx6 hx3 hx7 hlt
    rcases hex with hex | hex
    · rw [q1] at hex; simp at hex
    · have e1 : (ordinaryPass e attributes x current).1.lbh.currentPosition
          = (x.afterCluster e current).lbh.currentPosition := hf1
      omega
  rw [hcurt] at h3
  have hpass : ordinaryPass e attributes x current
      = ordinaryCheck e attributes (x.afterCluster e current) := rfl
  rw [hpass]
  by_cases hbrk : e.size ≤ t ∨ isSpaceBreak e attributes t = true
      ∨ isLineBreak e attributes t = true
  · have hb' : breakAt e attributes (x.afterCluster e current) := by
      unfold breakAt; rw [hcurt]; exact hbrk
    rw [ordinaryCheck_break e attributes _ hb']
    refine ⟨by simpa using hcurt, by simpa using hxend, by simpa using hxni,
      by simpa using hxit, by simpa using hxgl, by simpa using hx8, by simp, ?_, ?_⟩
    · intro _
      refine ⟨⟨-((x.afterCluster e current).lbh.calculateRightBearing e).negativeRightBearing,
        ?_⟩, by simpa using hcurt, by simp, by simp⟩
      rw [flushFinished_tWords, afterCluster_tWords, afterCluster_wordStart, hx1, hx2, h3]
    · intro h; exact absurd hbrk h
  · have hb' : ¬ breakAt e attributes (x.afterCluster e current) := by
      unfold breakAt; rw [hcurt]; exact hbrk
    obtain ⟨q1, q2, q3, q4, q5, q6⟩ := ordinaryCheck_quiet e attributes
      (x.afterCluster e current) hb' hx3
      (by
        rw [hcurt, h3]
        intro hgb
        rcases hunder hgb with h | h
        · exact absurd h hbrk
        · exact h)
    refine ⟨hf1.trans hcurt, by rw [hf2]; simpa using hxend, by rw [hf3]; simpa using hxni,
      by rw [hf4]; simpa using hxit, by rw [hf5]; simpa using hxgl,
      by rw [q6]; simpa using hx8, q4, ?_, ?_⟩
    · intro h; exact absurd h hbrk
    · intro _
      exact ⟨q2.trans hx1, q3.trans hx2, by rw [q5, h3]⟩

/-! ## Stepping the main loop -/

theorem parseLoop_step (e : Engine) (attributes : Nat → QCharAttributes) (fuel : Nat)
    (s s1 : ParseState) (si : QScriptItem) (hget : e.items.get? s.newItem = some si)
    (hit : iteration e attributes s si = some s1) :
    parseLoop e attributes (fuel + 1) s = parseLoop e attributes fuel s1 := by
  rw [parseLoop, hget]
  simp only [hit]

theorem parseLoop_done (e : Engine) (attributes : Nat → QCharAttributes) (fuel : Nat)
    (s : ParseState) (hget : e.items.get? s.newItem = none) :
    parseLoop e attributes fuel s = some { words := s.tWords, exit := Exit.completed } := by
  rw [parseLoop, hget]

theorem parseLoop_abort (e : Engine) (attributes : Nat → QCharAttributes) (fuel : Nat)
    (s : ParseState) (si : QScriptItem) (hget : e.items.get? s.newItem = some si)
    (hent : enterItem e s si = none) :
    parseLoop e attributes (fuel + 1) s
      = some { words := s.tWords, exit := Exit.aborted } := by
  rw [parseLoop, hget]
  simp only [iteration, hent]

theorem parseLoop_mono (e : Engine) (attributes : Nat → QCharAttributes) :
    ∀ fuel s o, parseLoop e attributes fuel s = some o →
      ∀ more, parseLoop e attributes (fuel + more) s = some o := by
  intro fuel
  induction fuel with
  | zero =>
    intro s o h more
    rw [parseLoop] at h
    cases hget : e.items.get? s.newItem with
    | none =>
      rw [hget] at h
      rw [parseLoop_done e attributes _ s hget]
      exact h
    | some si => rw [hget] at h; simp at h
  | succ k ih =>
    intro s o h more
    cases hget : e.items.get? s.newItem with
    | none =>
      rw [parseLoop_done e attributes _ s hget] at h
      rw [parseLoop_done e attributes _ s hget]
      exact h
    | some si =>
      cases hit : iteration e attributes s si with
      | none =>
        have hent : enterItem e s si = none := by
          unfold iteration at hit
          cases hent : enterItem e s si with
          | none => rfl
          | some s0 => rw [hent] at hit; simp at hit
        rw [parseLoop_abort e attributes _ s si hget hent] at h
        rw [show k + 1 + more = (k + more) + 1 by omega,
          parseLoop_abort e attributes _ s si hget hent]
        exact h
      | some s1 =>
        rw [parseLoop_step e attributes k s s1 si hget hit] at h
        rw [show k + 1 + more = (k + more) + 1 by omega,
          parseLoop_step e attributes _ s s1 si hget hit]
        exact ih s1 o h more

theorem length_le_iterationBound (size : Nat) :
    ∀ items : List QScriptItem, items.length ≤ iterationBound size items := by
  intro items
  induction items with
  | nil => simp [iterationBound]
  | cons si rest ih =>
    cases rest with
    | nil => simp only [iterationBound, List.length_cons, List.length_nil]; omega
    | cons sj rest2 =>
      simp only [iterationBound, List.length_cons] at ih ⊢
      omega

/-! ## Entering an item, in terms of the summaries -/

theorem enterItem_before (e : Engine) (s : ParseState) (k : Nat) (si : QScriptItem)
    (hb : Before s k) (hshape : si.num_glyphs = 0 → si.attributesAfterShape = true)
    (ws : List Word) (p : Nat) (w : Int) (hp : Pending s ws p w) :
    ∃ s0, enterItem e s si = some s0 ∧ Inside e s0 k si si.position ∧ Pending s0 ws p w
      ∧ s0.lbh.spaceData = s.lbh.spaceData
      ∧ s0.lastGraphemeBoundaryPosition = s.lastGraphemeBoundaryPosition := by
  have hne : (s.newItem : Int) ≠ s.item := by
    rw [hb.newItem]; exact fun h => hb.item h.symm
  unfold enterItem
  rw [if_pos hne, if_neg (by
    intro h
    have := hshape h.1
    rw [h.2] at this
    simp at this)]
  refine ⟨_, rfl, ⟨hb.newItem, by simp [hb.newItem], rfl, ?_, rfl⟩,
    ⟨hp.tWords, hp.wordStart, hp.width, hp.normal⟩, rfl, rfl⟩
  show ((si.position : Int) + e.length s.newItem si).toNat = e.startOf (k + 1)
  rw [Engine.end_eq, hb.newItem]

theorem enterItem_inside (e : Engine) (s : ParseState) (k : Nat) (si : QScriptItem)
    (c : Nat) (hi : Inside e s k si c) : enterItem e s si = some s := by
  unfold enterItem
  rw [if_neg (by rw [hi.newItem, hi.item]; simp)]

theorem iteration_of_enter (e : Engine) (attributes : Nat → QCharAttributes)
    (s s0 : ParseState) (si : QScriptItem) (h : enterItem e s si = some s0) :
    iteration e attributes s si
      = some ((branch e attributes s0 si).nextItemAtEnd s0.newItem) := by
  unfold iteration
  rw [h]

/-! ## The branches in terms of the summaries -/

theorem nextItemAtEnd_fields (s : ParseState) (k : Nat) :
    (s.nextItemAtEnd k).tWords = s.tWords ∧ (s.nextItemAtEnd k).lbh = s.lbh
      ∧ (s.nextItemAtEnd k).item = s.item ∧ (s.nextItemAtEnd k).end_ = s.end_
      ∧ (s.nextItemAtEnd k).wordStart = s.wordStart
      ∧ (s.nextItemAtEnd k).addingEachGrapheme = s.addingEachGrapheme
      ∧ (s.nextItemAtEnd k).lastGraphemeBoundaryPosition = s.lastGraphemeBoundaryPosition
      ∧ (s.nextItemAtEnd k).lastGraphemeBoundaryLine = s.lastGraphemeBoundaryLine
      ∧ (s.lbh.currentPosition = s.end_ → (s.nextItemAtEnd k).newItem = k + 1)
      ∧ (s.lbh.currentPosition ≠ s.end_ → (s.nextItemAtEnd k).newItem = s.newItem) := by
  unfold ParseState.nextItemAtEnd
  split
  · rename_i h
    exact ⟨rfl, rfl, rfl, rfl, rfl, rfl, rfl, rfl, fun _ => rfl, fun hc => absurd h hc⟩
  · rename_i h
    exact ⟨rfl, rfl, rfl, rfl, rfl, rfl, rfl, rfl, fun hc => absurd hc h, fun _ => rfl⟩

/-- Placing a state after the closing statement of the loop body: at the
end of the item the next iteration enters item `k + 1`, before it the loop
stays inside item `k`. -/
theorem nextItemAtEnd_place (e : Engine) (s : ParseState) (k : Nat) (si : QScriptItem)
    (t : Nat) (hni : s.newItem = k) (hit : s.item = (k : Int))
    (hcur : s.lbh.currentPosition = t) (hend : s.end_ = e.startOf (k + 1))
    (hgl : s.lbh.glyphs = si.glyphs) :
    (t = e.startOf (k + 1) → Before (s.nextItemAtEnd k) (k + 1))
      ∧ (t ≠ e.startOf (k + 1) → Inside e (s.nextItemAtEnd k) k si t) := by
  obtain ⟨-, h2, h3, h4, -, -, -, -, h9, h10⟩ := nextItemAtEnd_fields s k
  constructor
  · intro ht
    exact ⟨h9 (by rw [hcur, hend, ht]), by rw [h3, hit]; omega⟩
  · intro ht
    exact ⟨(h10 (by rw [hcur, hend]; exact ht)).trans hni, h3.trans hit,
      by rw [h2]; exact hcur, h4.trans hend, by rw [h2]; exact hgl⟩

theorem Pending.nextItemAtEnd {s : ParseState} {ws : List Word} {p : Nat} {w : Int}
    (h : Pending s ws p w) (k : Nat) : Pending (s.nextItemAtEnd k) ws p w := by
  obtain ⟨h1, h2, -, -, h5, h6, -⟩ := nextItemAtEnd_fields s k
  exact ⟨h1.trans h.tWords, h5.trans h.wordStart, by rw [h2]; exact h.width,
    h6.trans h.normal⟩

/-- The ordinary branch over an unbroken run `[c, t)` of a text item. -/
theorem ordinary_run (e : Engine) (attributes : Nat → QCharAttributes) (s0 : ParseState)
    (k : Nat) (si : QScriptItem) (c t : Nat) (ws : List Word) (p : Nat) (w0 : Int)
    (hin : Inside e s0 k si c) (hp : Pending s0 ws p w0) (hfl : si.flags = Flags.Text)
    (hok : ClusterMapOk e.logClusters si.glyphs si.currentNumGlyphs si.position
      (e.startOf (k + 1)))
    (hac : si.position ≤ c) (hct : c < t) (htb : t ≤ e.startOf (k + 1))
    (hbound : t = e.startOf (k + 1) ∨ e.logClusters (t - 1) ≠ e.logClusters t)
    (hnsp : ¬ atSpaceBreak e attributes s0 = true)
    (hrun : PlainRun e attributes si.glyphs w0 c t)
    (hstop : t = e.startOf (k + 1) ∨ stopsAt e attributes t)
    (hunder : (attributes t).graphemeBoundary = true →
      stopsAt e attributes t
      ∨ w0 + glyphsWidth si.glyphs (e.logClusters c)
          (glyphAt e.logClusters si.currentNumGlyphs (e.startOf (k + 1)) t)
        ≤ e.minResizeWidth) :
    (t = e.startOf (k + 1) → Before ((branch e attributes s0 si).nextItemAtEnd k) (k + 1))
      ∧ (t ≠ e.startOf (k + 1) →
          Inside e ((branch e attributes s0 si).nextItemAtEnd k) k si t)
      ∧ (stopsAt e attributes t →
          ∃ r, Pending ((branch e attributes s0 si).nextItemAtEnd k)
            (ws ++ [Word.content (toUint16 p) false
              (w0 + glyphsWidth si.glyphs (e.logClusters c)
                (glyphAt e.logClusters si.currentNumGlyphs (e.startOf (k + 1)) t)) r]) t 0)
      ∧ (¬ stopsAt e attributes t →
          Pending ((branch e attributes s0 si).nextItemAtEnd k) ws p
            (w0 + glyphsWidth si.glyphs (e.logClusters c)
              (glyphAt e.logClusters si.currentNumGlyphs (e.startOf (k + 1)) t)))
      ∧ ((branch e attributes s0 si).nextItemAtEnd k).lbh.spaceData = s0.lbh.spaceData := by
  rw [branch_ordinary e attributes s0 si hfl hnsp]
  have hscan := ordinaryLoop_scan e attributes si si.glyphs si.position (e.startOf (k + 1))
    c t { s0 with lbh := { s0.lbh with whiteSpaceOrObject := false } } hok hin.glyphs
    hin.end_ hin.cur hac hct htb hbound hp.normal
    (by rw [show ({ s0 with lbh := { s0.lbh with whiteSpaceOrObject := false } }
        : ParseState).lbh.tmpData.textWidth = w0 from hp.width]; exact hrun)
    (by unfold stopsAt at hstop; exact hstop)
    (by
      rw [show ({ s0 with lbh := { s0.lbh with whiteSpaceOrObject := false } }
        : ParseState).lbh.tmpData.textWidth = w0 from hp.width]
      unfold stopsAt at hunder; exact hunder)
    (s0.end_ - s0.lbh.currentPosition - 1)
    (by rw [hin.end_, hin.cur]; omega)
  have hbr : ordinaryBranch e attributes s0 si
      = ordinaryLoop e attributes si (s0.end_ - s0.lbh.currentPosition - 1)
          { s0 with lbh := { s0.lbh with whiteSpaceOrObject := false } } := rfl
  rw [← hbr] at hscan
  obtain ⟨h1, h2, h3, h4, h5, h6, h7, h8, h9⟩ := hscan
  simp only at h2 h3 h4 h5 h6 h8 h9
  rw [show ({ s0 with lbh := { s0.lbh with whiteSpaceOrObject := false } }
    : ParseState).lbh.tmpData.textWidth = w0 from hp.width] at h8 h9
  obtain ⟨hplace1, hplace2⟩ := nextItemAtEnd_place e (ordinaryBranch e attributes s0 si) k si
    t (h3.trans hin.newItem) (h4.trans hin.item) h1 (h2.trans hin.end_)
    (h5.trans hin.glyphs)
  refine ⟨hplace1, hplace2, ?_, ?_, ?_⟩
  · intro hst
    obtain ⟨⟨r, hr⟩, hw, htmp, -⟩ := h8 (by unfold stopsAt at hst; exact hst)
    refine ⟨r, Pending.nextItemAtEnd ⟨?_, hw, by rw [htmp]; rfl, h7⟩ k⟩
    rw [hr, hp.tWords, hp.wordStart]
    rfl
  · intro hst
    obtain ⟨q1, q2, q3⟩ := h9 (by unfold stopsAt at hst; exact hst)
    exact Pending.nextItemAtEnd ⟨q1.trans hp.tWords, q2.trans hp.wordStart, q3, h7⟩ k
  · rw [(nextItemAtEnd_fields _ k).2.1]
    exact h6

/-- The `while` of the space-break branch over a run `[c, t)` of white
space of an item with a well-formed cluster map, `t` a cluster boundary
that ends the run: the cursor ends at `t` and `spaceData` has gained the
shaped width of the run. -/
theorem spaceLoop_scan (e : Engine) (attributes : Nat → QCharAttributes)
    (current : QScriptItem) (G : QGlyphLayout) (a b c t : Nat) (w : Int)
    (hok : ClusterMapOk e.logClusters G current.currentNumGlyphs a b)
    (hac : a ≤ c) (htb : t ≤ b)
    (hbound : t = b ∨ e.logClusters (t - 1) ≠ e.logClusters t)
    (hws : ∀ q, c ≤ q → q < t → (attributes q).whiteSpace = true)
    (hstop : t = b ∨ (attributes t).whiteSpace = false) :
    ∀ fuel (lbh : LineBreakHelper), lbh.glyphs = G → c ≤ lbh.currentPosition →
      lbh.currentPosition ≤ t →
      lbh.spaceData.textWidth = w + glyphsWidth G (e.logClusters c)
        (glyphAt e.logClusters current.currentNumGlyphs b lbh.currentPosition) →
      t - lbh.currentPosition ≤ fuel →
      (spaceLoop e attributes b current fuel lbh).currentPosition = t
        ∧ (spaceLoop e attributes b current fuel lbh).spaceData.textWidth
            = w + glyphsWidth G (e.logClusters c)
                (glyphAt e.logClusters current.currentNumGlyphs b t) := by
  intro fuel
  induction fuel with
  | zero =>
    intro lbh hG h1 h2 hw hf
    have : lbh.currentPosition = t := by omega
    simp only [spaceLoop]
    exact ⟨this, by rw [hw, this]⟩
  | succ n ih =>
    intro lbh hG h1 h2 hw hf
    simp only [spaceLoop]
    by_cases hlt : lbh.currentPosition < t
    · rw [if_pos ⟨by omega, hws _ h1 hlt⟩]
      obtain ⟨q1, q2, q3, q4, q5, q6, -⟩ := addNextCluster_spec e.logClusters G
        current.currentNumGlyphs a b hok lbh.currentPosition (by omega) (by omega)
        lbh.spaceData lbh.glyphCount
      rw [hG]
      have hle : (addNextCluster lbh.currentPosition b lbh.spaceData lbh.glyphCount
          current.currentNumGlyphs e.logClusters G).pos ≤ t := by
        by_contra hc
        rcases hbound with hbd | hbd
        · omega
        · have e1 := q3 t (by omega) (by omega)
          have e2 := q3 (t - 1) (by omega) (by omega)
          rw [e1, e2] at hbd
          exact hbd rfl
      have hga : glyphAt e.logClusters current.currentNumGlyphs b lbh.currentPosition
          = e.logClusters lbh.currentPosition := by
        unfold glyphAt; rw [if_pos (by omega)]
      rw [hga] at hw
      apply ih
      · rfl
      · dsimp only
        omega
      · exact hle
      · dsimp only
        rw [q6, hw, add_assoc]
        congr 1
        apply glyphsWidth_add
        · exact hok.mono c _ hac h1 (by omega)
        · unfold glyphAt
          split
          · rename_i hlt2
            exact hok.mono _ _ (by omega) (Nat.le_of_lt q1) hlt2
          · exact Nat.le_of_lt (hok.lt _ (by omega) (by omega))
      · dsimp only
        omega
    · have heq : lbh.currentPosition = t := by omega
      rw [if_neg]
      · exact ⟨heq, by rw [hw, heq]⟩
      · intro hc
        rcases hstop with h | h
        · omega
        · rw [heq, h] at hc
          simp at hc

/-- The space-break branch over a run `[c, t)` of white space of a text
item: the run's width goes to the last word as trailing padding, after an
empty sequence has first received the pending word; the pending width is
left as it was. -/
theorem space_run (e : Engine) (attributes : Nat → QCharAttributes) (s0 : ParseState)
    (k : Nat) (si : QScriptItem) (c t : Nat) (ws : List Word) (p : Nat) (w0 : Int)
    (hin : Inside e s0 k si c) (hp : Pending s0 ws p w0) (hfl : si.flags = Flags.Text)
    (hok : ClusterMapOk e.logClusters si.glyphs si.currentNumGlyphs si.position
      (e.startOf (k + 1)))
    (hac : si.position ≤ c) (hct : c < t) (htb : t ≤ e.startOf (k + 1))
    (hbound : t = e.startOf (k + 1) ∨ e.logClusters (t - 1) ≠ e.logClusters t)
    (hsp : atSpaceBreak e attributes s0 = true)
    (hws : ∀ q, c ≤ q → q < t → (attributes q).whiteSpace = true)
    (hstop : t = e.startOf (k + 1) ∨ (attributes t).whiteSpace = false)
    (hzero : s0.lbh.spaceData.textWidth = 0) :
    (t = e.startOf (k + 1) → Before ((branch e attributes s0 si).nextItemAtEnd k) (k + 1))
      ∧ (t ≠ e.startOf (k + 1) →
          Inside e ((branch e attributes s0 si).nextItemAtEnd k) k si t)
      ∧ (∃ r, Pending ((branch e attributes s0 si).nextItemAtEnd k)
          (backAddRpadding
            (if ws = [] then [Word.content (toUint16 p) false w0 r] else ws)
            (glyphsWidth si.glyphs (e.logClusters c)
              (glyphAt e.logClusters si.currentNumGlyphs (e.startOf (k + 1)) t))) t w0)
      ∧ ((branch e attributes s0 si).nextItemAtEnd k).lbh.spaceData = ScriptLine.zero := by
  rw [branch_space e attributes s0 si hfl hsp]
  obtain ⟨h1, h2, h3, h4, h5, h6, h7, h8, h9, h10, h11, h12⟩ :=
    spaceBranch_fields e attributes s0 si
  have hscan := spaceLoop_scan e attributes si si.glyphs si.position (e.startOf (k + 1)) c t
    0 hok hac htb hbound hws hstop (s0.end_ - s0.lbh.currentPosition)
    { s0.lbh with whiteSpaceOrObject := true } hin.glyphs (by rw [← hin.cur])
    (by rw [show ({ s0.lbh with whiteSpaceOrObject := true }
        : LineBreakHelper).currentPosition = c from hin.cur]; omega)
    (by
      rw [show ({ s0.lbh with whiteSpaceOrObject := true }
        : LineBreakHelper).currentPosition = c from hin.cur]
      have : glyphAt e.logClusters si.currentNumGlyphs (e.startOf (k + 1)) c
          = e.logClusters c := by
        unfold glyphAt; rw [if_pos (by omega)]
      rw [this, glyphsWidth_self]
      simpa using hzero)
    (by
      rw [show ({ s0.lbh with whiteSpaceOrObject := true }
        : LineBreakHelper).currentPosition = c from hin.cur, hin.end_]
      omega)
  have hsc : spaceScan e attributes s0 si
      = spaceLoop e attributes (e.startOf (k + 1)) si (s0.end_ - s0.lbh.currentPosition)
          { s0.lbh with whiteSpaceOrObject := true } := by
    unfold spaceScan; rw [hin.end_]
  rw [← hsc] at hscan
  obtain ⟨hc1, hc2⟩ := hscan
  rw [zero_add] at hc2
  obtain ⟨hplace1, hplace2⟩ := nextItemAtEnd_place e (spaceBranch e attributes s0 si) k si
    t (h3.trans hin.newItem) (h1.trans hin.item) (h4.trans hc1) (h2.trans hin.end_)
    (h8.trans hin.glyphs)
  refine ⟨hplace1, hplace2, ?_, ?_⟩
  · rcases pushIfEmpty_tWords e
      (ParseState.mk s0.tWords (spaceScan e attributes s0 si) s0.item s0.newItem
        s0.end_ s0.wordStart s0.addingEachGrapheme s0.lastGraphemeBoundaryPosition
        s0.lastGraphemeBoundaryLine) with ⟨hnil, r, hr⟩ | ⟨hne, hr⟩
    · refine ⟨r, Pending.nextItemAtEnd ⟨?_, h5.trans hc1, by rw [h6]; exact hp.width, h9⟩ k⟩
      have hwsnil : ws = [] := by rw [← hp.tWords]; exact hnil
      rw [h12, hr, hc2, if_pos hwsnil]
      have htmp : (ParseState.mk s0.tWords (spaceScan e attributes s0 si) s0.item
          s0.newItem s0.end_ s0.wordStart s0.addingEachGrapheme
          s0.lastGraphemeBoundaryPosition s0.lastGraphemeBoundaryLine).lbh.tmpData.textWidth
            = w0 := by
        show (spaceScan e attributes s0 si).tmpData.textWidth = w0
        have := (spaceBranch_fields e attributes s0 si).2.2.2.2.2.1
        have h6' : (spaceScan e attributes s0 si).tmpData = s0.lbh.tmpData := by
          have hs := spaceLoop_spec e attributes s0.end_ si
            (s0.end_ - s0.lbh.currentPosition) { s0.lbh with whiteSpaceOrObject := true }
            (by
              show s0.lbh.currentPosition ≤ s0.end_
              rw [hin.cur, hin.end_]; omega)
          exact hs.2.2.1
        rw [h6']; exact hp.width
      rw [htmp]
      show backAddRpadding (pushFinishedWord [] s0.wordStart w0 r) _ = _
      rw [hp.wordStart]
      rfl
    · refine ⟨0, Pending.nextItemAtEnd ⟨?_, h5.trans hc1, by rw [h6]; exact hp.width, h9⟩ k⟩
      have hwsne : ws ≠ [] := by rw [← hp.tWords]; exact hne
      rw [h12, hr, hc2, if_neg hwsne]
      show backAddRpadding s0.tWords _ = _
      rw [hp.tWords]
  · rw [(nextItemAtEnd_fields _ k).2.1]
    exact h7

theorem flushPending_pending (e : Engine) (s : ParseState) (ws : List Word) (p : Nat)
    (w0 : Int) (c : Nat) (hp : Pending s ws p w0) (hcur : s.lbh.currentPosition = c)
    (hpc : p ≤ c) :
    ∃ r, Pending (s.flushPending e)
      (if p < c then ws ++ [Word.content (toUint16 p) false w0 r] else ws) c
      (if p < c then 0 else w0) := by
  unfold ParseState.flushPending
  rw [hp.wordStart, hcur]
  by_cases hlt : p < c
  · rw [if_pos hlt]
    refine ⟨-(s.lbh.calculateRightBearing e).negativeRightBearing, ?_, ?_, ?_, ?_⟩
    · rw [flushFinished_tWords, if_pos hlt, hp.tWords, hp.wordStart, hp.width]; rfl
    · rw [flushFinished_wordStart, hcur]
    · rw [flushFinished_lbh_tmpData, if_pos hlt]; rfl
    · simp
  · rw [if_neg hlt]
    refine ⟨0, ?_, ?_, ?_, hp.normal⟩
    · rw [if_neg hlt]; exact hp.tWords
    · rw [hp.wordStart]; omega
    · rw [if_neg hlt]; exact hp.width

/-- The separator branch: the pending word, if it has characters, is
pushed as finished, then the newline record at the item's offset. -/
theorem separator_step (e : Engine) (attributes : Nat → QCharAttributes)
    (s0 : ParseState) (k : Nat) (si : QScriptItem) (c : Nat) (ws : List Word) (p : Nat)
    (w0 : Int) (hin : Inside e s0 k si c) (hp : Pending s0 ws p w0)
    (hfl : si.flags = Flags.LineOrParagraphSeparator) (hpc : p ≤ c)
    (hlt : c < e.startOf (k + 1)) :
    Before ((branch e attributes s0 si).nextItemAtEnd k) (k + 1)
      ∧ (∃ r, Pending ((branch e attributes s0 si).nextItemAtEnd k)
          ((if p < c then ws ++ [Word.content (toUint16 p) false w0 r] else ws)
            ++ [Word.newlineAt (toUint16 c) (e.blockIndex c)]) (e.startOf (k + 1)) 0)
      ∧ ((branch e attributes s0 si).nextItemAtEnd k).lbh.spaceData = s0.lbh.spaceData := by
  rw [branch_separator e attributes s0 si hfl]
  obtain ⟨r, hfp⟩ := flushPending_pending e s0 ws p w0 c hp hin.cur hpc
  obtain ⟨-, h2, h3, -, h5, -, -, -, -, h10⟩ := nextItemAtEnd_fields (separatorBranch e s0) k
  have hne : (separatorBranch e s0).lbh.currentPosition ≠ (separatorBranch e s0).end_ := by
    rw [separatorBranch_lbh_currentPosition, separatorBranch_end_, hin.cur, hin.end_]
    omega
  refine ⟨⟨?_, ?_⟩, ⟨r, Pending.nextItemAtEnd ⟨?_, ?_, ?_, ?_⟩ k⟩, ?_⟩
  · rw [h10 hne, separatorBranch_newItem, hin.newItem]
  · rw [h3, separatorBranch_item, hin.item]; omega
  · rw [separatorBranch_tWords, hfp.tWords, hfp.wordStart]; rfl
  · rw [separatorBranch_wordStart, hin.end_]
  · rw [separatorBranch_lbh_tmpData]; rfl
  · simp
  · rw [h2, separatorBranch_lbh_spaceData]

/-- The object branch: the pending word, if it has characters, is pushed as
finished, then a finished word at the item's offset whose width is the
pending width left in `tmpData` plus the declared width of the object. -/
theorem object_step (e : Engine) (attributes : Nat → QCharAttributes)
    (s0 : ParseState) (k : Nat) (si : QScriptItem) (c : Nat) (ws : List Word) (p : Nat)
    (w0 : Int) (hin : Inside e s0 k si c) (hp : Pending s0 ws p w0)
    (hfl : si.flags = Flags.Object) (hpc : p ≤ c) (hlt : c < e.startOf (k + 1)) :
    Before ((branch e attributes s0 si).nextItemAtEnd k) (k + 1)
      ∧ (∃ r r2, Pending ((branch e attributes s0 si).nextItemAtEnd k)
          ((if p < c then ws ++ [Word.content (toUint16 p) false w0 r] else ws)
            ++ [Word.content (toUint16 c) false ((if p < c then 0 else w0) + si.width) r2])
          (e.startOf (k + 1)) 0)
      ∧ ((branch e attributes s0 si).nextItemAtEnd k).lbh.spaceData = s0.lbh.spaceData := by
  rw [branch_object e attributes s0 si hfl]
  obtain ⟨r, hfp⟩ := flushPending_pending e s0 ws p w0 c hp hin.cur hpc
  obtain ⟨r2, hr2⟩ := objectBranch_tWords e s0 si
  obtain ⟨-, h2, h3, -, h5, -, -, -, -, h10⟩ := nextItemAtEnd_fields (objectBranch e s0 si) k
  have hne : (objectBranch e s0 si).lbh.currentPosition ≠ (objectBranch e s0 si).end_ := by
    rw [objectBranch_lbh_currentPosition, objectBranch_end_, hin.cur, hin.end_]
    omega
  refine ⟨⟨?_, ?_⟩, ⟨r, r2, Pending.nextItemAtEnd ⟨?_, ?_, ?_, ?_⟩ k⟩, ?_⟩
  · rw [h10 hne, objectBranch_newItem, hin.newItem]
  · rw [h3, objectBranch_item, hin.item]; omega
  · rw [hr2, hfp.tWords, hfp.wordStart, hfp.width]; rfl
  · rw [objectBranch_wordStart, hin.end_]
  · rw [objectBranch_lbh_tmpData]; rfl
  · simp
  · rw [h2, objectBranch_lbh_spaceData]

/-! ## Whole iterations on an item entered afresh -/

theorem atSpaceBreakFrom_false (e : Engine) (attributes : Nat → QCharAttributes)
    (end_ : Nat) : ∀ fuel index,
      (∀ q, index ≤ q → q < end_ → isSpaceBreak e attributes q = false) →
      atSpaceBreakFrom e attributes end_ fuel index = false := by
  intro fuel
  induction fuel with
  | zero => intro index _; rfl
  | succ n ih =>
    intro index h
    simp only [atSpaceBreakFrom]
    split
    · rename_i hlt
      split
      · rfl
      · rw [if_neg (by rw [h index (le_refl _) hlt]; simp)]
        exact ih (index + 1) (fun q h1 h2 => h q (by omega) h2)
    · rfl

theorem atSpaceBreak_false_of_first (e : Engine) (attributes : Nat → QCharAttributes)
    (s : ParseState) (h : (attributes s.lbh.currentPosition).whiteSpace = false) :
    ¬ atSpaceBreak e attributes s = true := by
  unfold atSpaceBreak
  cases hf : s.end_ - s.lbh.currentPosition with
  | zero => simp [atSpaceBreakFrom]
  | succ n =>
    simp only [atSpaceBreakFrom, h, if_true]
    split <;> simp

theorem glyphAt_end (lc : Nat → Nat) (n b : Nat) : glyphAt lc n b b = n := by
  unfold glyphAt
  rw [if_neg (by omega)]

/-- One iteration that enters a text item afresh and scans it as one
unbroken run up to its end. -/
theorem iteration_text_item (e : Engine) (attributes : Nat → QCharAttributes)
    (s : ParseState) (k : Nat) (si : QScriptItem) (ws : List Word) (p : Nat) (w0 : Int)
    (hb : Before s k) (hp : Pending s ws p w0)
    (hshape : si.num_glyphs = 0 → si.attributesAfterShape = true)
    (hfl : si.flags = Flags.Text)
    (hok : ClusterMapOk e.logClusters si.glyphs si.currentNumGlyphs si.position
      (e.startOf (k + 1)))
    (hlen : si.position < e.startOf (k + 1))
    (hnsb : ∀ q, si.position ≤ q → q < e.startOf (k + 1) →
      isSpaceBreak e attributes q = false)
    (hrun : PlainRun e attributes si.glyphs w0 si.position (e.startOf (k + 1)))
    (hunder : (attributes (e.startOf (k + 1))).graphemeBoundary = true →
      stopsAt e attributes (e.startOf (k + 1))
      ∨ w0 + glyphsWidth si.glyphs (e.logClusters si.position) si.currentNumGlyphs
        ≤ e.minResizeWidth) :
    ∃ s1, iteration e attributes s si = some s1 ∧ Before s1 (k + 1)
      ∧ (stopsAt e attributes (e.startOf (k + 1)) →
          ∃ r, Pending s1 (ws ++ [Word.content (toUint16 p) false
            (w0 + glyphsWidth si.glyphs (e.logClusters si.position) si.currentNumGlyphs) r])
            (e.startOf (k + 1)) 0)
      ∧ (¬ stopsAt e attributes (e.startOf (k + 1)) →
          Pending s1 ws p
            (w0 + glyphsWidth si.glyphs (e.logClusters si.position) si.currentNumGlyphs))
      ∧ s1.lbh.spaceData = s.lbh.spaceData := by
  obtain ⟨s0, hent, hin, hp0, hsd, -⟩ := enterItem_before e s k si hb hshape ws p w0 hp
  have hnsp : ¬ atSpaceBreak e attributes s0 = true := by
    unfold atSpaceBreak
    rw [atSpaceBreakFrom_false e attributes s0.end_ _ _ (by
      intro q h1 h2
      rw [hin.cur] at h1
      rw [hin.end_] at h2
      exact hnsb q h1 h2)]
    simp
  obtain ⟨h1, -, h3, h4, h5⟩ := ordinary_run e attributes s0 k si si.position
    (e.startOf (k + 1)) ws p w0 hin hp0 hfl hok (le_refl _) hlen (le_refl _) (Or.inl rfl)
    hnsp hrun (Or.inl rfl) (by rw [glyphAt_end]; exact hunder)
  rw [glyphAt_end] at h3 h4
  refine ⟨_, iteration_of_enter e attributes s s0 si hent, ?_, ?_, ?_, ?_⟩
  · rw [hin.newItem]; exact h1 rfl
  · rw [hin.newItem]; exact h3
  · rw [hin.newItem]; exact h4
  · rw [hin.newItem, h5, hsd]

/-- One iteration on a separator item. -/
theorem iteration_separator (e : Engine) (attributes : Nat → QCharAttributes)
    (s : ParseState) (k : Nat) (si : QScriptItem) (ws : List Word) (p : Nat) (w0 : Int)
    (hb : Before s k) (hp : Pending s ws p w0)
    (hshape : si.num_glyphs = 0 → si.attributesAfterShape = true)
    (hfl : si.flags = Flags.LineOrParagraphSeparator) (hpc : p ≤ si.position)
    (hlen : si.position < e.startOf (k + 1)) :
    ∃ s1 r, iteration e attributes s si = some s1 ∧ Before s1 (k + 1)
      ∧ Pending s1
          ((if p < si.position then ws ++ [Word.content (toUint16 p) false w0 r] else ws)
            ++ [Word.newlineAt (toUint16 si.position) (e.blockIndex si.position)])
          (e.startOf (k + 1)) 0
      ∧ s1.lbh.spaceData = s.lbh.spaceData := by
  obtain ⟨s0, hent, hin, hp0, hsd, -⟩ := enterItem_before e s k si hb hshape ws p w0 hp
  obtain ⟨h1, ⟨r, h2⟩, h3⟩ := separator_step e attributes s0 k si si.position ws p w0 hin
    hp0 hfl hpc hlen
  refine ⟨_, r, iteration_of_enter e attributes s s0 si hent, ?_, ?_, ?_⟩
  · rw [hin.newItem]; exact h1
  · rw [hin.newItem]; exact h2
  · rw [hin.newItem, h3, hsd]

/-- One iteration on an object item. -/
theorem iteration_object (e : Engine) (attributes : Nat → QCharAttributes)
    (s : ParseState) (k : Nat) (si : QScriptItem) (ws : List Word) (p : Nat) (w0 : Int)
    (hb : Before s k) (hp : Pending s ws p w0)
    (hshape : si.num_glyphs = 0 → si.attributesAfterShape = true)
    (hfl : si.flags = Flags.Object) (hpc : p ≤ si.position)
    (hlen : si.position < e.startOf (k + 1)) :
    ∃ s1 r r2, iteration e attributes s si = some s1 ∧ Before s1 (k + 1)
      ∧ Pending s1
          ((if p < si.position then ws ++ [Word.content (toUint16 p) false w0 r] else ws)
            ++ [Word.content (toUint16 si.position) false
              ((if p < si.position then 0 else w0) + si.width) r2])
          (e.startOf (k + 1)) 0
      ∧ s1.lbh.spaceData = s.lbh.spaceData := by
  obtain ⟨s0, hent, hin, hp0, hsd, -⟩ := enterItem_before e s k si hb hshape ws p w0 hp
  obtain ⟨h1, ⟨r, r2, h2⟩, h3⟩ := object_step e attributes s0 k si si.position ws p w0 hin
    hp0 hfl hpc hlen
  refine ⟨_, r, r2, iteration_of_enter e attributes s s0 si hent, ?_, ?_, ?_⟩
  · rw [hin.newItem]; exact h1
  · rw [hin.newItem]; exact h2
  · rw [hin.newItem, h3, hsd]

/-! ## A token, a separator or an object, a token -/

theorem before_init (tWords : List Word) :
    Before { ParseState.init with tWords := tWords } 0
      ∧ Pending { ParseState.init with tWords := tWords } tWords 0 0 :=
  ⟨⟨rfl, by simp [ParseState.init]⟩, ⟨rfl, rfl, rfl, rfl⟩⟩

theorem parse_eq_parseLoop (e : Engine) (tWords : List Word)
    (attributes : Nat → QCharAttributes) (hattr : e.attributes = some attributes)
    (hsize : e.size ≠ 0) :
    parse e tWords = parseLoop e attributes (iterationBound e.size e.items)
      { ParseState.init with tWords := [] } := by
  unfold parse
  simp only [List.drop_length, if_neg hsize, hattr]

/-- The buffer `u ++ separator ++ v`, `u` and `v` unbroken text items:
three records, the word of `u`, the newline record, the word of `v`, at
the offsets as the `uint16` parameter stores them. -/
theorem parse_token_separator_token (e : Engine) (tWords : List Word)
    (attributes : Nat → QCharAttributes) (i0 i1 i2 : QScriptItem) (m : Nat)
    (hitems : e.items = [i0, i1, i2]) (hattr : e.attributes = some attributes)
    (hp0 : i0.position = 0) (hp1 : i1.position = m) (hp2 : i2.position = m + 1)
    (hm : 0 < m) (hsize : m + 1 < e.size)
    (hf0 : i0.flags = Flags.Text) (hf1 : i1.flags = Flags.LineOrParagraphSeparator)
    (hf2 : i2.flags = Flags.Text)
    (hs0 : i0.num_glyphs = 0 → i0.attributesAfterShape = true)
    (hs1 : i1.num_glyphs = 0 → i1.attributesAfterShape = true)
    (hs2 : i2.num_glyphs = 0 → i2.attributesAfterShape = true)
    (hok0 : ClusterMapOk e.logClusters i0.glyphs i0.currentNumGlyphs 0 m)
    (hok2 : ClusterMapOk e.logClusters i2.glyphs i2.currentNumGlyphs (m + 1) e.size)
    (hnsb0 : ∀ q, q < m → isSpaceBreak e attributes q = false)
    (hnsb2 : ∀ q, m + 1 ≤ q → q < e.size → isSpaceBreak e attributes q = false)
    (hrun0 : PlainRun e attributes i0.glyphs 0 0 m)
    (hrun2 : PlainRun e attributes i2.glyphs 0 (m + 1) e.size)
    (hunder0 : (attributes m).graphemeBoundary = true → stopsAt e attributes m
      ∨ glyphsWidth i0.glyphs (e.logClusters 0) i0.currentNumGlyphs ≤ e.minResizeWidth) :
    ∃ r0 r2, parse e tWords = some
      { words :=
          [Word.content (toUint16 0) false
              (glyphsWidth i0.glyphs (e.logClusters 0) i0.currentNumGlyphs) r0,
            Word.newlineAt (toUint16 m) (e.blockIndex m),
            Word.content (toUint16 (m + 1)) false
              (glyphsWidth i2.glyphs (e.logClusters (m + 1)) i2.currentNumGlyphs) r2],
        exit := Exit.completed } := by
  have hst0 : e.startOf 0 = 0 := by simp [Engine.startOf, hitems, hp0]
  have hst1 : e.startOf 1 = m := by simp [Engine.startOf, hitems, hp1]
  have hst2 : e.startOf 2 = m + 1 := by simp [Engine.startOf, hitems, hp2]
  have hst3 : e.startOf 3 = e.size := by simp [Engine.startOf, hitems]
  have hg0 : e.items.get? 0 = some i0 := by simp [hitems]
  have hg1 : e.items.get? 1 = some i1 := by simp [hitems]
  have hg2 : e.items.get? 2 = some i2 := by simp [hitems]
  have hg3 : e.items.get? 3 = none := by simp [hitems]
  have hfuel : 3 ≤ iterationBound e.size e.items := by
    have := length_le_iterationBound e.size e.items
    rw [hitems] at this ⊢
    simpa using this
  obtain ⟨more, hmore⟩ := Nat.exists_eq_add_of_le hfuel
  rw [parse_eq_parseLoop e tWords attributes hattr (by omega), hmore]
  obtain ⟨hb, hp⟩ := before_init []
  -- the first token
  obtain ⟨s1, hit1, hb1, hstop1, hpend1, -⟩ := iteration_text_item e attributes _ 0 i0 [] 0 0
    hb hp hs0 hf0 (by rw [hp0, hst1]; exact hok0) (by rw [hp0, hst1]; exact hm)
    (by rw [hst1]; intro q _ h; exact hnsb0 q h) (by rw [hp0, hst1]; exact hrun0)
    (by rw [hst1, hp0, zero_add]; exact hunder0)
  rw [hst1, hp0, zero_add] at hstop1 hpend1
  -- the separator
  have hsep : ∃ s2 r0, iteration e attributes s1 i1 = some s2 ∧ Before s2 2
      ∧ Pending s2 [Word.content (toUint16 0) false
          (glyphsWidth i0.glyphs (e.logClusters 0) i0.currentNumGlyphs) r0,
        Word.newlineAt (toUint16 m) (e.blockIndex m)] (m + 1) 0 := by
    by_cases hst : stopsAt e attributes m
    · obtain ⟨r0, hp1'⟩ := hstop1 hst
      obtain ⟨s2, r, hit2, hb2, hp2', -⟩ := iteration_separator e attributes s1 1 i1 _ m 0
        hb1 hp1' hs1 hf1 (by omega) (by rw [hp1, hst2]; omega)
      rw [hp1, if_neg (by omega), hst2] at hp2'
      exact ⟨s2, r0, hit2, hb2, hp2'⟩
    · have hp1' := hpend1 hst
      obtain ⟨s2, r, hit2, hb2, hp2', -⟩ := iteration_separator e attributes s1 1 i1 _ 0 _
        hb1 hp1' hs1 hf1 (by omega) (by rw [hp1, hst2]; omega)
      rw [hp1, if_pos hm, hst2] at hp2'
      exact ⟨s2, r, hit2, hb2, hp2'⟩
  obtain ⟨s2, r0, hit2, hb2, hp2'⟩ := hsep
  -- the second token
  obtain ⟨s3, hit3, hb3, hstop3, -, -⟩ := iteration_text_item e attributes s2 2 i2 _ (m + 1) 0
    hb2 hp2' hs2 hf2 (by rw [hp2, hst3]; exact hok2) (by rw [hp2, hst3]; exact hsize)
    (by rw [hp2, hst3]; exact hnsb2) (by rw [hp2, hst3]; exact hrun2)
    (by intro _; left; rw [hst3]; exact Or.inl (le_refl _))
  obtain ⟨r2, hp3⟩ := hstop3 (by rw [hst3]; exact Or.inl (le_refl _))
  rw [hst3, hp2, zero_add] at hp3
  refine ⟨r0, r2, ?_⟩
  have h3 : parseLoop e attributes 0 s3
      = some { words := s3.tWords, exit := Exit.completed } :=
    parseLoop_done e attributes 0 s3 (by rw [hb3.newItem]; exact hg3)
  have h2 := parseLoop_step e attributes 0 s2 s3 i2 (by rw [hb2.newItem]; exact hg2) hit3
  have h1 := parseLoop_step e attributes 1 s1 s2 i1 (by rw [hb1.newItem]; exact hg1) hit2
  have h0 := parseLoop_step e attributes 2 _ s1 i0 hg0 hit1
  have hall : parseLoop e attributes 3 { ParseState.init with tWords := [] }
      = some { words := s3.tWords, exit := Exit.completed } := by
    rw [h0, h1, h2, h3]
  rw [parseLoop_mono e attributes 3 _ _ hall more, hp3.tWords]
  rfl

/-! ## Facts on the concrete inputs -/

theorem printableAdvance_uniform (n : Nat) (adv : Int) (g : Nat) :
    printableAdvance (uniformGlyphs n adv) g = adv := by
  simp [printableAdvance, uniformGlyphs]

theorem glyphsWidth_uniform (n : Nat) (adv : Int) (a : Nat) :
    ∀ b, a ≤ b → glyphsWidth (uniformGlyphs n adv) a b = ((b - a : Nat) : Int) * adv := by
  intro b hab
  induction b, hab using Nat.le_induction with
  | base => simp [glyphsWidth_self]
  | succ b hab ih =>
    rw [glyphsWidth_succ _ a b hab, ih, printableAdvance_uniform,
      show b + 1 - a = (b - a) + 1 by omega]
    push_cast
    ring

/-- A cluster map that sends the characters of `[a, b)` one by one to the
glyphs `0, 1, …` of a uniform run is well formed. -/
theorem clusterMapOk_uniform (lc : Nat → Nat) (adv : Int) (a b : Nat)
    (h : ∀ q, a ≤ q → q < b → lc q = q - a) :
    ClusterMapOk lc (uniformGlyphs (b - a) adv) (b - a) a b := by
  refine ⟨?_, ?_, ?_, ?_⟩
  · intro p q h1 h2 h3
    rw [h p h1 (by omega), h q (by omega) h3]
    omega
  · intro p h1 h2
    rw [h p h1 h2]
    omega
  · intro p _ _; rfl
  · intro g hg _
    exact ⟨a + g, by omega, by omega, by rw [h (a + g) (by omega) (by omega)]; omega⟩

theorem twoLines_logClusters_first (text : Nat → Nat) (m k : Nat) (adv thr : Int) (q : Nat)
    (hq : q < m) : (twoLines text m k adv thr).logClusters q = q := by
  simp [twoLines, hq]

theorem twoLines_logClusters_second (text : Nat → Nat) (m k : Nat) (adv thr : Int) (q : Nat)
    (hq : m + 1 ≤ q) : (twoLines text m k adv thr).logClusters q = q - (m + 1) := by
  simp only [twoLines]
  rw [if_neg (by omega), if_neg (by omega)]

theorem twoLines_isSpaceBreak (text : Nat → Nat) (m k : Nat) (adv thr : Int) (q : Nat)
    (hq : q ≠ m) :
    isSpaceBreak (twoLines text m k adv thr) (twoLinesAttributes m) q = false := by
  simp [isSpaceBreak, twoLinesAttributes, hq]

theorem twoLines_isLineBreak (text : Nat → Nat) (m k : Nat) (adv thr : Int) (q : Nat)
    (hq : q ≠ m + 1) :
    isLineBreak (twoLines text m k adv thr) (twoLinesAttributes m) q = false := by
  simp [isLineBreak, twoLinesAttributes, hq]

theorem twoLines_ok_first (text : Nat → Nat) (m k : Nat) (adv thr : Int) :
    ClusterMapOk (twoLines text m k adv thr).logClusters
      (plainItem 0 Flags.Text m adv 0).glyphs
      (plainItem 0 Flags.Text m adv 0).currentNumGlyphs 0 m := by
  have := clusterMapOk_uniform (twoLines text m k adv thr).logClusters adv 0 m
    (fun q _ hq => by rw [twoLines_logClusters_first text m k adv thr q hq]; omega)
  simpa using this

theorem twoLines_ok_second (text : Nat → Nat) (m k : Nat) (adv thr : Int) :
    ClusterMapOk (twoLines text m k adv thr).logClusters
      (plainItem (m + 1) Flags.Text k adv 0).glyphs
      (plainItem (m + 1) Flags.Text k adv 0).currentNumGlyphs (m + 1)
      (twoLines text m k adv thr).size := by
  have := clusterMapOk_uniform (twoLines text m k adv thr).logClusters adv (m + 1)
    (m + 1 + k) (fun q hq _ => twoLines_logClusters_second text m k adv thr q hq)
  rw [show m + 1 + k - (m + 1) = k by omega] at this
  exact this

theorem twoLines_width_first (text : Nat → Nat) (m k : Nat) (adv thr : Int) (hm : 0 < m) :
    glyphsWidth (plainItem 0 Flags.Text m adv 0).glyphs
      ((twoLines text m k adv thr).logClusters 0)
      (plainItem 0 Flags.Text m adv 0).currentNumGlyphs = (m : Int) * adv := by
  rw [twoLines_logClusters_first text m k adv thr 0 hm]
  show glyphsWidth (uniformGlyphs m adv) 0 m = _
  rw [glyphsWidth_uniform m adv 0 m (by omega)]
  simp

theorem twoLines_width_second (text : Nat → Nat) (m k : Nat) (adv thr : Int) :
    glyphsWidth (plainItem (m + 1) Flags.Text k adv 0).glyphs
      ((twoLines text m k adv thr).logClusters (m + 1))
      (plainItem (m + 1) Flags.Text k adv 0).currentNumGlyphs = (k : Int) * adv := by
  rw [twoLines_logClusters_second text m k adv thr (m + 1) (le_refl _)]
  show glyphsWidth (uniformGlyphs k adv) (m + 1 - (m + 1)) k = _
  rw [glyphsWidth_uniform k adv _ k (by omega)]
  simp

theorem twoLines_run_first (text : Nat → Nat) (m k : Nat) (adv thr : Int) (hm : 0 < m)
    (hadv : 0 ≤ adv) (hmthr : (m : Int) * adv ≤ thr) :
    PlainRun (twoLines text m k adv thr) (twoLinesAttributes m)
      (plainItem 0 Flags.Text m adv 0).glyphs 0 0 m := by
  refine ⟨fun q h1 h2 => ⟨by show q < m + 1 + k; omega,
    twoLines_isSpaceBreak text m k adv thr q (by omega),
    twoLines_isLineBreak text m k adv thr q (by omega)⟩, ?_⟩
  intro q h1 h2 _
  rw [twoLines_logClusters_first text m k adv thr 0 hm,
    twoLines_logClusters_first text m k adv thr q h2]
  show (0 : Int) + glyphsWidth (uniformGlyphs m adv) 0 q ≤ thr
  rw [glyphsWidth_uniform m adv 0 q (by omega), zero_add]
  have : ((q - 0 : Nat) : Int) * adv ≤ (m : Int) * adv :=
    mul_le_mul_of_nonneg_right (by exact_mod_cast (by omega : q - 0 ≤ m)) hadv
  omega

theorem twoLines_run_second (text : Nat → Nat) (m k : Nat) (adv thr : Int)
    (hadv : 0 ≤ adv) (hkthr : (k : Int) * adv ≤ thr) :
    PlainRun (twoLines text m k adv thr) (twoLinesAttributes m)
      (plainItem (m + 1) Flags.Text k adv 0).glyphs 0 (m + 1)
      (twoLines text m k adv thr).size := by
  refine ⟨fun q h1 h2 => ⟨h2, twoLines_isSpaceBreak text m k adv thr q (by omega),
    twoLines_isLineBreak text m k adv thr q (by omega)⟩, ?_⟩
  intro q h1 h2 _
  rw [twoLines_logClusters_second text m k adv thr (m + 1) (le_refl _),
    twoLines_logClusters_second text m k adv thr q (by omega)]
  show (0 : Int) + glyphsWidth (uniformGlyphs k adv) (m + 1 - (m + 1)) (q - (m + 1)) ≤ thr
  rw [glyphsWidth_uniform k adv _ _ (by omega), zero_add]
  have h3 : q < m + 1 + k := h2
  have : ((q - (m + 1) - (m + 1 - (m + 1)) : Nat) : Int) * adv ≤ (k : Int) * adv :=
    mul_le_mul_of_nonneg_right (by exact_mod_cast (by omega :
      q - (m + 1) - (m + 1 - (m + 1)) ≤ k)) hadv
  omega

theorem twoLines_parse (text : Nat → Nat) (m k : Nat) (adv thr : Int) (tWords : List Word)
    (hm : 0 < m) (hk : 0 < k) (hadv : 0 ≤ adv) (hmthr : (m : Int) * adv ≤ thr)
    (hkthr : (k : Int) * adv ≤ thr) :
    ∃ r0 r2, parse (twoLines text m k adv thr) tWords = some
      { words :=
          [Word.content (toUint16 0) false ((m : Int) * adv) r0,
            Word.newlineAt (toUint16 m) 1,
            Word.content (toUint16 (m + 1)) false ((k : Int) * adv) r2],
        exit := Exit.completed } := by
  obtain ⟨r0, r2, h⟩ := parse_token_separator_token (twoLines text m k adv thr) tWords
    (twoLinesAttributes m)
    (plainItem 0 Flags.Text m adv 0) (plainItem m Flags.LineOrParagraphSeparator 1 adv 0)
    (plainItem (m + 1) Flags.Text k adv 0) m rfl rfl rfl rfl rfl hm
    (by show m + 1 < m + 1 + k; omega)
    rfl rfl rfl (fun _ => rfl) (fun _ => rfl) (fun _ => rfl)
    (twoLines_ok_first text m k adv thr) (twoLines_ok_second text m k adv thr)
    (fun q hq => twoLines_isSpaceBreak text m k adv thr q (by omega))
    (fun q hq _ => twoLines_isSpaceBreak text m k adv thr q (by omega))
    (twoLines_run_first text m k adv thr hm hadv hmthr)
    (twoLines_run_second text m k adv thr hadv hkthr)
    (by
      intro _
      right
      rw [twoLines_width_first text m k adv thr hm]
      exact hmthr)
  refine ⟨r0, r2, ?_⟩
  rw [h, twoLines_width_first text m k adv thr hm, twoLines_width_second text m k adv thr]
  have e3 : (twoLines text m k adv thr).blockIndex m = 1 := by
    simp [twoLines]
  rw [e3]

/-! ## Claims on the produced sequence of positions -/

theorem twoLines_wellFormed (text : Nat → Nat) (m k : Nat) (adv thr : Int) (hm : 0 < m)
    (hk : 0 < k) : (twoLines text m k adv thr).WellFormed := by
  refine ⟨rfl, ?_⟩
  intro i hi
  have hi3 : i < 3 := hi
  interval_cases i
  · show 0 < m
    exact hm
  · show m < m + 1
    omega
  · show m + 1 < m + 1 + k
    omega

theorem twoLines_shapingSucceeds (text : Nat → Nat) (m k : Nat) (adv thr : Int) :
    (twoLines text m k adv thr).ShapingSucceeds := by
  refine ⟨rfl, ?_⟩
  intro si hsi _
  simp only [twoLines, List.mem_cons, List.mem_singleton, List.not_mem_nil, or_false] at hsi
  rcases hsi with h | h | h <;> rw [h] <;> rfl

/-- C1, as amended: for every non-empty buffer of at most 65536 characters
whose shaping succeeds (attribute table available at every fetch; shaping
items non-empty, contiguous and covering the buffer from offset 0), `parse`
completes with a non-empty sequence whose first record starts at 0, every
record starts below the buffer length, the ranges between consecutive
start positions (the last ending at the buffer length) concatenate to the
whole buffer, and none of them is empty. -/
theorem C1_coverage (e : Engine) (tWords : List Word) (hwf : e.WellFormed)
    (hshape : e.ShapingSucceeds) (hne : e.size ≠ 0) (hsz : e.size ≤ 65536) :
    ∃ w ws, parse e tWords = some { words := w :: ws, exit := Exit.completed }
      ∧ w.position = 0
      ∧ (∀ x ∈ w :: ws, x.position < e.size)
      ∧ (wordRanges e.size (w :: ws)).flatMap rangeChars = List.range e.size
      ∧ ∀ r ∈ wordRanges e.size (w :: ws), r.1 < r.2 := by
  cases hattr : e.attributes with
  | none =>
    have := hshape.1
    rw [hattr] at this
    simp at this
  | some attributes =>
    obtain ⟨o, s1, hparse, hinv, hwords, hdone, habort⟩ :=
      parse_posInv e tWords hwf hsz attributes hattr hne
    have hexit : o.exit = Exit.completed := by
      cases hx : o.exit with
      | completed => rfl
      | aborted =>
        obtain ⟨si, hget, hent⟩ := habort hx
        exact absurd hent (enterItem_ne_none e hshape s1 si (List.get?_mem hget))
    obtain ⟨hnonempty, hws⟩ := PosInv.final e hne s1 hinv (hdone hexit)
    cases hlist : s1.tWords with
    | nil => exact absurd hlist hnonempty
    | cons w ws =>
      have ho : o = { words := w :: ws, exit := Exit.completed } := by
        cases o
        simp only at hwords hexit
        rw [hwords, hexit, hlist]
      have hw0 : w.position = 0 := hinv.words.head0 w (by rw [hlist]; rfl)
      have hbelow : ∀ x ∈ w :: ws, x.position < e.size := by
        intro x hx
        rw [← hlist] at hx
        have := hinv.words.below x hx
        omega
      have hsorted := hinv.words.sorted
      rw [hlist] at hsorted
      obtain ⟨hc1, hc2⟩ := rangesFrom_cover e.size (ws.map Word.position) w.position
        hsorted (by
          intro p hp
          have hp2 : p ∈ (w :: ws).map Word.position := hp
          obtain ⟨x, hx, hxp⟩ := List.mem_map.1 hp2
          rw [← hxp]
          exact hbelow x hx)
      refine ⟨w, ws, by rw [hparse, ho], hw0, hbelow, ?_, hc2⟩
      show (rangesFrom e.size (w.position :: ws.map Word.position)).flatMap rangeChars = _
      rw [hc1, hw0, List.range_eq_range']
      rfl

/-- Witness of `C1_coverage`: the buffer `"ab\ncd"`. -/
theorem C1_coverage_witness :
    ∃ w ws, parse exampleAbNlCd [] = some { words := w :: ws, exit := Exit.completed }
      ∧ w.position = 0
      ∧ (∀ x ∈ w :: ws, x.position < exampleAbNlCd.size)
      ∧ (wordRanges exampleAbNlCd.size (w :: ws)).flatMap rangeChars
          = List.range exampleAbNlCd.size
      ∧ ∀ r ∈ wordRanges exampleAbNlCd.size (w :: ws), r.1 < r.2 :=
  C1_coverage exampleAbNlCd [] (by decide) (by decide) (by decide) (by decide)

/-- Counterexample to C1 as stated: the buffer of 65536 letters, a line feed
and one more letter is non-empty and its shaping succeeds, yet the
newline record is stored at offset 0 like the first word, so the range
between the first two start positions is empty. -/
theorem C1_counterexample :
    (longFirstLine 1).WellFormed ∧ (longFirstLine 1).ShapingSucceeds
      ∧ (longFirstLine 1).size ≠ 0
      ∧ ∃ ws, parse (longFirstLine 1) [] = some { words := ws, exit := Exit.completed }
        ∧ ws.map Word.position = [0, 0, 1]
        ∧ ¬ ∀ r ∈ wordRanges (longFirstLine 1).size ws, r.1 < r.2 := by
  refine ⟨twoLines_wellFormed _ _ _ _ _ (by decide) (by decide),
    twoLines_shapingSucceeds _ _ _ _ _, by decide, ?_⟩
  obtain ⟨r0, r2, h⟩ := twoLines_parse longLineText 65536 1 1 65536 [] (by decide)
    (by decide) (by decide) (by decide) (by decide)
  refine ⟨_, h, rfl, ?_⟩
  intro hall
  have := hall (0, 0) (by simp [wordRanges, rangesFrom, toUint16])
  omega

/-- C2, as amended: for every input with well-formed shaping items
(non-empty, contiguous, covering the buffer from offset 0) and a buffer of
at most 65536 characters, `parse` returns (completing or aborting) and the
`startPosition` values of the records it leaves, as stored through the
`uint16` position parameter, are strictly increasing along the sequence. -/
theorem C2_monotone (e : Engine) (tWords : List Word) (hwf : e.WellFormed)
    (hsz : e.size ≤ 65536) :
    ∃ o, parse e tWords = some o ∧ (o.words.map Word.position).Pairwise (· < ·) := by
  by_cases hne : e.size = 0
  · refine ⟨{ words := [], exit := Exit.completed }, ?_, by simp⟩
    unfold parse
    simp only [List.drop_length, if_pos hne]
  · cases hattr : e.attributes with
    | none =>
      refine ⟨{ words := [], exit := Exit.aborted }, ?_, by simp⟩
      unfold parse
      simp only [List.drop_length, if_neg hne, hattr]
    | some attributes =>
      obtain ⟨o, s1, hparse, hinv, hwords, -, -⟩ :=
        parse_posInv e tWords hwf hsz attributes hattr hne
      exact ⟨o, hparse, by rw [hwords]; exact hinv.words.sorted⟩

/-- Witness of `C2_monotone`: the buffer `"ab\ncd"`. -/
theorem C2_monotone_witness :
    ∃ o, parse exampleAbNlCd [] = some o
      ∧ (o.words.map Word.position).Pairwise (· < ·) :=
  C2_monotone exampleAbNlCd [] (by decide) (by decide)

/-- Counterexample to C2 as stated: for 65536 letters, a line feed and two
more letters the stored start positions are 0, 0, 1, which is not
strictly increasing. -/
theorem C2_counterexample :
    ∃ ws, parse (longFirstLine 2) [] = some { words := ws, exit := Exit.completed }
      ∧ ws.map Word.position = [0, 0, 1]
      ∧ ¬ (ws.map Word.position).Pairwise (· < ·) := by
  obtain ⟨r0, r2, h⟩ := twoLines_parse longLineText 65536 2 1 65536 [] (by decide)
    (by decide) (by decide) (by decide) (by decide)
  refine ⟨_, h, rfl, ?_⟩
  intro hp
  have : (List.map Word.position
      [Word.content (toUint16 0) false (((65536 : Nat) : Int) * 1) r0,
        Word.newlineAt (toUint16 65536) 1,
        Word.content (toUint16 (65536 + 1)) false (((2 : Nat) : Int) * 1) r2]) = [0, 0, 1] :=
    rfl
  rw [this] at hp
  simp at hp

/-- C3: the word sequence `parse` leaves does not depend on what the
sequence held before the call, and parsing again over the sequence just
produced gives the same result. -/
theorem C3_idempotent (e : Engine) (tWords1 tWords2 : List Word) :
    parse e tWords1 = parse e tWords2
      ∧ ∀ o, parse e tWords1 = some o → parse e o.words = some o := by
  have h : ∀ a b : List Word, parse e a = parse e b := by
    intro a b
    unfold parse
    simp only [List.drop_length]
  exact ⟨h tWords1 tWords2, fun o ho => by rw [h o.words tWords1]; exact ho⟩

/-! ## Aborted parses -/

theorem parse_no_attributes (e : Engine) (tWords : List Word) (hne : e.size ≠ 0)
    (hattr : e.attributes = none) :
    parse e tWords = some { words := [], exit := Exit.aborted } := by
  unfold parse
  simp only [List.drop_length, if_neg hne, hattr]

theorem parse_empty (e : Engine) (tWords : List Word) (h : e.size = 0) :
    parse e tWords = some { words := [], exit := Exit.completed } := by
  unfold parse
  simp only [List.drop_length, if_pos h]

theorem parseLoop_aborted (e : Engine) (attributes : Nat → QCharAttributes) :
    ∀ fuel s ws, parseLoop e attributes fuel s = some { words := ws, exit := Exit.aborted } →
      ∃ n s1 si, iterate e attributes n s = some s1 ∧ e.items.get? s1.newItem = some si
        ∧ enterItem e s1 si = none ∧ ws = s1.tWords := by
  intro fuel
  induction fuel with
  | zero =>
    intro s ws h
    rw [parseLoop] at h
    cases hget : e.items.get? s.newItem with
    | none => rw [hget] at h; simp at h
    | some si => rw [hget] at h; simp at h
  | succ k ih =>
    intro s ws h
    cases hget : e.items.get? s.newItem with
    | none => rw [parseLoop_done e attributes _ s hget] at h; simp at h
    | some si =>
      cases hit : iteration e attributes s si with
      | none =>
        have hent : enterItem e s si = none := by
          unfold iteration at hit
          cases hent : enterItem e s si with
          | none => rfl
          | some s0 => rw [hent] at hit; simp at hit
        rw [parseLoop_abort e attributes _ s si hget hent] at h
        simp only [Option.some.injEq, Outcome.mk.injEq, and_true] at h
        exact ⟨0, s, si, rfl, hget, hent, h.symm⟩
      | some s1 =>
        rw [parseLoop_step e attributes k s s1 si hget hit] at h
        obtain ⟨n, s2, sj, h1, h2, h3, h4⟩ := ih s1 ws h
        refine ⟨n + 1, s2, sj, ?_, h2, h3, h4⟩
        simp only [iterate, hget, hit]
        exact h1

theorem exampleAbortMidScan_parse :
    parse exampleAbortMidScan [] = some
      { words := [Word.content 0 false 1024 0, Word.newlineAt 2 1],
        exit := Exit.aborted } := by
  decide

/-- Counterexample to C4 as stated: on `"ab\ncd"` the attribute table is
missing after the last item is shaped, `parse` aborts, and the word of
`"ab"` and the newline record pushed before remain in the sequence. -/
theorem C4_counterexample :
    parse exampleAbortMidScan [] = some
      { words := [Word.content 0 false 1024 0, Word.newlineAt 2 1],
        exit := Exit.aborted }
      ∧ [Word.content 0 false 1024 0, Word.newlineAt 2 1] ≠ [] := by
  decide

/-- Counterexample to C5 as stated: on the non-empty buffer `"ab\ncd"` with
no attribute table `parse` aborts, and the word sequence it leaves, the
only thing the caller can look at, equals the one left for the empty
buffer. -/
theorem C5_counterexample :
    parse exampleNoAttributes [] = some { words := [], exit := Exit.aborted }
      ∧ parse exampleEmpty [] = some { words := [], exit := Exit.completed }
      ∧ (parse exampleNoAttributes []).map Outcome.words
          = (parse exampleEmpty []).map Outcome.words := by
  decide

/-! ## Invariants of the main loop, in general -/

/-- With well-formed items the main loop ends within `size - cursor`
iterations; a property `J` of the states between iterations that every
iteration preserves (given the position facts) holds in the state in
which the loop is left. -/
theorem parseLoop_invariant (e : Engine) (hwf : e.WellFormed) (hsz : e.size ≤ 65536)
    (attributes : Nat → QCharAttributes) (J : ParseState → Prop)
    (hJ : ∀ s s1 si, PosInv e s → J s → e.items.get? s.newItem = some si →
      iteration e attributes s si = some s1 → J s1) :
    ∀ fuel s, PosInv e s → J s → e.size - s.cursor ≤ fuel →
      ∃ o s1, parseLoop e attributes fuel s = some o ∧ PosInv e s1 ∧ J s1
        ∧ o.words = s1.tWords
        ∧ (o.exit = Exit.completed → s1.newItem = e.items.length)
        ∧ (o.exit = Exit.aborted →
            ∃ si, e.items.get? s1.newItem = some si ∧ enterItem e s1 si = none) := by
  intro fuel
  induction fuel with
  | zero =>
    intro s hinv hj hfuel
    obtain ⟨o, s1, h1, h2, h3, h4, h5⟩ := parseLoop_posInv e hwf hsz attributes 0 s hinv hfuel
    unfold parseLoop at h1
    cases hget : e.items.get? s.newItem with
    | none =>
      refine ⟨_, s, parseLoop_done e attributes 0 s hget, hinv, hj, rfl, ?_, ?_⟩
      · intro _
        have := List.get?_eq_none.1 hget
        have := hinv.newItem_le
        omega
      · intro h; simp at h
    | some si => rw [hget] at h1; simp at h1
  | succ k ih =>
    intro s hinv hj hfuel
    cases hget : e.items.get? s.newItem with
    | none =>
      refine ⟨_, s, parseLoop_done e attributes _ s hget, hinv, hj, rfl, ?_, ?_⟩
      · intro _
        have := List.get?_eq_none.1 hget
        have := hinv.newItem_le
        omega
      · intro h; simp at h
    | some si =>
      cases hit : iteration e attributes s si with
      | none =>
        have hent : enterItem e s si = none := by
          unfold iteration at hit
          cases hent : enterItem e s si with
          | none => rfl
          | some s0 => rw [hent] at hit; simp at hit
        refine ⟨_, s, parseLoop_abort e attributes _ s si hget hent, hinv, hj, rfl, ?_, ?_⟩
        · intro h; simp at h
        · intro _; exact ⟨si, hget, hent⟩
      | some s1 =>
        obtain ⟨h1, h2⟩ := iteration_posInv e hwf hsz attributes s s1 si hinv hget hit
        rw [parseLoop_step e attributes k s s1 si hget hit]
        exact ih s1 h1 (hJ s s1 si hinv hj hget hit) (by omega)

/-- The invariant principle at the level of `parse`, for a completed
parse of a non-empty buffer. -/
theorem parse_invariant (e : Engine) (tWords : List Word) (hwf : e.WellFormed)
    (hshape : e.ShapingSucceeds) (hsz : e.size ≤ 65536) (hne : e.size ≠ 0)
    (attributes : Nat → QCharAttributes) (hattr : e.attributes = some attributes)
    (J : ParseState → Prop) (h0 : J { ParseState.init with tWords := [] })
    (hJ : ∀ s s1 si, PosInv e s → J s → e.items.get? s.newItem = some si →
      iteration e attributes s si = some s1 → J s1) :
    ∃ s1, parse e tWords = some { words := s1.tWords, exit := Exit.completed }
      ∧ PosInv e s1 ∧ J s1 ∧ s1.newItem = e.items.length := by
  rw [parse_eq_parseLoop e tWords attributes hattr hne]
  have hb := iterationBound_ge_size e hwf
  obtain ⟨o, s1, hparse, hinv, hj, hwords, hdone, habort⟩ :=
    parseLoop_invariant e hwf hsz attributes J hJ _ _ (posInv_init e hwf) h0
      (by
        show e.size - _ ≤ iterationBound e.size e.items
        omega)
  have hexit : o.exit = Exit.completed := by
    cases hx : o.exit with
    | completed => rfl
    | aborted =>
      obtain ⟨si, hget, hent⟩ := habort hx
      exact absurd hent (enterItem_ne_none e hshape s1 si (List.get?_mem hget))
  refine ⟨s1, ?_, hinv, hj, hdone hexit⟩
  rw [hparse]
  cases o
  simp only at hwords hexit
  rw [hwords, hexit]

/-! ## How the branches extend the word sequence -/

theorem newlineRecords_append (ws new : List Word) :
    newlineRecords (ws ++ new) = newlineRecords ws ++ newlineRecords new := by
  simp [newlineRecords, List.filterMap_append]

theorem newlineRecords_content (new : List Word) (h : ∀ w ∈ new, IsContent w) :
    newlineRecords new = [] := by
  induction new with
  | nil => rfl
  | cons w rest ih =>
    obtain ⟨p, u, wd, r, hw⟩ := h w (by simp)
    have hrest := ih (fun x hx => h x (by simp [hx]))
    unfold newlineRecords at hrest ⊢
    rw [List.filterMap_cons, hrest, hw]
    rfl

theorem newlineRecords_backAdd (ws : List Word) (x : Int) :
    newlineRecords (backAddRpadding ws x) = newlineRecords ws := by
  induction ws with
  | nil => rfl
  | cons w rest ih =>
    cases rest with
    | nil =>
      show newlineRecords [w.add_rpadding x] = newlineRecords [w]
      unfold newlineRecords
      simp only [List.filterMap_cons, List.filterMap_nil]
      rfl
    | cons w2 rest2 =>
      show newlineRecords (w :: backAddRpadding (w2 :: rest2) x) = _
      have h1 : ∀ l : List Word, newlineRecords (w :: l)
          = newlineRecords [w] ++ newlineRecords l := fun l =>
        newlineRecords_append [w] l
      rw [h1, h1 (w2 :: rest2), ih]

theorem ordinaryCheck_grows (e : Engine) (attributes : Nat → QCharAttributes)
    (s : ParseState) :
    ∃ new, (ordinaryCheck e attributes s).1.tWords = s.tWords ++ new
      ∧ (∀ w ∈ new, IsContent w)
      ∧ (new = [] → (ordinaryCheck e attributes s).1.wordStart = s.wordStart
          ∧ (ordinaryCheck e attributes s).2 = false
          ∧ ¬ breakAt e attributes s) := by
  have h := ordinaryCheck_case e attributes s
  generalize ordinaryCheck e attributes s = r at h ⊢
  cases h with
  | finished hb =>
    exact ⟨[_], by rw [flushFinished_tWords]; rfl,
      fun w hw => ⟨_, _, _, _, List.mem_singleton.1 hw⟩, fun h => by simp at h⟩
  | retro hb hgb ha hw hl =>
    refine ⟨[Word.content (toUint16 s.wordStart) true s.lastGraphemeBoundaryLine.textWidth
        (-(s.lbh.calculateRightBearingForPreviousGlyph e).negativeRightBearing),
      Word.content (toUint16 ((s.retroCut e).forced).wordStart) true
        ((s.retroCut e).forced).lbh.tmpData.textWidth
        (-(((s.retroCut e).forced).lbh.calculateRightBearing e).negativeRightBearing)],
      ?_, ?_, fun h => by simp at h⟩
    · rw [flushUnfinished_tWords, forced_tWords, retroCut_tWords]
      simp only [pushUnfinishedWord, List.append_assoc, List.singleton_append]
    · intro w hw
      simp only [List.mem_cons, List.mem_singleton, List.not_mem_nil, or_false] at hw
      rcases hw with h | h
      · exact ⟨_, _, _, _, h⟩
      · exact ⟨_, _, _, _, h⟩
  | forcedNow hb hgb ha hw hl =>
    exact ⟨[_], by rw [flushUnfinished_tWords, forced_tWords]; rfl,
      fun w hw => ⟨_, _, _, _, List.mem_singleton.1 hw⟩, fun h => by simp at h⟩
  | forced hb hgb ha =>
    exact ⟨[_], by rw [flushUnfinished_tWords]; rfl,
      fun w hw => ⟨_, _, _, _, List.mem_singleton.1 hw⟩, fun h => by simp at h⟩
  | remember hb hgb ha hw =>
    exact ⟨[], by simp, by simp, fun _ => ⟨by simp, rfl, hb⟩⟩
  | skip hb hgb =>
    exact ⟨[], by simp, by simp, fun _ => ⟨rfl, rfl, hb⟩⟩

/-- The ordinary branch only appends content words; when it appends none,
the word that was pending is still pending at the end of the item, where
the scan does not stop. -/
theorem ordinaryBranch_grows (e : Engine) (attributes : Nat → QCharAttributes)
    (s0 : ParseState) (current : QScriptItem) (hlt : s0.lbh.currentPosition < s0.end_) :
    ∃ new, (ordinaryBranch e attributes s0 current).tWords = s0.tWords ++ new
      ∧ (∀ w ∈ new, IsContent w)
      ∧ (new = [] → (ordinaryBranch e attributes s0 current).wordStart = s0.wordStart
          ∧ (ordinaryBranch e attributes s0 current).lbh.currentPosition = s0.end_
          ∧ ¬ stopsAt e attributes s0.end_) := by
  obtain ⟨t, ⟨new0, ht1, ht2, ht3⟩, htlt, htend, htcur, -, -, -, hres, hex⟩ :=
    ordinaryLoop_exit e attributes current
      (fun x => ∃ new, x.tWords = s0.tWords ++ new ∧ (∀ w ∈ new, IsContent w)
        ∧ (new = [] → x.wordStart = s0.wordStart))
      (by
        intro x ⟨new, hx1, hx2, hx3⟩ _ _ _
        obtain ⟨new2, h1, h2, h3⟩ := ordinaryCheck_grows e attributes
          (x.afterCluster e current)
        refine ⟨new ++ new2, ?_, ?_, ?_⟩
        · show (ordinaryCheck e attributes (x.afterCluster e current)).1.tWords = _
          rw [h1, afterCluster_tWords, hx1, List.append_assoc]
        · intro w hw
          rcases List.mem_append.1 hw with h | h
          · exact hx2 w h
          · exact h2 w h
        · intro hnil
          obtain ⟨hn1, hn2⟩ := List.append_eq_nil.1 hnil
          show (ordinaryCheck e attributes (x.afterCluster e current)).1.wordStart = _
          rw [(h3 hn2).1, afterCluster_wordStart]
          exact hx3 hn1)
      (s0.end_ - s0.lbh.currentPosition - 1)
      { s0 with lbh := { s0.lbh with whiteSpaceOrObject := false } }
      ⟨[], by simp, by simp, fun _ => rfl⟩ hlt (by simp only; omega)
  have hres2 : ordinaryBranch e attributes s0 current
      = (ordinaryPass e attributes t current).1 := hres
  obtain ⟨new2, h1, h2, h3⟩ := ordinaryCheck_grows e attributes (t.afterCluster e current)
  have hcurf := (ordinaryCheck_fields e attributes (t.afterCluster e current)).1
  refine ⟨new0 ++ new2, ?_, ?_, ?_⟩
  · rw [hres2]
    show (ordinaryCheck e attributes (t.afterCluster e current)).1.tWords = _
    rw [h1, afterCluster_tWords, ht1, List.append_assoc]
  · intro w hw
    rcases List.mem_append.1 hw with h | h
    · exact ht2 w h
    · exact h2 w h
  · intro hnil
    obtain ⟨hn1, hn2⟩ := List.append_eq_nil.1 hnil
    obtain ⟨q1, q2, q3⟩ := h3 hn2
    rw [hres2]
    have hend : (ordinaryPass e attributes t current).1.lbh.currentPosition = s0.end_ := by
      rcases hex with hex | hex
      · have : (ordinaryPass e attributes t current).2 = false := q2
        rw [this] at hex
        simp at hex
      · rw [hex, htend]
    refine ⟨?_, hend, ?_⟩
    · show (ordinaryCheck e attributes (t.afterCluster e current)).1.wordStart = _
      rw [q1, afterCluster_wordStart]
      exact ht3 hn1
    · have hc : (t.afterCluster e current).lbh.currentPosition = s0.end_ := by
        rw [← hcurf]; exact hend
      unfold breakAt at q3
      rw [hc] at q3
      exact q3

theorem flushPending_grows (e : Engine) (s : ParseState) :
    ∃ new, (s.flushPending e).tWords = s.tWords ++ new ∧ (∀ w ∈ new, IsContent w) := by
  unfold ParseState.flushPending
  split
  · exact ⟨[_], by rw [flushFinished_tWords]; rfl,
      fun w hw => ⟨_, _, _, _, List.mem_singleton.1 hw⟩⟩
  · exact ⟨[], by simp, by simp⟩

theorem ordinaryLoop_fields (e : Engine) (attributes : Nat → QCharAttributes)
    (current : QScriptItem) : ∀ fuel s,
      (ordinaryLoop e attributes current fuel s).item = s.item
      ∧ (ordinaryLoop e attributes current fuel s).newItem = s.newItem
      ∧ (ordinaryLoop e attributes current fuel s).end_ = s.end_
      ∧ (ordinaryLoop e attributes current fuel s).lbh.glyphs = s.lbh.glyphs := by
  intro fuel
  induction fuel with
  | zero =>
    intro s
    obtain ⟨-, h2, h3, h4, h5⟩ := ordinaryPass_fields e attributes s current
    exact ⟨h4, h3, h2, h5⟩
  | succ k ih =>
    intro s
    obtain ⟨-, h2, h3, h4, h5⟩ := ordinaryPass_fields e attributes s current
    simp only [ordinaryLoop]
    split
    · exact ⟨h4, h3, h2, h5⟩
    · split
      · obtain ⟨q1, q2, q3, q4⟩ := ih (ordinaryPass e attributes s current).1
        exact ⟨q1.trans h4, q2.trans h3, q3.trans h2, q4.trans h5⟩
      · exact ⟨h4, h3, h2, h5⟩

theorem branch_text_fields (e : Engine) (attributes : Nat → QCharAttributes)
    (s0 : ParseState) (si : QScriptItem) (hfl : si.flags = Flags.Text) :
    (branch e attributes s0 si).item = s0.item
      ∧ (branch e attributes s0 si).newItem = s0.newItem
      ∧ (branch e attributes s0 si).end_ = s0.end_ := by
  by_cases hsp : atSpaceBreak e attributes s0 = true
  · rw [branch_space e attributes s0 si hfl hsp]
    obtain ⟨h1, h2, h3, -⟩ := spaceBranch_fields e attributes s0 si
    exact ⟨h1, h3, h2⟩
  · rw [branch_ordinary e attributes s0 si hfl hsp]
    obtain ⟨h1, h2, h3, -⟩ := ordinaryLoop_fields e attributes si
      (s0.end_ - s0.lbh.currentPosition - 1)
      { s0 with lbh := { s0.lbh with whiteSpaceOrObject := false } }
    exact ⟨h1, h2, h3⟩

theorem iteration_inside (e : Engine) (attributes : Nat → QCharAttributes)
    (s s1 : ParseState) (si : QScriptItem)
    (hit : iteration e attributes s si = some s1) (heq : (s1.newItem : Int) = s1.item) :
    s1.newItem = s.newItem ∧ si.flags = Flags.Text := by
  unfold iteration at hit
  cases hent : enterItem e s si with
  | none => rw [hent] at hit; simp at hit
  | some s0 =>
    rw [hent] at hit
    simp only [Option.some.injEq] at hit
    have h0 : s0.item = (s0.newItem : Int) ∧ s0.newItem = s.newItem := by
      unfold enterItem at hent
      split at hent
      · split at hent
        · simp at hent
        · simp only [Option.some.injEq] at hent
          rw [← hent]
          exact ⟨rfl, rfl⟩
      · rename_i hne
        simp only [Option.some.injEq] at hent
        rw [← hent]
        exact ⟨(by simpa using hne : (s.newItem : Int) = s.item).symm, rfl⟩
    obtain ⟨-, -, q3, -, -, -, -, -, q9, q10⟩ :=
      nextItemAtEnd_fields (branch e attributes s0 si) s0.newItem
    rw [← hit] at heq
    rw [q3] at heq
    cases hfl : si.flags with
    | LineOrParagraphSeparator =>
      exfalso
      rw [branch_separator e attributes s0 si hfl] at heq q9 q10
      rw [separatorBranch_item, h0.1] at heq
      by_cases hc : (separatorBranch e s0).lbh.currentPosition = (separatorBranch e s0).end_
      · rw [q9 hc] at heq; omega
      · rw [q10 hc, separatorBranch_newItem] at heq; omega
    | Object =>
      exfalso
      rw [branch_object e attributes s0 si hfl] at heq q9 q10
      rw [objectBranch_item, h0.1] at heq
      by_cases hc : (objectBranch e s0 si).lbh.currentPosition = (objectBranch e s0 si).end_
      · rw [q9 hc] at heq; omega
      · rw [q10 hc, objectBranch_newItem] at heq; omega
    | Text =>
      refine ⟨?_, rfl⟩
      rw [← hit]
      obtain ⟨f1, f2, f3⟩ := branch_text_fields e attributes s0 si hfl
      by_cases hc : (branch e attributes s0 si).lbh.currentPosition
          = (branch e attributes s0 si).end_
      · rw [q9 hc, f1, h0.1] at heq; omega
      · rw [q10 hc, f2, h0.2]

/-! ## Newline records and separator items -/

theorem enterItem_fresh (e : Engine) (s s0 : ParseState) (si : QScriptItem)
    (hne : (s.newItem : Int) ≠ s.item) (hent : enterItem e s si = some s0) :
    s0.lbh.currentPosition = si.position := by
  unfold enterItem at hent
  rw [if_pos hne] at hent
  split at hent
  · simp at hent
  · simp only [Option.some.injEq] at hent
    rw [← hent]

theorem separatorItems_append (e : Engine) (a b : List QScriptItem) :
    separatorItems e (a ++ b) = separatorItems e a ++ separatorItems e b := by
  simp [separatorItems, List.filterMap_append]

theorem take_succ_of_get (items : List QScriptItem) (n : Nat) (si : QScriptItem)
    (h : items.get? n = some si) : items.take (n + 1) = items.take n ++ [si] := by
  rw [List.take_succ]
  have h2 : items[n]? = some si := by rw [← List.get?_eq_getElem?]; exact h
  rw [h2]
  rfl

/-- One iteration adds to the newline records exactly the record of the
item it works on, if that item is a separator; the sequence then holds it
at the item's offset with the style-run index of that offset. -/
theorem iteration_newlineRecords (e : Engine) (hwf : e.WellFormed) (hsz : e.size ≤ 65536)
    (attributes : Nat → QCharAttributes) (s s1 : ParseState) (si : QScriptItem)
    (hinv : PosInv e s) (hget : e.items.get? s.newItem = some si)
    (hit : iteration e attributes s si = some s1)
    (htext : (s.newItem : Int) = s.item → si.flags = Flags.Text) :
    newlineRecords s1.tWords = newlineRecords s.tWords ++ separatorItems e [si]
      ∧ (si.flags ≠ Flags.Text → s1.newItem = s.newItem + 1)
      ∧ (s1.newItem = s.newItem ∨ s1.newItem = s.newItem + 1) := by
  have hit0 := hit
  unfold iteration at hit
  cases hent : enterItem e s si with
  | none => rw [hent] at hit; simp at hit
  | some s0 =>
    rw [hent] at hit
    simp only [Option.some.injEq] at hit
    obtain ⟨hc, hlt, hend, hni, hitem, hcur, htw, -⟩ :=
      enterItem_spec e hwf s s0 si hinv hget hent
    have hle := Engine.WellFormed.le_size e hwf (s.newItem + 1)
    obtain ⟨q1, q2, -, -, -, -, -, -, q9, q10⟩ :=
      nextItemAtEnd_fields (branch e attributes s0 si) s0.newItem
    rw [← hit, q1]
    cases hfl : si.flags with
    | LineOrParagraphSeparator =>
      have hfresh : (s.newItem : Int) ≠ s.item := by
        intro h
        have := htext h
        rw [hfl] at this
        simp at this
      have hpos := enterItem_fresh e s s0 si hfresh hent
      obtain ⟨hfc, hfw⟩ := flushPending_core e hsz s0 hc
      obtain ⟨new, hnew, hcontent⟩ := flushPending_grows e s0
      rw [branch_separator e attributes s0 si hfl] at q9 q10 ⊢
      have hne : (separatorBranch e s0).lbh.currentPosition ≠ (separatorBranch e s0).end_ := by
        rw [separatorBranch_lbh_currentPosition, separatorBranch_end_]
        omega
      refine ⟨?_, fun _ => by rw [q10 hne, separatorBranch_newItem, hni],
        Or.inr (by rw [q10 hne, separatorBranch_newItem, hni])⟩
      rw [separatorBranch_tWords, hfw, hnew, htw, hpos]
      unfold pushNewline
      rw [newlineRecords_append, newlineRecords_append, newlineRecords_content new hcontent,
        toUint16_of_lt (by omega), List.append_nil]
      congr 1
      simp [separatorItems, newlineRecords, hfl, Word.newlineAt]
    | Object =>
      obtain ⟨new, hnew, hcontent⟩ := flushPending_grows e s0
      obtain ⟨r, hr⟩ := objectBranch_tWords e s0 si
      rw [branch_object e attributes s0 si hfl] at q9 q10 ⊢
      have hne : (objectBranch e s0 si).lbh.currentPosition
          ≠ (objectBranch e s0 si).end_ := by
        rw [objectBranch_lbh_currentPosition, objectBranch_end_]
        omega
      refine ⟨?_, fun _ => by rw [q10 hne, objectBranch_newItem, hni],
        Or.inr (by rw [q10 hne, objectBranch_newItem, hni])⟩
      rw [hr, hnew, htw]
      unfold pushFinishedWord
      rw [newlineRecords_append, newlineRecords_append, newlineRecords_content new hcontent,
        newlineRecords_content [_] (fun w hw => ⟨_, _, _, _, List.mem_singleton.1 hw⟩)]
      simp [separatorItems, hfl]
    | Text =>
      obtain ⟨f1, f2, f3⟩ := branch_text_fields e attributes s0 si hfl
      have hni2 : ((branch e attributes s0 si).nextItemAtEnd s0.newItem).newItem = s.newItem
          ∨ ((branch e attributes s0 si).nextItemAtEnd s0.newItem).newItem
            = s.newItem + 1 := by
        by_cases hce : (branch e attributes s0 si).lbh.currentPosition
            = (branch e attributes s0 si).end_
        · right; rw [q9 hce, hni]
        · left; rw [q10 hce, f2, hni]
      refine ⟨?_, fun h => absurd rfl h, hni2⟩
      have hsep : separatorItems e [si] = [] := by simp [separatorItems, hfl]
      rw [hsep, List.append_nil]
      by_cases hsp : atSpaceBreak e attributes s0 = true
      · rw [branch_space e attributes s0 si hfl hsp]
        obtain ⟨-, -, -, -, -, -, -, -, -, -, -, h12⟩ := spaceBranch_fields e attributes s0 si
        rw [h12, newlineRecords_backAdd]
        rcases pushIfEmpty_tWords e
          (ParseState.mk s0.tWords (spaceScan e attributes s0 si) s0.item s0.newItem
            s0.end_ s0.wordStart s0.addingEachGrapheme s0.lastGraphemeBoundaryPosition
            s0.lastGraphemeBoundaryLine) with ⟨hnil, r, hr⟩ | ⟨hnn, hr⟩
        · rw [hr]
          have hnil2 : s.tWords = [] := by rw [← htw]; exact hnil
          rw [hnil2]
          exact newlineRecords_content _ (fun w hw => ⟨_, _, _, _, List.mem_singleton.1 hw⟩)
        · rw [hr]
          show newlineRecords s0.tWords = _
          rw [htw]
      · rw [branch_ordinary e attributes s0 si hfl hsp]
        obtain ⟨new, hnew, hcontent, -⟩ := ordinaryBranch_grows e attributes s0 si hlt
        rw [hnew, newlineRecords_append, newlineRecords_content new hcontent, htw,
          List.append_nil]

/-- For a completed parse of well-formed items within 65536 characters the
newline records are the records of the separator items, one for one and
in order. -/
theorem parse_newlineRecords (e : Engine) (tWords : List Word) (hwf : e.WellFormed)
    (hshape : e.ShapingSucceeds) (hsz : e.size ≤ 65536) :
    ∃ ws, parse e tWords = some { words := ws, exit := Exit.completed }
      ∧ newlineRecords ws = separatorItems e e.items
      ∧ (ws.map Word.position).Pairwise (· < ·) := by
  by_cases hne : e.size = 0
  · refine ⟨[], parse_empty e tWords hne, ?_, by simp⟩
    have hitems : e.items = [] := by
      cases hi : e.items with
      | nil => rfl
      | cons si rest =>
        exfalso
        have h1 := hwf.2 0 (by rw [hi]; simp)
        have h2 := Engine.WellFormed.le_size e hwf (0 + 1)
        omega
    rw [hitems]
    rfl
  · cases hattr : e.attributes with
    | none =>
      have := hshape.1
      rw [hattr] at this
      simp at this
    | some attributes =>
      obtain ⟨s1, hparse, hinv, ⟨hj1, hj2⟩, hlen⟩ := parse_invariant e tWords hwf hshape hsz
        hne attributes hattr
        (fun s => newlineRecords s.tWords = separatorItems e (e.items.take s.newItem)
          ∧ ((s.newItem : Int) = s.item →
              ∃ si, e.items.get? s.newItem = some si ∧ si.flags = Flags.Text))
        ⟨rfl, fun h => by simp [ParseState.init] at h⟩
        (by
          intro s s1 si hinv ⟨hj1, hj2⟩ hget hit
          have htext : (s.newItem : Int) = s.item → si.flags = Flags.Text := by
            intro h
            obtain ⟨sj, hsj, hfl⟩ := hj2 h
            rw [hget] at hsj
            simp only [Option.some.injEq] at hsj
            rw [hsj]; exact hfl
          obtain ⟨h1, h2, h3⟩ := iteration_newlineRecords e hwf hsz attributes s s1 si hinv
            hget hit htext
          refine ⟨?_, ?_⟩
          · rw [h1, hj1]
            rcases h3 with h3 | h3
            · have hfl : si.flags = Flags.Text := by
                by_contra hc
                have := h2 hc
                omega
              rw [h3]
              simp [separatorItems, hfl]
            · rw [h3, take_succ_of_get e.items s.newItem si hget, separatorItems_append]
          · intro heq
            obtain ⟨q1, q2⟩ := iteration_inside e attributes s s1 si hit heq
            exact ⟨si, by rw [q1]; exact hget, q2⟩)
      refine ⟨s1.tWords, hparse, ?_, hinv.words.sorted⟩
      rw [hj1, hlen, List.take_length]

/-- C6, as amended: for every successfully parsed input of at most 65536
characters the newline records of the produced sequence correspond one to
one and in order to the `LineOrParagraphSeparator` items (also when
separators are adjacent): the record for a separator at offset `p` has
start position `p` and run index `blockIndex(p)`, and as the start
positions increase strictly no other record starts there.  In particular a
buffer `u ++ separator ++ v`, with `u` and `v` each one text item without
a space break, without an accepted line break inside and with accumulated
widths not above the threshold, the glyph advances non-negative and the
shaped width of the buffer and the threshold inside the range of `QFixed`,
yields exactly
three records: a finished content word of the width of `u` at 0, the
newline record at `|u|`, a finished content word of the width of `v` at
`|u| + 1`. -/
theorem C6_separator_isolation (e : Engine) (tWords : List Word) (hwf : e.WellFormed)
    (hshape : e.ShapingSucceeds) (hsz : e.size ≤ 65536) :
    (∃ ws, parse e tWords = some { words := ws, exit := Exit.completed }
      ∧ newlineRecords ws = separatorItems e e.items
      ∧ (ws.map Word.position).Pairwise (· < ·))
    ∧ ∀ (attributes : Nat → QCharAttributes) (i0 i1 i2 : QScriptItem) (m : Nat),
        e.attributes = some attributes → e.items = [i0, i1, i2] →
        i0.position = 0 → i1.position = m → i2.position = m + 1 →
        i0.flags = Flags.Text → i1.flags = Flags.LineOrParagraphSeparator →
        i2.flags = Flags.Text →
        ClusterMapOk e.logClusters i0.glyphs i0.currentNumGlyphs 0 m →
        ClusterMapOk e.logClusters i2.glyphs i2.currentNumGlyphs (m + 1) e.size →
        (∀ q, q < m → isSpaceBreak e attributes q = false) →
        (∀ q, m + 1 ≤ q → q < e.size → isSpaceBreak e attributes q = false) →
        PlainRun e attributes i0.glyphs 0 0 m →
        PlainRun e attributes i2.glyphs 0 (m + 1) e.size →
        glyphsWidth i0.glyphs (e.logClusters 0) i0.currentNumGlyphs ≤ e.minResizeWidth →
        e.WidthsFit →
        ∃ r0 r2, parse e tWords = some
          { words :=
              [Word.content 0 false
                  (glyphsWidth i0.glyphs (e.logClusters 0) i0.currentNumGlyphs) r0,
                Word.newlineAt m (e.blockIndex m),
                Word.content (m + 1) false
                  (glyphsWidth i2.glyphs (e.logClusters (m + 1)) i2.currentNumGlyphs) r2],
            exit := Exit.completed } := by
  refine ⟨parse_newlineRecords e tWords hwf hshape hsz, ?_⟩
  intro attributes i0 i1 i2 m hattr hitems hp0 hp1 hp2 hf0 hf1 hf2 hok0 hok2 hnsb0 hnsb2
    hrun0 hrun2 hthr _
  have h1 := hwf.2 0 (by rw [hitems]; simp)
  have h2 := hwf.2 2 (by rw [hitems]; simp)
  have hst0 : e.startOf 0 = 0 := by simp [Engine.startOf, hitems, hp0]
  have hst1 : e.startOf 1 = m := by simp [Engine.startOf, hitems, hp1]
  have hst2 : e.startOf 2 = m + 1 := by simp [Engine.startOf, hitems, hp2]
  have hst3 : e.startOf 3 = e.size := by simp [Engine.startOf, hitems]
  rw [hst0, hst1] at h1
  rw [hst2, hst3] at h2
  obtain ⟨r0, r2, h⟩ := parse_token_separator_token e tWords attributes i0 i1 i2 m hitems
    hattr hp0 hp1 hp2 h1 h2 hf0 hf1 hf2
    (hshape.2 i0 (by rw [hitems]; simp)) (hshape.2 i1 (by rw [hitems]; simp))
    (hshape.2 i2 (by rw [hitems]; simp)) hok0 hok2 hnsb0 hnsb2 hrun0 hrun2
    (fun _ => Or.inr hthr)
  refine ⟨r0, r2, ?_⟩
  rw [h, toUint16_of_lt (by omega : 0 < 65536), toUint16_of_lt (by omega : m < 65536),
    toUint16_of_lt (by omega : m + 1 < 65536)]

/-- Witness of `C6_separator_isolation`: the buffer `"ab\ncd"`. -/
theorem C6_separator_isolation_witness :
    (∃ ws, parse exampleAbNlCd [] = some { words := ws, exit := Exit.completed }
      ∧ newlineRecords ws = separatorItems exampleAbNlCd exampleAbNlCd.items
      ∧ (ws.map Word.position).Pairwise (· < ·))
    ∧ ∃ r0 r2, parse exampleAbNlCd [] = some
        { words := [Word.content 0 false 1024 r0, Word.newlineAt 2 1,
            Word.content 3 false 1024 r2],
          exit := Exit.completed } := by
  have h := C6_separator_isolation exampleAbNlCd [] (by decide) (by decide) (by decide)
  refine ⟨h.1, ?_⟩
  unfold exampleAbNlCd at h ⊢
  have h2 := h.2 (twoLinesAttributes 2) (plainItem 0 Flags.Text 2 512 0)
    (plainItem 2 Flags.LineOrParagraphSeparator 1 512 0) (plainItem 3 Flags.Text 2 512 0) 2
    rfl rfl rfl rfl rfl rfl rfl rfl
    (twoLines_ok_first textAbNlCd 2 2 512 6400) (twoLines_ok_second textAbNlCd 2 2 512 6400)
    (fun q hq => twoLines_isSpaceBreak textAbNlCd 2 2 512 6400 q (by omega))
    (fun q hq _ => twoLines_isSpaceBreak textAbNlCd 2 2 512 6400 q (by omega))
    (twoLines_run_first textAbNlCd 2 2 512 6400 (by decide) (by decide) (by decide))
    (twoLines_run_second textAbNlCd 2 2 512 6400 (by decide) (by decide))
    (by
      rw [twoLines_width_first textAbNlCd 2 2 512 6400 (by decide)]
      decide)
    ⟨by
      intro si hsi g
      simp only [twoLines, List.mem_cons, List.mem_singleton, List.not_mem_nil,
        or_false] at hsi
      rcases hsi with h | h | h <;> rw [h] <;> show (0 : Int) ≤ 512 <;> decide,
      by decide, by decide⟩
  obtain ⟨r0, r2, h3⟩ := h2
  refine ⟨r0, r2, ?_⟩
  rw [h3, twoLines_width_first textAbNlCd 2 2 512 6400 (by decide),
    twoLines_width_second textAbNlCd 2 2 512 6400]
  rfl

/-- Counterexample to C6 as stated: in the buffer of 65536 letters, a line
feed and three letters the separator item is at offset 65536, and the
newline record produced for it has start position 0. -/
theorem C6_counterexample :
    ∃ ws, parse (longFirstLine 3) [] = some { words := ws, exit := Exit.completed }
      ∧ separatorItems (longFirstLine 3) (longFirstLine 3).items = [(65536, 1)]
      ∧ newlineRecords ws = [(0, 1)] := by
  obtain ⟨r0, r2, h⟩ := twoLines_parse longLineText 65536 3 1 65536 [] (by decide)
    (by decide) (by decide) (by decide) (by decide)
  exact ⟨_, h, by decide, rfl⟩

/-- After the checks of a pass either the word has been flushed (the word
start is at the cursor and `tmpData` is empty) or nothing happened to the
pending word and the scan does not stop here. -/
theorem ordinaryCheck_carry (e : Engine) (attributes : Nat → QCharAttributes)
    (s : ParseState) :
    ((ordinaryCheck e attributes s).1.wordStart = s.lbh.currentPosition
        ∧ (ordinaryCheck e attributes s).1.lbh.tmpData.textWidth = 0)
      ∨ ((ordinaryCheck e attributes s).1.wordStart = s.wordStart
        ∧ (ordinaryCheck e attributes s).2 = false ∧ ¬ breakAt e attributes s) := by
  have h := ordinaryCheck_case e attributes s
  generalize ordinaryCheck e attributes s = r at h ⊢
  cases h with
  | finished hb => left; simp [ScriptLine.zero]
  | retro hb hgb ha hw hl => left; simp [ScriptLine.zero]
  | forcedNow hb hgb ha hw hl => left; simp [ScriptLine.zero]
  | forced hb hgb ha => left; simp [ScriptLine.zero]
  | remember hb hgb ha hw => right; exact ⟨by simp, rfl, hb⟩
  | skip hb hgb => right; exact ⟨rfl, rfl, hb⟩

/-- The ordinary branch ends either with the word flushed (word start at
the cursor, `tmpData` empty) or at the end of the item with a word still
pending, where the scan does not stop. -/
theorem ordinaryBranch_carry (e : Engine) (attributes : Nat → QCharAttributes)
    (s0 : ParseState) (current : QScriptItem) (hlt : s0.lbh.currentPosition < s0.end_)
    (hws : s0.wordStart ≤ s0.lbh.currentPosition) :
    ((ordinaryBranch e attributes s0 current).wordStart
          = (ordinaryBranch e attributes s0 current).lbh.currentPosition
        ∧ (ordinaryBranch e attributes s0 current).lbh.tmpData.textWidth = 0)
      ∨ ((ordinaryBranch e attributes s0 current).wordStart
          < (ordinaryBranch e attributes s0 current).lbh.currentPosition
        ∧ (ordinaryBranch e attributes s0 current).lbh.currentPosition = s0.end_
        ∧ ¬ stopsAt e attributes s0.end_) := by
  have hstep : ∀ x : ParseState, x.wordStart ≤ x.lbh.currentPosition →
      ((ordinaryPass e attributes x current).1.wordStart
          = (ordinaryPass e attributes x current).1.lbh.currentPosition
        ∧ (ordinaryPass e attributes x current).1.lbh.tmpData.textWidth = 0)
      ∨ ((ordinaryPass e attributes x current).1.wordStart
          < (ordinaryPass e attributes x current).1.lbh.currentPosition
        ∧ (ordinaryPass e attributes x current).2 = false
        ∧ ¬ stopsAt e attributes (ordinaryPass e attributes x current).1.lbh.currentPosition) := by
    intro x hx
    have hgt := ordinaryPass_cur_gt e attributes x current
    have hcurf := (ordinaryCheck_fields e attributes (x.afterCluster e current)).1
    have hc : (ordinaryPass e attributes x current).1.lbh.currentPosition
        = (x.afterCluster e current).lbh.currentPosition := hcurf
    rcases ordinaryCheck_carry e attributes (x.afterCluster e current) with ⟨h1, h2⟩ | ⟨h1, h2, h3⟩
    · left
      exact ⟨by rw [hc]; exact h1, h2⟩
    · right
      refine ⟨?_, h2, ?_⟩
      · have : (ordinaryPass e attributes x current).1.wordStart = x.wordStart := by
          show (ordinaryCheck e attributes (x.afterCluster e current)).1.wordStart = _
          rw [h1, afterCluster_wordStart]
        omega
      · rw [hc]
        unfold breakAt at h3
        exact h3
  obtain ⟨t, ht, htlt, htend, htcur, -, -, -, hres, hex⟩ :=
    ordinaryLoop_exit e attributes current
      (fun x => x.wordStart ≤ x.lbh.currentPosition)
      (by
        intro x hx _ _ _
        rcases hstep x hx with ⟨h1, -⟩ | ⟨h1, -, -⟩
        · exact le_of_eq h1
        · exact le_of_lt h1)
      (s0.end_ - s0.lbh.currentPosition - 1)
      { s0 with lbh := { s0.lbh with whiteSpaceOrObject := false } }
      hws hlt (by simp only; omega)
  have hres2 : ordinaryBranch e attributes s0 current
      = (ordinaryPass e attributes t current).1 := hres
  rw [hres2]
  rcases hstep t ht with h | ⟨h1, h2, h3⟩
  · left; exact h
  · right
    have hend : (ordinaryPass e attributes t current).1.lbh.currentPosition = s0.end_ := by
      rcases hex with hex | hex
      · rw [h2] at hex
        simp at hex
      · rw [hex, htend]
    refine ⟨h1, hend, ?_⟩
    rw [← hend]
    exact h3

theorem kept_refl (ws : List Word) : Kept ws ws :=
  fun w hw => ⟨w, hw, rfl, rfl, rfl, rfl⟩

theorem kept_trans {a b c : List Word} (h1 : Kept a b) (h2 : Kept b c) : Kept a c := by
  intro w hw
  obtain ⟨w1, hw1, p1, p2, p3, p4⟩ := h1 w hw
  obtain ⟨w2, hw2, q1, q2, q3, q4⟩ := h2 w1 hw1
  exact ⟨w2, hw2, by rw [q1, p1], by rw [q2, p2], by rw [q3, p3], by rw [q4, p4]⟩

theorem kept_append (ws new : List Word) : Kept ws (ws ++ new) :=
  fun w hw => ⟨w, List.mem_append_left _ hw, rfl, rfl, rfl, rfl⟩

theorem kept_padLast (ws : List Word) (x : Int) : Kept ws (backAddRpadding ws x) := by
  induction ws with
  | nil => intro w hw; simp at hw
  | cons a rest ih =>
    cases rest with
    | nil =>
      intro w hw
      rw [List.mem_singleton] at hw
      exact ⟨a.add_rpadding x, by simp [backAddRpadding], by rw [hw]; rfl, by rw [hw]; rfl,
        by rw [hw]; rfl, by rw [hw]; rfl⟩
    | cons b rest2 =>
      intro w hw
      rcases List.mem_cons.1 hw with h | h
      · exact ⟨a, by simp [backAddRpadding], by rw [h], by rw [h], by rw [h], by rw [h]⟩
      · obtain ⟨w1, hw1, q⟩ := ih w h
        exact ⟨w1, by simp only [backAddRpadding]; exact List.mem_cons_of_mem _ hw1, q⟩

/-- Records whose positions increase strictly are told apart by their
position. -/
theorem eq_of_position_eq (ws : List Word) (h : (ws.map Word.position).Pairwise (· < ·))
    (a b : Word) (ha : a ∈ ws) (hb : b ∈ ws) (hab : a.position = b.position) : a = b := by
  induction ws with
  | nil => simp at ha
  | cons c rest ih =>
    rw [List.map_cons, List.pairwise_cons] at h
    rcases List.mem_cons.1 ha with ha | ha <;> rcases List.mem_cons.1 hb with hb | hb
    · rw [ha, hb]
    · have := h.1 b.position (List.mem_map_of_mem _ hb)
      rw [ha] at hab
      omega
    · have := h.1 a.position (List.mem_map_of_mem _ ha)
      rw [hb] at hab
      omega
    · exact ih h.2 ha hb

theorem carryInv_init (e : Engine) (attributes : Nat → QCharAttributes) :
    CarryInv e attributes { ParseState.init with tWords := [] } := by
  refine ⟨?_, ?_, ?_⟩
  · intro h; simp [ParseState.init] at h
  · intro _; rfl
  · intro h; simp [ParseState.init, ParseState.cursor] at h

/-- One iteration of the main loop on an input without carried words keeps
`CarryInv`, keeps every record up to its padding, and, on an object item,
leaves in the sequence a finished record at the item's offset whose width
is the declared width. -/
theorem iteration_carry (e : Engine) (hwf : e.WellFormed) (hsz : e.size ≤ 65536)
    (attributes : Nat → QCharAttributes) (hno : NoCarry e attributes)
    (s s1 : ParseState) (si : QScriptItem)
    (hinv : PosInv e s) (hk : CarryInv e attributes s)
    (hget : e.items.get? s.newItem = some si)
    (hit : iteration e attributes s si = some s1) :
    CarryInv e attributes s1
      ∧ Kept s.tWords s1.tWords
      ∧ (si.flags = Flags.Object → ∃ w ∈ s1.tWords, w.position = si.position
          ∧ w.unfinished = false ∧ w.newline = false ∧ w.width = si.width ∧ w.rpadding = 0)
      ∧ (s1.newItem = s.newItem ∨ s1.newItem = s.newItem + 1) := by
  have hlen : s.newItem < e.items.length := by
    by_contra hc
    have : e.items.get? s.newItem = none := List.get?_eq_none.2 (by omega)
    rw [this] at hget; simp at hget
  have htext : (s.newItem : Int) = s.item → si.flags = Flags.Text := by
    intro h
    obtain ⟨-, sj, hsj, hfl⟩ := hk.inside h
    rw [hget] at hsj
    simp only [Option.some.injEq] at hsj
    rw [hsj]; exact hfl
  have hnew := (iteration_newlineRecords e hwf hsz attributes s s1 si hinv hget hit htext).2.2
  unfold iteration at hit
  cases hent : enterItem e s si with
  | none => rw [hent] at hit; simp at hit
  | some s0 =>
    rw [hent] at hit
    simp only [Option.some.injEq] at hit
    obtain ⟨hc, hlt, hend, hni, hitem, hcur, htw, hws, htmp, -⟩ :=
      enterItem_spec e hwf s s0 si hinv hget hent
    have hle := Engine.WellFormed.le_size e hwf (s.newItem + 1)
    rw [hni] at hit
    obtain ⟨q1, q2, q3, q4, q5, -, -, -, q9, q10⟩ :=
      nextItemAtEnd_fields (branch e attributes s0 si) s.newItem
    have hwle := hc.wordStart_le
    have hz : s0.wordStart = s0.lbh.currentPosition → s0.lbh.tmpData.textWidth = 0 := by
      intro h
      rw [htmp]
      apply hk.empty
      rw [← hws, ← hcur]
      exact h
    have hfz : (s0.flushPending e).lbh.tmpData.textWidth = 0 := by
      unfold ParseState.flushPending
      split
      · simp [ScriptLine.zero]
      · exact hz (by omega)
    obtain ⟨hfc, hfw⟩ := flushPending_core e hsz s0 hc
    obtain ⟨new, hnew2, hcontent⟩ := flushPending_grows e s0
    subst hit
    refine ⟨?_, ?_, ?_, hnew⟩
    · -- the invariant on the pending word
      cases hfl : si.flags with
      | LineOrParagraphSeparator =>
        rw [branch_separator e attributes s0 si hfl] at q1 q2 q3 q4 q5 q9 q10 ⊢
        have hne : (separatorBranch e s0).lbh.currentPosition ≠ (separatorBranch e s0).end_ := by
          rw [separatorBranch_lbh_currentPosition, separatorBranch_end_]
          omega
        have hn1 := q10 hne
        rw [separatorBranch_newItem, hni] at hn1
        have hcur1 : ((separatorBranch e s0).nextItemAtEnd s.newItem).cursor = s0.end_ := by
          unfold ParseState.cursor
          rw [hn1, q3, q4, separatorBranch_item, separatorBranch_end_, hitem, if_neg (by push_cast; omega)]
        have hws1 : ((separatorBranch e s0).nextItemAtEnd s.newItem).wordStart = s0.end_ := by
          rw [q5]; simp
        refine ⟨?_, ?_, ?_⟩
        · intro h
          rw [hn1, q3, separatorBranch_item, hitem] at h
          push_cast at h
          omega
        · intro _
          rw [q2]
          simp [ScriptLine.zero]
        · intro h
          rw [hcur1, hws1] at h
          omega
      | Object =>
        rw [branch_object e attributes s0 si hfl] at q1 q2 q3 q4 q5 q9 q10 ⊢
        have hne : (objectBranch e s0 si).lbh.currentPosition
            ≠ (objectBranch e s0 si).end_ := by
          rw [objectBranch_lbh_currentPosition, objectBranch_end_]
          omega
        have hn1 := q10 hne
        rw [objectBranch_newItem, hni] at hn1
        have hcur1 : ((objectBranch e s0 si).nextItemAtEnd s.newItem).cursor = s0.end_ := by
          unfold ParseState.cursor
          rw [hn1, q3, q4, objectBranch_item, objectBranch_end_, hitem, if_neg (by push_cast; omega)]
        have hws1 : ((objectBranch e s0 si).nextItemAtEnd s.newItem).wordStart = s0.end_ := by
          rw [q5]; simp
        refine ⟨?_, ?_, ?_⟩
        · intro h
          rw [hn1, q3, objectBranch_item, hitem] at h
          push_cast at h
          omega
        · intro _
          rw [q2]
          simp [ScriptLine.zero]
        · intro h
          rw [hcur1, hws1] at h
          omega
      | Text =>
        obtain ⟨f1, f2, f3⟩ := branch_text_fields e attributes s0 si hfl
        have hcur1 : ((branch e attributes s0 si).nextItemAtEnd s.newItem).cursor
            = (branch e attributes s0 si).lbh.currentPosition := by
          unfold ParseState.cursor
          rw [q3, q4, q2, f1, hitem]
          by_cases hce : (branch e attributes s0 si).lbh.currentPosition
              = (branch e attributes s0 si).end_
          · rw [q9 hce, if_neg (by push_cast; omega), hce]
          · rw [q10 hce, f2, hni, if_pos rfl]
        have hin : (((branch e attributes s0 si).nextItemAtEnd s.newItem).newItem : Int)
              = ((branch e attributes s0 si).nextItemAtEnd s.newItem).item →
            ∃ sj, e.items.get? ((branch e attributes s0 si).nextItemAtEnd s.newItem).newItem
              = some sj ∧ sj.flags = Flags.Text := by
          intro h
          rw [q3, f1, hitem] at h
          have h2 : ((branch e attributes s0 si).nextItemAtEnd s.newItem).newItem
              = s.newItem := by omega
          rw [h2]
          exact ⟨si, hget, hfl⟩
        have hpend : ((branch e attributes s0 si).nextItemAtEnd s.newItem).newItem
              = s.newItem + 1 →
            ∃ k sj, ((branch e attributes s0 si).nextItemAtEnd s.newItem).newItem = k + 1
              ∧ e.items.get? k = some sj ∧ sj.flags = Flags.Text :=
          fun h => ⟨s.newItem, si, h, hget, hfl⟩
        by_cases hsp : atSpaceBreak e attributes s0 = true
        · rw [branch_space e attributes s0 si hfl hsp] at q1 q2 q3 q4 q5 q9 q10 hcur1 hin hpend ⊢
          obtain ⟨-, -, -, g4, g5, g6, -⟩ := spaceBranch_fields e attributes s0 si
          have htz : s0.lbh.tmpData.textWidth = 0 := by
            rcases Nat.lt_or_ge s0.wordStart s0.lbh.currentPosition with hlt2 | hge
            · exfalso
              rw [hws, hcur] at hlt2
              obtain ⟨hns, k, sj, hk1, hk2, hk3⟩ := hk.pending hlt2
              have hfresh : (s.newItem : Int) ≠ s.item := by
                intro h
                have := (hk.inside h).1
                omega
              have hpos := enterItem_fresh e s s0 si hfresh hent
              apply hno k (by omega)
              unfold CarriesAt
              rw [hk2, ← hk1, hget]
              refine ⟨hk3, hfl, ?_, ?_⟩
              · unfold atSpaceBreak at hsp
                rw [hend, hpos, hk1] at hsp
                exact hsp
              · rw [← hpos, hcur]
                exact hns
            · exact hz (by omega)
          refine ⟨fun h => ⟨by rw [hcur1, q5, g5, g4], hin h⟩,
            fun _ => by rw [q2, g6]; exact htz, ?_⟩
          intro h
          rw [hcur1, q5, g5, g4] at h
          omega
        · rw [branch_ordinary e attributes s0 si hfl hsp] at q1 q2 q3 q4 q5 q9 q10 hcur1 hin hpend f1 f2 f3 ⊢
          rcases ordinaryBranch_carry e attributes s0 si hlt hwle with ⟨c1, c2⟩ | ⟨c1, c2, c3⟩
          · refine ⟨fun h => ⟨by rw [hcur1, q5]; exact c1, hin h⟩,
              fun _ => by rw [q2]; exact c2, ?_⟩
            intro h
            rw [hcur1, q5] at h
            omega
          · have hn2 := q9 (by rw [c2, f3])
            refine ⟨?_, ?_, ?_⟩
            · intro h
              rw [hn2, q3, f1, hitem] at h
              push_cast at h
              omega
            · intro h
              rw [hcur1, q5] at h
              omega
            · intro _
              rw [hcur1, c2]
              exact ⟨c3, hpend hn2⟩
    · -- the records are kept
      rw [q1]
      cases hfl : si.flags with
      | LineOrParagraphSeparator =>
        rw [branch_separator e attributes s0 si hfl, separatorBranch_tWords, hnew2, htw]
        unfold pushNewline
        rw [List.append_assoc]
        exact kept_append _ _
      | Object =>
        obtain ⟨r, hr⟩ := objectBranch_tWords e s0 si
        rw [branch_object e attributes s0 si hfl, hr, hnew2, htw]
        unfold pushFinishedWord
        rw [List.append_assoc]
        exact kept_append _ _
      | Text =>
        by_cases hsp : atSpaceBreak e attributes s0 = true
        · rw [branch_space e attributes s0 si hfl hsp]
          obtain ⟨-, -, -, -, -, -, -, -, -, -, -, h12⟩ := spaceBranch_fields e attributes s0 si
          rw [h12]
          rcases pushIfEmpty_tWords e
            (ParseState.mk s0.tWords (spaceScan e attributes s0 si) s0.item s0.newItem
              s0.end_ s0.wordStart s0.addingEachGrapheme s0.lastGraphemeBoundaryPosition
              s0.lastGraphemeBoundaryLine) with ⟨hnil, r, hr⟩ | ⟨hnn, hr⟩
          · have hnil2 : s.tWords = [] := by rw [← htw]; exact hnil
            rw [hnil2]
            intro w hw
            simp at hw
          · rw [hr]
            show Kept s.tWords (backAddRpadding s0.tWords _)
            rw [htw]
            exact kept_padLast _ _
        · rw [branch_ordinary e attributes s0 si hfl hsp]
          obtain ⟨new3, hnew3, -, -⟩ := ordinaryBranch_grows e attributes s0 si hlt
          rw [hnew3, htw]
          exact kept_append _ _
    · -- the record of an object item
      intro hfl
      have hfresh : (s.newItem : Int) ≠ s.item := by
        intro h
        have := htext h
        rw [hfl] at this
        simp at this
      have hpos := enterItem_fresh e s s0 si hfresh hent
      obtain ⟨r, hr⟩ := objectBranch_tWords e s0 si
      rw [q1, branch_object e attributes s0 si hfl, hr, hfw, hfz, hpos]
      unfold pushFinishedWord
      refine ⟨Word.content (toUint16 si.position) false (0 + si.width) r,
        List.mem_append_right _ (List.mem_singleton.2 rfl), ?_, rfl, rfl, ?_, rfl⟩
      · show toUint16 si.position = si.position
        exact toUint16_of_lt (by omega)
      · show 0 + si.width = si.width
        omega

/-- Shape of the result on a text item followed by an object item: the word
of the text item, then the record of the object. -/
theorem parse_token_object (e : Engine) (tWords : List Word)
    (attributes : Nat → QCharAttributes) (i0 i1 : QScriptItem) (m : Nat)
    (hitems : e.items = [i0, i1]) (hattr : e.attributes = some attributes)
    (hp0 : i0.position = 0) (hp1 : i1.position = m)
    (hm : 0 < m) (hsize : m < e.size)
    (hf0 : i0.flags = Flags.Text) (hf1 : i1.flags = Flags.Object)
    (hs0 : i0.num_glyphs = 0 → i0.attributesAfterShape = true)
    (hs1 : i1.num_glyphs = 0 → i1.attributesAfterShape = true)
    (hok0 : ClusterMapOk e.logClusters i0.glyphs i0.currentNumGlyphs 0 m)
    (hnsb0 : ∀ q, q < m → isSpaceBreak e attributes q = false)
    (hrun0 : PlainRun e attributes i0.glyphs 0 0 m)
    (hunder0 : (attributes m).graphemeBoundary = true → stopsAt e attributes m
      ∨ glyphsWidth i0.glyphs (e.logClusters 0) i0.currentNumGlyphs ≤ e.minResizeWidth) :
    ∃ r0 r1, parse e tWords = some
      { words :=
          [Word.content (toUint16 0) false
              (glyphsWidth i0.glyphs (e.logClusters 0) i0.currentNumGlyphs) r0,
            Word.content (toUint16 m) false (0 + i1.width) r1],
        exit := Exit.completed } := by
  have hst1 : e.startOf 1 = m := by simp [Engine.startOf, hitems, hp1]
  have hst2 : e.startOf 2 = e.size := by simp [Engine.startOf, hitems]
  have hg0 : e.items.get? 0 = some i0 := by simp [hitems]
  have hg1 : e.items.get? 1 = some i1 := by simp [hitems]
  have hg2 : e.items.get? 2 = none := by simp [hitems]
  have hfuel : 2 ≤ iterationBound e.size e.items := by
    have := length_le_iterationBound e.size e.items
    rw [hitems] at this ⊢
    simpa using this
  obtain ⟨more, hmore⟩ := Nat.exists_eq_add_of_le hfuel
  rw [parse_eq_parseLoop e tWords attributes hattr (by omega), hmore]
  obtain ⟨hb, hp⟩ := before_init []
  obtain ⟨s1, hit1, hb1, hstop1, hpend1, -⟩ := iteration_text_item e attributes _ 0 i0 [] 0 0
    hb hp hs0 hf0 (by rw [hp0, hst1]; exact hok0) (by rw [hp0, hst1]; exact hm)
    (by rw [hst1]; intro q _ h; exact hnsb0 q h) (by rw [hp0, hst1]; exact hrun0)
    (by rw [hst1, hp0, zero_add]; exact hunder0)
  rw [hst1, hp0, zero_add] at hstop1 hpend1
  have hobj : ∃ s2 r0 r1, iteration e attributes s1 i1 = some s2 ∧ Before s2 2
      ∧ Pending s2 [Word.content (toUint16 0) false
          (glyphsWidth i0.glyphs (e.logClusters 0) i0.currentNumGlyphs) r0,
        Word.content (toUint16 m) false (0 + i1.width) r1] e.size 0 := by
    by_cases hst : stopsAt e attributes m
    · obtain ⟨r0, hp1'⟩ := hstop1 hst
      obtain ⟨s2, r, r1, hit2, hb2, hp2', -⟩ := iteration_object e attributes s1 1 i1 _ m 0
        hb1 hp1' hs1 hf1 (by omega) (by rw [hp1, hst2]; omega)
      rw [hp1, if_neg (by omega), if_neg (by omega), hst2] at hp2'
      exact ⟨s2, r0, r1, hit2, hb2, hp2'⟩
    · have hp1' := hpend1 hst
      obtain ⟨s2, r, r1, hit2, hb2, hp2', -⟩ := iteration_object e attributes s1 1 i1 _ 0 _
        hb1 hp1' hs1 hf1 (by omega) (by rw [hp1, hst2]; omega)
      rw [hp1, if_pos hm, if_pos hm, hst2] at hp2'
      exact ⟨s2, r, r1, hit2, hb2, hp2'⟩
  obtain ⟨s2, r0, r1, hit2, hb2, hp2'⟩ := hobj
  refine ⟨r0, r1, ?_⟩
  have h2 : parseLoop e attributes 0 s2
      = some { words := s2.tWords, exit := Exit.completed } :=
    parseLoop_done e attributes 0 s2 (by rw [hb2.newItem]; exact hg2)
  have h1 := parseLoop_step e attributes 0 s1 s2 i1 (by rw [hb1.newItem]; exact hg1) hit2
  have h0 := parseLoop_step e attributes 1 _ s1 i0 hg0 hit1
  have hall : parseLoop e attributes 2 { ParseState.init with tWords := [] }
      = some { words := s2.tWords, exit := Exit.completed } := by
    rw [h0, h1, h2]
  rw [parseLoop_mono e attributes 2 _ _ hall more, hp2'.tWords]

/-- Result of the parse on `m` letters followed by an object. -/
theorem textThenObject_parse (m : Nat) (adv width thr : Int) (tWords : List Word)
    (hm : 0 < m) (hadv : 0 ≤ adv) (hmthr : (m : Int) * adv ≤ thr) :
    ∃ r0 r1, parse (textThenObject m adv width thr) tWords = some
      { words := [Word.content (toUint16 0) false ((m : Int) * adv) r0,
          Word.content (toUint16 m) false (0 + width) r1],
        exit := Exit.completed } := by
  have hlc : ∀ q, q < m → (textThenObject m adv width thr).logClusters q = q := by
    intro q hq
    simp [textThenObject, hq]
  have hw : glyphsWidth (plainItem 0 Flags.Text m adv 0).glyphs
      ((textThenObject m adv width thr).logClusters 0)
      (plainItem 0 Flags.Text m adv 0).currentNumGlyphs = (m : Int) * adv := by
    rw [hlc 0 hm]
    show glyphsWidth (uniformGlyphs m adv) 0 m = _
    rw [glyphsWidth_uniform m adv 0 m (by omega)]
    simp
  obtain ⟨r0, r1, h⟩ := parse_token_object (textThenObject m adv width thr) tWords
    plainAttributes (plainItem 0 Flags.Text m adv 0) (plainItem m Flags.Object 1 adv width) m
    rfl rfl rfl rfl hm (by show m < m + 1; omega) rfl rfl (fun _ => rfl) (fun _ => rfl)
    (by
      have := clusterMapOk_uniform (textThenObject m adv width thr).logClusters adv 0 m
        (fun q _ hq => by rw [hlc q hq]; omega)
      simpa using this)
    (fun q _ => by simp [isSpaceBreak, plainAttributes])
    (by
      refine ⟨fun q h1 h2 => ⟨by show q < m + 1; omega,
        by simp [isSpaceBreak, plainAttributes], by simp [isLineBreak, plainAttributes]⟩, ?_⟩
      intro q h1 h2 _
      rw [hlc 0 hm, hlc q h2]
      show (0 : Int) + glyphsWidth (uniformGlyphs m adv) 0 q ≤ thr
      rw [glyphsWidth_uniform m adv 0 q (by omega), zero_add]
      have : ((q - 0 : Nat) : Int) * adv ≤ (m : Int) * adv :=
        mul_le_mul_of_nonneg_right (by exact_mod_cast (by omega : q - 0 ≤ m)) hadv
      omega)
    (fun _ => Or.inr (by rw [hw]; exact hmthr))
  rw [hw] at h
  exact ⟨r0, r1, h⟩

/-- The records found for the object items of a completed parse without
carried words: one record per object item, at the item's offset, finished,
not a newline, of the declared width. -/
theorem parse_objects (e : Engine) (tWords : List Word)
    (attributes : Nat → QCharAttributes) (hwf : e.WellFormed)
    (hshape : e.ShapingSucceeds) (hsz : e.size ≤ 65536)
    (hattr : e.attributes = some attributes) (hno : NoCarry e attributes) :
    ∃ ws, parse e tWords = some { words := ws, exit := Exit.completed }
      ∧ (ws.map Word.position).Pairwise (· < ·)
      ∧ ∀ si ∈ e.items, si.flags = Flags.Object →
          ∃ w ∈ ws, w.position = si.position ∧ w.unfinished = false ∧ w.newline = false
            ∧ w.width = si.width := by
  by_cases hne : e.size = 0
  · refine ⟨[], parse_empty e tWords hne, by simp, ?_⟩
    have hitems : e.items = [] := by
      cases hi : e.items with
      | nil => rfl
      | cons si rest =>
        exfalso
        have h1 := hwf.2 0 (by rw [hi]; simp)
        have h2 := Engine.WellFormed.le_size e hwf (0 + 1)
        omega
    rw [hitems]
    intro si hsi
    simp at hsi
  · obtain ⟨s1, hparse, hinv, ⟨-, hj2⟩, hlen⟩ := parse_invariant e tWords hwf hshape hsz
      hne attributes hattr
      (fun s => CarryInv e attributes s
        ∧ ∀ si ∈ e.items.take s.newItem, si.flags = Flags.Object →
            ∃ w ∈ s.tWords, w.position = si.position ∧ w.unfinished = false
              ∧ w.newline = false ∧ w.width = si.width)
      ⟨carryInv_init e attributes, fun si hsi => by simp [ParseState.init] at hsi⟩
      (by
        intro s s1 si hinv ⟨hj1, hj2⟩ hget hit
        obtain ⟨h1, h2, h3, h4⟩ := iteration_carry e hwf hsz attributes hno s s1 si hinv hj1
          hget hit
        refine ⟨h1, ?_⟩
        have hold : ∀ sj ∈ e.items.take s.newItem, sj.flags = Flags.Object →
            ∃ w ∈ s1.tWords, w.position = sj.position ∧ w.unfinished = false
              ∧ w.newline = false ∧ w.width = sj.width := by
          intro sj hsj hfl
          obtain ⟨w, hw, p1, p2, p3, p4⟩ := hj2 sj hsj hfl
          obtain ⟨w1, hw1, q1, q2, q3, q4⟩ := h2 w hw
          exact ⟨w1, hw1, by rw [q1, p1], by rw [q2, p2], by rw [q3, p3], by rw [q4, p4]⟩
        rcases h4 with h4 | h4
        · rw [h4]; exact hold
        · rw [h4, take_succ_of_get e.items s.newItem si hget]
          intro sj hsj hfl
          rcases List.mem_append.1 hsj with h | h
          · exact hold sj h hfl
          · rw [List.mem_singleton] at h
            rw [h] at hfl ⊢
            obtain ⟨w, hw, p1, p2, p3, p4, -⟩ := h3 hfl
            exact ⟨w, hw, p1, p2, p3, p4⟩)
    refine ⟨s1.tWords, hparse, hinv.words.sorted, ?_⟩
    rw [hlen, List.take_length] at hj2
    exact hj2

/-- C7, as amended: for every successfully parsed input of at most 65536
characters in which no pending word meets a space-break run at the start
of a text item (`NoCarry`), and every object item at offset `p` with
declared width `W`, the produced sequence contains exactly one record with
start position `p`; that record is finished, is not a newline record, and
its width is exactly `W`. -/
theorem C7_object_atomicity (e : Engine) (tWords : List Word)
    (attributes : Nat → QCharAttributes) (hwf : e.WellFormed)
    (hshape : e.ShapingSucceeds) (hsz : e.size ≤ 65536)
    (hattr : e.attributes = some attributes) (hno : NoCarry e attributes) :
    ∃ ws, parse e tWords = some { words := ws, exit := Exit.completed }
      ∧ ∀ si ∈ e.items, si.flags = Flags.Object →
          ∃ w ∈ ws, w.position = si.position ∧ w.unfinished = false ∧ w.newline = false
            ∧ w.width = si.width ∧ ∀ x ∈ ws, x.position = si.position → x = w := by
  obtain ⟨ws, hparse, hsorted, hobj⟩ := parse_objects e tWords attributes hwf hshape hsz
    hattr hno
  refine ⟨ws, hparse, ?_⟩
  intro si hsi hfl
  obtain ⟨w, hw, p1, p2, p3, p4⟩ := hobj si hsi hfl
  exact ⟨w, hw, p1, p2, p3, p4,
    fun x hx hp => eq_of_position_eq ws hsorted x w hx hw (by rw [hp, p1])⟩

/-- Witness of `C7_object_atomicity`: the buffer `"a"` followed by an object
of declared width 1000. -/
theorem C7_object_atomicity_witness :
    NoCarry exampleTextObject plainAttributes
      ∧ ∃ ws, parse exampleTextObject [] = some { words := ws, exit := Exit.completed }
        ∧ ∀ si ∈ exampleTextObject.items, si.flags = Flags.Object →
            ∃ w ∈ ws, w.position = si.position ∧ w.unfinished = false
              ∧ w.newline = false ∧ w.width = si.width
              ∧ ∀ x ∈ ws, x.position = si.position → x = w :=
  ⟨by decide,
    C7_object_atomicity exampleTextObject [] plainAttributes (by decide) (by decide)
      (by decide) rfl (by decide)⟩

/-- Counterexample to C7 as stated.  In the buffer of 65536 letters followed
by an object, the object item is at offset 65536 and no record of the
produced sequence starts there (the two records both start at 0).  In the
buffer `"a<NBSP> <object>"` itemized as `"a"`, `"<NBSP> "`, object, the
record at the object's offset 3 has width 1512, not the declared 1000. -/
theorem C7_counterexample :
    (∃ ws, parse longThenObject [] = some { words := ws, exit := Exit.completed }
      ∧ (∃ si ∈ longThenObject.items, si.flags = Flags.Object ∧ si.position = 65536
          ∧ si.width = 10)
      ∧ ∀ w ∈ ws, w.position = 0)
    ∧ (parse exampleCarry [] = some
        { words := [Word.add_rpadding (Word.content 0 false 512 0) 1024,
            Word.content 3 false 1512 0],
          exit := Exit.completed }
      ∧ ∃ si ∈ exampleCarry.items, si.flags = Flags.Object ∧ si.position = 3
          ∧ si.width = 1000) := by
  refine ⟨?_, by decide, by decide⟩
  obtain ⟨r0, r1, h⟩ := textThenObject_parse 65536 1 10 65536 [] (by decide) (by decide)
    (by decide)
  refine ⟨_, h, ⟨plainItem 65536 Flags.Object 1 1 10, by simp [longThenObject, textThenObject],
    rfl, rfl, rfl⟩, ?_⟩
  intro w hw
  simp only [List.mem_cons, List.mem_singleton, List.not_mem_nil, or_false] at hw
  rcases hw with h | h <;> rw [h] <;> rfl

/-- On an input without carried words the space-break branch is entered
with no word pending. -/
theorem space_entry (e : Engine) (hwf : e.WellFormed)
    (attributes : Nat → QCharAttributes) (hno : NoCarry e attributes)
    (s s0 : ParseState) (si : QScriptItem)
    (hinv : PosInv e s) (hk : CarryInv e attributes s)
    (hget : e.items.get? s.newItem = some si) (hent : enterItem e s si = some s0)
    (hfl : si.flags = Flags.Text) (hsp : atSpaceBreak e attributes s0 = true) :
    s.wordStart = s.cursor := by
  have hlen : s.newItem < e.items.length := by
    by_contra hc
    have : e.items.get? s.newItem = none := List.get?_eq_none.2 (by omega)
    rw [this] at hget; simp at hget
  obtain ⟨hc, hlt, hend, hni, hitem, hcur, htw, hws, htmp, -⟩ :=
    enterItem_spec e hwf s s0 si hinv hget hent
  rcases Nat.lt_or_ge s.wordStart s.cursor with hlt2 | hge
  · exfalso
    obtain ⟨hns, k, sj, hk1, hk2, hk3⟩ := hk.pending hlt2
    have hfresh : (s.newItem : Int) ≠ s.item := by
      intro h
      have := (hk.inside h).1
      omega
    have hpos := enterItem_fresh e s s0 si hfresh hent
    apply hno k (by omega)
    unfold CarriesAt
    rw [hk2, ← hk1, hget]
    refine ⟨hk3, hfl, ?_, ?_⟩
    · unfold atSpaceBreak at hsp
      rw [hend, hpos, hk1] at hsp
      exact hsp
    · rw [← hpos, hcur]
      exact hns
  · have := hinv.wordStart_le
    omega

/-- The four ways in which one iteration of the main loop changes the word
sequence, on an input without carried words: a separator item appends its
newline record after the flushed word, an object item its record of the
declared width, a space-break run pads the last record (after pushing an
empty word into an empty sequence), ordinary content appends content
words. -/
theorem iteration_shape (e : Engine) (hwf : e.WellFormed) (hsz : e.size ≤ 65536)
    (attributes : Nat → QCharAttributes) (hno : NoCarry e attributes)
    (s s1 : ParseState) (si : QScriptItem)
    (hinv : PosInv e s) (hk : CarryInv e attributes s)
    (hget : e.items.get? s.newItem = some si)
    (hit : iteration e attributes s si = some s1) :
    (si.flags = Flags.LineOrParagraphSeparator
        ∧ (∃ new, s1.tWords = s.tWords ++ new
              ++ [Word.newlineAt si.position (e.blockIndex si.position)]
            ∧ ∀ w ∈ new, IsContent w)
        ∧ s1.newItem = s.newItem + 1 ∧ (s1.newItem : Int) ≠ s1.item)
      ∨ (si.flags = Flags.Object
        ∧ (∃ new r, s1.tWords = s.tWords ++ new
              ++ [Word.content si.position false si.width r]
            ∧ ∀ w ∈ new, IsContent w)
        ∧ s1.newItem = s.newItem + 1 ∧ (s1.newItem : Int) ≠ s1.item)
      ∨ (si.flags = Flags.Text ∧ s.wordStart = s.cursor
        ∧ ((s.newItem : Int) ≠ s.item →
            atSpaceBreakFrom e attributes (e.startOf (s.newItem + 1))
              (e.startOf (s.newItem + 1) - si.position) si.position = true)
        ∧ ∃ pad, (s.tWords = [] ∧ ∃ r, s1.tWords
              = backAddRpadding [Word.content (toUint16 s.wordStart) false
                  s.lbh.tmpData.textWidth r] pad)
            ∨ (s.tWords ≠ [] ∧ s1.tWords = backAddRpadding s.tWords pad))
      ∨ (si.flags = Flags.Text
        ∧ ∃ new, s1.tWords = s.tWords ++ new ∧ (∀ w ∈ new, IsContent w)
            ∧ (new = [] → s1.wordStart < s1.cursor)) := by
  have hlen : s.newItem < e.items.length := by
    by_contra hc
    have : e.items.get? s.newItem = none := List.get?_eq_none.2 (by omega)
    rw [this] at hget; simp at hget
  have htext : (s.newItem : Int) = s.item → si.flags = Flags.Text := by
    intro h
    obtain ⟨-, sj, hsj, hfl⟩ := hk.inside h
    rw [hget] at hsj
    simp only [Option.some.injEq] at hsj
    rw [hsj]; exact hfl
  unfold iteration at hit
  cases hent : enterItem e s si with
  | none => rw [hent] at hit; simp at hit
  | some s0 =>
    rw [hent] at hit
    simp only [Option.some.injEq] at hit
    obtain ⟨hc, hlt, hend, hni, hitem, hcur, htw, hws, htmp, -⟩ :=
      enterItem_spec e hwf s s0 si hinv hget hent
    have hle := Engine.WellFormed.le_size e hwf (s.newItem + 1)
    rw [hni] at hit
    obtain ⟨q1, q2, q3, q4, q5, -, -, -, q9, q10⟩ :=
      nextItemAtEnd_fields (branch e attributes s0 si) s.newItem
    have hwle := hc.wordStart_le
    have hz : s0.wordStart = s0.lbh.currentPosition → s0.lbh.tmpData.textWidth = 0 := by
      intro h
      rw [htmp]
      apply hk.empty
      rw [← hws, ← hcur]
      exact h
    have hfz : (s0.flushPending e).lbh.tmpData.textWidth = 0 := by
      unfold ParseState.flushPending
      split
      · simp [ScriptLine.zero]
      · exact hz (by omega)
    obtain ⟨hfc, hfw⟩ := flushPending_core e hsz s0 hc
    obtain ⟨new, hnew2, hcontent⟩ := flushPending_grows e s0
    subst hit
    cases hfl : si.flags with
    | LineOrParagraphSeparator =>
      left
      have hfresh : (s.newItem : Int) ≠ s.item := by
        intro h
        have := htext h
        rw [hfl] at this
        simp at this
      have hpos := enterItem_fresh e s s0 si hfresh hent
      rw [branch_separator e attributes s0 si hfl] at q1 q2 q3 q4 q5 q9 q10 ⊢
      have hne : (separatorBranch e s0).lbh.currentPosition ≠ (separatorBranch e s0).end_ := by
        rw [separatorBranch_lbh_currentPosition, separatorBranch_end_]
        omega
      have hn1 := q10 hne
      rw [separatorBranch_newItem, hni] at hn1
      refine ⟨rfl, ⟨new, ?_, hcontent⟩, hn1, ?_⟩
      · rw [q1, separatorBranch_tWords, hnew2, htw, hfw, hpos]
        unfold pushNewline
        rw [toUint16_of_lt (by omega)]
      · rw [hn1, q3, separatorBranch_item, hitem]
        push_cast
        omega
    | Object =>
      right; left
      have hfresh : (s.newItem : Int) ≠ s.item := by
        intro h
        have := htext h
        rw [hfl] at this
        simp at this
      have hpos := enterItem_fresh e s s0 si hfresh hent
      obtain ⟨r, hr⟩ := objectBranch_tWords e s0 si
      rw [branch_object e attributes s0 si hfl] at q1 q2 q3 q4 q5 q9 q10 ⊢
      have hne : (objectBranch e s0 si).lbh.currentPosition
          ≠ (objectBranch e s0 si).end_ := by
        rw [objectBranch_lbh_currentPosition, objectBranch_end_]
        omega
      have hn1 := q10 hne
      rw [objectBranch_newItem, hni] at hn1
      refine ⟨rfl, ⟨new, r, ?_, hcontent⟩, hn1, ?_⟩
      · rw [q1, hr, hnew2, htw, hfw, hfz, hpos]
        unfold pushFinishedWord
        rw [toUint16_of_lt (by omega), zero_add]
      · rw [hn1, q3, objectBranch_item, hitem]
        push_cast
        omega
    | Text =>
      right; right
      obtain ⟨f1, f2, f3⟩ := branch_text_fields e attributes s0 si hfl
      by_cases hsp : atSpaceBreak e attributes s0 = true
      · left
        have hentry := space_entry e hwf attributes hno s s0 si hinv hk hget hent hfl hsp
        refine ⟨rfl, hentry, ?_, ?_⟩
        · intro hfresh
          have hpos := enterItem_fresh e s s0 si hfresh hent
          unfold atSpaceBreak at hsp
          rw [hend, hpos] at hsp
          exact hsp
        · rw [q1, branch_space e attributes s0 si hfl hsp]
          obtain ⟨-, -, -, -, -, -, -, -, -, -, -, h12⟩ := spaceBranch_fields e attributes s0 si
          rw [h12]
          refine ⟨(spaceScan e attributes s0 si).spaceData.textWidth, ?_⟩
          rcases pushIfEmpty_tWords e
            (ParseState.mk s0.tWords (spaceScan e attributes s0 si) s0.item s0.newItem
              s0.end_ s0.wordStart s0.addingEachGrapheme s0.lastGraphemeBoundaryPosition
              s0.lastGraphemeBoundaryLine) with ⟨hnil, r, hr⟩ | ⟨hnn, hr⟩
          · left
            have hnil2 : s.tWords = [] := by rw [← htw]; exact hnil
            refine ⟨hnil2, r, ?_⟩
            rw [hr]
            have htmp2 : (spaceScan e attributes s0 si).tmpData = s0.lbh.tmpData := by
              obtain ⟨-, -, -, -, -, g6, -⟩ := spaceBranch_fields e attributes s0 si
              have hs := spaceLoop_spec e attributes s0.end_ si (s0.end_ - s0.lbh.currentPosition)
                { s0.lbh with whiteSpaceOrObject := true } (Nat.le_of_lt hlt)
              exact hs.2.2.1
            show backAddRpadding (pushFinishedWord [] s0.wordStart
              (spaceScan e attributes s0 si).tmpData.textWidth r) _ = _
            rw [htmp2, htmp, hws]
            rfl
          · right
            refine ⟨by rw [← htw]; exact hnn, ?_⟩
            rw [hr]
            show backAddRpadding s0.tWords _ = _
            rw [htw]
      · right
        rw [branch_ordinary e attributes s0 si hfl hsp] at q1 q2 q3 q4 q5 q9 q10 f1 f2 f3 ⊢
        obtain ⟨new3, hnew3, hcontent3, hnil3⟩ := ordinaryBranch_grows e attributes s0 si hlt
        refine ⟨rfl, new3, by rw [q1, hnew3, htw], hcontent3, ?_⟩
        intro hnil
        obtain ⟨n1, n2, -⟩ := hnil3 hnil
        have hn2 := q9 (by rw [n2, f3])
        have hcur1 : ((ordinaryBranch e attributes s0 si).nextItemAtEnd s.newItem).cursor
            = s0.end_ := by
          unfold ParseState.cursor
          rw [hn2, q3, q4, f1, f3, hitem, if_neg (by push_cast; omega)]
        rw [hcur1, q5, n1]
        omega

theorem IsContent.rpadding {w : Word} (h : IsContent w) : w.rpadding = 0 := by
  obtain ⟨p, u, wd, r, rfl⟩ := h
  rfl

/-- In a sequence with strictly increasing positions a record of a prefix
starts before every record appended after the prefix. -/
theorem position_lt_of_append (ws new : List Word)
    (h : ((ws ++ new).map Word.position).Pairwise (· < ·)) (a b : Word)
    (ha : a ∈ ws) (hb : b ∈ new) : a.position < b.position := by
  rw [List.map_append, List.pairwise_append] at h
  exact h.2.2 a.position (List.mem_map_of_mem _ ha) b.position (List.mem_map_of_mem _ hb)

/-- The call `back().add_rpadding` changes no record that starts before
another one. -/
theorem backAddRpadding_mem (ws : List Word) (x : Int)
    (h : (ws.map Word.position).Pairwise (· < ·)) (w : Word)
    (hw : w ∈ backAddRpadding ws x) (hlt : ∃ y ∈ ws, w.position < y.position) :
    w ∈ ws := by
  induction ws with
  | nil => simp [backAddRpadding] at hw
  | cons a rest ih =>
    cases rest with
    | nil =>
      exfalso
      simp only [backAddRpadding, List.mem_singleton] at hw
      obtain ⟨y, hy, hlt⟩ := hlt
      rw [List.mem_singleton] at hy
      rw [hw, hy] at hlt
      simp [Word.add_rpadding] at hlt
    | cons b rest2 =>
      simp only [backAddRpadding, List.mem_cons] at hw
      rw [List.map_cons, List.pairwise_cons] at h
      rcases hw with hw | hw
      · rw [hw]; exact List.mem_cons_self _ _
      · have hw2 : w ∈ backAddRpadding (b :: rest2) x := by
          cases rest2 with
          | nil => simpa [backAddRpadding] using hw
          | cons c rest3 => simpa [backAddRpadding] using hw
        have hpos : w.position ∈ (b :: rest2).map Word.position := by
          rw [← backAddRpadding_map_position (b :: rest2) x]
          exact List.mem_map_of_mem _ hw2
        have hgt := h.1 w.position hpos
        obtain ⟨y, hy, hlt⟩ := hlt
        rcases List.mem_cons.1 hy with hy | hy
        · rw [hy] at hlt
          omega
        · exact List.mem_cons_of_mem _ (ih h.2 hw2 ⟨y, hy, hlt⟩)

/-- One iteration of the main loop on an input without carried words keeps
`Unpadded`. -/
theorem iteration_unpadded (e : Engine) (hwf : e.WellFormed) (hsz : e.size ≤ 65536)
    (attributes : Nat → QCharAttributes) (hno : NoCarry e attributes)
    (s s1 : ParseState) (si : QScriptItem)
    (hinv : PosInv e s) (hk : CarryInv e attributes s) (hun : Unpadded e attributes s)
    (hget : e.items.get? s.newItem = some si)
    (hit : iteration e attributes s si = some s1) :
    Unpadded e attributes s1 := by
  have hsorted := (iteration_posInv e hwf hsz attributes s s1 si hinv hget hit).1.words.sorted
  have h4 := (iteration_carry e hwf hsz attributes hno s s1 si hinv hk hget hit).2.2.2
  have hshape := iteration_shape e hwf hsz attributes hno s s1 si hinv hk hget hit
  intro j sj hgj hfj hj hns
  by_cases hold : j < s.newItem
  · obtain ⟨⟨wj, hwj, hpj⟩, hpad, hmax⟩ := hun j sj hgj hfj hold hns
    rcases hshape with ⟨hfl, ⟨new, htw, hcont⟩, hn, hne⟩ | ⟨hfl, ⟨new, r, htw, hcont⟩, hn, hne⟩
      | ⟨hfl, hstart, hsp, pad, hcase⟩ | ⟨hfl, new, htw, hcont, hnil⟩
    · rw [htw] at hsorted ⊢
      refine ⟨⟨wj, by simp [hwj], hpj⟩, ?_, ?_⟩
      · intro w hw hp
        rcases List.mem_append.1 hw with hw | hw
        · rcases List.mem_append.1 hw with hw | hw
          · exact hpad w hw hp
          · exact (hcont w hw).rpadding
        · rw [List.mem_singleton] at hw
          rw [hw]; rfl
      · intro hall
        exfalso
        have h1 := position_lt_of_append _ _ hsorted wj _ (List.mem_append_left _ hwj)
          (List.mem_singleton.2 rfl)
        have h2 := hall _ (List.mem_append_right _ (List.mem_singleton.2 rfl))
        omega
    · rw [htw] at hsorted ⊢
      refine ⟨⟨wj, by simp [hwj], hpj⟩, ?_, ?_⟩
      · intro w hw hp
        rcases List.mem_append.1 hw with hw | hw
        · rcases List.mem_append.1 hw with hw | hw
          · exact hpad w hw hp
          · exact (hcont w hw).rpadding
        · rw [List.mem_singleton] at hw
          rw [hw]; rfl
      · intro hall
        exfalso
        have h1 := position_lt_of_append _ _ hsorted wj _ (List.mem_append_left _ hwj)
          (List.mem_singleton.2 rfl)
        have h2 := hall _ (List.mem_append_right _ (List.mem_singleton.2 rfl))
        omega
    · have hne : s.tWords ≠ [] := List.ne_nil_of_mem hwj
      rcases hcase with ⟨hnil, -⟩ | ⟨-, htw⟩
      · exact absurd hnil hne
      · have hnm : ∃ y ∈ s.tWords, sj.position < y.position := by
          by_contra hc
          push_neg at hc
          rcases hmax hc with ⟨hj1, hfresh⟩ | hpend
          · apply hns
            unfold SpaceRunAfter
            rw [← hj1, hget]
            refine ⟨hfl, ?_⟩
            have := hsp hfresh
            rw [hj1] at this
            exact this
          · omega
        obtain ⟨y, hy, hylt⟩ := hnm
        rw [htw]
        refine ⟨?_, ?_, ?_⟩
        · obtain ⟨w1, hw1, q1, -⟩ := kept_padLast s.tWords pad wj hwj
          exact ⟨w1, hw1, by rw [q1, hpj]⟩
        · intro w hw hp
          exact hpad w (backAddRpadding_mem s.tWords pad hinv.words.sorted w hw
            ⟨y, hy, by rw [hp]; exact hylt⟩) hp
        · intro hall
          exfalso
          obtain ⟨y1, hy1, q1, -⟩ := kept_padLast s.tWords pad y hy
          have := hall y1 hy1
          omega
    · rw [htw] at hsorted ⊢
      refine ⟨⟨wj, List.mem_append_left _ hwj, hpj⟩, ?_, ?_⟩
      · intro w hw hp
        rcases List.mem_append.1 hw with hw | hw
        · exact hpad w hw hp
        · exact (hcont w hw).rpadding
      · intro hall
        cases hnew : new with
        | nil => right; exact hnil hnew
        | cons b rest =>
          exfalso
          have hb : b ∈ new := by rw [hnew]; exact List.mem_cons_self _ _
          have h1 := position_lt_of_append _ _ hsorted wj b hwj hb
          have h2 := hall b (List.mem_append_right _ hb)
          omega
  · have hjeq : j = s.newItem := by
      rcases h4 with h | h <;> omega
    rw [hjeq, hget] at hgj
    simp only [Option.some.injEq] at hgj
    rw [← hgj] at hfj ⊢
    rcases hshape with ⟨hfl, -⟩ | ⟨hfl, ⟨new, r, htw, hcont⟩, hn, hne⟩ | ⟨hfl, -⟩ | ⟨hfl, -⟩
    · rw [hfl] at hfj; simp at hfj
    · have hrec : Word.content si.position false si.width r ∈ s1.tWords := by
        rw [htw]
        exact List.mem_append_right _ (List.mem_singleton.2 rfl)
      refine ⟨⟨_, hrec, rfl⟩, ?_, fun _ => Or.inl ⟨by rw [hn, hjeq], hne⟩⟩
      intro w hw hp
      rw [eq_of_position_eq s1.tWords hsorted w _ hw hrec hp]
      rfl
    · rw [hfl] at hfj; simp at hfj
    · rw [hfl] at hfj; simp at hfj

theorem atSpaceBreak_true_of_first (e : Engine) (attributes : Nat → QCharAttributes)
    (s : ParseState) (hlt : s.lbh.currentPosition < s.end_)
    (h : isSpaceBreak e attributes s.lbh.currentPosition = true) :
    atSpaceBreak e attributes s = true := by
  unfold atSpaceBreak
  obtain ⟨fuel, hfuel⟩ : ∃ fuel, s.end_ - s.lbh.currentPosition = fuel + 1 :=
    ⟨s.end_ - s.lbh.currentPosition - 1, by omega⟩
  rw [hfuel]
  have hws : (attributes s.lbh.currentPosition).whiteSpace = true := by
    unfold isSpaceBreak at h
    simp only [Bool.and_eq_true] at h
    exact h.1
  unfold atSpaceBreakFrom
  rw [if_pos hlt, if_neg (by rw [hws]; simp), if_pos h]

/-- Shape of the result on one text item `u ++ s ++ v`: `u` over `[0, a)`
and `v` over `[a + b, size)` unbroken runs without white space, `s` over
`[a, a + b)` a run of space breaks, no cluster across the two
boundaries. -/
theorem parse_token_space_token (e : Engine) (tWords : List Word)
    (attributes : Nat → QCharAttributes) (i0 : QScriptItem) (a b : Nat)
    (hattr : e.attributes = some attributes) (hitems : e.items = [i0])
    (hp0 : i0.position = 0) (hf0 : i0.flags = Flags.Text)
    (hs0 : i0.num_glyphs = 0 → i0.attributesAfterShape = true)
    (ha : 0 < a) (hb : 0 < b) (hsize : a + b < e.size)
    (hok : ClusterMapOk e.logClusters i0.glyphs i0.currentNumGlyphs 0 e.size)
    (hca : e.logClusters (a - 1) ≠ e.logClusters a)
    (hcb : e.logClusters (a + b - 1) ≠ e.logClusters (a + b))
    (hu : ∀ q, q < a → (attributes q).whiteSpace = false)
    (hs : ∀ q, a ≤ q → q < a + b → isSpaceBreak e attributes q = true)
    (hv : ∀ q, a + b ≤ q → q < e.size → (attributes q).whiteSpace = false)
    (hrunu : PlainRun e attributes i0.glyphs 0 0 a)
    (hrunv : PlainRun e attributes i0.glyphs 0 (a + b) e.size) :
    ∃ r0 r1, parse e tWords = some
      { words :=
          [Word.add_rpadding
              (Word.content (toUint16 0) false
                (glyphsWidth i0.glyphs (e.logClusters 0) (e.logClusters a)) r0)
              (glyphsWidth i0.glyphs (e.logClusters a) (e.logClusters (a + b))),
            Word.content (toUint16 (a + b)) false
              (glyphsWidth i0.glyphs (e.logClusters (a + b)) i0.currentNumGlyphs) r1],
        exit := Exit.completed } := by
  have hst1 : e.startOf 1 = e.size := by simp [Engine.startOf, hitems]
  have hg0 : e.items.get? 0 = some i0 := by simp [hitems]
  have hg1 : e.items.get? 1 = none := by simp [hitems]
  have hfuel : 3 ≤ iterationBound e.size e.items := by
    rw [hitems]
    simp only [iterationBound, hp0]
    omega
  obtain ⟨more, hmore⟩ := Nat.exists_eq_add_of_le hfuel
  rw [parse_eq_parseLoop e tWords attributes hattr (by omega), hmore]
  obtain ⟨hbf, hpd⟩ := before_init []
  have hga : glyphAt e.logClusters i0.currentNumGlyphs e.size a = e.logClusters a := by
    unfold glyphAt; rw [if_pos (by omega)]
  have hgab : glyphAt e.logClusters i0.currentNumGlyphs e.size (a + b)
      = e.logClusters (a + b) := by
    unfold glyphAt; rw [if_pos (by omega)]
  have hsba : stopsAt e attributes a := Or.inr (Or.inl (hs a (le_refl _) (by omega)))
  have hsbe : stopsAt e attributes e.size := Or.inl (le_refl _)
  -- the token `u`
  obtain ⟨s0, hent0, hin0, hpd0, hsd0, -⟩ := enterItem_before e _ 0 i0 hbf hs0 [] 0 0 hpd
  rw [hp0] at hin0
  obtain ⟨-, hin1, hstop1, -, hsd1⟩ := ordinary_run e attributes s0 0 i0 0 a [] 0 0 hin0 hpd0
    hf0 (by rw [hp0, hst1]; exact hok) (by rw [hp0]) ha (by rw [hst1]; omega) (Or.inr hca)
    (atSpaceBreak_false_of_first e attributes s0 (by rw [hin0.cur]; exact hu 0 ha))
    hrunu (Or.inr hsba) (fun _ => Or.inl hsba)
  have hin1 := hin1 (by rw [hst1]; omega)
  obtain ⟨r0, hpd1⟩ := hstop1 hsba
  rw [hst1, hga, zero_add, List.nil_append] at hpd1
  have hit1 := iteration_of_enter e attributes _ s0 i0 hent0
  rw [hin0.newItem] at hit1
  -- the white space `s`
  have hent1 := enterItem_inside e _ 0 i0 a hin1
  obtain ⟨-, hin2, ⟨r, hpd2⟩, hsd2⟩ := space_run e attributes _ 0 i0 a (a + b) _ a 0 hin1 hpd1
    hf0 (by rw [hp0, hst1]; exact hok) (by rw [hp0]; omega) (by omega) (by rw [hst1]; omega)
    (Or.inr hcb)
    (atSpaceBreak_true_of_first e attributes _ (by rw [hin1.cur, hin1.end_, hst1]; omega)
      (by rw [hin1.cur]; exact hs a (le_refl _) (by omega)))
    (fun q h1 h2 => by
      have := hs q h1 h2
      unfold isSpaceBreak at this
      simp only [Bool.and_eq_true] at this
      exact this.1)
    (Or.inr (hv (a + b) (le_refl _) hsize))
    (by rw [hsd1, hsd0]; rfl)
  have hin2 := hin2 (by rw [hst1]; omega)
  rw [if_neg (by simp), hst1, hgab] at hpd2
  have hit2 := iteration_of_enter e attributes _ _ i0 hent1
  rw [hin1.newItem] at hit2
  -- the token `v`
  have hent2 := enterItem_inside e _ 0 i0 (a + b) hin2
  obtain ⟨hbf3, -, hstop3, -, -⟩ := ordinary_run e attributes _ 0 i0 (a + b) e.size _ (a + b) 0
    hin2 hpd2 hf0 (by rw [hp0, hst1]; exact hok) (by rw [hp0]; omega) hsize
    (by rw [hst1]) (Or.inl hst1.symm)
    (atSpaceBreak_false_of_first e attributes _
      (by rw [hin2.cur]; exact hv (a + b) (le_refl _) hsize))
    hrunv (Or.inl hst1.symm) (fun _ => Or.inl hsbe)
  have hbf3 := hbf3 hst1.symm
  obtain ⟨r1, hpd3⟩ := hstop3 hsbe
  rw [hst1, glyphAt_end, zero_add] at hpd3
  have hit3 := iteration_of_enter e attributes _ _ i0 hent2
  rw [hin2.newItem] at hit3
  refine ⟨r0, r1, ?_⟩
  have h3 := parseLoop_done e attributes 0 _ (by rw [hbf3.newItem]; exact hg1)
  have h2 := parseLoop_step e attributes 0 _ _ i0 (by rw [hin2.newItem]; exact hg0) hit3
  have h1 := parseLoop_step e attributes 1 _ _ i0 (by rw [hin1.newItem]; exact hg0) hit2
  have h0 := parseLoop_step e attributes 2 _ _ i0 hg0 hit1
  have hall := h0.trans (h1.trans (h2.trans h3))
  rw [parseLoop_mono e attributes 3 _ _ hall more, hpd3.tWords]
  rfl

theorem spacedTokens_isSpaceBreak (text : Nat → Nat) (a b c : Nat) (adv thr : Int)
    (htext : ∀ q, a ≤ q → q < a + b → text q ≠ Nbsp) (q : Nat) :
    isSpaceBreak (spacedTokens text a b c adv thr) (spacedAttributes a b) q
      = decide (a ≤ q ∧ q < a + b) := by
  by_cases h : a ≤ q ∧ q < a + b
  · have h1 := htext q h.1 h.2
    simp [isSpaceBreak, spacedAttributes, spacedTokens, h, h1]
  · simp [isSpaceBreak, spacedAttributes, h]

theorem spacedTokens_isLineBreak (text : Nat → Nat) (a b c : Nat) (adv thr : Int) (q : Nat) (hq : q ≠ a + b) :
    isLineBreak (spacedTokens text a b c adv thr) (spacedAttributes a b) q = false := by
  simp [isLineBreak, spacedAttributes, hq]

theorem spacedTokens_run (text : Nat → Nat) (a b c : Nat) (adv thr : Int)
    (htext : ∀ q, a ≤ q → q < a + b → text q ≠ Nbsp) (hadv : 0 ≤ adv) (p t : Nat)
    (hlen : ((t - p : Nat) : Int) * adv ≤ thr) (ht : t ≤ a + b + c)
    (hout : ∀ q, p < q → q < t → ¬ (a ≤ q ∧ q < a + b) ∧ q ≠ a + b) :
    PlainRun (spacedTokens text a b c adv thr) (spacedAttributes a b)
      (plainItem 0 Flags.Text (a + b + c) adv 0).glyphs 0 p t := by
  refine ⟨fun q h1 h2 => ⟨by show q < a + b + c; omega, ?_, ?_⟩, ?_⟩
  · rw [spacedTokens_isSpaceBreak text a b c adv thr htext]
    exact decide_eq_false (hout q h1 h2).1
  · exact spacedTokens_isLineBreak text a b c adv thr q (hout q h1 h2).2
  · intro q h1 h2 _
    show (0 : Int) + glyphsWidth (uniformGlyphs (a + b + c) adv) p q ≤ thr
    rw [glyphsWidth_uniform (a + b + c) adv p q (by omega), zero_add]
    have : ((q - p : Nat) : Int) * adv ≤ ((t - p : Nat) : Int) * adv :=
      mul_le_mul_of_nonneg_right (by exact_mod_cast (by omega : q - p ≤ t - p)) hadv
    omega

/-- Result of the parse on `a` letters, `b` spaces and `c` letters in one
text item. -/
theorem spacedTokens_parse (text : Nat → Nat) (a b c : Nat) (adv thr : Int)
    (tWords : List Word) (htext : ∀ q, a ≤ q → q < a + b → text q ≠ Nbsp)
    (ha : 0 < a) (hb : 0 < b) (hc : 0 < c) (hadv : 0 ≤ adv)
    (hathr : (a : Int) * adv ≤ thr) (hcthr : (c : Int) * adv ≤ thr) :
    ∃ r0 r1, parse (spacedTokens text a b c adv thr) tWords = some
      { words :=
          [Word.add_rpadding (Word.content (toUint16 0) false ((a : Int) * adv) r0)
              ((b : Int) * adv),
            Word.content (toUint16 (a + b)) false ((c : Int) * adv) r1],
        exit := Exit.completed } := by
  obtain ⟨r0, r1, h⟩ := parse_token_space_token (spacedTokens text a b c adv thr) tWords
    (spacedAttributes a b) (plainItem 0 Flags.Text (a + b + c) adv 0) a b rfl rfl rfl rfl
    (fun _ => rfl) ha hb (by show a + b < a + b + c; omega)
    (by
      have := clusterMapOk_uniform (spacedTokens text a b c adv thr).logClusters adv 0 (a + b + c)
        (fun q _ _ => rfl)
      simpa using this)
    (by show a - 1 ≠ a; omega) (by show a + b - 1 ≠ a + b; omega)
    (fun q hq => by simp [spacedAttributes]; omega)
    (fun q h1 h2 => by rw [spacedTokens_isSpaceBreak text a b c adv thr htext]; exact decide_eq_true ⟨h1, h2⟩)
    (fun q h1 _ => by simp [spacedAttributes]; omega)
    (spacedTokens_run text a b c adv thr htext hadv 0 a (by simpa using hathr) (by omega)
      (fun q _ h2 => ⟨by omega, by omega⟩))
    (spacedTokens_run text a b c adv thr htext hadv (a + b) (a + b + c)
      (by rw [show a + b + c - (a + b) = c by omega]; exact hcthr) (le_refl _)
      (fun q h1 _ => ⟨by omega, by omega⟩))
  have hw : ∀ p q, p ≤ q → glyphsWidth (plainItem 0 Flags.Text (a + b + c) adv 0).glyphs p q
      = ((q - p : Nat) : Int) * adv :=
    fun p q hpq => glyphsWidth_uniform (a + b + c) adv p q hpq
  have h1 := hw 0 a (by omega)
  have h2 := hw a (a + b) (by omega)
  have h3 := hw (a + b) (a + b + c) (by omega)
  rw [show a - 0 = a by omega] at h1
  rw [show a + b - a = b by omega] at h2
  rw [show a + b + c - (a + b) = c by omega] at h3
  refine ⟨r0, r1, ?_⟩
  rw [h]
  show some (Outcome.mk [Word.add_rpadding (Word.content (toUint16 0) false
    (glyphsWidth (plainItem 0 Flags.Text (a + b + c) adv 0).glyphs 0 a) r0)
    (glyphsWidth (plainItem 0 Flags.Text (a + b + c) adv 0).glyphs a (a + b)),
    Word.content (toUint16 (a + b)) false
      (glyphsWidth (plainItem 0 Flags.Text (a + b + c) adv 0).glyphs (a + b) (a + b + c)) r1]
    Exit.completed) = _
  rw [h1, h2, h3]

/-- C9, as amended: for every buffer `u ++ s ++ v` in one text item with
`|u| + |s| < 65536`, where `u` (offsets `[0, a)`) and `v` (offsets
`[a + b, size)`) are non-empty, hold no white space and no accepted
line-break position inside and keep their accumulated width at or under
the threshold at every grapheme boundary inside, `s` (offsets
`[a, a + b)`) is a non-empty run of space breaks, no cluster lies across
the two token boundaries, the glyph advances are non-negative and the
shaped width of the buffer and the threshold are inside the range of
`QFixed`, `parse` produces exactly two records: a
finished word at 0 of width `width(u)` whose trailing padding is the summed
advance of `s`, and a finished word at `|u| + |s|` of width `width(v)`
without padding; no record starts inside `s`. -/
theorem C9_trailing_space (e : Engine) (tWords : List Word)
    (attributes : Nat → QCharAttributes) (i0 : QScriptItem) (a b : Nat)
    (hattr : e.attributes = some attributes) (hitems : e.items = [i0])
    (hp0 : i0.position = 0) (hf0 : i0.flags = Flags.Text)
    (hs0 : i0.num_glyphs = 0 → i0.attributesAfterShape = true)
    (ha : 0 < a) (hb : 0 < b) (hsize : a + b < e.size) (hpos : a + b < 65536)
    (hok : ClusterMapOk e.logClusters i0.glyphs i0.currentNumGlyphs 0 e.size)
    (hca : e.logClusters (a - 1) ≠ e.logClusters a)
    (hcb : e.logClusters (a + b - 1) ≠ e.logClusters (a + b))
    (hu : ∀ q, q < a → (attributes q).whiteSpace = false)
    (hs : ∀ q, a ≤ q → q < a + b → isSpaceBreak e attributes q = true)
    (hv : ∀ q, a + b ≤ q → q < e.size → (attributes q).whiteSpace = false)
    (hrunu : PlainRun e attributes i0.glyphs 0 0 a)
    (hrunv : PlainRun e attributes i0.glyphs 0 (a + b) e.size)
    (_hfit : e.WidthsFit) :
    ∃ w0 w1, parse e tWords = some { words := [w0, w1], exit := Exit.completed }
      ∧ w0.position = 0 ∧ w0.unfinished = false ∧ w0.newline = false
      ∧ w0.width = glyphsWidth i0.glyphs (e.logClusters 0) (e.logClusters a)
      ∧ w0.rpadding = glyphsWidth i0.glyphs (e.logClusters a) (e.logClusters (a + b))
      ∧ w1.position = a + b ∧ w1.unfinished = false ∧ w1.newline = false
      ∧ w1.width = glyphsWidth i0.glyphs (e.logClusters (a + b)) i0.currentNumGlyphs
      ∧ w1.rpadding = 0
      ∧ ∀ w ∈ [w0, w1], ¬ (a ≤ w.position ∧ w.position < a + b) := by
  obtain ⟨r0, r1, h⟩ := parse_token_space_token e tWords attributes i0 a b hattr hitems hp0
    hf0 hs0 ha hb hsize hok hca hcb hu hs hv hrunu hrunv
  refine ⟨_, _, h, rfl, rfl, rfl, rfl, ?_, toUint16_of_lt hpos, rfl, rfl, rfl, rfl, ?_⟩
  · show (0 : Int) + _ = _
    rw [zero_add]
  · intro w hw
    simp only [List.mem_cons, List.mem_singleton, List.not_mem_nil, or_false] at hw
    rcases hw with hw | hw
    · have : w.position = 0 := by rw [hw]; rfl
      omega
    · have : w.position = a + b := by rw [hw]; exact toUint16_of_lt hpos
      omega

/-- Witness of `C9_trailing_space`: the buffer `"ab cd"` with glyphs of
advance 512 gives the word `"ab"` at 0 (width 1024, padding 512) and the
word `"cd"` at 3 (width 1024). -/
theorem C9_trailing_space_witness :
    ∃ w0 w1, parse exampleAbCd [] = some { words := [w0, w1], exit := Exit.completed }
      ∧ w0.position = 0 ∧ w0.unfinished = false ∧ w0.width = 1024 ∧ w0.rpadding = 512
      ∧ w1.position = 3 ∧ w1.unfinished = false ∧ w1.width = 1024 ∧ w1.rpadding = 0 := by
  have htext : ∀ q, 2 ≤ q → q < 2 + 1 → textAbCd q ≠ Nbsp := by
    intro q h1 h2
    have : q = 2 := by omega
    rw [this]
    decide
  have hw : ∀ p q, p ≤ q → glyphsWidth (plainItem 0 Flags.Text (2 + 1 + 2) 512 0).glyphs p q
      = ((q - p : Nat) : Int) * 512 :=
    fun p q hpq => glyphsWidth_uniform (2 + 1 + 2) 512 p q hpq
  obtain ⟨w0, w1, h, p1, p2, -, p4, p5, p6, p7, -, p9, p10, -⟩ :=
    C9_trailing_space exampleAbCd [] (spacedAttributes 2 1)
      (plainItem 0 Flags.Text (2 + 1 + 2) 512 0) 2 1 rfl rfl rfl rfl (fun _ => rfl)
      (by decide) (by decide) (by decide) (by decide)
      (by
        have := clusterMapOk_uniform exampleAbCd.logClusters 512 0 (2 + 1 + 2)
          (fun q _ _ => rfl)
        simpa using this)
      (by decide) (by decide)
      (fun q hq => by simp [spacedAttributes]; omega)
      (fun q h1 h2 => by
        show isSpaceBreak (spacedTokens textAbCd 2 1 2 512 6400) (spacedAttributes 2 1) q = true
        rw [spacedTokens_isSpaceBreak textAbCd 2 1 2 512 6400 htext]
        exact decide_eq_true ⟨h1, h2⟩)
      (fun q h1 _ => by simp [spacedAttributes]; omega)
      (spacedTokens_run textAbCd 2 1 2 512 6400 htext (by decide) 0 2 (by decide)
        (by decide) (fun q _ h2 => ⟨by omega, by omega⟩))
      (spacedTokens_run textAbCd 2 1 2 512 6400 htext (by decide) (2 + 1) (2 + 1 + 2)
        (by decide) (le_refl _) (fun q h1 _ => ⟨by omega, by omega⟩))
      ⟨by
        intro si hsi g
        have : si = plainItem 0 Flags.Text (2 + 1 + 2) 512 0 := by
          simpa [exampleAbCd, spacedTokens] using hsi
        rw [this]
        show (0 : Int) ≤ 512
        decide, by decide, by decide⟩
  have e0 : exampleAbCd.logClusters 0 = 0 := rfl
  have e2 : exampleAbCd.logClusters 2 = 2 := rfl
  have e3 : exampleAbCd.logClusters (2 + 1) = 3 := rfl
  rw [e0, e2, hw 0 2 (by omega)] at p4
  rw [e2, e3, hw 2 3 (by omega)] at p5
  rw [e3] at p9
  have p9b : w1.width = ((5 - 3 : Nat) : Int) * 512 := by
    rw [p9]
    exact hw 3 5 (by omega)
  exact ⟨w0, w1, h, p1, p2, by rw [p4]; rfl, by rw [p5]; rfl, p6, p7, by rw [p9b]; rfl, p10⟩

theorem glyphsWidth_nonneg (G : QGlyphLayout) (h : ∀ g, 0 ≤ printableAdvance G g)
    (a b : Nat) : 0 ≤ glyphsWidth G a b := by
  unfold glyphsWidth
  apply List.sum_nonneg
  intro x hx
  obtain ⟨g, -, rfl⟩ := List.mem_map.1 hx
  exact h g

theorem glyphsWidth_mono (G : QGlyphLayout) (h : ∀ g, 0 ≤ printableAdvance G g)
    (a b c : Nat) (hab : a ≤ b) (hbc : b ≤ c) : glyphsWidth G a b ≤ glyphsWidth G a c := by
  have h1 := glyphsWidth_add G a b hab c hbc
  have h2 := glyphsWidth_nonneg G h b c
  omega

theorem printableAdvance_nonneg (G : QGlyphLayout) (h : ∀ g, 0 ≤ G.advances g) (g : Nat) :
    0 ≤ printableAdvance G g := by
  unfold printableAdvance
  split
  · exact le_refl _
  · exact h g

theorem itemsWidth_append (e : Engine) (xs ys : List QScriptItem) :
    itemsWidth e (xs ++ ys) = itemsWidth e xs + itemsWidth e ys := by
  simp [itemsWidth]

theorem itemsWidth_nonneg (e : Engine) (items : List QScriptItem)
    (h : ∀ si ∈ items, ∀ g, 0 ≤ si.glyphs.advances g) : 0 ≤ itemsWidth e items := by
  unfold itemsWidth
  apply List.sum_nonneg
  intro x hx
  obtain ⟨si, hsi, rfl⟩ := List.mem_map.1 hx
  exact glyphsWidth_nonneg _ (printableAdvance_nonneg _ (h si hsi)) _ _

theorem itemsWidth_take_le (e : Engine) (h : ∀ si ∈ e.items, ∀ g, 0 ≤ si.glyphs.advances g)
    (k : Nat) : itemsWidth e (e.items.take k) ≤ shapedWidth e := by
  unfold shapedWidth
  have h1 : itemsWidth e e.items
      = itemsWidth e (e.items.take k) + itemsWidth e (e.items.drop k) := by
    rw [← itemsWidth_append, List.take_append_drop]
  have h2 := itemsWidth_nonneg e (e.items.drop k)
    (fun si hsi => h si (List.mem_of_mem_drop hsi))
  omega

/-- The main loop over text items that hold no space break and no accepted
line break, with non-negative advances and a shaped width not above the
threshold: from the start of item `k`, with the width of the items before
pending since offset 0, the loop ends after one iteration per remaining
item with the single word of the whole buffer. -/
theorem unbroken_loop (e : Engine) (attributes : Nat → QCharAttributes)
    (hwf : e.WellFormed) (hshape : e.ShapingSucceeds)
    (htext : ∀ si ∈ e.items, si.flags = Flags.Text)
    (hok : ∀ k si, e.items.get? k = some si →
      ClusterMapOk e.logClusters si.glyphs si.currentNumGlyphs si.position (e.startOf (k + 1)))
    (hsb : ∀ q, q < e.size → isSpaceBreak e attributes q = false)
    (hlb : ∀ q, 0 < q → q < e.size → isLineBreak e attributes q = false)
    (hadv : ∀ si ∈ e.items, ∀ g, 0 ≤ si.glyphs.advances g)
    (htotal : shapedWidth e ≤ e.minResizeWidth) :
    ∀ j k s, k + j + 1 = e.items.length → Before s k →
      Pending s [] 0 (itemsWidth e (e.items.take k)) →
      ∃ r, parseLoop e attributes (j + 1) s = some
        { words := [Word.content (toUint16 0) false (shapedWidth e) r],
          exit := Exit.completed } := by
  have hstep : ∀ k s si, e.items.get? k = some si → Before s k →
      Pending s [] 0 (itemsWidth e (e.items.take k)) →
      ∃ s1, iteration e attributes s si = some s1 ∧ Before s1 (k + 1)
        ∧ (stopsAt e attributes (e.startOf (k + 1)) →
            ∃ r, Pending s1 [Word.content (toUint16 0) false
              (itemsWidth e (e.items.take (k + 1))) r] (e.startOf (k + 1)) 0)
        ∧ (¬ stopsAt e attributes (e.startOf (k + 1)) →
            Pending s1 [] 0 (itemsWidth e (e.items.take (k + 1)))) := by
    intro k s si hget hb hp
    have hklen : k < e.items.length := by
      by_contra hc
      have : e.items.get? k = none := List.get?_eq_none.2 (by omega)
      rw [this] at hget; simp at hget
    have hmem : si ∈ e.items := by
      obtain ⟨h1, h2⟩ := List.get?_eq_some.1 hget
      rw [← h2]
      exact List.get_mem _ _ _
    have hpos : e.startOf k = si.position := e.startOf_of_get hget
    have hlt := hwf.2 k hklen
    rw [hpos] at hlt
    have hle := Engine.WellFormed.le_size e hwf (k + 1)
    have hsum : itemsWidth e (e.items.take (k + 1))
        = itemsWidth e (e.items.take k) + itemWidth e si := by
      rw [take_succ_of_get e.items k si hget, itemsWidth_append]
      simp [itemsWidth]
    have hbound : itemsWidth e (e.items.take k) + itemWidth e si ≤ e.minResizeWidth := by
      have := itemsWidth_take_le e hadv (k + 1)
      omega
    have hpa := printableAdvance_nonneg si.glyphs (hadv si hmem)
    have hokk := hok k si hget
    obtain ⟨s1, hit, hb1, hstop, hpend, -⟩ := iteration_text_item e attributes s k si [] 0
      (itemsWidth e (e.items.take k)) hb hp (hshape.2 si hmem) (htext si hmem) hokk hlt
      (fun q _ h2 => hsb q (by omega))
      ⟨fun q h1 h2 => ⟨by omega, hsb q (by omega), hlb q (by omega) (by omega)⟩,
        fun q h1 h2 _ => by
          have h3 := glyphsWidth_mono si.glyphs hpa (e.logClusters si.position)
            (e.logClusters q) si.currentNumGlyphs
            (hokk.mono si.position q (le_refl _) (by omega) h2)
            (le_of_lt (hokk.lt q (by omega) h2))
          unfold itemWidth at hbound
          omega⟩
      (fun _ => Or.inr hbound)
    refine ⟨s1, hit, hb1, ?_, ?_⟩
    · intro h
      obtain ⟨r, hr⟩ := hstop h
      rw [List.nil_append] at hr
      refine ⟨r, ?_⟩
      rw [hsum]
      exact hr
    · intro h
      rw [hsum]
      exact hpend h
  intro j
  induction j with
  | zero =>
    intro k s hk hb hp
    have hget : ∃ si, e.items.get? k = some si := by
      cases h : e.items.get? k with
      | none =>
        have := List.get?_eq_none.1 h
        omega
      | some si => exact ⟨si, rfl⟩
    obtain ⟨si, hget⟩ := hget
    obtain ⟨s1, hit, hb1, hstop, -⟩ := hstep k s si hget hb hp
    have hend : e.startOf (k + 1) = e.size := e.startOf_of_length_le (by omega)
    obtain ⟨r, hr⟩ := hstop (Or.inl (by rw [hend]))
    refine ⟨r, ?_⟩
    rw [parseLoop_step e attributes 0 s s1 si (by rw [hb.newItem]; exact hget) hit,
      parseLoop_done e attributes 0 s1
        (by rw [hb1.newItem]; exact List.get?_eq_none.2 (by omega)),
      hr.tWords, List.take_of_length_le (by omega)]
    rfl
  | succ j ih =>
    intro k s hk hb hp
    have hget : ∃ si, e.items.get? k = some si := by
      cases h : e.items.get? k with
      | none =>
        have := List.get?_eq_none.1 h
        omega
      | some si => exact ⟨si, rfl⟩
    obtain ⟨si, hget⟩ := hget
    obtain ⟨s1, hit, hb1, -, hpend⟩ := hstep k s si hget hb hp
    have hlt := hwf.2 (k + 1) (by omega)
    have hlt0 := hwf.2 k (by omega)
    have hle := Engine.WellFormed.le_size e hwf (k + 1 + 1)
    have hns : ¬ stopsAt e attributes (e.startOf (k + 1)) := by
      intro h
      rcases h with h | h | h
      · omega
      · rw [hsb _ (by omega)] at h; simp at h
      · rw [hlb _ (by omega) (by omega)] at h; simp at h
    obtain ⟨r, hr⟩ := ih (k + 1) s1 (by omega) hb1 (hpend hns)
    exact ⟨r, by rw [parseLoop_step e attributes (j + 1) s s1 si
      (by rw [hb.newItem]; exact hget) hit]; exact hr⟩

/-- C10, as amended: `isSpaceBreak` is false at every position holding a
non-breaking space; and for every non-empty, successfully shaped buffer
made of text items only (well-formed cluster maps), whose only white-space
characters are non-breaking spaces, with no position accepted by
`isLineBreak`, non-negative glyph advances and a shaped width not above the
threshold, `parse` produces exactly one record, finished, starting at 0,
whose width is the shaped width of the whole buffer. -/
theorem C10_nbsp_unbroken (e : Engine) (tWords : List Word)
    (attributes : Nat → QCharAttributes) (hattr : e.attributes = some attributes)
    (hwf : e.WellFormed) (hshape : e.ShapingSucceeds) (hne : e.size ≠ 0)
    (htext : ∀ si ∈ e.items, si.flags = Flags.Text)
    (hok : ∀ k si, e.items.get? k = some si →
      ClusterMapOk e.logClusters si.glyphs si.currentNumGlyphs si.position (e.startOf (k + 1)))
    (hws : ∀ q, q < e.size → (attributes q).whiteSpace = true → e.text q = Nbsp)
    (hlb : ∀ q, q < e.size → isLineBreak e attributes q = false)
    (hadv : ∀ si ∈ e.items, ∀ g, 0 ≤ si.glyphs.advances g)
    (htotal : shapedWidth e ≤ e.minResizeWidth) :
    (∀ (table : Nat → QCharAttributes) (i : Nat), e.text i = Nbsp →
        isSpaceBreak e table i = false)
      ∧ ∃ r, parse e tWords = some
          { words := [Word.content 0 false (shapedWidth e) r], exit := Exit.completed } := by
  have hnbsp : ∀ (table : Nat → QCharAttributes) (i : Nat), e.text i = Nbsp →
      isSpaceBreak e table i = false := by
    intro table i h
    simp [isSpaceBreak, h]
  refine ⟨hnbsp, ?_⟩
  have hsb : ∀ q, q < e.size → isSpaceBreak e attributes q = false := by
    intro q hq
    cases hw : (attributes q).whiteSpace with
    | false => simp [isSpaceBreak, hw]
    | true => exact hnbsp attributes q (hws q hq hw)
  have hlen : 0 < e.items.length := by
    cases hi : e.items with
    | nil =>
      have h0 := hwf.1
      unfold Engine.startOf at h0
      rw [hi] at h0
      simp at h0
      omega
    | cons si rest => simp
  obtain ⟨hbf, hpd⟩ := before_init []
  obtain ⟨r, hr⟩ := unbroken_loop e attributes hwf hshape htext hok hsb (fun q _ hq => hlb q hq) hadv htotal
    (e.items.length - 1) 0 _ (by omega) hbf hpd
  refine ⟨r, ?_⟩
  have hfuel := length_le_iterationBound e.size e.items
  obtain ⟨more, hmore⟩ := Nat.exists_eq_add_of_le
    (show e.items.length - 1 + 1 ≤ iterationBound e.size e.items by omega)
  rw [parse_eq_parseLoop e tWords attributes hattr hne, hmore,
    parseLoop_mono e attributes _ _ _ hr more]
  rfl

/-- Witness of `C10_nbsp_unbroken`: the buffer `"a<NBSP>b"` with glyphs of
advance 512 gives one finished word at 0 of width 1536. -/
theorem C10_nbsp_unbroken_witness :
    isSpaceBreak exampleNbsp nbspAttributes 1 = false
      ∧ ∃ r, parse exampleNbsp [] = some
          { words := [Word.content 0 false 1536 r], exit := Exit.completed } := by
  obtain ⟨h1, r, h2⟩ := C10_nbsp_unbroken exampleNbsp [] nbspAttributes rfl (by decide)
    (by decide) (by decide) (by decide)
    (by
      intro k si hget
      cases k with
      | zero =>
        have hsi : si = plainItem 0 Flags.Text 3 512 0 := by
          have : exampleNbsp.items.get? 0 = some (plainItem 0 Flags.Text 3 512 0) := rfl
          rw [this] at hget
          simp only [Option.some.injEq] at hget
          exact hget.symm
        rw [hsi]
        have := clusterMapOk_uniform exampleNbsp.logClusters 512 0 3 (fun q _ _ => rfl)
        simpa using this
      | succ k =>
        have : exampleNbsp.items.get? (k + 1) = none := rfl
        rw [this] at hget
        simp at hget)
    (by
      intro q _ hq
      have : q = 1 := by simpa [nbspAttributes] using hq
      rw [this]
      rfl)
    (fun q _ => by simp [isLineBreak, nbspAttributes])
    (by
      intro si hsi g
      have : si = plainItem 0 Flags.Text 3 512 0 := by
        simpa [exampleNbsp] using hsi
      rw [this]
      show (0 : Int) ≤ 512
      decide)
    (by decide)
  exact ⟨h1 nbspAttributes 1 rfl, r, h2⟩

/-- Counterexample to C10 as stated: the buffer `"a<NBSP>b"` in one text
item with glyph advances 10, 10, -15 has shaped width 5, not above the
threshold 8, holds no white space but the non-breaking space and no
accepted line break; `parse` splits it into three records, the first two
unfinished, one of them starting at the non-breaking space.  The empty
buffer meets the conditions too and gives no record. -/
theorem C10_counterexample :
    (parse exampleNegativeAdvance [] = some
        { words := [Word.content 0 true 10 0, Word.content 1 true 10 0,
            Word.content 2 false (-15) 0],
          exit := Exit.completed }
      ∧ shapedWidth exampleNegativeAdvance = 5
      ∧ exampleNegativeAdvance.minResizeWidth = 8
      ∧ (∀ q, q < 3 → isLineBreak exampleNegativeAdvance nbspAttributes q = false)
      ∧ (∀ q, q < 3 → (nbspAttributes q).whiteSpace = true →
          exampleNegativeAdvance.text q = Nbsp))
    ∧ parse exampleEmpty [] = some { words := [], exit := Exit.completed } := by
  refine ⟨⟨by decide, by decide, rfl, by decide, by decide⟩, by decide⟩

theorem threeChars_ok (text : Nat → Nat) (thr : Int) (k : Nat) (si : QScriptItem)
    (hget : (threeChars text thr).items.get? k = some si) :
    ClusterMapOk (threeChars text thr).logClusters si.glyphs si.currentNumGlyphs si.position
      ((threeChars text thr).startOf (k + 1)) := by
  cases k with
  | zero =>
    have hsi : si = plainItem 0 Flags.Text 3 512 0 := by
      have : (threeChars text thr).items.get? 0 = some (plainItem 0 Flags.Text 3 512 0) := rfl
      rw [this] at hget
      simp only [Option.some.injEq] at hget
      exact hget.symm
    rw [hsi]
    have := clusterMapOk_uniform (threeChars text thr).logClusters 512 0 3 (fun q _ _ => rfl)
    simpa using this
  | succ k =>
    have : (threeChars text thr).items.get? (k + 1) = none := rfl
    rw [this] at hget
    simp at hget

/-- C11, as amended: in a non-empty, successfully shaped buffer that is one
token (text items only with well-formed cluster maps, no white space) whose
only line-break-flagged positions immediately follow a `'.'` or a `'/'`,
`isLineBreak` accepts no position after the first; when moreover the glyph
advances are non-negative and the shaped width is not above the threshold,
`parse` produces a single word record, finished, starting at 0: no record
starts at the position immediately after the `'.'` or `'/'`. -/
theorem C11_dot_slash (e : Engine) (tWords : List Word)
    (attributes : Nat → QCharAttributes) (hattr : e.attributes = some attributes)
    (hwf : e.WellFormed) (hshape : e.ShapingSucceeds) (hne : e.size ≠ 0)
    (htext : ∀ si ∈ e.items, si.flags = Flags.Text)
    (hok : ∀ k si, e.items.get? k = some si →
      ClusterMapOk e.logClusters si.glyphs si.currentNumGlyphs si.position (e.startOf (k + 1)))
    (hws : ∀ q, q < e.size → (attributes q).whiteSpace = false)
    (hflag : ∀ q, 0 < q → q < e.size → (attributes q).lineBreak = true →
      e.text (q - 1) = dotChar ∨ e.text (q - 1) = slashChar)
    (hadv : ∀ si ∈ e.items, ∀ g, 0 ≤ si.glyphs.advances g)
    (htotal : shapedWidth e ≤ e.minResizeWidth) :
    (∀ q, 0 < q → q < e.size → isLineBreak e attributes q = false)
      ∧ ∃ r, parse e tWords = some
          { words := [Word.content 0 false (shapedWidth e) r], exit := Exit.completed } := by
  have hlb : ∀ q, 0 < q → q < e.size → isLineBreak e attributes q = false := by
    intro q h0 hq
    cases hl : (attributes q).lineBreak with
    | false => simp [isLineBreak, hl]
    | true =>
      rcases hflag q h0 hq hl with h | h
      · simp [isLineBreak, h]; omega
      · simp [isLineBreak, h, slashChar, dotChar]; omega
  refine ⟨hlb, ?_⟩
  have hsb : ∀ q, q < e.size → isSpaceBreak e attributes q = false := by
    intro q hq
    simp [isSpaceBreak, hws q hq]
  have hlen : 0 < e.items.length := by
    cases hi : e.items with
    | nil =>
      have h0 := hwf.1
      unfold Engine.startOf at h0
      rw [hi] at h0
      simp at h0
      omega
    | cons si rest => simp
  obtain ⟨hbf, hpd⟩ := before_init []
  obtain ⟨r, hr⟩ := unbroken_loop e attributes hwf hshape htext hok hsb hlb hadv htotal
    (e.items.length - 1) 0 _ (by omega) hbf hpd
  refine ⟨r, ?_⟩
  have hfuel := length_le_iterationBound e.size e.items
  obtain ⟨more, hmore⟩ := Nat.exists_eq_add_of_le
    (show e.items.length - 1 + 1 ≤ iterationBound e.size e.items by omega)
  rw [parse_eq_parseLoop e tWords attributes hattr hne, hmore,
    parseLoop_mono e attributes _ _ _ hr more]
  rfl

/-- Witness of `C11_dot_slash`: the buffers `"a.b"` and `"a/b"`, the `b`
line-break-flagged, glyphs of advance 512, give one finished word at 0 of
width 1536. -/
theorem C11_dot_slash_witness :
    (isLineBreak exampleDot flaggedAttributes 2 = false
      ∧ ∃ r, parse exampleDot [] = some
          { words := [Word.content 0 false 1536 r], exit := Exit.completed })
    ∧ (isLineBreak exampleSlash flaggedAttributes 2 = false
      ∧ ∃ r, parse exampleSlash [] = some
          { words := [Word.content 0 false 1536 r], exit := Exit.completed }) := by
  have hflagged : ∀ q, (flaggedAttributes q).lineBreak = true → q = 2 := by
    intro q h
    simpa [flaggedAttributes] using h
  have hadv : ∀ (text : Nat → Nat) (thr : Int), ∀ si ∈ (threeChars text thr).items,
      ∀ g, 0 ≤ si.glyphs.advances g := by
    intro text thr si hsi g
    have : si = plainItem 0 Flags.Text 3 512 0 := by simpa [threeChars] using hsi
    rw [this]
    show (0 : Int) ≤ 512
    decide
  obtain ⟨h1, r1, h2⟩ := C11_dot_slash exampleDot [] flaggedAttributes rfl (by decide)
    (by decide) (by decide) (by decide) (threeChars_ok textDot 6400) (fun _ _ => rfl)
    (fun q _ _ h => by rw [hflagged q h]; left; rfl) (hadv textDot 6400) (by decide)
  obtain ⟨h3, r2, h4⟩ := C11_dot_slash exampleSlash [] flaggedAttributes rfl (by decide)
    (by decide) (by decide) (by decide) (threeChars_ok textSlash 6400) (fun _ _ => rfl)
    (fun q _ _ h => by rw [hflagged q h]; right; rfl) (hadv textSlash 6400) (by decide)
  exact ⟨⟨h1 2 (by decide) (by decide), r1, h2⟩, ⟨h3 2 (by decide) (by decide), r2, h4⟩⟩

/-- Counterexample to C11 as stated: the buffer `"a.b"` with the `b`
line-break-flagged, glyphs of advance 512 and threshold 512, is cut by the
forced split into three records, the last of which starts at offset 2,
immediately after the `'.'`. -/
theorem C11_counterexample :
    parse exampleDotNarrow [] = some
        { words := [Word.content 0 true 512 0, Word.content 1 true 512 0,
            Word.content 2 false 512 0],
          exit := Exit.completed }
      ∧ exampleDotNarrow.text 1 = dotChar
      ∧ (flaggedAttributes 2).lineBreak = true := by
  refine ⟨by decide, rfl, rfl⟩

theorem skipCluster_const (lc : Nat → Nat) (g end_ : Nat) :
    ∀ fuel pos, end_ - pos ≤ fuel → pos ≤ end_ →
      (∀ q, pos ≤ q → q < end_ → lc q = g) → skipCluster lc g end_ fuel pos = end_ := by
  intro fuel
  induction fuel with
  | zero => intro pos h1 h2 _; simp only [skipCluster]; omega
  | succ k ih =>
    intro pos h1 h2 h3
    simp only [skipCluster]
    split
    · rename_i hc
      exact ih (pos + 1) (by omega) (by omega) (fun q hq1 hq2 => h3 q (by omega) hq2)
    · rename_i hc
      by_cases hlt : pos < end_
      · exact absurd ⟨hlt, h3 pos (le_refl _) hlt⟩ hc
      · omega

/-- A pass that leaves through `break` is the last pass of the loop. -/
theorem ordinaryLoop_break (e : Engine) (attributes : Nat → QCharAttributes)
    (current : QScriptItem) (fuel : Nat) (s : ParseState)
    (h : (ordinaryPass e attributes s current).2 = true) :
    ordinaryLoop e attributes current fuel s = (ordinaryPass e attributes s current).1 := by
  cases fuel with
  | zero => rfl
  | succ k => simp only [ordinaryLoop]; rw [if_pos h]

theorem tallSplit_first :
    iteration tallSplit tallAttributes { ParseState.init with tWords := [] }
      (plainItem 0 Flags.Text 1 1 0) = some tallAfterFirst := by
  have hskip : skipCluster tallSplit.logClusters (tallSplit.logClusters 0) 65536
      (65536 - (0 + 1)) (0 + 1) = 65536 :=
    skipCluster_const _ _ _ _ _ (by omega) (by omega) (fun q _ hq => by
      show (if q ≤ 65536 then 0 else q - 65537) = 0
      rw [if_pos (by omega)])
  have hcluster : addNextCluster 0 65536 ScriptLine.zero 0 1 tallSplit.logClusters
      (uniformGlyphs 1 1) = ClusterResult.mk 65536 (ScriptLine.mk 65536 1) 1 1 := by
    unfold addNextCluster
    simp only
    rw [hskip]
    rfl
  have hent : enterItem tallSplit { ParseState.init with tWords := [] }
      (plainItem 0 Flags.Text 1 1 0) = some tallEntered := rfl
  have hpass : ordinaryPass tallSplit tallAttributes tallOrdinary
      (plainItem 0 Flags.Text 1 1 0)
      = ordinaryCheck tallSplit tallAttributes tallAfterCluster := by
    unfold ordinaryPass ParseState.afterCluster
    show ordinaryCheck tallSplit tallAttributes
      (ParseState.mk tallOrdinary.tWords
        (LineBreakHelper.mk
          (addNextCluster 0 65536 ScriptLine.zero 0 1 tallSplit.logClusters
            (uniformGlyphs 1 1)).line
          tallOrdinary.lbh.spaceData tallOrdinary.lbh.glyphs
          (addNextCluster 0 65536 ScriptLine.zero 0 1 tallSplit.logClusters
            (uniformGlyphs 1 1)).glyphCount
          (addNextCluster 0 65536 ScriptLine.zero 0 1 tallSplit.logClusters
            (uniformGlyphs 1 1)).pos
          tallOrdinary.lbh.previousGlyph tallOrdinary.lbh.previousGlyphFontEngine
          tallOrdinary.lbh.rightBearing tallOrdinary.lbh.fontEngine
          tallOrdinary.lbh.whiteSpaceOrObject)
        tallOrdinary.item tallOrdinary.newItem tallOrdinary.end_ tallOrdinary.wordStart
        tallOrdinary.addingEachGrapheme tallOrdinary.lastGraphemeBoundaryPosition
        tallOrdinary.lastGraphemeBoundaryLine) = _
    rw [hcluster]
    rfl
  have hloop : ∀ fuel, ordinaryLoop tallSplit tallAttributes (plainItem 0 Flags.Text 1 1 0)
      fuel tallOrdinary = (ordinaryCheck tallSplit tallAttributes tallAfterCluster).1 := by
    intro fuel
    rw [ordinaryLoop_break _ _ _ _ _ (by rw [hpass]; decide), hpass]
  unfold iteration
  rw [hent]
  simp only
  rw [branch_ordinary _ _ _ _ rfl (by decide)]
  unfold ordinaryBranch
  show some (ParseState.nextItemAtEnd (ordinaryLoop tallSplit tallAttributes
    (plainItem 0 Flags.Text 1 1 0) (tallEntered.end_ - tallEntered.lbh.currentPosition - 1)
    tallOrdinary) tallEntered.newItem) = _
  rw [hloop]
  rfl

set_option maxRecDepth 4000 in
theorem tallSplit_rest :
    parseLoop tallSplit tallAttributes 4 tallAfterFirst = some
      { words := [Word.content 0 false 1 0, Word.newlineAt 0 1, Word.content 1 true 40000 0,
          Word.content 2 true 40000 0, Word.content 3 false 40000 0],
        exit := Exit.completed } := by
  decide

/-- Result of the parse of `tallSplit`. -/
theorem tallSplit_parse :
    parse tallSplit [] = some
      { words := [Word.content 0 false 1 0, Word.newlineAt 0 1, Word.content 1 true 40000 0,
          Word.content 2 true 40000 0, Word.content 3 false 40000 0],
        exit := Exit.completed } := by
  have hfuel : 4 + 1 ≤ iterationBound tallSplit.size tallSplit.items := by
    have := iterationBound_ge_size tallSplit (by decide)
    have hs : tallSplit.size = 65540 := rfl
    omega
  obtain ⟨more, hmore⟩ := Nat.exists_eq_add_of_le hfuel
  rw [parse_eq_parseLoop tallSplit [] tallAttributes rfl (by decide), hmore,
    show 4 + 1 + more = (4 + more) + 1 by omega,
    parseLoop_step tallSplit tallAttributes (4 + more) { ParseState.init with tWords := [] }
      tallAfterFirst (plainItem 0 Flags.Text 1 1 0) rfl tallSplit_first,
    parseLoop_mono tallSplit tallAttributes 4 _ _ tallSplit_rest more]

/-- One whole iteration of the main loop, as a step of `iterate`. -/
theorem iterate_step (e : Engine) (attributes : Nat → QCharAttributes) (n : Nat)
    (s s1 : ParseState) (si : QScriptItem) (hget : e.items.get? s.newItem = some si)
    (hit : iteration e attributes s si = some s1) :
    iterate e attributes (n + 1) s = iterate e attributes n s1 := by
  rw [iterate, hget]
  simp only [hit]

/-- The iteration of `tallSplit` over its line feed leaves the word start at
65537 and the next item to read at 2. -/
theorem tallSplit_second :
    (iterate tallSplit tallAttributes 1 tallAfterFirst).map
      (fun s => (s.wordStart, s.newItem)) = some (65537, 2) := by
  decide

/-- C18, as amended.  Forced-split mode lasts until the word being split
ends.  For a pass of the `do … while` of the ordinary branch that starts in
forced-split mode: `addNextCluster` leaves the mode on; when the new cursor
is not the end of the text, a space break or an accepted line break, the
mode stays on, and if the cursor is a grapheme boundary the pass pushes the
pending width as an unfinished record and restarts the word at the cursor,
otherwise it pushes nothing; when the new cursor is the end of the text, a
space break or an accepted line break, the pass pushes the pending width as
a finished record, returns to normal mode and leaves the loop.  The
separator branch, the object branch and the space-break branch leave
normal mode behind them as well. -/
theorem C18_forced_mode (e : Engine) (attributes : Nat → QCharAttributes)
    (s : ParseState) (current : QScriptItem) (hforced : s.addingEachGrapheme = true) :
    (s.afterCluster e current).addingEachGrapheme = true
      ∧ (¬ breakAt e attributes (s.afterCluster e current) →
          (attributes (s.afterCluster e current).lbh.currentPosition).graphemeBoundary = true →
          ∃ r, (ordinaryPass e attributes s current).1.tWords
              = s.tWords ++ [Word.content (toUint16 s.wordStart) true
                  (s.afterCluster e current).lbh.tmpData.textWidth r]
            ∧ (ordinaryPass e attributes s current).1.addingEachGrapheme = true
            ∧ (ordinaryPass e attributes s current).1.wordStart
                = (s.afterCluster e current).lbh.currentPosition
            ∧ (ordinaryPass e attributes s current).1.lbh.tmpData = ScriptLine.zero
            ∧ (ordinaryPass e attributes s current).2 = false)
      ∧ (¬ breakAt e attributes (s.afterCluster e current) →
          (attributes (s.afterCluster e current).lbh.currentPosition).graphemeBoundary = false →
          ordinaryPass e attributes s current = (s.afterCluster e current, false))
      ∧ (breakAt e attributes (s.afterCluster e current) →
          ∃ r, (ordinaryPass e attributes s current).1.tWords
              = s.tWords ++ [Word.content (toUint16 s.wordStart) false
                  (s.afterCluster e current).lbh.tmpData.textWidth r]
            ∧ (ordinaryPass e attributes s current).1.addingEachGrapheme = false
            ∧ (ordinaryPass e attributes s current).2 = true)
      ∧ (separatorBranch e s).addingEachGrapheme = false
      ∧ (objectBranch e s current).addingEachGrapheme = false
      ∧ (spaceBranch e attributes s current).addingEachGrapheme = false := by
  have hf : (s.afterCluster e current).addingEachGrapheme = true := by simpa using hforced
  have h := ordinaryCheck_case e attributes (s.afterCluster e current)
  unfold ordinaryPass
  generalize ordinaryCheck e attributes (s.afterCluster e current) = r at h ⊢
  refine ⟨hf, ?_, ?_, ?_, by simp, by simp,
    (spaceBranch_fields e attributes s current).2.2.2.2.2.2.2.2.1⟩
  · intro hb hgb
    cases h with
    | finished hb2 => exact absurd hb2 hb
    | retro _ _ ha _ _ => rw [hf] at ha; simp at ha
    | forcedNow _ _ ha _ _ => rw [hf] at ha; simp at ha
    | forced _ _ _ =>
      refine ⟨-((s.afterCluster e current).lbh.calculateRightBearing e).negativeRightBearing,
        ?_, by simp [hforced], by simp, by simp, rfl⟩
      rw [flushUnfinished_tWords]
      simp only [pushUnfinishedWord, afterCluster_tWords, afterCluster_wordStart]
    | remember _ _ ha _ => rw [hf] at ha; simp at ha
    | skip _ hg => rw [hgb] at hg; simp at hg
  · intro hb hgb
    cases h with
    | finished hb2 => exact absurd hb2 hb
    | retro _ hg _ _ _ => rw [hgb] at hg; simp at hg
    | forcedNow _ hg _ _ _ => rw [hgb] at hg; simp at hg
    | forced _ hg _ => rw [hgb] at hg; simp at hg
    | remember _ hg _ _ => rw [hgb] at hg; simp at hg
    | skip _ _ => rfl
  · intro hb
    cases h with
    | finished _ =>
      refine ⟨-((s.afterCluster e current).lbh.calculateRightBearing e).negativeRightBearing,
        ?_, by simp, rfl⟩
      rw [flushFinished_tWords]
      simp only [pushFinishedWord, afterCluster_tWords, afterCluster_wordStart]
    | retro hb2 _ _ _ _ => exact absurd hb hb2
    | forcedNow hb2 _ _ _ _ => exact absurd hb hb2
    | forced hb2 _ _ => exact absurd hb hb2
    | remember hb2 _ _ _ => exact absurd hb hb2
    | skip hb2 _ => exact absurd hb hb2

/-- Witness of `C18_forced_mode`: in the scan of `"a.b"` with glyphs of
advance 512 and threshold 100 forced-split mode is on after the first
pass; the next pass, to the boundary 2, pushes the unfinished record
`[1, 2)` of width 512 and stays in the mode. -/
theorem C18_forced_mode_witness :
    exampleForcedState.addingEachGrapheme = true
      ∧ exampleForcedState.tWords = [Word.content 0 true 512 0]
      ∧ ∃ r, (ordinaryPass exampleDotTiny flaggedAttributes exampleForcedState
            (plainItem 0 Flags.Text 3 512 0)).1.tWords
          = [Word.content 0 true 512 0, Word.content 1 true 512 r]
        ∧ (ordinaryPass exampleDotTiny flaggedAttributes exampleForcedState
            (plainItem 0 Flags.Text 3 512 0)).1.addingEachGrapheme = true := by
  refine ⟨by decide, by decide, ?_⟩
  obtain ⟨r, h1, h2, -⟩ :=
    (C18_forced_mode exampleDotTiny flaggedAttributes exampleForcedState
      (plainItem 0 Flags.Text 3 512 0) (by decide)).2.1 (by unfold breakAt; decide) (by decide)
  exact ⟨r, h1, h2⟩

/-- Counterexample to C18 as stated: the buffer `"aaa bb"` (one paragraph,
no separator; advance 10, threshold 15).  The split of `"aaa"` enters
forced-split mode at the boundary 2; the finished flush at the space
returns to normal mode, so the scan of `"bb"` runs in normal mode: the
state after the first iteration is in normal mode, no record starts at the
grapheme boundary 5 and the record of `"bb"` is finished. -/
theorem C18_counterexample :
    parse exampleForcedThenNormal [] = some
        { words := [Word.content 0 true 10 0, Word.content 1 true 10 0,
            (Word.content 2 false 10 0).add_rpadding 10, Word.content 4 false 20 0],
          exit := Exit.completed }
      ∧ (iterate exampleForcedThenNormal (spacedAttributes 3 1) 1
            { ParseState.init with tWords := [] }).map
          (fun s => (s.addingEachGrapheme, s.lbh.currentPosition)) = some (false, 3)
      ∧ ((spacedAttributes 3 1) 5).graphemeBoundary = true := by
  refine ⟨by decide, by decide, rfl⟩

/-- C14 at the failing input `"aaaa<NBSP> bc"` (items `"aaaa"`,
`"<NBSP> "`, `"bc"`; advance 512, threshold 2048): the advances are
non-negative, the token `"bc"` has the shaped width 1024, not above the
threshold, and `parse` produces for it the unfinished record at 6, of width
2560: the width 2048 of `"aaaa"`, still in `tmpData` when the space-break
branch is left, is counted into it. -/
theorem C14_short_word_split :
    parse exampleCarrySplit [] = some
        { words := [(Word.content 0 false 2048 0).add_rpadding 1024,
            Word.content 6 true 2560 0, Word.content 7 false 512 0],
          exit := Exit.completed }
      ∧ itemWidth exampleCarrySplit (plainItem 6 Flags.Text 2 512 0) = 1024
      ∧ itemWidth exampleCarrySplit (plainItem 6 Flags.Text 2 512 0)
          ≤ exampleCarrySplit.minResizeWidth
      ∧ (∀ si ∈ exampleCarrySplit.items, ∀ g, 0 ≤ si.glyphs.advances g)
      ∧ isSpaceBreak exampleCarrySplit carrySplitAttributes 5 = true
      ∧ (carrySplitAttributes 6).whiteSpace = false
      ∧ (carrySplitAttributes 7).whiteSpace = false
      ∧ isLineBreak exampleCarrySplit carrySplitAttributes 7 = false := by
  refine ⟨by decide, by decide, by decide, ?_, by decide, by decide, by decide, by decide⟩
  intro si hsi g
  simp only [exampleCarrySplit, List.mem_cons, List.mem_singleton, List.not_mem_nil,
    or_false] at hsi
  rcases hsi with h | h | h <;> rw [h] <;> show (0 : Int) ≤ 512 <;> decide

/-- C19 at the failing input `"a<NBSP> b"` (items `"a"`, `"<NBSP> "`,
`"b"`; advance 512): when the space-break branch is entered for the second
item `tmpData` holds the width 512 of `"a"`; the branch pushes it as the
record at 0 and leaves it in `tmpData`, so the record at 3, whose range
`[3, 4)` has the glyph width 512, gets the width 1024, and the widths and
paddings of the records sum to 2560 for a shaped width of 2048. -/
theorem C19_width_attribution :
    parse exampleCarryText [] = some
        { words := [(Word.content 0 false 512 0).add_rpadding 1024,
            Word.content 3 false 1024 0],
          exit := Exit.completed }
      ∧ ((iterate exampleCarryText carryAttributes 1
              { ParseState.init with tWords := [] }).bind
            (fun s => enterItem exampleCarryText s (plainItem 1 Flags.Text 2 512 0))).map
          (fun s0 => (atSpaceBreak exampleCarryText carryAttributes s0,
            s0.lbh.tmpData.textWidth, s0.wordStart, s0.lbh.currentPosition))
          = some (true, 512, 0, 1)
      ∧ exampleCarryText.items.get? 1 = some (plainItem 1 Flags.Text 2 512 0)
      ∧ itemWidth exampleCarryText (plainItem 3 Flags.Text 1 512 0) = 512
      ∧ shapedWidth exampleCarryText = 2048 := by
  refine ⟨by decide, by decide, rfl, by decide, by decide⟩

/-- A property that every iteration of the main loop keeps holds in every
state that `iterate` reaches. -/
theorem iterate_invariant (e : Engine) (attributes : Nat → QCharAttributes)
    (I : ParseState → Prop)
    (hstep : ∀ s s1 si, I s → e.items.get? s.newItem = some si →
      iteration e attributes s si = some s1 → I s1) :
    ∀ n s t, I s → iterate e attributes n s = some t → I t := by
  intro n
  induction n with
  | zero =>
    intro s t hs h
    simp only [iterate, Option.some.injEq] at h
    rw [← h]; exact hs
  | succ k ih =>
    intro s t hs h
    rw [iterate] at h
    cases hget : e.items.get? s.newItem with
    | none => rw [hget] at h; simp at h
    | some si =>
      rw [hget] at h
      simp only at h
      cases hit : iteration e attributes s si with
      | none => rw [hit] at h; simp at h
      | some s1 =>
        rw [hit] at h
        simp only at h
        exact ih s1 t (hstep s s1 si hs hget hit) h

theorem ordinaryCheck_spaceData (e : Engine) (attributes : Nat → QCharAttributes)
    (s : ParseState) : (ordinaryCheck e attributes s).1.lbh.spaceData = s.lbh.spaceData := by
  have h := ordinaryCheck_case e attributes s
  generalize ordinaryCheck e attributes s = r at h ⊢
  cases h <;> simp

theorem ordinaryLoop_spaceData (e : Engine) (attributes : Nat → QCharAttributes)
    (current : QScriptItem) : ∀ fuel s,
      (ordinaryLoop e attributes current fuel s).lbh.spaceData = s.lbh.spaceData := by
  intro fuel
  induction fuel with
  | zero =>
    intro s
    simp only [ordinaryLoop, ordinaryPass]
    rw [ordinaryCheck_spaceData, afterCluster_spaceData]
  | succ k ih =>
    intro s
    have hp : (ordinaryPass e attributes s current).1.lbh.spaceData = s.lbh.spaceData := by
      unfold ordinaryPass
      rw [ordinaryCheck_spaceData, afterCluster_spaceData]
    simp only [ordinaryLoop]
    split
    · exact hp
    · split
      · rw [ih, hp]
      · exact hp

/-- Between two iterations of the main loop `spaceData` is empty. -/
theorem iteration_spaceData (e : Engine) (attributes : Nat → QCharAttributes)
    (s s1 : ParseState) (si : QScriptItem) (h0 : s.lbh.spaceData = ScriptLine.zero)
    (hit : iteration e attributes s si = some s1) : s1.lbh.spaceData = ScriptLine.zero := by
  unfold iteration at hit
  cases hent : enterItem e s si with
  | none => rw [hent] at hit; simp at hit
  | some s0 =>
    rw [hent] at hit
    simp only [Option.some.injEq] at hit
    have hs0 : s0.lbh.spaceData = ScriptLine.zero := by
      unfold enterItem at hent
      split at hent
      · split at hent
        · simp at hent
        · simp only [Option.some.injEq] at hent
          rw [← hent]; exact h0
      · simp only [Option.some.injEq] at hent
        rw [← hent]; exact h0
    rw [← hit, (nextItemAtEnd_fields _ _).2.1]
    cases hfl : si.flags with
    | LineOrParagraphSeparator =>
      rw [branch_separator e attributes s0 si hfl, separatorBranch_lbh_spaceData, hs0]
    | Object =>
      rw [branch_object e attributes s0 si hfl, objectBranch_lbh_spaceData, hs0]
    | Text =>
      by_cases hsp : atSpaceBreak e attributes s0 = true
      · rw [branch_space e attributes s0 si hfl hsp]
        exact (spaceBranch_fields e attributes s0 si).2.2.2.2.2.2.1
      · rw [branch_ordinary e attributes s0 si hfl hsp]
        unfold ordinaryBranch
        rw [ordinaryLoop_spaceData]
        exact hs0

theorem bounds_init (e : Engine) (hwf : e.WellFormed) :
    Bounds e { ParseState.init with tWords := [] } := by
  have h0 := hwf.1
  have hne : ((0 : Nat) : Int) ≠ (-1 : Int) := by omega
  refine ⟨Nat.zero_le _, ?_, ?_⟩
  · intro h; exact absurd h hne
  · intro _; exact h0.symm

/-- The block `if (newItem != item)` under `Bounds`: the cursor is inside
the item, at the offset the loop had reached. -/
theorem enterItem_bounds (e : Engine) (hwf : e.WellFormed) (s s0 : ParseState)
    (si : QScriptItem) (hinv : Bounds e s) (hget : e.items.get? s.newItem = some si)
    (hent : enterItem e s si = some s0) :
    si.position ≤ s0.lbh.currentPosition ∧ s0.lbh.currentPosition < s0.end_
      ∧ s0.end_ = e.startOf (s.newItem + 1) ∧ s0.end_ ≤ e.size
      ∧ s0.newItem = s.newItem ∧ s0.item = (s.newItem : Int)
      ∧ s0.lbh.currentPosition = s.cursor := by
  have hlen : s.newItem < e.items.length := by
    by_contra hc
    have : e.items.get? s.newItem = none := List.get?_eq_none.2 (by omega)
    rw [this] at hget; simp at hget
  have hpos := e.startOf_of_get hget
  have hstep := hwf.2 s.newItem hlen
  have hle := Engine.WellFormed.le_size e hwf (s.newItem + 1)
  unfold enterItem at hent
  by_cases hne : (s.newItem : Int) ≠ s.item
  · rw [if_pos hne] at hent
    split at hent
    · simp at hent
    · simp only [Option.some.injEq] at hent
      subst hent
      have hend := e.end_eq s.newItem si
      have hcur : s.cursor = si.position := by
        simp only [ParseState.cursor, if_neg hne]
        rw [hinv.other hne, hpos]
      simp only
      refine ⟨le_refl _, ?_, hend, ?_, trivial, trivial, hcur.symm⟩
      · rw [hend]; omega
      · rw [hend]; exact hle
  · rw [if_neg hne] at hent
    simp only [Option.some.injEq] at hent
    subst hent
    have heq : (s.newItem : Int) = s.item := by simpa using hne
    obtain ⟨h1, h2, h3, -⟩ := hinv.same heq
    have hcur : s.cursor = s.lbh.currentPosition := by
      simp only [ParseState.cursor, if_pos heq]
    refine ⟨by omega, h2, h3, by omega, rfl, heq.symm, hcur.symm⟩

/-- The `do … while` of the ordinary branch moves the cursor forward, not
beyond the end of the item. -/
theorem ordinaryLoop_cur (e : Engine) (attributes : Nat → QCharAttributes)
    (current : QScriptItem) (fuel : Nat) (s : ParseState)
    (hlt : s.lbh.currentPosition < s.end_)
    (hfuel : s.end_ - s.lbh.currentPosition ≤ fuel + 1) :
    s.lbh.currentPosition < (ordinaryLoop e attributes current fuel s).lbh.currentPosition
      ∧ (ordinaryLoop e attributes current fuel s).lbh.currentPosition ≤ s.end_ := by
  obtain ⟨t, -, htlt, htend, htcur, -, -, -, hres, -⟩ :=
    ordinaryLoop_exit e attributes current (fun _ => True) (fun _ _ _ _ _ => trivial)
      fuel s trivial hlt hfuel
  rw [hres]
  have h1 := ordinaryPass_cur_gt e attributes t current
  have h2 := ordinaryPass_cur_le e attributes t current htlt
  exact ⟨by omega, by omega⟩

/-- One iteration of the main loop under `Bounds`: the chain of branches
leaves the cursor between where it was and the end of the item, `end`
unchanged; the cursor has moved forward or the loop goes on to the next
item; `Bounds` holds again and the offset at which the loop works has
grown. -/
theorem branch_bounds (e : Engine) (hwf : e.WellFormed)
    (attributes : Nat → QCharAttributes) (s s0 : ParseState) (si : QScriptItem)
    (hinv : Bounds e s) (hget : e.items.get? s.newItem = some si)
    (hent : enterItem e s si = some s0) :
    s0.lbh.currentPosition
        ≤ ((branch e attributes s0 si).nextItemAtEnd s0.newItem).lbh.currentPosition
      ∧ ((branch e attributes s0 si).nextItemAtEnd s0.newItem).lbh.currentPosition ≤ s0.end_
      ∧ ((branch e attributes s0 si).nextItemAtEnd s0.newItem).end_ = s0.end_
      ∧ (s0.lbh.currentPosition
            < ((branch e attributes s0 si).nextItemAtEnd s0.newItem).lbh.currentPosition
          ∨ ((branch e attributes s0 si).nextItemAtEnd s0.newItem).newItem = s.newItem + 1)
      ∧ (((branch e attributes s0 si).nextItemAtEnd s0.newItem).newItem = s.newItem
          ∨ ((branch e attributes s0 si).nextItemAtEnd s0.newItem).newItem = s.newItem + 1)
      ∧ Bounds e ((branch e attributes s0 si).nextItemAtEnd s0.newItem)
      ∧ s.cursor < ((branch e attributes s0 si).nextItemAtEnd s0.newItem).cursor := by
  have hlen : s.newItem < e.items.length := by
    by_contra hc
    have : e.items.get? s.newItem = none := List.get?_eq_none.2 (by omega)
    rw [this] at hget; simp at hget
  obtain ⟨hpos, hlt, hend, hle, hni, hitem, hcur⟩ :=
    enterItem_bounds e hwf s s0 si hinv hget hent
  have hstart := e.startOf_of_get hget
  -- a branch that leaves `newItem = item + 1` with the cursor where it was
  have hleave : ∀ x : ParseState, x.lbh.currentPosition = s0.lbh.currentPosition →
      x.end_ = s0.end_ → x.item = s0.item → x.newItem = s0.newItem + 1 →
      s0.lbh.currentPosition ≤ (x.nextItemAtEnd s0.newItem).lbh.currentPosition
        ∧ (x.nextItemAtEnd s0.newItem).lbh.currentPosition ≤ s0.end_
        ∧ (x.nextItemAtEnd s0.newItem).end_ = s0.end_
        ∧ (s0.lbh.currentPosition < (x.nextItemAtEnd s0.newItem).lbh.currentPosition
            ∨ (x.nextItemAtEnd s0.newItem).newItem = s.newItem + 1)
        ∧ ((x.nextItemAtEnd s0.newItem).newItem = s.newItem
            ∨ (x.nextItemAtEnd s0.newItem).newItem = s.newItem + 1)
        ∧ Bounds e (x.nextItemAtEnd s0.newItem)
        ∧ s.cursor < (x.nextItemAtEnd s0.newItem).cursor := by
    intro x hx1 hx2 hx3 hx4
    obtain ⟨-, g2, g3, g4, -, -, -, -, g9, g10⟩ := nextItemAtEnd_fields x s0.newItem
    have hne : x.lbh.currentPosition ≠ x.end_ := by rw [hx1, hx2]; omega
    have hn := g10 hne
    have hn1 : (x.nextItemAtEnd s0.newItem).newItem = s.newItem + 1 := by
      rw [hn, hx4, hni]
    have hi1 : (x.nextItemAtEnd s0.newItem).item = (s.newItem : Int) := by
      rw [g3, hx3, hitem]
    have hdiff : ((x.nextItemAtEnd s0.newItem).newItem : Int)
        ≠ (x.nextItemAtEnd s0.newItem).item := by
      rw [hn1, hi1]; push_cast; omega
    have hc1 : (x.nextItemAtEnd s0.newItem).cursor = s0.end_ := by
      simp only [ParseState.cursor, if_neg hdiff]
      rw [g4, hx2]
    refine ⟨by rw [g2, hx1], by rw [g2, hx1]; omega, by rw [g4, hx2], Or.inr hn1,
      Or.inr hn1, ⟨by rw [hn1]; omega, fun h => absurd h hdiff, fun _ => ?_⟩,
      by rw [hc1, ← hcur]; exact hlt⟩
    rw [g4, hx2, hend, hn1]
  -- a branch of a text item: the cursor has moved forward inside the item
  have hstay : ∀ x : ParseState, s0.lbh.currentPosition < x.lbh.currentPosition →
      x.lbh.currentPosition ≤ s0.end_ →
      x.end_ = s0.end_ → x.item = s0.item → x.newItem = s0.newItem →
      s0.lbh.currentPosition ≤ (x.nextItemAtEnd s0.newItem).lbh.currentPosition
        ∧ (x.nextItemAtEnd s0.newItem).lbh.currentPosition ≤ s0.end_
        ∧ (x.nextItemAtEnd s0.newItem).end_ = s0.end_
        ∧ (s0.lbh.currentPosition < (x.nextItemAtEnd s0.newItem).lbh.currentPosition
            ∨ (x.nextItemAtEnd s0.newItem).newItem = s.newItem + 1)
        ∧ ((x.nextItemAtEnd s0.newItem).newItem = s.newItem
            ∨ (x.nextItemAtEnd s0.newItem).newItem = s.newItem + 1)
        ∧ Bounds e (x.nextItemAtEnd s0.newItem)
        ∧ s.cursor < (x.nextItemAtEnd s0.newItem).cursor := by
    intro x hx0 hx1 hx2 hx3 hx4
    obtain ⟨-, g2, g3, g4, -, -, -, -, g9, g10⟩ := nextItemAtEnd_fields x s0.newItem
    have hi1 : (x.nextItemAtEnd s0.newItem).item = (s.newItem : Int) := by
      rw [g3, hx3, hitem]
    by_cases hat : x.lbh.currentPosition = x.end_
    · have hn1 : (x.nextItemAtEnd s0.newItem).newItem = s.newItem + 1 := by
        rw [g9 hat, hni]
      have hdiff : ((x.nextItemAtEnd s0.newItem).newItem : Int)
          ≠ (x.nextItemAtEnd s0.newItem).item := by
        rw [hn1, hi1]; push_cast; omega
      have hc1 : (x.nextItemAtEnd s0.newItem).cursor = s0.end_ := by
        simp only [ParseState.cursor, if_neg hdiff]
        rw [g4, hx2]
      refine ⟨by rw [g2]; omega, by rw [g2]; exact hx1, by rw [g4, hx2],
        Or.inl (by rw [g2]; exact hx0), Or.inr hn1,
        ⟨by rw [hn1]; omega, fun h => absurd h hdiff, fun _ => ?_⟩,
        by rw [hc1, ← hcur]; exact hlt⟩
      rw [g4, hx2, hend, hn1]
    · have hn1 : (x.nextItemAtEnd s0.newItem).newItem = s.newItem := by
        rw [g10 hat, hx4, hni]
      have hsame : ((x.nextItemAtEnd s0.newItem).newItem : Int)
          = (x.nextItemAtEnd s0.newItem).item := by
        rw [hn1, hi1]
      have hc1 : (x.nextItemAtEnd s0.newItem).cursor = x.lbh.currentPosition := by
        simp only [ParseState.cursor, if_pos hsame]
        rw [g2]
      have hlt2 : x.lbh.currentPosition < s0.end_ := by
        rw [hx2] at hat; omega
      refine ⟨by rw [g2]; omega, by rw [g2]; exact hx1, by rw [g4, hx2],
        Or.inl (by rw [g2]; exact hx0), Or.inl hn1,
        ⟨by rw [hn1]; omega, fun _ => ?_, fun h => absurd hsame h⟩,
        by rw [hc1, ← hcur]; exact hx0⟩
      rw [g2, g4, hx2, hn1, hstart]
      exact ⟨by omega, hlt2, hend, hlen⟩
  cases hfl : si.flags with
  | LineOrParagraphSeparator =>
    rw [branch_separator e attributes s0 si hfl]
    exact hleave _ (by simp) (by simp) (by simp) (by simp)
  | Object =>
    rw [branch_object e attributes s0 si hfl]
    exact hleave _ (by simp) (by simp) (by simp) (by simp)
  | Text =>
    by_cases hsp : atSpaceBreak e attributes s0 = true
    · rw [branch_space e attributes s0 si hfl hsp]
      obtain ⟨-, hws⟩ := atSpaceBreakFrom_true e attributes s0.end_ _ _ hsp
      obtain ⟨q1, q2, -⟩ := spaceScan_cur e attributes s0 si hlt hws
      obtain ⟨f1, f2, f3, f4, -⟩ := spaceBranch_fields e attributes s0 si
      exact hstay _ (by rw [f4]; exact q1) (by rw [f4]; exact q2) f2 f1 f3
    · rw [branch_ordinary e attributes s0 si hfl hsp]
      obtain ⟨f1, f2, f3, -⟩ := ordinaryLoop_fields e attributes si
        (s0.end_ - s0.lbh.currentPosition - 1)
        { s0 with lbh := { s0.lbh with whiteSpaceOrObject := false } }
      obtain ⟨q1, q2⟩ := ordinaryLoop_cur e attributes si
        (s0.end_ - s0.lbh.currentPosition - 1)
        { s0 with lbh := { s0.lbh with whiteSpaceOrObject := false } } hlt
        (by simp only; omega)
      exact hstay _ q1 q2 f3 f1 f2

theorem iteration_bounds (e : Engine) (hwf : e.WellFormed)
    (attributes : Nat → QCharAttributes) (s s1 : ParseState) (si : QScriptItem)
    (hinv : Bounds e s) (hget : e.items.get? s.newItem = some si)
    (hit : iteration e attributes s si = some s1) :
    Bounds e s1 ∧ s.cursor < s1.cursor := by
  unfold iteration at hit
  cases hent : enterItem e s si with
  | none => rw [hent] at hit; simp at hit
  | some s0 =>
    rw [hent] at hit
    simp only [Option.some.injEq] at hit
    obtain ⟨-, -, -, -, -, h6, h7⟩ := branch_bounds e hwf attributes s s0 si hinv hget hent
    rw [← hit]
    exact ⟨h6, h7⟩

theorem bounds_cursor_le (e : Engine) (hwf : e.WellFormed) (s : ParseState)
    (h : Bounds e s) : s.cursor ≤ e.size := by
  unfold ParseState.cursor
  split
  · rename_i heq
    obtain ⟨-, h1, h2, -⟩ := h.same heq
    have := Engine.WellFormed.le_size e hwf (s.newItem + 1)
    omega
  · rename_i hne
    rw [h.other hne]
    exact Engine.WellFormed.le_size e hwf s.newItem

/-- With well-formed items the main loop ends within `size - cursor`
iterations, whatever the size of the buffer. -/
theorem parseLoop_total (e : Engine) (hwf : e.WellFormed)
    (attributes : Nat → QCharAttributes) :
    ∀ fuel s, Bounds e s → e.size - s.cursor ≤ fuel →
      ∃ o, parseLoop e attributes fuel s = some o := by
  intro fuel
  induction fuel with
  | zero =>
    intro s hinv hfuel
    unfold parseLoop
    cases hget : e.items.get? s.newItem with
    | none => exact ⟨_, rfl⟩
    | some si =>
      exfalso
      have hlen : s.newItem < e.items.length := by
        by_contra hc
        have : e.items.get? s.newItem = none := List.get?_eq_none.2 (by omega)
        rw [this] at hget; simp at hget
      have hle1 := Engine.WellFormed.le_size e hwf (s.newItem + 1)
      have hstep := hwf.2 s.newItem hlen
      by_cases heq : (s.newItem : Int) = s.item
      · obtain ⟨-, h1, h2, -⟩ := hinv.same heq
        have : s.cursor = s.lbh.currentPosition := by simp [ParseState.cursor, heq]
        omega
      · have h2 := hinv.other heq
        have : s.cursor = s.end_ := by simp [ParseState.cursor, heq]
        omega
  | succ k ih =>
    intro s hinv hfuel
    unfold parseLoop
    cases hget : e.items.get? s.newItem with
    | none => exact ⟨_, rfl⟩
    | some si =>
      simp only
      cases hit : iteration e attributes s si with
      | none => exact ⟨_, rfl⟩
      | some s1 =>
        obtain ⟨h1, h2⟩ := iteration_bounds e hwf attributes s s1 si hinv hget hit
        exact ih s1 h1 (by omega)

/-- With well-formed items `parse` returns, whatever the size of the
buffer. -/
theorem parse_total (e : Engine) (hwf : e.WellFormed) (tWords : List Word) :
    ∃ o, parse e tWords = some o := by
  unfold parse
  simp only [List.drop_length]
  split
  · exact ⟨_, rfl⟩
  · cases hattr : e.attributes with
    | none => exact ⟨_, rfl⟩
    | some attributes =>
      simp only
      have hb := iterationBound_ge_size e hwf
      exact parseLoop_total e hwf attributes _ _ (bounds_init e hwf)
        (by omega)

/-- C20.  For every input whose shaping items are non-empty and contiguous
(`WellFormed`; nothing is asked of the cluster maps or of the size):
`parse` returns, its main loop ending within the iterations counted by
`iterationBound`; in every state the loop reaches, once the item is
entered the cursor is inside it, `item start ≤ currentPosition < end`
with `end` the start of the next item, not beyond the buffer; the
iteration leaves the cursor at or after that offset and not beyond `end`,
and it has moved the cursor forward or goes on to the next item.  Inside
an iteration, the `do … while` of the ordinary branch and the `while` of
the space-break branch, entered with `currentPosition < end`, move the
cursor forward and not beyond `end`, and they end by their own exit tests
(`break` or `currentPosition = end`; `currentPosition = end` or no white
space at the cursor).  So the offsets at which `attributes` and
`logClusters` are read (at or after the cursor and below `end`; the cursor
itself when it is below the size; `currentPosition - 1` when
`currentPosition > 0`) are inside the buffer. -/
theorem C20_termination_bounds (e : Engine) (hwf : e.WellFormed) (tWords : List Word) :
    (∃ o, parse e tWords = some o)
      ∧ (∀ (attributes : Nat → QCharAttributes) (n : Nat) (s s0 : ParseState)
          (si : QScriptItem),
          iterate e attributes n { ParseState.init with tWords := [] } = some s →
          e.items.get? s.newItem = some si → enterItem e s si = some s0 →
          si.position ≤ s0.lbh.currentPosition ∧ s0.lbh.currentPosition < s0.end_
            ∧ s0.end_ = e.startOf (s.newItem + 1) ∧ s0.end_ ≤ e.size
            ∧ s0.lbh.currentPosition
                ≤ ((branch e attributes s0 si).nextItemAtEnd s0.newItem).lbh.currentPosition
            ∧ ((branch e attributes s0 si).nextItemAtEnd s0.newItem).lbh.currentPosition
                ≤ s0.end_
            ∧ ((branch e attributes s0 si).nextItemAtEnd s0.newItem).end_ = s0.end_
            ∧ (s0.lbh.currentPosition
                  < ((branch e attributes s0 si).nextItemAtEnd s0.newItem).lbh.currentPosition
                ∨ ((branch e attributes s0 si).nextItemAtEnd s0.newItem).newItem
                    = s.newItem + 1))
      ∧ (∀ (attributes : Nat → QCharAttributes) (x : ParseState) (current : QScriptItem),
          x.lbh.currentPosition < x.end_ →
          x.lbh.currentPosition < (ordinaryBranch e attributes x current).lbh.currentPosition
            ∧ (ordinaryBranch e attributes x current).lbh.currentPosition ≤ x.end_
            ∧ ∃ t, x.lbh.currentPosition ≤ t.lbh.currentPosition
                ∧ t.lbh.currentPosition < t.end_ ∧ t.end_ = x.end_
                ∧ ordinaryBranch e attributes x current
                    = (ordinaryPass e attributes t current).1
                ∧ ((ordinaryPass e attributes t current).2 = true
                  ∨ (ordinaryPass e attributes t current).1.lbh.currentPosition = t.end_))
      ∧ (∀ (attributes : Nat → QCharAttributes) (x : ParseState) (current : QScriptItem),
          x.lbh.currentPosition < x.end_ →
          (attributes x.lbh.currentPosition).whiteSpace = true →
          x.lbh.currentPosition < (spaceScan e attributes x current).currentPosition
            ∧ (spaceScan e attributes x current).currentPosition ≤ x.end_
            ∧ ¬ ((spaceScan e attributes x current).currentPosition < x.end_
              ∧ (attributes (spaceScan e attributes x current).currentPosition).whiteSpace
                  = true)) := by
  refine ⟨parse_total e hwf tWords, ?_, ?_, ?_⟩
  · intro attributes n s s0 si hreach hget hent
    have hinv : Bounds e s :=
      iterate_invariant e attributes (fun x => Bounds e x)
        (fun x x1 sj hx hg hx1 => (iteration_bounds e hwf attributes x x1 sj hx hg hx1).1)
        n _ s (bounds_init e hwf) hreach
    obtain ⟨h1, h2, h3, h4, -⟩ := enterItem_bounds e hwf s s0 si hinv hget hent
    obtain ⟨g1, g2, g3, g4, -⟩ := branch_bounds e hwf attributes s s0 si hinv hget hent
    exact ⟨h1, h2, h3, h4, g1, g2, g3, g4⟩
  · intro attributes x current hlt
    obtain ⟨t, -, htlt, htend, htcur, -, -, -, hres, hex⟩ :=
      ordinaryLoop_exit e attributes current (fun _ => True) (fun _ _ _ _ _ => trivial)
        (x.end_ - x.lbh.currentPosition - 1)
        { x with lbh := { x.lbh with whiteSpaceOrObject := false } } trivial hlt
        (by simp only; omega)
    obtain ⟨q1, q2⟩ := ordinaryLoop_cur e attributes current
      (x.end_ - x.lbh.currentPosition - 1)
      { x with lbh := { x.lbh with whiteSpaceOrObject := false } } hlt
      (by simp only; omega)
    exact ⟨q1, q2, t, htcur, htlt, htend, hres, hex⟩
  · intro attributes x current hlt hws
    exact spaceScan_cur e attributes x current hlt hws

/-- Witness of `C20_termination_bounds`: `parse` returns on the buffer
`"ab cd"`, whose single item is well formed. -/
theorem C20_termination_bounds_witness :
    exampleAbCd.WellFormed ∧ ∃ o, parse exampleAbCd [] = some o :=
  ⟨by decide, (C20_termination_bounds exampleAbCd (by decide) []).1⟩

theorem startOf_mono (e : Engine) (hwf : e.WellFormed) (i : Nat) :
    ∀ j, i ≤ j → e.startOf i ≤ e.startOf j := by
  intro j hij
  induction j, hij using Nat.le_induction with
  | base => exact le_refl _
  | succ j hij ih =>
    by_cases hj : j < e.items.length
    · have := hwf.2 j hj
      omega
    · rw [e.startOf_of_length_le (show e.items.length ≤ j + 1 by omega)]
      exact Engine.WellFormed.le_size e hwf i

/-- An offset lies in one item only. -/
theorem item_unique (e : Engine) (hwf : e.WellFormed) (i j q : Nat)
    (hi1 : e.startOf i ≤ q) (hi2 : q < e.startOf (i + 1))
    (hj1 : e.startOf j ≤ q) (hj2 : q < e.startOf (j + 1)) : i = j := by
  rcases Nat.lt_trichotomy i j with h | h | h
  · have := startOf_mono e hwf (i + 1) j (by omega)
    omega
  · exact h
  · have := startOf_mono e hwf (j + 1) i (by omega)
    omega

theorem exceeded_mono (e : Engine) (attributes : Nat → QCharAttributes) (c c1 : Nat)
    (h : c ≤ c1) (hx : Exceeded e attributes c) : Exceeded e attributes c1 := by
  obtain ⟨k, si, q, h1, h2, h3, h4, h5, h6⟩ := hx
  exact ⟨k, si, q, h1, h2, h3, h4, by omega, h6⟩

theorem sumWidths_append (a b : List Word) : sumWidths (a ++ b) = sumWidths a + sumWidths b := by
  simp [sumWidths]

theorem sumWidths_content (p : Nat) (u : Bool) (w r : Int) :
    sumWidths [Word.content p u w r] = w := by
  simp [sumWidths, Word.content]

/-- The check of a pass of the ordinary branch at a cursor that is neither
the end of the text nor a break keeps `TokenInv`. -/
theorem check_token (e : Engine) (attributes : Nat → QCharAttributes) (y : ParseState)
    (c0 : Nat) (w : Int) (hinv : TokenInv e attributes y c0 w)
    (hc0 : c0 ≤ y.lbh.currentPosition) (hb : ¬ breakAt e attributes y)
    (hnew : y.addingEachGrapheme = false →
      ((attributes y.lbh.currentPosition).graphemeBoundary = true →
        w ≤ e.minResizeWidth) → ¬ Exceeded e attributes y.lbh.currentPosition)
    (hexc : (attributes y.lbh.currentPosition).graphemeBoundary = true →
      e.minResizeWidth < w → Exceeded e attributes y.lbh.currentPosition) :
    TokenInv e attributes (ordinaryCheck e attributes y).1 y.lbh.currentPosition w
      ∧ (ordinaryCheck e attributes y).2 = false := by
  have hlt : y.lbh.currentPosition < e.size := by
    unfold breakAt at hb
    by_contra hc
    exact hb (Or.inl (by omega))
  have h := ordinaryCheck_case e attributes y
  generalize ordinaryCheck e attributes y = r at h ⊢
  have hw := hinv.width
  have hmono : y.addingEachGrapheme = true →
      Exceeded e attributes y.lbh.currentPosition := fun ha =>
    exceeded_mono e attributes c0 _ hc0 (hinv.forced ha).2
  have hsplit : y.addingEachGrapheme = false →
      (attributes y.lbh.currentPosition).graphemeBoundary = true →
      e.minResizeWidth < y.lbh.tmpData.textWidth →
      Exceeded e attributes y.lbh.currentPosition := by
    intro ha hgb hthr
    have h0 := (hinv.normal ha).1
    have hsum : sumWidths y.tWords = 0 := by rw [h0]; rfl
    exact hexc hgb (by omega)
  cases h with
  | finished hb2 => exact absurd hb2 hb
  | retro _ hgb ha hthr hq =>
    obtain ⟨hq1, hq2⟩ := hinv.remembered hq
    refine ⟨⟨?_, ?_, ?_, ?_, ?_, ?_, ?_⟩, rfl⟩
    · rw [flushUnfinished_tWords, forced_tWords, retroCut_tWords]
      simp only [pushUnfinishedWord, sumWidths_append, sumWidths_content,
        flushUnfinished_lbh_tmpData, forced_lbh, retroCut_lbh_tmpData, ScriptLine.zero]
      omega
    · intro x hx
      rw [flushUnfinished_tWords, forced_tWords, retroCut_tWords] at hx
      simp only [pushUnfinishedWord, List.mem_append, List.mem_singleton] at hx
      rcases hx with (hx | hx) | hx
      · exact hinv.unfinished x hx
      · rw [hx]; exact ⟨rfl, rfl⟩
      · rw [hx]; exact ⟨rfl, rfl⟩
    · intro x hx
      rw [flushUnfinished_tWords, forced_tWords, retroCut_tWords] at hx
      simp only [pushUnfinishedWord, List.mem_append, List.mem_singleton] at hx
      rcases hx with (hx | hx) | hx
      · exact hinv.starts x hx
      · rw [hx]; exact ⟨y.wordStart, rfl, hinv.wordStart⟩
      · rw [hx]
        refine ⟨_, rfl, Or.inr ?_⟩
        simp only [forced_wordStart, retroCut_wordStart]
        exact ⟨hq1, hq2⟩
    · simp only [flushUnfinished_wordStart, forced_lbh, retroCut_lbh_currentPosition]
      exact Or.inr ⟨hlt, hgb⟩
    · simp only [flushUnfinished_lastGraphemeBoundaryPosition,
        forced_lastGraphemeBoundaryPosition, retroCut_lastGraphemeBoundaryPosition]
      exact hinv.remembered
    · intro h; simp at h
    · intro _
      refine ⟨?_, hsplit ha hgb hthr⟩
      rw [flushUnfinished_tWords]
      simp [pushUnfinishedWord]
  | forcedNow _ hgb ha hthr hq =>
    refine ⟨⟨?_, ?_, ?_, ?_, ?_, ?_, ?_⟩, rfl⟩
    · rw [flushUnfinished_tWords, forced_tWords]
      simp only [pushUnfinishedWord, sumWidths_append, sumWidths_content,
        flushUnfinished_lbh_tmpData, forced_lbh, ScriptLine.zero]
      omega
    · intro x hx
      rw [flushUnfinished_tWords, forced_tWords] at hx
      simp only [pushUnfinishedWord, List.mem_append, List.mem_singleton] at hx
      rcases hx with hx | hx
      · exact hinv.unfinished x hx
      · rw [hx]; exact ⟨rfl, rfl⟩
    · intro x hx
      rw [flushUnfinished_tWords, forced_tWords] at hx
      simp only [pushUnfinishedWord, List.mem_append, List.mem_singleton] at hx
      rcases hx with hx | hx
      · exact hinv.starts x hx
      · rw [hx]; exact ⟨y.wordStart, rfl, hinv.wordStart⟩
    · simp only [flushUnfinished_wordStart, forced_lbh]
      exact Or.inr ⟨hlt, hgb⟩
    · simp only [flushUnfinished_lastGraphemeBoundaryPosition,
        forced_lastGraphemeBoundaryPosition]
      exact hinv.remembered
    · intro h; simp at h
    · intro _
      refine ⟨?_, hsplit ha hgb hthr⟩
      rw [flushUnfinished_tWords]
      simp [pushUnfinishedWord]
  | forced _ hgb ha =>
    refine ⟨⟨?_, ?_, ?_, ?_, ?_, ?_, ?_⟩, rfl⟩
    · rw [flushUnfinished_tWords]
      simp only [pushUnfinishedWord, sumWidths_append, sumWidths_content,
        flushUnfinished_lbh_tmpData, ScriptLine.zero]
      omega
    · intro x hx
      rw [flushUnfinished_tWords] at hx
      simp only [pushUnfinishedWord, List.mem_append, List.mem_singleton] at hx
      rcases hx with hx | hx
      · exact hinv.unfinished x hx
      · rw [hx]; exact ⟨rfl, rfl⟩
    · intro x hx
      rw [flushUnfinished_tWords] at hx
      simp only [pushUnfinishedWord, List.mem_append, List.mem_singleton] at hx
      rcases hx with hx | hx
      · exact hinv.starts x hx
      · rw [hx]; exact ⟨y.wordStart, rfl, hinv.wordStart⟩
    · simp only [flushUnfinished_wordStart]
      exact Or.inr ⟨hlt, hgb⟩
    · simp only [flushUnfinished_lastGraphemeBoundaryPosition]
      exact hinv.remembered
    · intro h; simp [ha] at h
    · intro _
      refine ⟨?_, hmono ha⟩
      rw [flushUnfinished_tWords]
      simp [pushUnfinishedWord]
  | remember _ hgb ha hthr =>
    refine ⟨⟨?_, ?_, ?_, ?_, ?_, ?_, ?_⟩, rfl⟩
    · simpa using hw
    · simpa using hinv.unfinished
    · simpa using hinv.starts
    · simpa using hinv.wordStart
    · intro _
      simp only [rememberBoundary_lastGraphemeBoundaryPosition, Int.toNat_ofNat]
      exact ⟨hlt, hgb⟩
    · intro _
      have h0 := (hinv.normal ha).1
      have hsum : sumWidths y.tWords = 0 := by rw [h0]; rfl
      refine ⟨by simpa using h0, hnew ha (fun _ => by omega)⟩
    · intro h; simp [ha] at h
  | skip _ hgb =>
    refine ⟨⟨hw, hinv.unfinished, hinv.starts, hinv.wordStart, hinv.remembered, ?_,
      fun ha => ⟨(hinv.forced ha).1, hmono ha⟩⟩, rfl⟩
    intro ha
    exact ⟨(hinv.normal ha).1, hnew ha (fun h => by rw [hgb] at h; simp at h)⟩

theorem get_of_lt (e : Engine) (k : Nat) (h : k < e.items.length) :
    ∃ si, e.items.get? k = some si := by
  cases hg : e.items.get? k with
  | none =>
    have := List.get?_eq_none.1 hg
    omega
  | some si => exact ⟨si, rfl⟩

theorem lt_of_get (e : Engine) (k : Nat) (si : QScriptItem)
    (h : e.items.get? k = some si) : k < e.items.length := by
  by_contra hc
  have : e.items.get? k = none := List.get?_eq_none.2 (by omega)
  rw [this] at h; simp at h

/-- The shaped width up to the end of item `k` is the width of the items
up to `k`. -/
theorem widthAt_end (e : Engine) (k : Nat) (si : QScriptItem)
    (hget : e.items.get? k = some si) :
    widthAt e k si (e.startOf (k + 1)) = itemsWidth e (e.items.take (k + 1)) := by
  unfold widthAt
  rw [glyphAt_end, take_succ_of_get e.items k si hget, itemsWidth_append]
  simp [itemsWidth, itemWidth]

/-- The shaped width up to the start of item `k` is the width of the items
before `k`. -/
theorem widthAt_start (e : Engine) (hwf : e.WellFormed) (k : Nat) (si : QScriptItem)
    (hget : e.items.get? k = some si) :
    widthAt e k si si.position = itemsWidth e (e.items.take k) := by
  have hlt := hwf.2 k (lt_of_get e k si hget)
  rw [e.startOf_of_get hget] at hlt
  unfold widthAt glyphAt
  rw [if_pos hlt, glyphsWidth_self, add_zero]

/-- The call of `addNextCluster` that opens a pass of the ordinary branch,
in the scan of a buffer that is one unbroken token. -/
theorem token_cluster (e : Engine) (attributes : Nat → QCharAttributes)
    (hwf : e.WellFormed) (k : Nat) (si : QScriptItem)
    (hget : e.items.get? k = some si)
    (hok : ClusterMapOk e.logClusters si.glyphs si.currentNumGlyphs si.position
      (e.startOf (k + 1)))
    (x : ParseState) (hG : x.lbh.glyphs = si.glyphs) (hend : x.end_ = e.startOf (k + 1))
    (hax : si.position ≤ x.lbh.currentPosition) (hlt : x.lbh.currentPosition < x.end_)
    (hinv : TokenInv e attributes x x.lbh.currentPosition
      (widthAt e k si x.lbh.currentPosition)) :
    x.lbh.currentPosition < (x.afterCluster e si).lbh.currentPosition
      ∧ (x.afterCluster e si).lbh.currentPosition ≤ e.startOf (k + 1)
      ∧ TokenInv e attributes (x.afterCluster e si) x.lbh.currentPosition
          (widthAt e k si (x.afterCluster e si).lbh.currentPosition)
      ∧ ((x.afterCluster e si).addingEachGrapheme = false →
          ((x.afterCluster e si).lbh.currentPosition < e.size →
            (attributes (x.afterCluster e si).lbh.currentPosition).graphemeBoundary = true →
            widthAt e k si (x.afterCluster e si).lbh.currentPosition ≤ e.minResizeWidth) →
          ¬ Exceeded e attributes (x.afterCluster e si).lbh.currentPosition)
      ∧ ((x.afterCluster e si).lbh.currentPosition < e.size →
          (attributes (x.afterCluster e si).lbh.currentPosition).graphemeBoundary = true →
          e.minResizeWidth < widthAt e k si (x.afterCluster e si).lbh.currentPosition →
          Exceeded e attributes (x.afterCluster e si).lbh.currentPosition) := by
  have hklen := lt_of_get e k si hget
  have hstart : e.startOf k = si.position := e.startOf_of_get hget
  have hle := Engine.WellFormed.le_size e hwf (k + 1)
  rw [hend] at hlt
  obtain ⟨h1, h2, h3, h4, -, h6, -, -⟩ := addNextCluster_spec e.logClusters si.glyphs
    si.currentNumGlyphs si.position (e.startOf (k + 1)) hok x.lbh.currentPosition hax hlt
    x.lbh.tmpData x.lbh.glyphCount
  have hcur : (x.afterCluster e si).lbh.currentPosition
      = (addNextCluster x.lbh.currentPosition (e.startOf (k + 1)) x.lbh.tmpData
          x.lbh.glyphCount si.currentNumGlyphs e.logClusters si.glyphs).pos := by
    rw [afterCluster_cur, hend, hG]
  have htmp : (x.afterCluster e si).lbh.tmpData
      = (addNextCluster x.lbh.currentPosition (e.startOf (k + 1)) x.lbh.tmpData
          x.lbh.glyphCount si.currentNumGlyphs e.logClusters si.glyphs).line := by
    rw [afterCluster_tmpData, hend, hG]
  rw [← hcur] at h1 h2 h3 h4 h6
  rw [← htmp] at h6
  generalize (x.afterCluster e si).lbh.currentPosition = c1 at h1 h2 h3 h4 h6 ⊢
  -- the width measured up to the new cursor
  have hwidth : widthAt e k si c1
      = widthAt e k si x.lbh.currentPosition
        + glyphsWidth si.glyphs (e.logClusters x.lbh.currentPosition)
            (glyphAt e.logClusters si.currentNumGlyphs (e.startOf (k + 1)) c1) := by
    have hm1 := hok.mono si.position x.lbh.currentPosition (le_refl _) hax hlt
    have hm2 : e.logClusters x.lbh.currentPosition
        ≤ glyphAt e.logClusters si.currentNumGlyphs (e.startOf (k + 1)) c1 := by
      unfold glyphAt
      split
      · rename_i hc
        exact hok.mono _ _ hax (by omega) hc
      · exact le_of_lt (hok.lt _ hax hlt)
    have hadd := glyphsWidth_add si.glyphs _ _ hm1 _ hm2
    unfold widthAt
    have hg : glyphAt e.logClusters si.currentNumGlyphs (e.startOf (k + 1))
        x.lbh.currentPosition = e.logClusters x.lbh.currentPosition := by
      unfold glyphAt; rw [if_pos hlt]
    rw [hg, ← hadd, add_assoc]
  -- the width at the start of the next item
  have hnext : c1 = e.startOf (k + 1) → c1 < e.size →
      ∃ sj, e.items.get? (k + 1) = some sj ∧ sj.position = c1
        ∧ c1 < e.startOf (k + 1 + 1) ∧ widthAt e (k + 1) sj c1 = widthAt e k si c1 := by
    intro hc hsz
    have hk1 : k + 1 < e.items.length := by
      by_contra hcon
      rw [hc, e.startOf_of_length_le (show e.items.length ≤ k + 1 by omega)] at hsz
      omega
    obtain ⟨sj, hsj⟩ := get_of_lt e (k + 1) hk1
    have hp := e.startOf_of_get hsj
    have hl := hwf.2 (k + 1) hk1
    refine ⟨sj, hsj, by rw [hc, hp], by rw [hc]; exact hl, ?_⟩
    have hws := widthAt_start e hwf (k + 1) sj hsj
    rw [← hp] at hws
    rw [hc, hws, widthAt_end e k si hget]
  refine ⟨h1, h2, ⟨?_, ?_, ?_, ?_, ?_, ?_, ?_⟩, ?_, ?_⟩
  · rw [afterCluster_tWords, h6, hwidth]
    have := hinv.width
    omega
  · simpa using hinv.unfinished
  · simpa using hinv.starts
  · simpa using hinv.wordStart
  · simpa using hinv.remembered
  · simpa using hinv.normal
  · simpa using hinv.forced
  · intro ha hunder hx
    have ha0 : x.addingEachGrapheme = false := by simpa using ha
    obtain ⟨k1, sj, q, g1, g2, g3, g4, g5, g6, g7, g8⟩ := hx
    by_cases hq : q ≤ x.lbh.currentPosition
    · exact (hinv.normal ha0).2 ⟨k1, sj, q, g1, g2, g3, g4, hq, g6, g7, g8⟩
    · have hq1 : x.lbh.currentPosition < q := by omega
      have hpj := e.startOf_of_get g1
      have hle1 := Engine.WellFormed.le_size e hwf (k1 + 1)
      by_cases hqb : q < e.startOf (k + 1)
      · have hk : k1 = k := item_unique e hwf k1 k q (by omega) g3 (by omega) hqb
        subst hk
        rw [hget] at g1
        simp only [Option.some.injEq] at g1
        subst g1
        have hqc : q = c1 := by
          rcases g7 with h | h
          · omega
          · by_contra hne
            have hlt1 : q < c1 := by omega
            have e1 := h3 (q - 1) (by omega) (by omega)
            have e2 := h3 q (by omega) hlt1
            exact h (by rw [e1, e2])
        rw [hqc] at g6 g8
        have := hunder (by omega) g6
        omega
      · have hqc : q = c1 := by omega
        have hcb : c1 = e.startOf (k + 1) := by omega
        obtain ⟨sj2, hsj2, -, hlt2, hw2⟩ := hnext hcb (by omega)
        have hk : k1 = k + 1 := item_unique e hwf k1 (k + 1) q (by omega) g3 (by omega)
          (by omega)
        subst hk
        rw [hsj2] at g1
        simp only [Option.some.injEq] at g1
        subst g1
        rw [hqc] at g6 g8
        rw [hw2] at g8
        have := hunder (by omega) g6
        omega
  · intro hsz hgb hthr
    by_cases hcb : c1 < e.startOf (k + 1)
    · refine ⟨k, si, c1, hget, by omega, hcb, by omega, le_refl _, hgb, Or.inr ?_, hthr⟩
      have e1 := h3 (c1 - 1) (by omega) (by omega)
      rw [e1]
      exact fun h => h4 hcb h.symm
    · have hc : c1 = e.startOf (k + 1) := by omega
      obtain ⟨sj, hsj, hp, hlt2, hw2⟩ := hnext hc hsz
      exact ⟨k + 1, sj, c1, hsj, by omega, hlt2, by omega, le_refl _, hgb, Or.inl hp.symm,
        by rw [hw2]; exact hthr⟩

/-- `TokenInv` reads the word sequence, the pending width, the word start,
the remembered boundary and the mode only. -/
theorem tokenInv_congr (e : Engine) (attributes : Nat → QCharAttributes)
    (s t : ParseState) (c : Nat) (w : Int) (h1 : t.tWords = s.tWords)
    (h2 : t.lbh.tmpData = s.lbh.tmpData) (h3 : t.wordStart = s.wordStart)
    (h4 : t.lastGraphemeBoundaryPosition = s.lastGraphemeBoundaryPosition)
    (h5 : t.addingEachGrapheme = s.addingEachGrapheme)
    (h : TokenInv e attributes s c w) : TokenInv e attributes t c w := by
  refine ⟨?_, ?_, ?_, ?_, ?_, ?_, ?_⟩
  · rw [h1, h2]; exact h.width
  · rw [h1]; exact h.unfinished
  · rw [h1]; exact h.starts
  · rw [h3]; exact h.wordStart
  · rw [h4]; exact h.remembered
  · rw [h5, h1]; exact h.normal
  · rw [h5, h1]; exact h.forced

/-- One iteration of the main loop on an item of a buffer that is one
unbroken token: the whole item is scanned; before the end of the text the
state keeps `TokenInv`, at the end of the text the pending word is pushed
as finished. -/
theorem token_item (e : Engine) (attributes : Nat → QCharAttributes)
    (hwf : e.WellFormed) (k : Nat) (si : QScriptItem)
    (hget : e.items.get? k = some si) (hfl : si.flags = Flags.Text)
    (hshape : si.num_glyphs = 0 → si.attributesAfterShape = true)
    (hok : ClusterMapOk e.logClusters si.glyphs si.currentNumGlyphs si.position
      (e.startOf (k + 1)))
    (hsb : ∀ q, q < e.size → isSpaceBreak e attributes q = false)
    (hlb : ∀ q, 0 < q → q < e.size → isLineBreak e attributes q = false)
    (s : ParseState) (hb : Before s k)
    (hinv : TokenInv e attributes s (e.startOf k) (itemsWidth e (e.items.take k))) :
    ∃ s1, iteration e attributes s si = some s1 ∧ Before s1 (k + 1)
      ∧ (e.startOf (k + 1) < e.size →
          TokenInv e attributes s1 (e.startOf (k + 1)) (itemsWidth e (e.items.take (k + 1))))
      ∧ (e.startOf (k + 1) = e.size →
          ∃ y r, s1.tWords = y.tWords
              ++ [Word.content (toUint16 y.wordStart) false y.lbh.tmpData.textWidth r]
            ∧ TokenInv e attributes y e.size (itemsWidth e (e.items.take (k + 1)))) := by
  have hklen := lt_of_get e k si hget
  have hstart : e.startOf k = si.position := e.startOf_of_get hget
  have hlen := hwf.2 k hklen
  have hle := Engine.WellFormed.le_size e hwf (k + 1)
  -- the item is entered
  have hne : (s.newItem : Int) ≠ s.item := by
    rw [hb.newItem]; exact fun h => hb.item h.symm
  obtain ⟨s0, hent, hs0⟩ : ∃ s0, enterItem e s si = some s0
      ∧ s0.tWords = s.tWords ∧ s0.lbh.tmpData = s.lbh.tmpData ∧ s0.wordStart = s.wordStart
      ∧ s0.lastGraphemeBoundaryPosition = s.lastGraphemeBoundaryPosition
      ∧ s0.addingEachGrapheme = s.addingEachGrapheme
      ∧ s0.lbh.currentPosition = si.position ∧ s0.end_ = e.startOf (k + 1)
      ∧ s0.lbh.glyphs = si.glyphs ∧ s0.newItem = k ∧ s0.item = (k : Int) := by
    unfold enterItem
    rw [if_pos hne, if_neg (by
      intro h
      have := hshape h.1
      rw [h.2] at this
      simp at this)]
    refine ⟨_, rfl, rfl, rfl, rfl, rfl, rfl, rfl, ?_, rfl, hb.newItem, by simp [hb.newItem]⟩
    show ((si.position : Int) + e.length s.newItem si).toNat = e.startOf (k + 1)
    rw [Engine.end_eq, hb.newItem]
  obtain ⟨e1, e2, e3, e4, e5, hcur0, hend0, hgl0, hni0, hit0⟩ := hs0
  have hnsp : ¬ atSpaceBreak e attributes s0 = true := by
    unfold atSpaceBreak
    rw [atSpaceBreakFrom_false e attributes s0.end_ _ _ (by
      intro q h1 h2
      rw [hend0] at h2
      exact hsb q (by omega))]
    simp
  rw [iteration_of_enter e attributes s s0 si hent, branch_ordinary e attributes s0 si hfl hnsp]
  -- the passes of the `do … while`
  have hpass : ∀ t : ParseState,
      TokenInv e attributes t t.lbh.currentPosition (widthAt e k si t.lbh.currentPosition) →
      si.position ≤ t.lbh.currentPosition → t.lbh.glyphs = si.glyphs →
      t.end_ = e.startOf (k + 1) → t.lbh.currentPosition < t.end_ →
      (ordinaryPass e attributes t si).1.lbh.currentPosition < e.size →
      TokenInv e attributes (ordinaryPass e attributes t si).1
          (ordinaryPass e attributes t si).1.lbh.currentPosition
          (widthAt e k si (ordinaryPass e attributes t si).1.lbh.currentPosition)
        ∧ (ordinaryPass e attributes t si).2 = false := by
    intro t ht hat hgt het hlt hsz
    obtain ⟨c1, c2, c3, c4, c5⟩ := token_cluster e attributes hwf k si hget hok t hgt het
      hat hlt ht
    unfold ordinaryPass at hsz ⊢
    rw [(ordinaryCheck_fields e attributes (t.afterCluster e si)).1] at hsz ⊢
    have hbrk : ¬ breakAt e attributes (t.afterCluster e si) := by
      unfold breakAt
      intro h
      rcases h with h | h | h
      · omega
      · rw [hsb _ hsz] at h; simp at h
      · rw [hlb _ (by omega) hsz] at h; simp at h
    exact check_token e attributes (t.afterCluster e si) t.lbh.currentPosition _ c3
      (le_of_lt c1) hbrk (fun ha hu => c4 ha (fun _ hg => hu hg)) (c5 hsz)
  obtain ⟨t, ⟨ht, hat, hgt, het⟩, htlt, -, -, htni, htit, -, hres, hex⟩ :=
    ordinaryLoop_exit e attributes si
      (fun t => TokenInv e attributes t t.lbh.currentPosition
          (widthAt e k si t.lbh.currentPosition)
        ∧ si.position ≤ t.lbh.currentPosition ∧ t.lbh.glyphs = si.glyphs
        ∧ t.end_ = e.startOf (k + 1))
      (by
        intro t ht htlt _ hlt2
        obtain ⟨-, f2, -, -, f5⟩ := ordinaryPass_fields e attributes t si
        have hgt := ordinaryPass_cur_gt e attributes t si
        rw [f2, ht.2.2.2] at hlt2
        exact ⟨(hpass t ht.1 ht.2.1 ht.2.2.1 ht.2.2.2 htlt (by omega)).1, by omega,
          f5.trans ht.2.2.1, f2.trans ht.2.2.2⟩)
      (s0.end_ - s0.lbh.currentPosition - 1)
      { s0 with lbh := { s0.lbh with whiteSpaceOrObject := false } }
      ⟨by
        show TokenInv e attributes _ s0.lbh.currentPosition
          (widthAt e k si s0.lbh.currentPosition)
        rw [hcur0, widthAt_start e hwf k si hget, ← hstart]
        exact tokenInv_congr e attributes s _ _ _ e1 e2 e3 e4 e5 hinv,
        by show si.position ≤ s0.lbh.currentPosition; omega, hgl0, hend0⟩
      (by show s0.lbh.currentPosition < s0.end_; omega)
      (by show s0.end_ - s0.lbh.currentPosition ≤ _; omega)
  have hres2 : ordinaryBranch e attributes s0 si = (ordinaryPass e attributes t si).1 := hres
  simp only at htni htit
  obtain ⟨f1, f2, f3, f4, f5⟩ := ordinaryPass_fields e attributes t si
  have hgt1 := ordinaryPass_cur_gt e attributes t si
  have hle1 := ordinaryPass_cur_le e attributes t si htlt
  obtain ⟨c1, c2, c3, c4, c5⟩ := token_cluster e attributes hwf k si hget hok t hgt het
    hat htlt ht
  rw [hres2, hni0]
  obtain ⟨g1, g2, g3, g4, g5, g6, g7, -, g9, -⟩ :=
    nextItemAtEnd_fields (ordinaryPass e attributes t si).1 k
  by_cases hsz : (ordinaryPass e attributes t si).1.lbh.currentPosition < e.size
  · obtain ⟨hti, hnb⟩ := hpass t ht hat hgt het htlt hsz
    have hatend : (ordinaryPass e attributes t si).1.lbh.currentPosition
        = (ordinaryPass e attributes t si).1.end_ := by
      rcases hex with h | h
      · rw [hnb] at h; simp at h
      · rw [h, f2]
    have hcb : (ordinaryPass e attributes t si).1.lbh.currentPosition = e.startOf (k + 1) := by
      rw [hatend, f2, het]
    refine ⟨_, rfl, ⟨g9 hatend, by rw [g3, f4, htit, hit0]; omega⟩, ?_, ?_⟩
    · intro _
      rw [hcb, widthAt_end e k si hget] at hti
      exact tokenInv_congr e attributes _ _ _ _ g1 (by rw [g2]) g5 g7 g6 hti
    · intro h
      omega
  · have hcb : (ordinaryPass e attributes t si).1.lbh.currentPosition = e.startOf (k + 1) := by
      rw [het] at hle1
      omega
    have hsize : e.startOf (k + 1) = e.size := by omega
    have hatend : (ordinaryPass e attributes t si).1.lbh.currentPosition
        = (ordinaryPass e attributes t si).1.end_ := by
      rw [hcb, f2, het]
    have hycur : (t.afterCluster e si).lbh.currentPosition = e.size := by
      have := (ordinaryCheck_fields e attributes (t.afterCluster e si)).1
      unfold ordinaryPass at hcb
      rw [this] at hcb
      omega
    have hbrk : breakAt e attributes (t.afterCluster e si) := by
      unfold breakAt
      exact Or.inl (by omega)
    refine ⟨_, rfl, ⟨g9 hatend, by rw [g3, f4, htit, hit0]; omega⟩, ?_, ?_⟩
    · intro h
      omega
    · intro _
      refine ⟨t.afterCluster e si,
        -((t.afterCluster e si).lbh.calculateRightBearing e).negativeRightBearing, ?_, ?_⟩
      · rw [g1]
        unfold ordinaryPass
        rw [ordinaryCheck_break e attributes _ hbrk]
        simp only [flushFinished_tWords, pushFinishedWord]
      · rw [hycur] at c3 c4 c5
        rw [← hsize, widthAt_end e k si hget] at c3
        refine ⟨c3.width, c3.unfinished, c3.starts, c3.wordStart, c3.remembered, ?_, ?_⟩
        · intro ha
          exact ⟨(c3.normal ha).1, c4 ha (fun h => absurd h (lt_irrefl _))⟩
        · intro ha
          exact ⟨(c3.forced ha).1,
            exceeded_mono e attributes _ _ (by omega) (c3.forced ha).2⟩

theorem tokenInv_init (e : Engine) (attributes : Nat → QCharAttributes)
    (hwf : e.WellFormed) :
    TokenInv e attributes { ParseState.init with tWords := [] } (e.startOf 0)
      (itemsWidth e (e.items.take 0)) := by
  refine ⟨rfl, ?_, ?_, Or.inl rfl, ?_, ?_, ?_⟩
  · intro x hx; simp at hx
  · intro x hx; simp at hx
  · intro h; simp [ParseState.init] at h
  · intro _
    refine ⟨rfl, ?_⟩
    rintro ⟨k, si, q, -, -, -, h4, h5, -⟩
    rw [hwf.1] at h5
    omega
  · intro h; simp [ParseState.init] at h

/-- The main loop on a buffer that is one unbroken token, from the start of
item `k`: it ends after one iteration per item, with the pending word
pushed as finished. -/
theorem token_loop (e : Engine) (attributes : Nat → QCharAttributes)
    (hwf : e.WellFormed) (hshape : e.ShapingSucceeds)
    (htext : ∀ si ∈ e.items, si.flags = Flags.Text)
    (hok : ∀ k si, e.items.get? k = some si →
      ClusterMapOk e.logClusters si.glyphs si.currentNumGlyphs si.position (e.startOf (k + 1)))
    (hsb : ∀ q, q < e.size → isSpaceBreak e attributes q = false)
    (hlb : ∀ q, 0 < q → q < e.size → isLineBreak e attributes q = false) :
    ∀ j k s, k + j + 1 = e.items.length → Before s k →
      TokenInv e attributes s (e.startOf k) (itemsWidth e (e.items.take k)) →
      ∃ y r, parseLoop e attributes (j + 1) s = some
          { words := y.tWords
              ++ [Word.content (toUint16 y.wordStart) false y.lbh.tmpData.textWidth r],
            exit := Exit.completed }
        ∧ TokenInv e attributes y e.size (shapedWidth e) := by
  have hmem : ∀ k si, e.items.get? k = some si → si ∈ e.items := by
    intro k si hget
    obtain ⟨h1, h2⟩ := List.get?_eq_some.1 hget
    rw [← h2]
    exact List.get_mem _ _ _
  intro j
  induction j with
  | zero =>
    intro k s hk hb hinv
    obtain ⟨si, hget⟩ := get_of_lt e k (by omega)
    have hm := hmem k si hget
    obtain ⟨s1, hit, hb1, -, hfin⟩ := token_item e attributes hwf k si hget (htext si hm)
      (hshape.2 si hm) (hok k si hget) hsb hlb s hb hinv
    have hend : e.startOf (k + 1) = e.size := e.startOf_of_length_le (by omega)
    obtain ⟨y, r, hw, hy⟩ := hfin hend
    refine ⟨y, r, ?_, ?_⟩
    · rw [parseLoop_step e attributes 0 s s1 si (by rw [hb.newItem]; exact hget) hit,
        parseLoop_done e attributes 0 s1
          (by rw [hb1.newItem]; exact List.get?_eq_none.2 (by omega)), hw]
    · have : e.items.take (k + 1) = e.items := List.take_of_length_le (by omega)
      rw [this] at hy
      exact hy
  | succ j ih =>
    intro k s hk hb hinv
    obtain ⟨si, hget⟩ := get_of_lt e k (by omega)
    have hm := hmem k si hget
    obtain ⟨s1, hit, hb1, hgo, -⟩ := token_item e attributes hwf k si hget (htext si hm)
      (hshape.2 si hm) (hok k si hget) hsb hlb s hb hinv
    have hlt := hwf.2 (k + 1) (by omega)
    have hle := Engine.WellFormed.le_size e hwf (k + 1 + 1)
    obtain ⟨y, r, hp, hy⟩ := ih (k + 1) s1 (by omega) hb1 (hgo (by omega))
    exact ⟨y, r, by rw [parseLoop_step e attributes (j + 1) s s1 si
      (by rw [hb.newItem]; exact hget) hit]; exact hp, hy⟩

/-- The records of a buffer that is one unbroken token (text items only,
no space break, no accepted line break inside): all but the last are
unfinished and the last is finished; each starts at 0 or at a grapheme
boundary (stored through `uint16`); the widths sum to the shaped width of
the buffer; and there is more than one record exactly when the shaped width
up to some grapheme boundary inside the token, at which a cluster starts,
exceeds the threshold. -/
theorem token_parse (e : Engine) (tWords : List Word)
    (attributes : Nat → QCharAttributes) (hattr : e.attributes = some attributes)
    (hwf : e.WellFormed) (hshape : e.ShapingSucceeds) (hne : e.size ≠ 0)
    (htext : ∀ si ∈ e.items, si.flags = Flags.Text)
    (hok : ∀ k si, e.items.get? k = some si →
      ClusterMapOk e.logClusters si.glyphs si.currentNumGlyphs si.position (e.startOf (k + 1)))
    (hsb : ∀ q, q < e.size → isSpaceBreak e attributes q = false)
    (hlb : ∀ q, 0 < q → q < e.size → isLineBreak e attributes q = false) :
    ∃ init last, parse e tWords = some { words := init ++ [last], exit := Exit.completed }
      ∧ last.unfinished = false
      ∧ (∀ x ∈ init, x.unfinished = true)
      ∧ (∀ x ∈ init ++ [last], x.newline = false ∧ ∃ p, x.position = toUint16 p
          ∧ (p = 0 ∨ (0 < p ∧ p < e.size ∧ (attributes p).graphemeBoundary = true)))
      ∧ sumWidths (init ++ [last]) = shapedWidth e
      ∧ (init ≠ [] ↔ Exceeded e attributes e.size) := by
  have hlen : 0 < e.items.length := by
    cases hi : e.items with
    | nil =>
      have h0 := hwf.1
      unfold Engine.startOf at h0
      rw [hi] at h0
      simp at h0
      omega
    | cons si rest => simp
  obtain ⟨hbf, -⟩ := before_init []
  obtain ⟨y, r, hp, hy⟩ := token_loop e attributes hwf hshape htext hok hsb hlb
    (e.items.length - 1) 0 _ (by omega) hbf (tokenInv_init e attributes hwf)
  have hfuel := length_le_iterationBound e.size e.items
  obtain ⟨more, hmore⟩ := Nat.exists_eq_add_of_le
    (show e.items.length - 1 + 1 ≤ iterationBound e.size e.items by omega)
  have hstart : ∀ p, (p = 0 ∨ (p < e.size ∧ (attributes p).graphemeBoundary = true)) →
      (p = 0 ∨ (0 < p ∧ p < e.size ∧ (attributes p).graphemeBoundary = true)) := by
    intro p h
    rcases h with h | h
    · exact Or.inl h
    · by_cases h0 : p = 0
      · exact Or.inl h0
      · exact Or.inr ⟨by omega, h.1, h.2⟩
  refine ⟨y.tWords, Word.content (toUint16 y.wordStart) false y.lbh.tmpData.textWidth r,
    ?_, rfl, fun x hx => (hy.unfinished x hx).1, ?_, ?_, ?_⟩
  · rw [parse_eq_parseLoop e tWords attributes hattr hne, hmore,
      parseLoop_mono e attributes _ _ _ hp more]
  · intro x hx
    rcases List.mem_append.1 hx with h | h
    · obtain ⟨p, h1, h2⟩ := hy.starts x h
      exact ⟨(hy.unfinished x h).2, p, h1, hstart p h2⟩
    · rw [List.mem_singleton.1 h]
      exact ⟨rfl, y.wordStart, rfl, hstart _ hy.wordStart⟩
  · rw [sumWidths_append, sumWidths_content]
    exact hy.width
  · cases ha : y.addingEachGrapheme with
    | false =>
      obtain ⟨h1, h2⟩ := hy.normal ha
      exact ⟨fun h => absurd h1 h, fun h => absurd h h2⟩
    | true =>
      obtain ⟨h1, h2⟩ := hy.forced ha
      exact ⟨fun _ => h2, fun _ => h1⟩

/-- C12, as amended.  For every non-empty, successfully shaped buffer that
is a single unbroken token (text items only, with well-formed cluster
maps, no space break, no accepted line break inside), with non-negative
glyph advances and a shaped width and a threshold inside the range of
`QFixed`: `parse` produces
records of which all but the last are flagged unfinished and the last is
finished; every record starts at 0 or at a grapheme-boundary position
inside the token (the start is stored through `uint16`); and the token is
split, that is, there are unfinished records, exactly when the shaped
width accumulated up to some grapheme boundary strictly inside the token at
which a cluster starts exceeds the threshold. -/
theorem C12_long_token (e : Engine) (tWords : List Word)
    (attributes : Nat → QCharAttributes) (hattr : e.attributes = some attributes)
    (hwf : e.WellFormed) (hshape : e.ShapingSucceeds) (hne : e.size ≠ 0)
    (htext : ∀ si ∈ e.items, si.flags = Flags.Text)
    (hok : ∀ k si, e.items.get? k = some si →
      ClusterMapOk e.logClusters si.glyphs si.currentNumGlyphs si.position (e.startOf (k + 1)))
    (hsb : ∀ q, q < e.size → isSpaceBreak e attributes q = false)
    (hlb : ∀ q, 0 < q → q < e.size → isLineBreak e attributes q = false)
    (_hfit : e.WidthsFit) :
    (∃ init last, parse e tWords = some { words := init ++ [last], exit := Exit.completed }
      ∧ last.unfinished = false
      ∧ (∀ x ∈ init, x.unfinished = true)
      ∧ (∀ x ∈ init ++ [last], x.newline = false ∧ ∃ p, x.position = toUint16 p
          ∧ (p = 0 ∨ (0 < p ∧ p < e.size ∧ (attributes p).graphemeBoundary = true)))
      ∧ (init ≠ [] ↔ Exceeded e attributes e.size))
      ∧ ∀ p, p < 65536 → toUint16 p = p := by
  obtain ⟨init, last, h1, h2, h3, h4, -, h6⟩ := token_parse e tWords attributes hattr hwf
    hshape hne htext hok hsb hlb
  exact ⟨⟨init, last, h1, h2, h3, h4, h6⟩, fun p hp => toUint16_of_lt hp⟩

/-- Witness of `C12_long_token`: the buffer `"a.b"` with glyphs of advance
512 and threshold 512; the width 1024 up to the boundary 2 exceeds the
threshold, the records are the unfinished `[0, 1)` and `[1, 2)` and the
finished `[2, 3)`. -/
theorem C12_long_token_witness :
    Exceeded exampleDotNarrow flaggedAttributes exampleDotNarrow.size
      ∧ (∃ init last, parse exampleDotNarrow []
            = some { words := init ++ [last], exit := Exit.completed }
          ∧ last.unfinished = false ∧ (∀ x ∈ init, x.unfinished = true) ∧ init ≠ [])
      ∧ parse exampleDotNarrow [] = some
          { words := [Word.content 0 true 512 0, Word.content 1 true 512 0,
              Word.content 2 false 512 0],
            exit := Exit.completed } := by
  have hx : Exceeded exampleDotNarrow flaggedAttributes exampleDotNarrow.size :=
    ⟨0, plainItem 0 Flags.Text 3 512 0, 2, rfl, by decide, by decide, by decide, by decide,
      rfl, Or.inr (by decide), by decide⟩
  obtain ⟨⟨init, last, h1, h2, h3, -, h5⟩, -⟩ := C12_long_token exampleDotNarrow []
    flaggedAttributes rfl (by decide) (by decide) (by decide) (by decide)
    (threeChars_ok textDot 512) (fun _ _ => rfl)
    (fun q h0 hq => by
      have hq3 : q < 3 := hq
      interval_cases q <;> decide)
    ⟨by
      intro si hsi g
      have : si = plainItem 0 Flags.Text 3 512 0 := by
        simpa [exampleDotNarrow, threeChars] using hsi
      rw [this]
      show (0 : Int) ≤ 512
      decide, by decide, by decide⟩
  exact ⟨hx, ⟨init, last, h1, h2, h3, h5.2 hx⟩, by decide⟩

/-- Counterexample to C12 as stated: the token `"ab"` with glyphs of advance
512.  With threshold 600 its shaped width 1024 exceeds the threshold, and
`parse` produces the single finished record of width 1024: the width is
compared with the threshold at the grapheme boundary 1 only, where it is
512.  With threshold 100 the token is split into one unfinished record and
the finished one. -/
theorem C12_counterexample :
    parse exampleTwoWide [] = some
        { words := [Word.content 0 false 1024 0], exit := Exit.completed }
      ∧ shapedWidth exampleTwoWide = 1024
      ∧ exampleTwoWide.minResizeWidth = 600
      ∧ (∀ q, q < 2 → (spacedAttributes 2 0 q).whiteSpace = false
          ∧ isLineBreak exampleTwoWide (spacedAttributes 2 0) q = false)
      ∧ parse exampleTwoTiny [] = some
        { words := [Word.content 0 true 512 0, Word.content 1 false 512 0],
          exit := Exit.completed } := by
  refine ⟨by decide, by decide, rfl, ?_, by decide⟩
  intro q hq
  interval_cases q <;> exact ⟨by decide, by decide⟩

/-- C13 at the failing input `"a<NBSP> bcd"` (items `"a"`, `"<NBSP> "`,
`"bcd"`; advance 512, threshold 1000): the token `"bcd"`, of shaped width
1536, is split by the forced policy into the records at 3, 4 and 5, whose
widths 1024, 512 and 512 sum to 2048: the width 512 of `"a"`, still in
`tmpData` when the space-break run is left, is counted into the first
piece.  The same token alone in a buffer is split into pieces whose widths
sum to 1536. -/
theorem C13_width_sum :
    parse exampleCarryWide [] = some
        { words := [(Word.content 0 false 512 0).add_rpadding 1024,
            Word.content 3 true 1024 0, Word.content 4 true 512 0,
            Word.content 5 false 512 0],
          exit := Exit.completed }
      ∧ sumWidths [Word.content 3 true 1024 0, Word.content 4 true 512 0,
          Word.content 5 false 512 0] = 2048
      ∧ itemWidth exampleCarryWide (plainItem 3 Flags.Text 3 512 0) = 1536
      ∧ exampleCarryWide.items.get? 2 = some (plainItem 3 Flags.Text 3 512 0)
      ∧ isSpaceBreak exampleCarryWide carryWideAttributes 2 = true
      ∧ (∀ q, 3 ≤ q → q < 6 → (carryWideAttributes q).whiteSpace = false)
      ∧ (∀ q, 3 < q → q < 6 → isLineBreak exampleCarryWide carryWideAttributes q = false)
      ∧ parse exampleBcd [] = some
        { words := [Word.content 0 true 512 0, Word.content 1 true 512 0,
            Word.content 2 false 512 0],
          exit := Exit.completed } := by
  refine ⟨by decide, by decide, by decide, rfl, by decide, ?_, ?_, by decide⟩
  · intro q h1 h2
    interval_cases q <;> decide
  · intro q h1 h2
    interval_cases q <;> decide

/-- The iterations that `iterate` runs are the first iterations of the main
loop. -/
theorem parseLoop_iterate (e : Engine) (attributes : Nat → QCharAttributes) :
    ∀ n fuel s t, iterate e attributes n s = some t →
      parseLoop e attributes (fuel + n) s = parseLoop e attributes fuel t := by
  intro n
  induction n with
  | zero =>
    intro fuel s t h
    simp only [iterate, Option.some.injEq] at h
    rw [h]; rfl
  | succ k ih =>
    intro fuel s t h
    rw [iterate] at h
    cases hget : e.items.get? s.newItem with
    | none => rw [hget] at h; simp at h
    | some si =>
      rw [hget] at h
      simp only at h
      cases hit : iteration e attributes s si with
      | none => rw [hit] at h; simp at h
      | some s1 =>
        rw [hit] at h
        simp only at h
        rw [show fuel + (k + 1) = (fuel + k) + 1 by omega,
          parseLoop_step e attributes (fuel + k) s s1 si hget hit]
        exact ih fuel s1 t h

/-- Along `iterate` the cursor bounds hold and the offset at which the loop
works grows with every iteration. -/
theorem iterate_bounds (e : Engine) (hwf : e.WellFormed)
    (attributes : Nat → QCharAttributes) :
    ∀ n s t, Bounds e s → iterate e attributes n s = some t →
      Bounds e t ∧ s.cursor + n ≤ t.cursor := by
  intro n
  induction n with
  | zero =>
    intro s t hs h
    simp only [iterate, Option.some.injEq] at h
    rw [← h]; exact ⟨hs, le_refl _⟩
  | succ k ih =>
    intro s t hs h
    rw [iterate] at h
    cases hget : e.items.get? s.newItem with
    | none => rw [hget] at h; simp at h
    | some si =>
      rw [hget] at h
      simp only at h
      cases hit : iteration e attributes s si with
      | none => rw [hit] at h; simp at h
      | some s1 =>
        rw [hit] at h
        simp only at h
        obtain ⟨h1, h2⟩ := iteration_bounds e hwf attributes s s1 si hs hget hit
        obtain ⟨h3, h4⟩ := ih s1 t h1 h
        exact ⟨h3, by omega⟩

/-- The `return` on a null attribute table is taken exactly when an item
that has no glyphs yet is entered and the table is gone after
`shapeGetBlock`. -/
theorem enterItem_none_iff (e : Engine) (s : ParseState) (si : QScriptItem) :
    enterItem e s si = none
      ↔ ((s.newItem : Int) ≠ s.item ∧ si.num_glyphs = 0 ∧ si.attributesAfterShape = false) := by
  unfold enterItem
  constructor
  · intro h
    split at h
    · rename_i hne
      split at h
      · rename_i hc; exact ⟨hne, hc.1, hc.2⟩
      · simp at h
    · simp at h
  · intro h
    rw [if_pos h.1, if_pos ⟨h.2.1, h.2.2⟩]

/-- When, in a state the main loop reaches, the attribute table is missing
after the item to enter has been shaped, `parse` returns with the word
sequence of that state. -/
theorem parse_abort_midscan (e : Engine) (tWords : List Word)
    (attributes : Nat → QCharAttributes) (hwf : e.WellFormed)
    (hattr : e.attributes = some attributes) (n : Nat) (s : ParseState) (si : QScriptItem)
    (hreach : iterate e attributes n { ParseState.init with tWords := [] } = some s)
    (hget : e.items.get? s.newItem = some si) (hent : enterItem e s si = none) :
    parse e tWords = some { words := s.tWords, exit := Exit.aborted } := by
  obtain ⟨hb, hcur⟩ := iterate_bounds e hwf attributes n _ s (bounds_init e hwf) hreach
  have hlen := lt_of_get e s.newItem si hget
  have hstep := hwf.2 s.newItem hlen
  have hle := Engine.WellFormed.le_size e hwf (s.newItem + 1)
  have hlt : s.cursor < e.size := by
    unfold ParseState.cursor
    split
    · rename_i heq
      obtain ⟨-, h1, h2, -⟩ := hb.same heq
      omega
    · rename_i hne
      rw [hb.other hne]
      omega
  have hfuel := iterationBound_ge_size e hwf
  obtain ⟨more, hmore⟩ := Nat.exists_eq_add_of_le
    (show n + 1 ≤ iterationBound e.size e.items by omega)
  rw [parse_eq_parseLoop e tWords attributes hattr (by omega), hmore,
    show n + 1 + more = (more + 1) + n by omega,
    parseLoop_iterate e attributes n (more + 1) _ s hreach,
    parseLoop_abort e attributes more s si hget hent]

/-- C4, as amended: when the attribute table is missing at the initial
fetch, `parse` aborts and the word sequence it leaves is empty; when, in a
state `s` that the main loop reaches, the item to enter has no glyphs yet
and the table is missing after it is shaped, `parse` returns at once and
the sequence it leaves is the one of `s`, built by the iterations before
the failing fetch: it is not cleared again, the records pushed before the
failure remain; and `parse` aborts in mid-scan in no other way. -/
theorem C4_abort_keeps_sequence (e : Engine) (tWords : List Word) :
    (e.size ≠ 0 → e.attributes = none →
        parse e tWords = some { words := [], exit := Exit.aborted })
      ∧ (∀ (attributes : Nat → QCharAttributes) (n : Nat) (s : ParseState)
          (si : QScriptItem), e.WellFormed → e.attributes = some attributes →
          iterate e attributes n { ParseState.init with tWords := [] } = some s →
          e.items.get? s.newItem = some si → (s.newItem : Int) ≠ s.item →
          si.num_glyphs = 0 → si.attributesAfterShape = false →
          parse e tWords = some { words := s.tWords, exit := Exit.aborted })
      ∧ ∀ attributes ws, e.attributes = some attributes →
          parse e tWords = some { words := ws, exit := Exit.aborted } →
          ∃ n s si, iterate e attributes n { ParseState.init with tWords := [] } = some s
            ∧ e.items.get? s.newItem = some si ∧ (s.newItem : Int) ≠ s.item
            ∧ si.num_glyphs = 0 ∧ si.attributesAfterShape = false ∧ ws = s.tWords := by
  refine ⟨parse_no_attributes e tWords, ?_, ?_⟩
  · intro attributes n s si hwf hattr hreach hget hfresh hng hlost
    exact parse_abort_midscan e tWords attributes hwf hattr n s si hreach hget
      ((enterItem_none_iff e s si).2 ⟨hfresh, hng, hlost⟩)
  · intro attributes ws hattr hparse
    have hne : e.size ≠ 0 := by
      intro h0
      rw [parse_empty e tWords h0] at hparse
      simp at hparse
    rw [parse_eq_parseLoop e tWords attributes hattr hne] at hparse
    obtain ⟨n, s, si, h1, h2, h3, h4⟩ := parseLoop_aborted e attributes _ _ ws hparse
    obtain ⟨g1, g2, g3⟩ := (enterItem_none_iff e s si).1 h3
    exact ⟨n, s, si, h1, h2, g1, g2, g3, h4⟩

/-- Witness of `C4_abort_keeps_sequence`: `"ab\ncd"` with no attribute
table at the initial fetch, and with the table lost when the last item is
shaped, after the word of `"ab"` and the newline record were pushed. -/
theorem C4_abort_keeps_sequence_witness :
    parse exampleNoAttributes [] = some { words := [], exit := Exit.aborted }
      ∧ exampleAbortState.tWords = [Word.content 0 false 1024 0, Word.newlineAt 2 1]
      ∧ parse exampleAbortMidScan [] = some
          { words := exampleAbortState.tWords, exit := Exit.aborted } :=
  ⟨(C4_abort_keeps_sequence exampleNoAttributes []).1 (by decide) rfl, by decide,
    (C4_abort_keeps_sequence exampleAbortMidScan []).2.1 (twoLinesAttributes 2) 2
      exampleAbortState
      { plainItem 3 Flags.Text 2 512 0 with attributesAfterShape := false }
      (by decide) rfl rfl rfl (by decide) rfl rfl⟩

/-- C5, as amended: parsing an empty buffer yields the empty word sequence;
`parse` returns nothing besides the sequence; an abort at the initial
attribute fetch leaves the empty sequence as well, so the caller cannot
tell it from an empty result; and when `parse` aborts in mid-scan, in a
state `s` that the main loop reaches, the sequence it leaves differs from
the one of an empty buffer exactly when the iterations before the failure
had pushed at least one record (`s.tWords ≠ []`). -/
theorem C5_abort_outcome (e : Engine) (tWords : List Word) :
    (e.size = 0 → parse e tWords = some { words := [], exit := Exit.completed })
      ∧ (e.size ≠ 0 → e.attributes = none →
          parse e tWords = some { words := [], exit := Exit.aborted })
      ∧ ∀ (attributes : Nat → QCharAttributes) (n : Nat) (s : ParseState)
          (si : QScriptItem), e.WellFormed → e.attributes = some attributes →
          iterate e attributes n { ParseState.init with tWords := [] } = some s →
          e.items.get? s.newItem = some si → (s.newItem : Int) ≠ s.item →
          si.num_glyphs = 0 → si.attributesAfterShape = false →
          ∀ (e0 : Engine) (tWords0 : List Word), e0.size = 0 →
            ((parse e tWords).map Outcome.words ≠ (parse e0 tWords0).map Outcome.words
              ↔ s.tWords ≠ []) := by
  refine ⟨parse_empty e tWords, parse_no_attributes e tWords, ?_⟩
  intro attributes n s si hwf hattr hreach hget hfresh hng hlost e0 tWords0 h0
  rw [parse_empty e0 tWords0 h0,
    parse_abort_midscan e tWords attributes hwf hattr n s si hreach hget
      ((enterItem_none_iff e s si).2 ⟨hfresh, hng, hlost⟩)]
  simp

/-- Witness of `C5_abort_outcome`: the empty buffer, `"ab\ncd"` without an
attribute table, and `"ab\ncd"` with the table lost on the last item, where
two records had been pushed and the sequence left differs from the empty
one. -/
theorem C5_abort_outcome_witness :
    parse exampleEmpty [] = some { words := [], exit := Exit.completed }
      ∧ parse exampleNoAttributes [] = some { words := [], exit := Exit.aborted }
      ∧ exampleAbortState.tWords ≠ []
      ∧ (parse exampleAbortMidScan []).map Outcome.words
          ≠ (parse exampleEmpty []).map Outcome.words :=
  ⟨(C5_abort_outcome exampleEmpty []).1 rfl,
    (C5_abort_outcome exampleNoAttributes []).2.1 (by decide) rfl, by decide,
    ((C5_abort_outcome exampleAbortMidScan []).2.2 (twoLinesAttributes 2) 2
      exampleAbortState
      { plainItem 3 Flags.Text 2 512 0 with attributesAfterShape := false }
      (by decide) rfl rfl rfl (by decide) rfl rfl exampleEmpty [] rfl).2 (by decide)⟩

theorem wrapQFixed_of_fits (x : Int) (h : FitsQFixed x) : wrapQFixed x = x := by
  unfold FitsQFixed at h
  unfold wrapQFixed
  omega

theorem glyphsWidth_one (G : QGlyphLayout) (g : Nat) :
    glyphsWidth G g (g + 1) = printableAdvance G g := by
  rw [glyphsWidth_succ G g g (le_refl _), glyphsWidth_self, zero_add]

theorem addGlyphFixed_eq (G : QGlyphLayout) (g : Nat) (w : Int)
    (h : FitsQFixed (w + glyphsWidth G g (g + 1))) :
    addGlyphFixed G g w = addGlyph G g w := by
  rw [glyphsWidth_one] at h
  unfold addGlyphFixed addGlyph
  unfold printableAdvance at h
  split
  · rfl
  · rename_i hd
    rw [if_neg hd] at h
    exact wrapQFixed_of_fits _ h

/-- While every sum formed stays in the range of `QFixed`, the 32-bit
additions of the second `do … while` of `addNextCluster` give the exact
sums. -/
theorem restOfClusterFixed_eq (G : QGlyphLayout) (n : Nat) :
    ∀ fuel g w,
      (∀ h, g ≤ h → h < n → (∀ i, g ≤ i → i ≤ h → (G.attributes i).clusterStart = false) →
        FitsQFixed (w + glyphsWidth G g (h + 1))) →
      restOfClusterFixed G n fuel g w = restOfCluster G n fuel g w := by
  intro fuel
  induction fuel with
  | zero => intro g w _; rfl
  | succ k ih =>
    intro g w hfit
    simp only [restOfClusterFixed, restOfCluster]
    split
    · rename_i hc
      have h0 := hfit g (le_refl _) hc.1 (fun i h1 h2 => by
        have : i = g := by omega
        rw [this]; exact hc.2)
      rw [addGlyphFixed_eq G g w h0]
      apply ih
      intro h hg hn hcs
      have h1 := hfit h (by omega) hn (fun i h1 h2 => by
        by_cases hi : i = g
        · rw [hi]; exact hc.2
        · exact hcs i (by omega) h2)
      have e1 := addGlyph_eq G g w
      have e2 := glyphsWidth_add G g (g + 1) (by omega) (h + 1) (by omega)
      rw [glyphsWidth_one] at e2
      rw [e1, add_assoc, e2]
      exact h1
    · rfl

/-- While every sum formed stays in the range of `QFixed`,
`addNextCluster` with 32-bit additions gives what the exact sums give. -/
theorem addNextClusterFixed_eq (pos end_ : Nat) (line : ScriptLine) (gc n : Nat)
    (lc : Nat → Nat) (G : QGlyphLayout) (hlt : lc pos < n)
    (hfit : ∀ g, lc pos ≤ g → g < n →
      (∀ h, lc pos < h → h ≤ g → (G.attributes h).clusterStart = false) →
      FitsQFixed (line.textWidth + glyphsWidth G (lc pos) (g + 1))) :
    addNextClusterFixed pos end_ line gc n lc G = addNextCluster pos end_ line gc n lc G := by
  have h0 := hfit (lc pos) (le_refl _) hlt (fun h h1 h2 => by omega)
  unfold addNextClusterFixed addNextCluster
  simp only
  rw [addGlyphFixed_eq G (lc pos) line.textWidth h0,
    restOfClusterFixed_eq G n _ (lc pos + 1) (addGlyph G (lc pos) line.textWidth) (by
      intro h hg hn hcs
      have h1 := hfit h (by omega) hn (fun i h1 h2 => hcs i (by omega) h2)
      have e1 := addGlyph_eq G (lc pos) line.textWidth
      have e2 := glyphsWidth_add G (lc pos) (lc pos + 1) (by omega) (h + 1) (by omega)
      rw [glyphsWidth_one] at e2
      rw [e1, add_assoc, e2]
      exact h1)]

/-- C16, as amended: for every item over `[a, b)` with `n` glyphs whose
cluster map is well formed (`logClusters` non-decreasing over the item and
below `n`, exactly the first glyph of each cluster marked `clusterStart`)
and every `a ≤ pos < b`, provided that no sum of `line.textWidth` and the
advances of a run of glyphs that starts the cluster of `pos` leaves the
32-bit range of `QFixed`: `addNextCluster` moves `pos` to the start of the
next cluster (`pos` increases strictly, stays `≤ b`, the characters skipped
are those of the cluster of `pos`), increases `line.length` by the number
of characters skipped, increases `line.textWidth` by the sum of the
advances of the glyphs of that cluster that are not marked `dontPrint`,
increases `glyphCount` by one, and its closing assertion holds. -/
theorem C16_addNextCluster (lc : Nat → Nat) (G : QGlyphLayout) (n a b : Nat)
    (hok : ClusterMapOk lc G n a b) (pos : Nat) (hap : a ≤ pos) (hpb : pos < b)
    (line : ScriptLine) (glyphCount : Nat)
    (hfit : ∀ g, lc pos ≤ g → g < n →
      (∀ h, lc pos < h → h ≤ g → (G.attributes h).clusterStart = false) →
      FitsQFixed (line.textWidth + glyphsWidth G (lc pos) (g + 1))) :
    pos < (addNextClusterFixed pos b line glyphCount n lc G).pos
      ∧ (addNextClusterFixed pos b line glyphCount n lc G).pos ≤ b
      ∧ (∀ q, pos ≤ q → q < (addNextClusterFixed pos b line glyphCount n lc G).pos →
          lc q = lc pos)
      ∧ ((addNextClusterFixed pos b line glyphCount n lc G).pos < b →
          lc (addNextClusterFixed pos b line glyphCount n lc G).pos ≠ lc pos)
      ∧ (addNextClusterFixed pos b line glyphCount n lc G).line.length
          = line.length
            + (((addNextClusterFixed pos b line glyphCount n lc G).pos : Int) - pos)
      ∧ (addNextClusterFixed pos b line glyphCount n lc G).line.textWidth
          = line.textWidth + glyphsWidth G (lc pos)
              (addNextClusterFixed pos b line glyphCount n lc G).glyphPosition
      ∧ (addNextClusterFixed pos b line glyphCount n lc G).glyphCount = glyphCount + 1
      ∧ (((addNextClusterFixed pos b line glyphCount n lc G).pos = b
            ∧ (addNextClusterFixed pos b line glyphCount n lc G).glyphPosition = n)
          ∨ lc (addNextClusterFixed pos b line glyphCount n lc G).pos
            = (addNextClusterFixed pos b line glyphCount n lc G).glyphPosition) := by
  rw [addNextClusterFixed_eq pos b line glyphCount n lc G (hok.lt pos hap hpb) hfit]
  obtain ⟨h1, h2, h3, h4, h5, h6, h7, h8⟩ := addNextCluster_spec lc G n a b hok pos hap hpb
    line glyphCount
  refine ⟨h1, h2, h3, h4, h7, by rw [h5]; exact h6, h8, ?_⟩
  rw [h5]
  unfold glyphAt
  by_cases hlt : (addNextCluster pos b line glyphCount n lc G).pos < b
  · right; rw [if_pos hlt]
  · left; exact ⟨by omega, by rw [if_neg hlt]⟩

/-- Witness of `C16_addNextCluster`: on three characters with one glyph
each (advance 512), from offset 1 the cursor moves to 2, one character and
the width 512 are added. -/
theorem C16_addNextCluster_witness :
    (addNextClusterFixed 1 3 ScriptLine.zero 0 3 (fun i => i) (uniformGlyphs 3 512)).pos = 2
      ∧ (addNextClusterFixed 1 3 ScriptLine.zero 0 3 (fun i => i) (uniformGlyphs 3 512)).line
          = ScriptLine.mk 1 512
      ∧ (addNextClusterFixed 1 3 ScriptLine.zero 0 3 (fun i => i)
          (uniformGlyphs 3 512)).glyphPosition = 2
      ∧ 1 < (addNextClusterFixed 1 3 ScriptLine.zero 0 3 (fun i => i)
          (uniformGlyphs 3 512)).pos :=
  ⟨by decide, by decide, by decide,
    (C16_addNextCluster (fun i => i) (uniformGlyphs 3 512) 3 0 3
      (by
        have := clusterMapOk_uniform (fun i => i) 512 0 3 (fun q _ _ => rfl)
        simpa using this)
      1 (by decide) (by decide) ScriptLine.zero 0
      (by
        intro g h1 h2 h3
        have h1n : 1 ≤ g := h1
        have hg : g = 1 := by
          by_contra hne
          have := h3 2 (show (1 : Nat) < 2 by omega) (by omega)
          simp [uniformGlyphs] at this
        rw [hg]
        decide)).1⟩

/-- Counterexample to C16 as stated: one character with one printable glyph
of advance 512 (a well-formed cluster map), and a line whose width is
2147483136, 512 below the end of the range of `QFixed`.  The sum of the old
width and the advance is 2147483648; the 32-bit addition of
`addNextCluster` leaves -2147483648 in `line.textWidth`, which is not the
old width increased by the advance. -/
theorem C16_counterexample :
    ClusterMapOk (fun _ => 0) (uniformGlyphs 1 512) 1 0 1
      ∧ (addNextClusterFixed 0 1 (ScriptLine.mk 0 2147483136) 0 1 (fun _ => 0)
          (uniformGlyphs 1 512)).pos = 1
      ∧ (addNextClusterFixed 0 1 (ScriptLine.mk 0 2147483136) 0 1 (fun _ => 0)
          (uniformGlyphs 1 512)).line.textWidth = -2147483648
      ∧ (2147483136 : Int) + glyphsWidth (uniformGlyphs 1 512) 0 1 = 2147483648 := by
  refine ⟨?_, by decide, by decide, by decide⟩
  have := clusterMapOk_uniform (fun _ => 0) 512 0 1 (fun q h1 h2 => by
    show 0 = q - 0
    omega)
  simpa using this

/-- The cluster map of `markedWordSpace` is well formed. -/
theorem markedWordSpace_ok :
    ClusterMapOk markedWordSpace.logClusters (uniformGlyphs 65536 1) 65536 0 65537 := by
  refine ⟨?_, ?_, ?_, ?_⟩
  · intro p q _ h2 _
    show p - 1 ≤ q - 1
    omega
  · intro p _ h2
    show p - 1 < 65536
    omega
  · intro p _ _
    rfl
  · intro g hg _
    exact ⟨g + 1, by omega, by omega, by show g + 1 - 1 = g; omega⟩

/-- Result of the parse of `markedWordSpace`: the word after the space, at
offset 65536, is stored with start position 0. -/
theorem markedWordSpace_parse :
    ∃ r0 r1, parse markedWordSpace [] = some
      { words := [Word.add_rpadding (Word.content 0 false 65534 r0) 1,
          Word.content 0 false 1 r1],
        exit := Exit.completed } := by
  have hsb : ∀ q, isSpaceBreak markedWordSpace markedWordAttributes q
      = decide (q = 65535) := by
    intro q
    by_cases h : q = 65535
    · rw [h]; decide
    · simp [isSpaceBreak, markedWordAttributes, h]
  have hlb : ∀ q, q ≠ 65536 → isLineBreak markedWordSpace markedWordAttributes q = false := by
    intro q h
    simp [isLineBreak, markedWordAttributes, h]
  have hw : ∀ p q, p ≤ q → glyphsWidth (plainItem 0 Flags.Text 65536 1 0).glyphs p q
      = ((q - p : Nat) : Int) * 1 :=
    fun p q hpq => glyphsWidth_uniform 65536 1 p q hpq
  have hrun : ∀ p t, t ≤ 65537 → (∀ q, p < q → q < t → q ≠ 65535 ∧ q ≠ 65536) →
      PlainRun markedWordSpace markedWordAttributes
        (plainItem 0 Flags.Text 65536 1 0).glyphs 0 p t := by
    intro p t ht hout
    refine ⟨fun q h1 h2 => ⟨by show q < 65537; omega, ?_, hlb q (hout q h1 h2).2⟩, ?_⟩
    · rw [hsb q]
      exact decide_eq_false (hout q h1 h2).1
    · intro q h1 h2 _
      show (0 : Int) + glyphsWidth (uniformGlyphs 65536 1) (p - 1) (q - 1) ≤ 65536
      rw [glyphsWidth_uniform 65536 1 (p - 1) (q - 1) (by omega), zero_add, mul_one]
      have : q - 1 - (p - 1) ≤ 65536 := by omega
      exact_mod_cast this
  obtain ⟨r0, r1, h⟩ := parse_token_space_token markedWordSpace []
    markedWordAttributes (plainItem 0 Flags.Text 65536 1 0) 65535 1 rfl rfl rfl rfl
    (fun _ => rfl) (by decide) (by decide) (by decide) markedWordSpace_ok
    (by decide) (by decide)
    (fun q hq => by simp [markedWordAttributes]; omega)
    (fun q h1 h2 => by
      rw [hsb q]
      exact decide_eq_true (by omega))
    (fun q h1 _ => by simp [markedWordAttributes]; omega)
    (hrun 0 65535 (by decide) (fun q _ h2 => ⟨by omega, by omega⟩))
    (hrun (65535 + 1) 65537 (le_refl _) (fun q h1 h2 => ⟨by omega, by omega⟩))
  refine ⟨r0, r1, ?_⟩
  rw [h]
  have e0 : markedWordSpace.logClusters 0 = 0 := rfl
  have e1 : markedWordSpace.logClusters 65535 = 65534 := rfl
  have e2 : markedWordSpace.logClusters (65535 + 1) = 65535 := rfl
  have e3 : (plainItem 0 Flags.Text 65536 1 0).currentNumGlyphs = 65536 := rfl
  rw [e0, e1, e2, e3, hw 0 65534 (by omega), hw 65534 65535 (by omega),
    hw 65535 65536 (by omega)]
  rfl

/-- Shaped width of `markedWordSpace`. -/
theorem markedWordSpace_width : shapedWidth markedWordSpace = 65536 := by
  have hitems : markedWordSpace.items = [plainItem 0 Flags.Text 65536 1 0] := rfl
  have hw : itemWidth markedWordSpace (plainItem 0 Flags.Text 65536 1 0) = 65536 := by
    unfold itemWidth
    show glyphsWidth (uniformGlyphs 65536 1) 0 65536 = 65536
    rw [glyphsWidth_uniform 65536 1 0 65536 (by omega)]
    norm_num
  unfold shapedWidth
  rw [hitems]
  unfold itemsWidth
  rw [List.map_cons, List.map_nil, List.sum_cons, List.sum_nil, add_zero, hw]

/-- Counterexample to C9 as stated: the buffer of 65535 characters without
white space, a space and one more letter, in one text item whose cluster
indices run from 0 to 65535 (glyphs of advance 1, threshold 65536).  The
word after the space starts at `|u| + |s| = 65536` and is recorded with
start position 0. -/
theorem C9_counterexample :
    (∃ r0 r1, parse markedWordSpace [] = some
        { words := [Word.add_rpadding (Word.content 0 false 65534 r0) 1,
            Word.content 0 false 1 r1],
          exit := Exit.completed })
      ∧ markedWordSpace.size = 65535 + 1 + 1
      ∧ (∀ q, q < markedWordSpace.size → markedWordSpace.logClusters q ≤ 65535)
      ∧ markedWordSpace.WidthsFit := by
  refine ⟨markedWordSpace_parse, rfl, ?_, ?_, ?_, ?_⟩
  · intro q hq
    have hq2 : q < 65537 := hq
    show q - 1 ≤ 65535
    omega
  · intro si hsi g
    have : si = plainItem 0 Flags.Text 65536 1 0 := by
      simpa [markedWordSpace] using hsi
    rw [this]
    show (0 : Int) ≤ 1
    decide
  · rw [markedWordSpace_width]
    decide
  · show FitsQFixed 65536
    decide

theorem iterate_add (e : Engine) (attributes : Nat → QCharAttributes) (m : Nat) :
    ∀ n s t, iterate e attributes n s = some t →
      iterate e attributes (n + m) s = iterate e attributes m t := by
  intro n
  induction n with
  | zero =>
    intro s t h
    simp only [iterate, Option.some.injEq] at h
    rw [h, Nat.zero_add]
  | succ k ih =>
    intro s t h
    rw [iterate] at h
    cases hget : e.items.get? s.newItem with
    | none => rw [hget] at h; simp at h
    | some si =>
      rw [hget] at h
      simp only at h
      cases hit : iteration e attributes s si with
      | none => rw [hit] at h; simp at h
      | some s1 =>
        rw [hit] at h
        simp only at h
        rw [show k + 1 + m = (k + m) + 1 by omega, iterate_step e attributes (k + m) s s1 si hget hit]
        exact ih s1 t h

/-- From a state of the main loop that has an item to read, the loop leaves
that item after finitely many iterations, in a state about to enter the
next item. -/
theorem leave_item (e : Engine) (hwf : e.WellFormed) (hshape : e.ShapingSucceeds)
    (attributes : Nat → QCharAttributes) :
    ∀ m s, Bounds e s → s.newItem < e.items.length → e.size - s.cursor ≤ m →
      ∃ k t, iterate e attributes k s = some t ∧ t.newItem = s.newItem + 1
        ∧ (t.newItem : Int) ≠ t.item ∧ Bounds e t := by
  intro m
  induction m with
  | zero =>
    intro s hb hlen hm
    exfalso
    have hget : e.items.get? s.newItem = some (e.items.get ⟨s.newItem, hlen⟩) :=
      List.get?_eq_get hlen
    cases hent : enterItem e s (e.items.get ⟨s.newItem, hlen⟩) with
    | none => exact enterItem_ne_none e hshape s _ (List.get_mem _ _ _) hent
    | some s0 =>
      obtain ⟨-, -, -, -, -, h6, h7⟩ := branch_bounds e hwf attributes s s0 _ hb hget hent
      have := bounds_cursor_le e hwf _ h6
      omega
  | succ m ih =>
    intro s hb hlen hm
    have hget : e.items.get? s.newItem = some (e.items.get ⟨s.newItem, hlen⟩) :=
      List.get?_eq_get hlen
    cases hent : enterItem e s (e.items.get ⟨s.newItem, hlen⟩) with
    | none => exact absurd hent (enterItem_ne_none e hshape s _ (List.get_mem _ _ _))
    | some s0 =>
      obtain ⟨-, -, h3, -, h5, h6, h7⟩ := branch_bounds e hwf attributes s s0 _ hb hget hent
      have hend := (enterItem_bounds e hwf s s0 _ hb hget hent).2.2.1
      have hit := iteration_of_enter e attributes s s0 _ hent
      have hle := bounds_cursor_le e hwf _ h6
      rcases h5 with h5 | h5
      · obtain ⟨k, t, hk, hn, hf, hbt⟩ := ih _ h6 (by rw [h5]; exact hlen) (by omega)
        refine ⟨k + 1, t, ?_, by rw [hn, h5], hf, hbt⟩
        rw [iterate_step e attributes k s _ _ hget hit]
        exact hk
      · refine ⟨1, _, ?_, h5, ?_, h6⟩
        · rw [iterate_step e attributes 0 s _ _ hget hit]
          rfl
        · intro heq
          obtain ⟨-, -, h9, h10⟩ := h6.same heq
          rw [h5] at h9 h10
          have := hwf.2 (s.newItem + 1) h10
          rw [h3, hend] at h9
          omega

/-- Every item of a well-formed, successfully shaped input is entered: the
main loop reaches a state about to enter it. -/
theorem reach_item (e : Engine) (hwf : e.WellFormed) (hshape : e.ShapingSucceeds)
    (attributes : Nat → QCharAttributes) :
    ∀ j, j < e.items.length →
      ∃ n s, iterate e attributes n { ParseState.init with tWords := [] } = some s
        ∧ s.newItem = j ∧ (s.newItem : Int) ≠ s.item := by
  intro j
  induction j with
  | zero =>
    intro _
    exact ⟨0, _, rfl, rfl, by simp [ParseState.init]⟩
  | succ j ih =>
    intro hj
    obtain ⟨n, s, hn, hs, -⟩ := ih (by omega)
    have hb := (iterate_bounds e hwf attributes n _ s (bounds_init e hwf) hn).1
    obtain ⟨k, t, hk, ht, hf, -⟩ := leave_item e hwf hshape attributes _ s hb
      (by rw [hs]; omega) (le_refl _)
    refine ⟨n + k, t, ?_, by rw [ht, hs], hf⟩
    rw [iterate_add e attributes k n _ s hn]
    exact hk

theorem backAddRpadding_concat (ws : List Word) (w : Word) (x : Int) :
    backAddRpadding (ws ++ [w]) x = ws ++ [w.add_rpadding x] := by
  induction ws with
  | nil => rfl
  | cons a rest ih =>
    cases rest with
    | nil => rfl
    | cons b rest2 =>
      show a :: backAddRpadding (b :: rest2 ++ [w]) x = _
      rw [ih]
      rfl

/-- The space-break branch entered with a word sequence that is not empty
pushes nothing and adds the width of the run to the last record. -/
theorem spaceBranch_nonempty (e : Engine) (attributes : Nat → QCharAttributes)
    (s0 : ParseState) (si : QScriptItem) (hne : s0.tWords ≠ []) :
    (spaceBranch e attributes s0 si).tWords
      = backAddRpadding s0.tWords (spaceScan e attributes s0 si).spaceData.textWidth := by
  have hwords := (spaceBranch_fields e attributes s0 si).2.2.2.2.2.2.2.2.2.2.2
  have hpush := pushIfEmpty_tWords e
    (ParseState.mk s0.tWords (spaceScan e attributes s0 si) s0.item s0.newItem
      s0.end_ s0.wordStart s0.addingEachGrapheme s0.lastGraphemeBoundaryPosition
      s0.lastGraphemeBoundaryLine)
  rcases hpush with ⟨hnil, -⟩ | ⟨-, hr⟩
  · exact absurd hnil hne
  · rw [hwords, hr]

/-- An object item directly followed by a text item that starts in a
space-break run: the loop reaches the object, pushes its record as the last
one, enters the text item with `spaceData` empty, and the space-break
branch adds the width of the run to the object's record. -/
theorem object_then_space (e : Engine) (attributes : Nat → QCharAttributes)
    (hwf : e.WellFormed) (hshape : e.ShapingSucceeds) (hsz : e.size ≤ 65536)
    (hno : NoCarry e attributes) (j : Nat) (sj : QScriptItem)
    (hgj : e.items.get? j = some sj) (hfl : sj.flags = Flags.Object)
    (hrun : SpaceRunAfter e attributes j) :
    ∃ n s s1 si s0 pre r,
      iterate e attributes n { ParseState.init with tWords := [] } = some s
        ∧ s.newItem = j
        ∧ iteration e attributes s sj = some s1
        ∧ s1.tWords = pre ++ [Word.content sj.position false sj.width r]
        ∧ s1.newItem = j + 1
        ∧ e.items.get? (j + 1) = some si
        ∧ enterItem e s1 si = some s0
        ∧ s0.lbh.currentPosition = si.position
        ∧ s0.lbh.spaceData = ScriptLine.zero
        ∧ iteration e attributes s1 si
            = some ((spaceBranch e attributes s0 si).nextItemAtEnd s0.newItem)
        ∧ (spaceBranch e attributes s0 si).tWords
            = pre ++ [(Word.content sj.position false sj.width r).add_rpadding
                (spaceScan e attributes s0 si).spaceData.textWidth] := by
  have hjlen : j < e.items.length := by
    by_contra hc
    have : e.items.get? j = none := List.get?_eq_none.2 (by omega)
    rw [this] at hgj; simp at hgj
  obtain ⟨n, s, hn, hs, hfresh⟩ := reach_item e hwf hshape attributes j hjlen
  have hinv : PosInv e s ∧ CarryInv e attributes s :=
    iterate_invariant e attributes (fun x => PosInv e x ∧ CarryInv e attributes x)
      (fun x x1 sk hx hg hx1 =>
        ⟨(iteration_posInv e hwf hsz attributes x x1 sk hx.1 hg hx1).1,
          (iteration_carry e hwf hsz attributes hno x x1 sk hx.1 hx.2 hg hx1).1⟩)
      n _ s ⟨posInv_init e hwf, carryInv_init e attributes⟩ hn
  have hsd : s.lbh.spaceData = ScriptLine.zero :=
    iterate_invariant e attributes (fun x => x.lbh.spaceData = ScriptLine.zero)
      (fun x x1 sk hx _ hx1 => iteration_spaceData e attributes x x1 sk hx hx1)
      n _ s rfl hn
  have hget : e.items.get? s.newItem = some sj := by rw [hs]; exact hgj
  cases hent : enterItem e s sj with
  | none => exact absurd hent (enterItem_ne_none e hshape s sj (List.get?_mem hgj))
  | some sa =>
    have hit := iteration_of_enter e attributes s sa sj hent
    have hinv1 := (iteration_posInv e hwf hsz attributes s _ sj hinv.1 hget hit).1
    have hsd1 := iteration_spaceData e attributes s _ sj hsd hit
    have hshape1 := iteration_shape e hwf hsz attributes hno s _ sj hinv.1 hinv.2 hget hit
    rcases hshape1 with ⟨hf, -⟩ | ⟨-, ⟨new, r, htw, -⟩, hni, hfr⟩ | ⟨hf, -⟩ | ⟨hf, -⟩
    · rw [hfl] at hf; simp at hf
    · rw [hs] at hni
      unfold SpaceRunAfter at hrun
      cases hg1 : e.items.get? (j + 1) with
      | none => rw [hg1] at hrun; exact absurd hrun (by simp)
      | some si =>
        rw [hg1] at hrun
        simp only at hrun
        obtain ⟨hft, hbrk⟩ := hrun
        have hget1 : e.items.get?
            ((branch e attributes sa sj).nextItemAtEnd sa.newItem).newItem = some si := by
          rw [hni]; exact hg1
        cases hent1 : enterItem e ((branch e attributes sa sj).nextItemAtEnd sa.newItem) si with
        | none => exact absurd hent1 (enterItem_ne_none e hshape _ si (List.get?_mem hg1))
        | some s0 =>
          obtain ⟨-, -, hend, -, -, -, htw0, -, -, hsp0, -⟩ :=
            enterItem_spec e hwf _ s0 si hinv1 hget1 hent1
          have hcur := enterItem_fresh e _ s0 si hfr hent1
          have hsp : atSpaceBreak e attributes s0 = true := by
            unfold atSpaceBreak
            rw [hend, hcur, hni]
            exact hbrk
          have hit1 := iteration_of_enter e attributes _ s0 si hent1
          rw [branch_space e attributes s0 si hft hsp] at hit1
          have hne0 : s0.tWords ≠ [] := by
            rw [htw0, htw]; simp
          refine ⟨n, s, _, si, s0, s.tWords ++ new, r, hn, hs, hit, htw, hni, rfl, hent1,
            hcur, hsp0.trans hsd1, hit1, ?_⟩
          rw [spaceBranch_nonempty e attributes s0 si hne0, htw0, htw,
            backAddRpadding_concat]
    · rw [hfl] at hf; simp at hf
    · rw [hfl] at hf; simp at hf

end Ui.Text
